import Mathlib

/-!
# WLP4 compiler with MIPS code generation: semantic analysis

A shallow embedding of the tree model and the semantic analyser of
`src/codegen.cpp` (`Treenode::getChild`, `Treenode::annotateTypes`,
`VariableTable`, `ProcedureTable`, `Procedure::Procedure`, `getDeclarations`,
`getArgTypes`, `collectProcedures`, `checkStatementsAndTests`), followed by
theorems about the typing rules the analyser enforces.

Conventions of the embedding:
* a C++ function that mutates the tree in place returns the mutated tree;
* a thrown `std::runtime_error(msg)` is `Except.error (Err.runtime msg)`;
* behaviour the C++ leaves undefined (indexing a vector out of range,
  dereferencing a null `shared_ptr`) is `Except.error Err.undefined`;
* `std::map<std::string, T>` is an association list searched by key; the
  code only ever inserts a key after checking that it is absent.

The code generator (`generateLabel`, `generateCodeOther`,
`generateCodeProcedures` and the emitters of `src/mipsinstr.cpp`) follows:
* the globals `label_set`, `functionlabel_map`, the state of `rand()` and the
  text written to `std::cout` are the fields of `CodegenState`; the output is
  the list of the lines written;
* `generateCodeOther` recurses on children found by `getChild`, so it takes
  fuel: `fuel + 1` is enough for a tree of depth `fuel`;
* `int` values are `Int`; no overflow is modelled (offsets are multiples of 4
  bounded by the number of variables).
-/

namespace WLP4

/-- Outcome of a failing run: a thrown `std::runtime_error`, undefined behaviour,
an exception that is not a `std::runtime_error` (those of `std::stoi`), or, for
the functions of the embedding that take fuel, a run that did not end within
the fuel (or within the random numbers) it was given. -/
inductive Err where
  | runtime (what : String)
  | undefined
  | uncaught (what : String)
  | outOfFuel
  deriving DecidableEq, Repr

/-- Grammar production (`struct Rule`). -/
structure Rule where
  lhs : String
  rhs : List String
  deriving DecidableEq, Repr

/-- Lexical token (`struct Token`). -/
structure Token where
  type : String
  value : String
  deriving DecidableEq, Repr

/-- Node of the syntax tree (`struct Treenode`): the fields `terminal`, `NTrule`,
`Ttoken`, `type` and `children`, in that order. -/
inductive Treenode where
  | mk (terminal : Bool) (NTrule : Rule) (Ttoken : Token) (type : String)
      (children : List Treenode)
  deriving Repr

namespace Treenode

/-- Field `terminal`. -/
def terminal : Treenode → Bool
  | mk t _ _ _ _ => t

/-- Field `NTrule`. -/
def NTrule : Treenode → Rule
  | mk _ r _ _ _ => r

/-- Field `Ttoken`. -/
def Ttoken : Treenode → Token
  | mk _ _ k _ _ => k

/-- Field `type`. -/
def type : Treenode → String
  | mk _ _ _ ty _ => ty

/-- Field `children`. -/
def children : Treenode → List Treenode
  | mk _ _ _ _ cs => cs

/-- Assignment `type = ty` on a node. -/
def setType : Treenode → String → Treenode
  | mk t r k _ cs, ty => mk t r k ty cs

/-- Constructor `Treenode(Rule NTrule)`: an interior node without children yet. -/
def ofRule (r : Rule) : Treenode := mk false r ⟨"", ""⟩ "" []

/-- Constructor `Treenode(Token Ttoken)`: a leaf. -/
def ofToken (k : Token) : Treenode := mk true ⟨"", []⟩ k "" []

end Treenode

/-- Entry of a symbol table (`struct Variable`). -/
structure Variable where
  name : String
  type : String
  deriving DecidableEq, Repr

/-- Symbol table of one procedure (`struct VariableTable`). -/
structure VariableTable where
  table : List (String × Variable)
  deriving DecidableEq, Repr

/-- Procedure record (`struct Procedure`). -/
structure Procedure where
  name : String
  signature : List String
  symbolTable : VariableTable
  deriving DecidableEq, Repr

/-- Program-wide procedure table (`struct ProcedureTable`). -/
structure ProcedureTable where
  table : List (String × Procedure)
  deriving DecidableEq, Repr

/-- The test `table.find(name) != table.end()` of a `std::map`. -/
def mapContains {α : Type} (m : List (String × α)) (name : String) : Bool :=
  (m.lookup name).isSome

/-- Indexing `v[i]` of a `std::vector`; out of range is undefined behaviour. -/
def at? {α : Type} (v : List α) (i : Nat) : Except Err α :=
  match v[i]? with
  | some a => .ok a
  | none => .error .undefined

/-- Dereference of a `shared_ptr` that may be null. -/
def deref {α : Type} (p : Option α) : Except Err α :=
  match p with
  | some a => .ok a
  | none => .error .undefined

/-- Member `VariableTable::add`. -/
def VariableTable.add (vt : VariableTable) (v : Variable) : Except Err VariableTable :=
  if mapContains vt.table v.name then
    .error (.runtime "duplicate variable declaration")
  else
    .ok ⟨vt.table ++ [(v.name, v)]⟩

/-- Member `VariableTable::get`. -/
def VariableTable.get (vt : VariableTable) (name : String) : Except Err Variable :=
  match vt.table.lookup name with
  | none => .error (.runtime "use of undeclared variable")
  | some v => .ok v

/-- Member `ProcedureTable::add`. -/
def ProcedureTable.add (pt : ProcedureTable) (p : Procedure) : Except Err ProcedureTable :=
  if mapContains pt.table p.name then
    .error (.runtime "duplicate procedure declaration")
  else
    .ok ⟨pt.table ++ [(p.name, p)]⟩

/-- Member `ProcedureTable::get`. -/
def ProcedureTable.get (pt : ProcedureTable) (name : String) : Except Err Procedure :=
  match pt.table.lookup name with
  | none => .error (.runtime "use of undeclared procedure")
  | some p => .ok p

/-- Label a node is matched by in `getChild`: the token kind of a leaf, the
left-hand side of the rule of an interior node. -/
def Treenode.label (t : Treenode) : String :=
  if t.terminal then t.Ttoken.type else t.NTrule.lhs

/-- Loop of `Treenode::getChild`, with the running counter `index`. -/
def getChildLoop (lhs : String) (n : Int) : List Treenode → Int → Option Treenode
  | [], _ => none
  | it :: rest, index =>
    if it.terminal then
      if it.Ttoken.type = lhs ∧ n = index then some it
      else if it.Ttoken.type = lhs then getChildLoop lhs n rest (index + 1)
      else getChildLoop lhs n rest index
    else
      if it.NTrule.lhs = lhs ∧ n = index then some it
      else if it.NTrule.lhs = lhs then getChildLoop lhs n rest (index + 1)
      else getChildLoop lhs n rest index

/-- Member `Treenode::getChild(lhs, n)`; `none` is the null pointer. -/
def Treenode.getChild (t : Treenode) (lhs : String) (n : Int := 1) : Option Treenode :=
  getChildLoop lhs n t.children 1

mutual
/-- Function `getArgTypes`. -/
def getArgTypes : Treenode → List String
  | .mk terminal r _ ty cs =>
    if !terminal then
      if r.lhs = "expr" then [ty]
      else getArgTypesList cs
    else []
/-- The loop over `tree->children` of `getArgTypes`. -/
def getArgTypesList : List Treenode → List String
  | [] => []
  | c :: cs => getArgTypes c ++ getArgTypesList cs
end

/-- The loop `for (i = 0; i < argTypes.size(); i++)` of the call rule, comparing
`argTypes[i]` with `p.signature[i]`. -/
def checkArgTypes : List String → List String → Except Err Unit
  | [], _ => .ok ()
  | _ :: _, [] => .error .undefined
  | a :: as, s :: ss =>
    if a ≠ s then .error (.runtime "invalid parameters incorrect types")
    else checkArgTypes as ss

/-- Element `NTrule.rhs[i]`, read only under a guard on `NTrule.rhs.size()`. -/
def Rule.rhsAt (r : Rule) (i : Nat) : String := r.rhs.getD i ""

/-- Type of the child `children[i]`. -/
def childType (t : Treenode) (i : Nat) : Except Err String :=
  (at? t.children i).map Treenode.type

/-- Lexeme of the child `children[i]`. -/
def childValue (t : Treenode) (i : Nat) : Except Err String :=
  (at? t.children i).map fun c => c.Ttoken.value

/-- Body of `Treenode::annotateTypes` after the loop over the children: the
value of the field `type` of a node whose children are already annotated, once
the typing rule of the node has run (the old value where no rule assigns it),
or the error the rule throws. -/
def nodeType (t : Treenode) (pt : ProcedureTable) (vt : VariableTable) :
    Except Err String :=
  let r := t.NTrule
  if !t.terminal then
    if r.lhs = "expr" then
      if r.rhs.length = 1 then
        if r.rhsAt 0 = "term" then do
          let ty ← childType t 0
          pure ty
        else pure t.type
      else if r.rhs.length = 3 then
        if r.rhsAt 0 = "expr" ∧ r.rhsAt 1 = "PLUS" ∧ r.rhsAt 2 = "term" then do
          let exprType ← childType t 0
          let termType ← childType t 2
          if exprType = "int" ∧ termType = "int" then pure "int"
          else if exprType = "int*" ∧ termType = "int" then pure "int*"
          else if exprType = "int" ∧ termType = "int*" then pure "int*"
          else throw (.runtime "expr 'PLUS' derived type error")
        else if r.rhsAt 0 = "expr" ∧ r.rhsAt 1 = "MINUS" ∧ r.rhsAt 2 = "term" then do
          let exprType ← childType t 0
          let termType ← childType t 2
          if exprType = "int" ∧ termType = "int" then pure "int"
          else if exprType = "int*" ∧ termType = "int" then pure "int*"
          else if exprType = "int*" ∧ termType = "int*" then pure "int"
          else throw (.runtime "expr 'PLUS' derived type error")
        else pure t.type
      else pure t.type
    else if r.lhs = "term" then
      if r.rhs.length = 1 then
        if r.rhsAt 0 = "factor" then do
          let ty ← childType t 0
          pure ty
        else pure t.type
      else if r.rhs.length = 3 then do
        let ty0 ← childType t 0
        if ty0 ≠ "int" then throw (.runtime "invalid term or factor in term expression")
        else do
          let ty2 ← childType t 2
          if ty2 ≠ "int" then throw (.runtime "invalid term or factor in term expression")
          else pure "int"
      else pure t.type
    else if r.lhs = "factor" then
      if r.rhs.length = 1 then
        if r.rhsAt 0 = "ID" then do
          let name ← childValue t 0
          let v ← vt.get name
          pure v.type
        else if r.rhsAt 0 = "NUM" then pure "int"
        else if r.rhsAt 0 = "NULL" then pure "int*"
        else pure t.type
      else if r.rhs.length = 2 then
        if r.rhsAt 0 = "AMP" ∧ r.rhsAt 1 = "lvalue" then do
          let ty ← childType t 1
          if ty ≠ "int" then throw (.runtime "invalid '&' address retrieval")
          else pure "int*"
        else if r.rhsAt 0 = "STAR" ∧ r.rhsAt 1 = "factor" then do
          let ty ← childType t 1
          if ty ≠ "int*" then throw (.runtime "invalid '*' address retrieval")
          else pure "int"
        else pure t.type
      else if r.rhs.length = 3 then
        if r.rhsAt 0 = "LPAREN" ∧ r.rhsAt 1 = "expr" ∧ r.rhsAt 2 = "RPAREN" then do
          let ty ← childType t 1
          pure ty
        else if r.rhsAt 0 = "ID" ∧ r.rhsAt 1 = "LPAREN" ∧ r.rhsAt 2 = "RPAREN" then do
          let name ← childValue t 0
          if mapContains vt.table name then
            throw (.runtime "function call on local variable")
          else do
            let p ← pt.get name
            if p.signature.length ≠ 0 then throw (.runtime "invalid parameters")
            else pure "int"
        else pure t.type
      else if r.rhs.length = 4 then
        if r.rhsAt 0 = "ID" ∧ r.rhsAt 1 = "LPAREN" ∧ r.rhsAt 2 = "arglist" ∧
            r.rhsAt 3 = "RPAREN" then do
          let name ← childValue t 0
          if mapContains vt.table name then
            throw (.runtime "function call on local variable")
          else do
            let p ← pt.get name
            let arglist ← at? t.children 2
            let argTypes := getArgTypes arglist
            if p.signature.length ≠ argTypes.length then
              throw (.runtime "invalid parameters incorrect amount")
            else do
              checkArgTypes argTypes p.signature
              pure "int"
        else pure t.type
      else if r.rhs.length = 5 then
        if r.rhsAt 0 = "NEW" ∧ r.rhsAt 1 = "INT" ∧ r.rhsAt 2 = "LBRACK" ∧
            r.rhsAt 3 = "expr" ∧ r.rhsAt 4 = "RBRACK" then do
          let ty ← childType t 3
          if ty ≠ "int" then throw (.runtime "invalid 'new' address retrieval")
          else pure "int*"
        else pure t.type
      else pure t.type
    else if r.lhs = "lvalue" then
      if r.rhs.length = 1 then
        if r.rhsAt 0 = "ID" then do
          let name ← childValue t 0
          let v ← vt.get name
          pure v.type
        else pure t.type
      else if r.rhs.length = 2 then
        if r.rhsAt 0 = "STAR" ∧ r.rhsAt 1 = "factor" then do
          let ty ← childType t 1
          if ty ≠ "int*" then throw (.runtime "invalid '*' address retrieval")
          else pure "int"
        else pure t.type
      else if r.rhs.length = 3 then
        if r.rhsAt 0 = "LPAREN" ∧ r.rhsAt 1 = "lvalue" ∧ r.rhsAt 2 = "RPAREN" then do
          let ty ← childType t 1
          pure ty
        else pure t.type
      else pure t.type
    else pure t.type
  else pure t.type

/-- Body of `Treenode::annotateTypes` after the loop over the children, as a
tree update: only the field `type` of the node is written. -/
def annotateNode (t : Treenode) (pt : ProcedureTable) (vt : VariableTable) :
    Except Err Treenode :=
  (nodeType t pt vt).map t.setType

mutual
/-- Member `Treenode::annotateTypes`: the children first, left to right, then
the node itself. -/
def Treenode.annotateTypes : Treenode → ProcedureTable → VariableTable → Except Err Treenode
  | .mk terminal r k ty cs, pt, vt => do
    let cs' ← annotateChildren cs pt vt
    annotateNode (.mk terminal r k ty cs') pt vt
/-- The loop `for (auto &it : children) it->annotateTypes(pt, vt)`. -/
def annotateChildren : List Treenode → ProcedureTable → VariableTable →
    Except Err (List Treenode)
  | [], _, _ => pure []
  | c :: cs, pt, vt => do
    let c' ← c.annotateTypes pt vt
    let cs' ← annotateChildren cs pt vt
    pure (c' :: cs')
end

/-- Constructor `Variable::Variable(tree)` on a `dcl` node. -/
def Variable.ofTree (tree : Treenode) : Except Err Variable := do
  let id ← at? tree.children 1
  let ty ← at? tree.children 0
  pure ⟨id.Ttoken.value, if ty.children.length = 1 then "int" else "int*"⟩

/-- The initialiser test of `getDeclarations`:
`(d.front()->children[0]->children.size() == 1 && rhs[3] == "NULL") ||
 (d.front()->children[0]->children.size() == 2 && rhs[3] == "NUM")`,
evaluated only when `d` is not empty. -/
def initMismatch (d : List Treenode) (r : Rule) : Except Err Bool :=
  match d with
  | [] => pure false
  | front :: _ => do
    let ty ← at? front.children 0
    if ty.children.length = 1 then do
      let init ← at? r.rhs 3
      pure (decide (init = "NULL"))
    else if ty.children.length = 2 then do
      let init ← at? r.rhs 3
      pure (decide (init = "NUM"))
    else pure false

mutual
/-- Function `getDeclarations`. -/
def getDeclarations : Treenode → Except Err (List Treenode)
  | .mk terminal r k ty cs =>
    if !terminal then
      if r.lhs = "dcls" ∧ r.rhs.length ≠ 0 then
        match cs with
        | c0 :: c1 :: _ => do
          let d ← getDeclarations c1
          if (← initMismatch d r) then
            throw (.runtime "incorrect assignment in declaration")
          else do
            let d1 ← getDeclarations c0
            pure (d ++ d1)
        | _ => throw .undefined
      else if r.lhs = "dcl" then pure [.mk terminal r k ty cs]
      else getDeclarationsList cs
    else pure []
/-- The loop over `tree->children` of `getDeclarations`. -/
def getDeclarationsList : List Treenode → Except Err (List Treenode)
  | [] => pure []
  | c :: cs => do
    let d ← getDeclarations c
    let ds ← getDeclarationsList cs
    pure (d ++ ds)
end

/-- The loop `for (auto it : params)` of the `Procedure` constructor: each
parameter is added to the symbol table and its type appended to the signature. -/
def addParams : List (Option Treenode) → VariableTable → List String →
    Except Err (VariableTable × List String)
  | [], vt, sig => pure (vt, sig)
  | it :: rest, vt, sig => do
    let v ← Variable.ofTree (← deref it)
    let vt' ← vt.add v
    addParams rest vt' (sig ++ [v.type])

/-- The loop `for (auto it : locDCLS)` of the `Procedure` constructor. -/
def addLocals : List Treenode → VariableTable → Except Err VariableTable
  | [], vt => pure vt
  | it :: rest, vt => do
    let v ← Variable.ofTree it
    let vt' ← vt.add v
    addLocals rest vt'

/-- Constructor `Procedure::Procedure(tree)`. -/
def Procedure.ofTree (tree : Treenode) : Except Err Procedure := do
  let locDCLS ← getDeclarations (← deref (tree.getChild "dcls"))
  let params ←
    if tree.NTrule.lhs = "procedure" then do
      let ps ← getDeclarations (← deref (tree.getChild "params" 1))
      pure (ps.map some)
    else do
      let ps := [tree.getChild "dcl" 1, tree.getChild "dcl" 2]
      let second ← deref (tree.getChild "dcl" 2)
      let ty ← at? second.children 0
      if ty.children.length ≠ 1 then
        throw (.runtime "main invalid second parameter declaration")
      else pure ps
  let (symbolTable, signature) ← addParams params ⟨[]⟩ []
  let name ← childValue tree 1
  let symbolTable ← addLocals locDCLS symbolTable
  pure ⟨name, signature, symbolTable⟩

/-- The test of one node in `checkStatementsAndTests`, before the loop over the
children. -/
def checkNode (tree : Treenode) : Except Err Unit :=
  let r := tree.NTrule
  if !tree.terminal then
    if r.lhs = "statement" then
      if r.rhs.length = 4 then
        if r.rhsAt 0 = "lvalue" ∧ r.rhsAt 1 = "BECOMES" ∧ r.rhsAt 2 = "expr" ∧
            r.rhsAt 3 = "SEMI" then do
          let l ← childType tree 0
          let e ← childType tree 2
          if l ≠ e then
            throw (.runtime "lvalue and expression must have the same type")
          else pure ()
        else pure ()
      else if r.rhs.length = 5 then
        if r.rhsAt 0 = "PRINTLN" ∧ r.rhsAt 1 = "LPAREN" ∧ r.rhsAt 2 = "expr" ∧
            r.rhsAt 3 = "RPAREN" ∧ r.rhsAt 4 = "SEMI" then do
          let e ← childType tree 2
          if e ≠ "int" then
            throw (.runtime "expression derived from PRINTLN must be of type int")
          else pure ()
        else if r.rhsAt 0 = "DELETE" ∧ r.rhsAt 1 = "LBRACK" ∧ r.rhsAt 2 = "RBRACK" ∧
            r.rhsAt 3 = "expr" ∧ r.rhsAt 4 = "SEMI" then do
          let e ← childType tree 3
          if e ≠ "int*" then
            throw (.runtime "expression derived from DELETE must be of type int*")
          else pure ()
        else pure ()
      else pure ()
    else if r.lhs = "test" then
      if r.rhs.length = 3 then
        if r.rhsAt 0 = "expr" ∧ r.rhsAt 2 = "expr" then do
          let l ← childType tree 0
          let e ← childType tree 2
          if l ≠ e then
            throw (.runtime "expression derived from test must have the same type")
          else pure ()
        else pure ()
      else pure ()
    else pure ()
  else pure ()

mutual
/-- Function `checkStatementsAndTests`: the node first, then its children left
to right. -/
def checkStatementsAndTests : Treenode → Except Err Unit
  | .mk terminal r k ty cs => do
    checkNode (.mk terminal r k ty cs)
    checkChildren cs
/-- The loop `for (auto &it : tree->children)` of `checkStatementsAndTests`. -/
def checkChildren : List Treenode → Except Err Unit
  | [] => pure ()
  | c :: cs => do
    checkStatementsAndTests c
    checkChildren cs
end

/-- The branch of `collectProcedures` for a `procedure` or `main` node: the
procedure is built and registered, then its tree is annotated and checked. -/
def collectProcedure (tree : Treenode) (pt : ProcedureTable) :
    Except Err (Treenode × ProcedureTable) := do
  let p ← Procedure.ofTree tree
  let pt' ← pt.add p
  let tree' ← tree.annotateTypes pt' p.symbolTable
  checkStatementsAndTests tree'
  let e ← deref (tree'.getChild "expr")
  if e.type ≠ "int" then
    throw (.runtime "expression derived from procedure/main must return int")
  else pure (tree', pt')

mutual
/-- Function `collectProcedures`; returns the annotated tree and the procedure
table as it stands afterwards. -/
def collectProcedures : Treenode → ProcedureTable → Except Err (Treenode × ProcedureTable)
  | .mk terminal r k ty cs, pt =>
    if !terminal then
      if r.lhs = "procedure" ∨ r.lhs = "main" then
        collectProcedure (.mk terminal r k ty cs) pt
      else if r.lhs = "procedures" then do
        let (cs', pt') ← collectProceduresList cs pt
        pure (.mk terminal r k ty cs', pt')
      else pure (.mk terminal r k ty cs, pt)
    else pure (.mk terminal r k ty cs, pt)
/-- The loop `for (auto child : tree->children)` of `collectProcedures`. -/
def collectProceduresList : List Treenode → ProcedureTable →
    Except Err (List Treenode × ProcedureTable)
  | [], pt => pure ([], pt)
  | c :: cs, pt => do
    let (c', pt1) ← collectProcedures c pt
    let (cs', pt2) ← collectProceduresList cs pt1
    pure (c' :: cs', pt2)
end

/-- Equality of results is decidable when equality of errors and values is. -/
instance instDecidableEqExcept {ε α : Type} [DecidableEq ε] [DecidableEq α] :
    DecidableEq (Except ε α)
  | .ok a, .ok b =>
    if h : a = b then isTrue (by rw [h]) else isFalse (by intro h2; cases h2; exact h rfl)
  | .error a, .error b =>
    if h : a = b then isTrue (by rw [h]) else isFalse (by intro h2; cases h2; exact h rfl)
  | .ok _, .error _ => isFalse (by intro h; cases h)
  | .error _, .ok _ => isFalse (by intro h; cases h)

/-! ## Code generation: state and emitters -/

/-- The globals of the code generator and the output written so far. -/
structure CodegenState where
  /-- Global `label_set`. -/
  label_set : List String
  /-- Global `functionlabel_map`. -/
  functionlabel_map : List (String × String)
  /-- The values the next calls of `rand()` return, in order. -/
  rand : List Nat
  /-- The lines written to `std::cout`, in order. -/
  out : List String
  deriving DecidableEq, Repr

/-- Initial value of `label_set`. -/
def reservedLabels : List String := ["print", "init", "new", "delete", "main"]

/-- State at the start of code generation, with the random numbers `rand`. -/
def CodegenState.init (rand : List Nat) : CodegenState :=
  ⟨reservedLabels, [], rand, []⟩

/-- Writing lines to `std::cout`. -/
def CodegenState.emit (s : CodegenState) (lines : List String) : CodegenState :=
  { s with out := s.out ++ lines }

/-- Register operand `$r`. -/
def reg (r : Int) : String := "$" ++ toString r

/-- Emitter `Add`. -/
def Add (d s t : Int) : List String := ["add " ++ reg d ++ ", " ++ reg s ++ ", " ++ reg t]

/-- Emitter `Subtract`. -/
def Subtract (d s t : Int) : List String :=
  ["sub " ++ reg d ++ ", " ++ reg s ++ ", " ++ reg t]

/-- Emitter `Multiply`. -/
def Multiply (s t : Int) : List String := ["mult " ++ reg s ++ ", " ++ reg t]

/-- Emitter `Divide`. -/
def Divide (s t : Int) : List String := ["div " ++ reg s ++ ", " ++ reg t]

/-- Emitter `Mfhi`. -/
def Mfhi (d : Int) : List String := ["mfhi " ++ reg d]

/-- Emitter `Mflo`. -/
def Mflo (d : Int) : List String := ["mflo " ++ reg d]

/-- Emitter `Lis`. -/
def Lis (d : Int) : List String := ["lis " ++ reg d]

/-- Emitter `Slt`. -/
def Slt (d s t : Int) : List String := ["slt " ++ reg d ++ ", " ++ reg s ++ ", " ++ reg t]

/-- Emitter `Sltu`. -/
def Sltu (d s t : Int) : List String := ["sltu " ++ reg d ++ ", " ++ reg s ++ ", " ++ reg t]

/-- Emitter `Jr`. -/
def Jr (s : Int) : List String := ["jr " ++ reg s]

/-- Emitter `Jalr`. -/
def Jalr (s : Int) : List String := ["jalr " ++ reg s]

/-- Emitter `Beq(int, int, std::string)`. -/
def Beq (s t : Int) (label : String) : List String :=
  ["beq " ++ reg s ++ ", " ++ reg t ++ ", " ++ label]

/-- Emitter `Bne(int, int, std::string)`. -/
def Bne (s t : Int) (label : String) : List String :=
  ["bne " ++ reg s ++ ", " ++ reg t ++ ", " ++ label]

/-- Emitter `Load`. -/
def Load (t s : Int) (i : Int := 0) : List String :=
  ["lw " ++ reg t ++ ", " ++ toString i ++ "(" ++ reg s ++ ")"]

/-- Emitter `Store`. -/
def Store (t s : Int) (i : Int := 0) : List String :=
  ["sw " ++ reg t ++ ", " ++ toString i ++ "(" ++ reg s ++ ")"]

/-- Emitter `Word(int)`. -/
def Word (i : Int) : List String := [".word " ++ toString i]

/-- Emitter `Word(std::string)`. -/
def WordLabel (label : String) : List String := [".word " ++ label]

/-- Emitter `Label`. -/
def Label (name : String) : List String := [name ++ ":"]

/-- Emitter `push(int s)`. -/
def push (s : Int) : List String := Store s 30 (-4) ++ Subtract 30 30 4

/-- Emitter `pop(int d)`. -/
def pop (d : Int) : List String := Add 30 30 4 ++ Load d 30 (-4)

/-- Emitter `pop()`. -/
def popBare : List String := Add 30 30 4

/-- Insertion into a `std::unordered_set`. -/
def setInsert (x : String) (set : List String) : List String :=
  if x ∈ set then set else set ++ [x]

/-- Member `insert` of a `std::map`: no effect when the key is present. -/
def mapInsert {α : Type} (m : List (String × α)) (k : String) (v : α) : List (String × α) :=
  if mapContains m k then m else m ++ [(k, v)]

/-- Expression `offsetTable[name]` on the by-value copy `generateCodeOther`
holds: the offset recorded for `name`, 0 when there is none. -/
def offsetAt (offsetTable : List (String × Int)) (name : String) : Int :=
  (offsetTable.lookup name).getD 0

/-- Expression `functionlabel_map[name]` on the global map: the label recorded
for `name`; when there is none the empty string, which is then recorded. -/
def labelAt (s : CodegenState) (name : String) : String × CodegenState :=
  match s.functionlabel_map.lookup name with
  | some l => (l, s)
  | none => ("", { s with functionlabel_map := s.functionlabel_map ++ [(name, "")] })

/-- Function `std::isspace` in the "C" locale. -/
def isspace (c : Char) : Bool :=
  c = ' ' || (9 ≤ c.toNat && c.toNat ≤ 13)

/-- Function `std::stoi` on a decimal numeral: leading white space, an optional
sign, then digits; it throws `std::invalid_argument` without a digit and
`std::out_of_range` outside the range of `int`. -/
def stoi (str : String) : Except Err Int :=
  let cs := str.toList.dropWhile isspace
  let signed : Bool × List Char :=
    match cs with
    | '-' :: r => (true, r)
    | '+' :: r => (false, r)
    | r => (false, r)
  let digits := signed.2.takeWhile Char.isDigit
  if digits = [] then .error (.uncaught "std::invalid_argument")
  else
    let n : Int := digits.foldl (fun acc c => acc * 10 + ((c.toNat : Int) - 48)) 0
    let v : Int := if signed.1 then -n else n
    if v < -2147483648 ∨ 2147483647 < v then .error (.uncaught "std::out_of_range")
    else .ok v

/-- Character `'a' + rand() % 26` appended to a candidate label. -/
def labelChar (r : Nat) : Char := Char.ofNat (97 + r % 26)

/-- The `do ... while (label_set.count(newLabel))` loop of `generateLabel`: each
round draws ten random numbers; `none` when the random numbers (or the fuel,
their count) run out before a fresh candidate is found. -/
def generateLabelLoop : Nat → List Nat → List String → Option (String × List Nat)
  | 0, _, _ => none
  | fuel + 1, tape, label_set =>
    if tape.length < 10 then none
    else
      let newLabel := String.mk ((tape.take 10).map labelChar)
      if newLabel ∈ label_set then generateLabelLoop fuel (tape.drop 10) label_set
      else some (newLabel, tape.drop 10)

/-- Function `generateLabel`: returns the new label and the state in which it is
recorded as used. -/
def generateLabel (s : CodegenState) : Except Err (String × CodegenState) :=
  match generateLabelLoop s.rand.length s.rand s.label_set with
  | none => .error .outOfFuel
  | some (newLabel, rest) =>
    .ok (newLabel, { s with rand := rest, label_set := setInsert newLabel s.label_set })

/-! ## Code generation: expressions, statements and tests -/

/-- The operator-specific part of the `expr` branch of `generateCodeOther`, run
once both operands are evaluated and `$5` is reloaded: the choice between plain
addition or subtraction, scaling of the integer operand, and the pointer
difference, by the types of the operands. -/
def combineAdditive (exprType termType : String) (operation : Option Treenode)
    (s : CodegenState) : Except Err CodegenState :=
  if exprType = "int" ∧ termType = "int" then do
    let op ← deref operation
    if op.Ttoken.type = "PLUS" then pure (s.emit (Add 3 5 3))
    else if op.Ttoken.type = "MINUS" then pure (s.emit (Subtract 3 5 3))
    else throw (.runtime "valid operations not found")
  else if exprType = "int*" ∧ termType = "int" then do
    let op ← deref operation
    if op.Ttoken.type = "PLUS" then
      pure (s.emit (Multiply 3 4 ++ Mflo 3 ++ Add 3 5 3))
    else if op.Ttoken.type = "MINUS" then
      pure (s.emit (Multiply 3 4 ++ Mflo 3 ++ Subtract 3 5 3))
    else throw (.runtime "valid operations not found")
  else if exprType = "int" ∧ termType = "int*" then do
    let op ← deref operation
    if op.Ttoken.type = "PLUS" then
      pure (s.emit (Multiply 5 4 ++ Mflo 5 ++ Add 3 5 3))
    else if op.Ttoken.type = "MINUS" then
      pure (s.emit (Multiply 5 4 ++ Mflo 5 ++ Subtract 3 5 3))
    else throw (.runtime "valid operations not found")
  else if exprType = "int*" ∧ termType = "int*" then do
    let op ← deref operation
    if op.Ttoken.type = "MINUS" then
      pure (s.emit (Subtract 3 5 3 ++ Divide 3 4 ++ Mflo 3))
    else throw (.runtime "cannot add two int*'s")
  else pure s

/-- The operator-specific part of the `term` branch of `generateCodeOther`. -/
def combineMultiplicative (operation : Option Treenode) (s : CodegenState) :
    Except Err CodegenState := do
  let op ← deref operation
  if op.Ttoken.type = "STAR" then pure (s.emit (Multiply 5 3 ++ Mflo 3))
  else if op.Ttoken.type = "SLASH" then pure (s.emit (Divide 5 3 ++ Mflo 3))
  else if op.Ttoken.type = "PCT" then pure (s.emit (Divide 5 3 ++ Mfhi 3))
  else pure s

/-- The operator-specific part of the `test` branch of `generateCodeOther`. -/
def combineTest (op leftType rightType : String) (s : CodegenState) :
    Except Err CodegenState :=
  if op = "EQ" then do
    let (labeltrue, s) ← generateLabel s
    let (labelfalse, s) ← generateLabel s
    pure (s.emit (Bne 3 5 labelfalse ++ Lis 3 ++ Word 1 ++ Beq 0 0 labeltrue ++
      Label labelfalse ++ Add 3 0 0 ++ Label labeltrue))
  else if op = "NE" then do
    let (labeltrue, s) ← generateLabel s
    let (labelfalse, s) ← generateLabel s
    pure (s.emit (Beq 3 5 labelfalse ++ Lis 3 ++ Word 1 ++ Beq 0 0 labeltrue ++
      Label labelfalse ++ Add 3 0 0 ++ Label labeltrue))
  else if op = "LT" then
    if leftType = "int" ∧ rightType = "int" then pure (s.emit (Slt 3 5 3))
    else pure (s.emit (Sltu 3 5 3))
  else if op = "LE" then
    if leftType = "int" ∧ rightType = "int" then
      pure (s.emit (Slt 3 3 5 ++ Lis 5 ++ Word 1 ++ Slt 3 3 5))
    else pure (s.emit (Sltu 3 3 5 ++ Lis 5 ++ Word 1 ++ Slt 3 3 5))
  else if op = "GE" then
    if leftType = "int" ∧ rightType = "int" then
      pure (s.emit (Slt 3 5 3 ++ Lis 5 ++ Word 1 ++ Slt 3 3 5))
    else pure (s.emit (Sltu 3 5 3 ++ Lis 5 ++ Word 1 ++ Slt 3 3 5))
  else if op = "GT" then
    if leftType = "int" ∧ rightType = "int" then pure (s.emit (Slt 3 3 5))
    else pure (s.emit (Sltu 3 3 5))
  else pure s

/-- The loop `while (lvalue->children.size() == 3) lvalue = lvalue->getChild("lvalue")`
that strips the parentheses of an lvalue. -/
def unwrapLvalue : Nat → Option Treenode → Except Err Treenode
  | fuel, lvalue => do
    let l ← deref lvalue
    if l.children.length = 3 then
      match fuel with
      | 0 => throw .outOfFuel
      | fuel + 1 => unwrapLvalue fuel (l.getChild "lvalue")
    else pure l

/-- The loop `while (arglist)` of a call: each argument is evaluated by `gen`
and pushed; returns the number of arguments pushed. -/
def argsLoop (gen : Option Treenode → CodegenState → Except Err CodegenState) :
    Nat → Option Treenode → Int → CodegenState → Except Err (Int × CodegenState)
  | _, none, args, s => pure (args, s)
  | 0, some _, _, _ => throw .outOfFuel
  | fuel + 1, some arglist, args, s => do
    let s ← gen (arglist.getChild "expr") s
    let s := s.emit (push 3)
    argsLoop gen fuel (arglist.getChild "arglist") (args + 1) s

/-- Function `generateCodeOther`. The parameter `pt` of the source is never read
and is left out; `offsetTable` is the by-value copy of the offset table. -/
def generateCodeOther : Nat → Treenode → List (String × Int) → CodegenState →
    Except Err CodegenState
  | 0, _, _, _ => throw .outOfFuel
  | fuel + 1, tree, offsetTable, s =>
    let gen : Option Treenode → CodegenState → Except Err CodegenState := fun c s => do
      generateCodeOther fuel (← deref c) offsetTable s
    let r := tree.NTrule
    if !tree.terminal then
      if r.lhs = "expr" then
        let expression := tree.getChild "expr"
        let term := tree.getChild "term"
        if r.rhs.length > 1 then do
          let operation :=
            if (tree.getChild "PLUS").isSome then tree.getChild "PLUS"
            else tree.getChild "MINUS"
          let s := s.emit (push 5)
          let s ← gen expression s
          let s := s.emit (push 3)
          let s ← gen term s
          let s := s.emit (pop 5)
          let e ← deref expression
          let t ← deref term
          let s ← combineAdditive e.type t.type operation s
          pure (s.emit (pop 5))
        else if term.isSome then gen term s
        else throw (.runtime "expression must have at least one term")
      else if r.lhs = "term" then
        let term := tree.getChild "term"
        let factor := tree.getChild "factor"
        if r.rhs.length > 1 then do
          let operation :=
            if (tree.getChild "STAR").isSome then tree.getChild "STAR"
            else if (tree.getChild "SLASH").isSome then tree.getChild "SLASH"
            else tree.getChild "PCT"
          let s := s.emit (push 5)
          let s ← gen term s
          let s := s.emit (push 3)
          let s ← gen factor s
          let s := s.emit (pop 5)
          let s ← combineMultiplicative operation s
          pure (s.emit (pop 5))
        else if factor.isSome then gen factor s
        else pure s
      else if r.lhs = "factor" then
        if r.rhs.length = 1 then
          if r.rhsAt 0 = "ID" then do
            let id ← deref (tree.getChild "ID")
            pure (s.emit (Load 3 29 (offsetAt offsetTable id.Ttoken.value)))
          else if r.rhsAt 0 = "NUM" then do
            let num ← deref (tree.getChild "NUM")
            let val ← stoi num.Ttoken.value
            pure (s.emit (Lis 3 ++ Word val))
          else if r.rhsAt 0 = "NULL" then
            pure (s.emit (Lis 3 ++ Word 1))
          else pure s
        else if r.rhs.length = 2 then
          if r.rhsAt 0 = "AMP" ∧ r.rhsAt 1 = "lvalue" then do
            let lvalue ← unwrapLvalue fuel (tree.getChild "lvalue")
            if lvalue.children.length = 1 then do
              let id ← deref (lvalue.getChild "ID")
              let offset := offsetAt offsetTable id.Ttoken.value
              pure (s.emit (Lis 3 ++ Word offset ++ Add 3 29 3))
            else if lvalue.children.length = 2 then gen (lvalue.getChild "factor") s
            else pure s
          else if r.rhsAt 0 = "STAR" ∧ r.rhsAt 1 = "factor" then do
            let s ← gen (tree.getChild "factor") s
            pure (s.emit (Load 3 3 0))
          else pure s
        else if r.rhs.length = 3 then
          if r.rhsAt 0 = "LPAREN" ∧ r.rhsAt 1 = "expr" ∧ r.rhsAt 2 = "RPAREN" then
            gen (tree.getChild "expr") s
          else if r.rhsAt 0 = "ID" ∧ r.rhsAt 1 = "LPAREN" ∧ r.rhsAt 2 = "RPAREN" then do
            let s := s.emit (push 29 ++ push 31 ++ Lis 31)
            let id ← deref (tree.getChild "ID")
            let (label, s) := labelAt s id.Ttoken.value
            pure (s.emit (WordLabel label ++ Jalr 31 ++ pop 31 ++ pop 29))
          else pure s
        else if r.rhs.length = 4 then
          if r.rhsAt 0 = "ID" ∧ r.rhsAt 1 = "LPAREN" ∧ r.rhsAt 2 = "arglist" ∧
              r.rhsAt 3 = "RPAREN" then do
            let s := s.emit (push 29 ++ push 31)
            let (args, s) ← argsLoop gen fuel (tree.getChild "arglist") 0 s
            let s := s.emit (Lis 31)
            let id ← deref (tree.getChild "ID")
            let (label, s) := labelAt s id.Ttoken.value
            let s := s.emit (WordLabel label ++ Jalr 31)
            let s := s.emit (List.replicate args.toNat popBare).flatten
            pure (s.emit (pop 31 ++ pop 29))
          else pure s
        else if r.rhs.length = 5 then do
          let s ← gen (tree.getChild "expr") s
          let (endlabel, s) ← generateLabel s
          pure (s.emit (push 1 ++ Add 1 3 0 ++ push 31 ++ Lis 31 ++ WordLabel "new" ++ Jalr 31 ++
            pop 31 ++ pop 1 ++ Bne 3 0 endlabel ++ Lis 3 ++ Word 1 ++ Label endlabel))
        else pure s
      else if r.lhs = "statements" then
        if r.rhs.length = 0 then pure s
        else if r.rhs.length = 2 then do
          let s ← gen (tree.getChild "statements") s
          gen (tree.getChild "statement") s
        else pure s
      else if r.lhs = "statement" then
        if r.rhs.length = 4 then do
          let expr := tree.getChild "expr"
          let lvalue ← unwrapLvalue fuel (tree.getChild "lvalue")
          if lvalue.children.length = 1 then do
            let id ← deref (lvalue.getChild "ID")
            let offset := offsetAt offsetTable id.Ttoken.value
            let s ← gen expr s
            pure (s.emit (Store 3 29 offset))
          else if lvalue.children.length = 2 then do
            let s := s.emit (push 5)
            let s ← gen (lvalue.getChild "factor") s
            let s := s.emit (push 3)
            let s ← gen expr s
            pure (s.emit (pop 5 ++ Store 3 5 0 ++ pop 5))
          else pure s
        else if r.rhs.length = 5 then
          if r.rhsAt 0 = "PRINTLN" ∧ r.rhsAt 1 = "LPAREN" ∧ r.rhsAt 2 = "expr" ∧
              r.rhsAt 3 = "RPAREN" ∧ r.rhsAt 4 = "SEMI" then do
            let s ← gen (tree.getChild "expr") s
            pure (s.emit (push 1 ++ Add 1 3 0 ++ push 31 ++ Lis 31 ++ WordLabel "print" ++
              Jalr 31 ++ pop 31 ++ pop 1))
          else if r.rhsAt 0 = "DELETE" ∧ r.rhsAt 1 = "LBRACK" ∧ r.rhsAt 2 = "RBRACK" ∧
              r.rhsAt 3 = "expr" ∧ r.rhsAt 4 = "SEMI" then do
            let s ← gen (tree.getChild "expr") s
            let (skiplabel, s) ← generateLabel s
            pure (s.emit (push 1 ++ Lis 1 ++ Word 1 ++ Beq 3 1 skiplabel ++ Add 1 3 0 ++
              push 31 ++ Lis 31 ++ WordLabel "delete" ++ Jalr 31 ++ pop 31 ++ Label skiplabel ++
              pop 1))
          else pure s
        else if r.rhs.length = 7 then do
          let (beginlabel, s) ← generateLabel s
          let (endlabel, s) ← generateLabel s
          let s := s.emit (Label beginlabel)
          let s ← gen (tree.getChild "test") s
          let s := s.emit (Beq 3 0 endlabel)
          let s ← gen (tree.getChild "statements") s
          pure (s.emit (Beq 0 0 beginlabel ++ Label endlabel))
        else if r.rhs.length = 11 then do
          let (elselabel, s) ← generateLabel s
          let (endlabel, s) ← generateLabel s
          let s ← gen (tree.getChild "test") s
          let s := s.emit (Beq 3 0 elselabel)
          let s ← gen (tree.getChild "statements") s
          let s := s.emit (Beq 0 0 endlabel ++ Label elselabel)
          let s ← gen (tree.getChild "statements" 2) s
          pure (s.emit (Label endlabel))
        else pure s
      else if r.lhs = "test" then do
        let left := tree.getChild "expr"
        let right := tree.getChild "expr" 2
        let opNode ← at? tree.children 1
        let op := opNode.Ttoken.type
        let s := s.emit (push 5)
        let s ← gen left s
        let s := s.emit (push 3)
        let s ← gen right s
        let s := s.emit (pop 5)
        let l ← deref left
        let rt ← deref right
        let s ← combineTest op l.type rt.type s
        pure (s.emit (pop 5))
      else pure s
    else pure s

/-- The call `generateCodeOther(child, pt, offsetTable)` on a child found by
`getChild`, at the fuel left for the children; a null child is dereferenced. -/
def genChild (fuel : Nat) (offsetTable : List (String × Int)) :
    Option Treenode → CodegenState → Except Err CodegenState :=
  fun c s => do generateCodeOther fuel (← deref c) offsetTable s

/-! ## Code generation: procedures -/

/-- The label of an ordinary procedure named `proclabel`: the part of
`generateCodeProcedures` that chooses the label, records it in `label_set` and
`functionlabel_map`, and writes it. -/
def procedureLabel (proclabel : String) (s : CodegenState) : Except Err CodegenState := do
  let s ←
    if proclabel ∈ s.label_set then do
      let (customlabel, s) ← generateLabel s
      pure { s with
        label_set := setInsert customlabel s.label_set
        functionlabel_map := mapInsert s.functionlabel_map proclabel customlabel }
    else
      pure { s with
        label_set := setInsert proclabel s.label_set
        functionlabel_map := mapInsert s.functionlabel_map proclabel proclabel }
  let (label, s) := labelAt s proclabel
  pure (s.emit (Label label))

/-- The loop `while (params)` over the `paramlist` chain: the names of the
parameters in source order, `offset` growing by 4 for each. -/
def paramNamesLoop : Nat → Option Treenode → List String → Int →
    Except Err (List String × Int)
  | _, none, paramlist, offset => pure (paramlist, offset)
  | 0, some _, _, _ => throw .outOfFuel
  | fuel + 1, some params, paramlist, offset => do
    let dcl ← deref (params.getChild "dcl")
    let id ← deref (dcl.getChild "ID")
    paramNamesLoop fuel (params.getChild "paramlist") (paramlist ++ [id.Ttoken.value])
      (offset + 4)

/-- The loop `for (auto it : paramlist)` that gives each parameter its offset. -/
def insertParams : List String → List (String × Int) → Int → List (String × Int) × Int
  | [], offsetTable, offset => (offsetTable, offset)
  | it :: rest, offsetTable, offset =>
    insertParams rest (mapInsert offsetTable it offset) (offset - 4)

/-- The loop `while (dcls)` over the declaration list, from its root inwards:
the name and the initial value of each local (1 for `NULL`). -/
def declarationsLoop : Nat → Option Treenode → List (String × Int) →
    Except Err (List (String × Int))
  | _, none, declarations => pure declarations
  | 0, some _, _ => throw .outOfFuel
  | fuel + 1, some dcls, declarations => do
    let dcl := dcls.getChild "dcl"
    let becomesNum := dcls.getChild "NUM"
    let becomesNull := dcls.getChild "NULL"
    let declarations ←
      match dcl, becomesNum, becomesNull with
      | some d, some num, _ => do
        let id ← deref (d.getChild "ID")
        let val ← stoi num.Ttoken.value
        pure (declarations ++ [(id.Ttoken.value, val)])
      | some d, none, some _ => do
        let id ← deref (d.getChild "ID")
        pure (declarations ++ [(id.Ttoken.value, (1 : Int))])
      | _, _, _ => pure declarations
    declarationsLoop fuel (dcls.getChild "dcls") declarations

/-- The loop `while (!declarations.empty())`, which takes the declarations from
the back: each local gets the next offset and the code that pushes its initial
value. The argument lists the declarations in the order they are taken. -/
def pushLocals : List (String × Int) → List (String × Int) → Int → Int → CodegenState →
    List (String × Int) × Int × Int × CodegenState
  | [], offsetTable, offset, localVarCount, s => (offsetTable, offset, localVarCount, s)
  | var :: rest, offsetTable, offset, localVarCount, s =>
    pushLocals rest (mapInsert offsetTable var.1 offset) (offset - 4) (localVarCount + 1)
      (s.emit (Lis 3 ++ Word var.2 ++ push 3))

/-- The part of `generateCodeProcedures` before the statements: label, frame
setup, the offset table and the initialisation of the locals. Returns the
offset table, `localVarCount` and the state. -/
def procedurePrologue (fuel : Nat) (procedure : Treenode) (s : CodegenState) :
    Except Err (List (String × Int) × Int × CodegenState) := do
  let (offsetTable, offset, localVarCount, s) ←
    if procedure.NTrule.lhs = "procedure" then do
      let id ← deref (procedure.getChild "ID")
      let s ← procedureLabel id.Ttoken.value s
      let params ← deref (procedure.getChild "params")
      let (offsetTable, offset) ←
        if params.NTrule.rhs.length = 0 then
          pure (([] : List (String × Int)), (0 : Int))
        else do
          let (paramlist, offset) ← paramNamesLoop fuel (params.getChild "paramlist") [] 0
          pure (insertParams paramlist [] offset)
      pure (offsetTable, offset, (0 : Int), s.emit (Subtract 29 30 4))
    else do
      let s := s.emit (Label "main")
      let offset : Int := 8
      let param1 ← deref (procedure.getChild "dcl")
      let param2 := procedure.getChild "dcl" 2
      let s :=
        if param1.type = "int*" then
          s.emit (push 31 ++ Lis 31 ++ WordLabel "init" ++ Jalr 31 ++ pop 31)
        else
          s.emit (push 2 ++ Lis 2 ++ Word 0 ++ push 31 ++ Lis 31 ++ WordLabel "init" ++
            Jalr 31 ++ pop 31 ++ pop 2)
      let id1 ← deref (param1.getChild "ID")
      let offsetTable := mapInsert ([] : List (String × Int)) id1.Ttoken.value offset
      let offset := offset - 4
      let s := s.emit (push 1)
      let p2 ← deref param2
      let id2 ← deref (p2.getChild "ID")
      let offsetTable := mapInsert offsetTable id2.Ttoken.value offset
      let offset := offset - 4
      let s := s.emit (push 2)
      pure (offsetTable, offset, (2 : Int), s.emit (Subtract 29 30 4))
  let declarations ← declarationsLoop fuel (procedure.getChild "dcls") []
  let (offsetTable, _, localVarCount, s) :=
    pushLocals declarations.reverse offsetTable offset localVarCount s
  pure (offsetTable, localVarCount, s)

/-- Function `generateCodeProcedures`; the parameter `pt` of the source is only
passed on to `generateCodeOther`, which never reads it. -/
def generateCodeProcedures (fuel : Nat) (tree : Treenode) (s : CodegenState) :
    Except Err CodegenState := do
  let (offsetTable, localVarCount, s) ← procedurePrologue fuel tree s
  let s ← generateCodeOther fuel (← deref (tree.getChild "statements")) offsetTable s
  let s ← generateCodeOther fuel (← deref (tree.getChild "expr")) offsetTable s
  let s := s.emit (List.replicate localVarCount.toNat popBare).flatten
  pure (s.emit (Jr 31))

/-- The loop `while (procedures)` of `generateCode`, which generates the
procedures in source order; `codeFuel` is the fuel each call of
`generateCodeProcedures` gets. -/
def generateProceduresLoop (codeFuel : Nat) :
    Nat → Option Treenode → CodegenState → Except Err CodegenState
  | _, none, s => pure s
  | 0, some _, _ => throw .outOfFuel
  | fuel + 1, some procedures, s => do
    let procedure :=
      if (procedures.getChild "procedure").isSome then procedures.getChild "procedure"
      else procedures.getChild "main"
    let s ← generateCodeProcedures codeFuel (← deref procedure) s
    generateProceduresLoop codeFuel fuel (procedures.getChild "procedures") s

/-! ## Parser: grammar and tables -/

/-- Structure `SLR1DFA`: transitions and reductions, both keyed by a state and a
symbol; the reductions give the number of a rule. -/
structure SLR1DFA where
  transitions : List ((Int × String) × Int)
  reductions : List ((Int × String) × Int)
deriving DecidableEq, Repr

/-- Member `insert` of the `std::map` of a table: no effect when the key is
present. -/
def tableInsert (m : List ((Int × String) × Int)) (k : Int × String) (v : Int) :
    List ((Int × String) × Int) :=
  if (m.lookup k).isSome then m else m ++ [(k, v)]

/-- The lines successive calls of `std::getline` read from the characters
left, until a call extracts nothing; `cur` holds the line being read, last
character first. -/
def getlines : List Char → List Char → List String
  | [], [] => []
  | [], cur => [String.mk cur.reverse]
  | c :: rest, cur =>
    if c = Char.ofNat 10 then String.mk cur.reverse :: getlines rest []
    else getlines rest (c :: cur)

/-- The words successive `iss >> temp` read from the characters left, until an
extraction fails; `cur` holds the word being read, last character first. -/
def words : List Char → List Char → List String
  | [], [] => []
  | [], cur => [String.mk cur.reverse]
  | c :: rest, cur =>
    if isspace c then
      if cur.isEmpty then words rest [] else String.mk cur.reverse :: words rest []
    else words rest (c :: cur)

/-- Function `getRules`. The text it reads is the constant `WLP4_CFG`, which is
defined outside the sources at hand and is a parameter here; the argument
`input` is not read. -/
def getRules (WLP4_CFG : String) (input : String) : List Rule :=
  let _unread := input
  let processedInput := (getlines WLP4_CFG.toList []).drop 1
  processedInput.map fun line =>
    let symbols := words line.toList []
    ⟨symbols.headD "", (symbols.drop 1).filter fun temp => temp ≠ ".EMPTY"⟩

/-- Extraction `iss >> symbol` of a `std::string`: the word and the characters
left, or `none` when the end is reached first and the stream fails. -/
def readWord : List Char → List Char → Option (String × List Char)
  | [], [] => none
  | [], cur => some (String.mk cur.reverse, [])
  | c :: rest, cur =>
    if isspace c then
      if cur.isEmpty then readWord rest [] else some (String.mk cur.reverse, c :: rest)
    else readWord rest (c :: cur)

/-- Extraction `iss >> n` of an `int`. The first component is the value written
to the variable, `none` when nothing is written (the end is reached while white
space is skipped); the second the characters left while the stream is good,
`none` when it has failed: no digit (0 is written) or a value out of the range
of `int` (the nearest bound is written). -/
def readInt (cs : List Char) : Option Int × Option (List Char) :=
  match cs.dropWhile isspace with
  | [] => (none, none)
  | c :: rest =>
    let negative := c = '-'
    let body := if c = '-' ∨ c = '+' then rest else c :: rest
    let digits := body.takeWhile Char.isDigit
    if digits.isEmpty then (some 0, none)
    else
      let magnitude : Int := digits.foldl (fun a d => 10 * a + ((d.toNat - 48 : Nat) : Int)) 0
      let v := if negative then -magnitude else magnitude
      if v > 2147483647 then (some 2147483647, none)
      else if v < -2147483648 then (some (-2147483648), none)
      else (some v, some (body.dropWhile Char.isDigit))

/-- One line of the transitions, `iss >> currState >> symbol >> nextState`,
inserted in the map; reading a variable that was never written is undefined
behaviour. -/
def transitionLine (line : String) (m : List ((Int × String) × Int)) :
    Except Err (List ((Int × String) × Int)) :=
  match readInt line.toList with
  | (some currState, some rest) =>
    match readWord rest [] with
    | some (symbol, rest) =>
      match readInt rest with
      | (some nextState, _) => pure (tableInsert m (currState, symbol) nextState)
      | (none, _) => throw .undefined
    | none => throw .undefined
  | _ => throw .undefined

/-- One line of the reductions, `iss >> currState >> ruleNum >> symbol`. -/
def reductionLine (line : String) (m : List ((Int × String) × Int)) :
    Except Err (List ((Int × String) × Int)) :=
  match readInt line.toList with
  | (some currState, some rest) =>
    match readInt rest with
    | (some ruleNum, some rest) =>
      match readWord rest [] with
      | some (symbol, _) => pure (tableInsert m (currState, symbol) ruleNum)
      | none => pure (tableInsert m (currState, "") ruleNum)
    | (some ruleNum, none) => pure (tableInsert m (currState, "") ruleNum)
    | (none, _) => throw .undefined
  | _ => throw .undefined

/-- The loops `while (getline(...))` of `buildDFA` over the lines after the
first. -/
def tableLines (one : String → List ((Int × String) × Int) →
    Except Err (List ((Int × String) × Int))) :
    List String → List ((Int × String) × Int) → Except Err (List ((Int × String) × Int))
  | [], m => pure m
  | line :: rest, m => do
    let m ← one line m
    tableLines one rest m

/-- Function `buildDFA`. -/
def buildDFA (transitions reductions : String) : Except Err SLR1DFA := do
  let transitionsMap ← tableLines transitionLine ((getlines transitions.toList []).drop 1) []
  let reductionsMap ← tableLines reductionLine ((getlines reductions.toList []).drop 1) []
  pure ⟨transitionsMap, reductionsMap⟩

/-- Function `convertInput` on a vector of tokens: `BOF` in front, `EOF` at the
end. -/
def convertInput (tokVec : List Token) : List Token :=
  [⟨"BOF", "BOF"⟩] ++ tokVec ++ [⟨"EOF", "EOF"⟩]

/-! ## Parser: the stacks

A `std::vector` used as a stack is a list with the top at the end. -/

/-- Member `pop_back`, `n` times; on an empty vector it is undefined
behaviour. -/
def popBack {α : Type} : Nat → List α → Except Err (List α)
  | 0, v => pure v
  | n + 1, v => if v.isEmpty then throw .undefined else popBack n v.dropLast

/-- Member `back`; on an empty vector it is undefined behaviour. -/
def back {α : Type} (v : List α) : Except Err α :=
  match v.getLast? with
  | some a => pure a
  | none => throw .undefined

/-- Member `front` of the deque; on an empty deque it is undefined behaviour. -/
def front {α : Type} (v : List α) : Except Err α :=
  match v with
  | a :: _ => pure a
  | [] => throw .undefined

/-- Indexing `CFG[i]` with an `int`; out of range is undefined behaviour. -/
def ruleAt (CFG : List Rule) (i : Int) : Except Err Rule :=
  if i < 0 then throw .undefined else at? CFG i.toNat

/-- Function `reduceTrees`. The loop that moves the children compares its `int`
counter with the unsigned size, so it runs only when the stack holds at least
`len` trees. -/
def reduceTrees (trees : List Treenode) (r : Rule) : Except Err (List Treenode) := do
  let len := r.rhs.length
  let children := if len ≤ trees.length then trees.drop (trees.length - len) else []
  let trees ← popBack len trees
  pure (trees ++ [Treenode.mk false r ⟨"", ""⟩ "" children])

/-- Function `reduceStates`. The expression `dfa.transitions[key]` inserts the
value 0 for a key the map does not hold, and `dfa` is passed by reference. -/
def reduceStates (states : List Int) (r : Rule) (dfa : SLR1DFA) :
    Except Err (List Int × SLR1DFA) := do
  let len := r.rhs.length
  let states ← popBack len states
  let top ← back states
  let key := (top, r.lhs)
  match dfa.transitions.lookup key with
  | some target => pure (states ++ [target], dfa)
  | none => pure (states ++ [0], { dfa with transitions := dfa.transitions ++ [(key, 0)] })

/-- What a call of `shift` leaves behind: the message of the
`std::runtime_error` when it ended by a throw, and its by-reference arguments
as they are at that moment. -/
structure ShiftOutcome where
  thrown : Option String
  tokens : List Token
  trees : List Treenode
  states : List Int

/-- Function `shift`. -/
def shift (tokens : List Token) (trees : List Treenode) (states : List Int) (dfa : SLR1DFA) :
    Except Err ShiftOutcome := do
  let topToken ← front tokens
  let trees := trees ++ [Treenode.ofToken topToken]
  let currState ← back states
  let key := (currState, topToken.type)
  match dfa.transitions.lookup key with
  | none => pure ⟨some "No next transition", tokens, trees, states⟩
  | some target => pure ⟨none, tokens.tail, trees, states ++ [target]⟩

/-! ## Parser: the loop, and the whole run -/

/-- The inner loop `while (true)` of `generateCode`: reduce as long as the
reductions have an entry for the state on top and the kind of the next
token. -/
def reduceLoop (CFG : List Rule) (tokens : List Token) :
    Nat → List Treenode → List Int → SLR1DFA →
      Except Err (List Treenode × List Int × SLR1DFA)
  | 0, _, _, _ => throw .outOfFuel
  | fuel + 1, treeStack, stateStack, dfa => do
    let currState ← back stateStack
    let topToken ← front tokens
    let key := (currState, topToken.type)
    match dfa.reductions.lookup key with
    | some ruleNum =>
      let r ← ruleAt CFG ruleNum
      let treeStack ← reduceTrees treeStack r
      let (stateStack, dfa) ← reduceStates stateStack r dfa
      reduceLoop CFG tokens fuel treeStack stateStack dfa
    | none => pure (treeStack, stateStack, dfa)

/-- The variables of the parser in `generateCode`. -/
structure ParseState where
  tokens : List Token
  treeStack : List Treenode
  stateStack : List Int
  dfa : SLR1DFA

/-- The outer loop `while (tokens.size() != 0)` of `generateCode`; a throw of
`shift` leaves the loop. The inner loop gets the fuel `fuel` at each round. -/
def parseLoop (CFG : List Rule) (fuel : Nat) : Nat → ParseState → Except Err ParseState
  | 0, p => if p.tokens.length ≠ 0 then throw .outOfFuel else pure p
  | n + 1, p =>
    if p.tokens.length ≠ 0 then do
      let (treeStack, stateStack, dfa) ←
        reduceLoop CFG p.tokens fuel p.treeStack p.stateStack p.dfa
      let o ← shift p.tokens treeStack stateStack dfa
      match o.thrown with
      | some what => throw (.runtime what)
      | none => parseLoop CFG fuel n ⟨o.tokens, o.trees, o.states, dfa⟩
    else pure p

/-- The second `try` block of `generateCode`: the final reduction by rule 0 and
the semantic analysis of `treeStack[0]->getChild("procedures")`. Returns the
tree stack, the analysed `procedures` node and the procedure table. -/
def analyse (CFG : List Rule) (treeStack : List Treenode) :
    Except Err (List Treenode × Treenode × ProcedureTable) := do
  let r ← at? CFG 0
  let treeStack ← reduceTrees treeStack r
  let root ← at? treeStack 0
  let procedures ← deref (root.getChild "procedures")
  let (procedures, pt) ← collectProcedures procedures ⟨[]⟩
  pure (treeStack, procedures, pt)

/-- The third `try` block of `generateCode`: the header lines and the code of
every procedure. -/
def emitProgram (fuel : Nat) (procedures : Treenode) (rand : List Nat) :
    Except Err CodegenState :=
  let s := (CodegenState.init rand).emit
    [".import print", ".import init", ".import new", ".import delete"]
  let s := s.emit (Lis 4 ++ Word 4 ++ Beq 0 0 "main")
  generateProceduresLoop fuel fuel (some procedures) s

/-- What a call of `generateCode` leaves behind: the value returned, the lines
written to `std::cout` and the lines written to `std::cerr`. When code
generation itself throws, the lines it had written before are not tracked:
`out` is `none` then. -/
structure Run where
  status : Int
  out : Option (List String)
  err : List String
deriving DecidableEq, Repr

/-- Function `generateCode`. The constants `WLP4_CFG`, `WLP4_TRANSITIONS` and
`WLP4_REDUCTIONS` are defined outside the sources at hand and are parameters
here; `rand` lists the values `rand()` returns, `fuel` bounds every loop. -/
def generateCode (WLP4_CFG WLP4_TRANSITIONS WLP4_REDUCTIONS : String) (rand : List Nat)
    (fuel : Nat) (testVecToken : List Token) : Except Err Run := do
  let CFG := getRules WLP4_CFG WLP4_CFG
  let dfa ← buildDFA WLP4_TRANSITIONS WLP4_REDUCTIONS
  let tokens := convertInput testVecToken
  match parseLoop CFG fuel fuel ⟨tokens, [], [0], dfa⟩ with
  | .error (.runtime what) => pure ⟨1, some [], ["ERROR in setup: " ++ what]⟩
  | .error e => throw e
  | .ok p =>
    match analyse CFG p.treeStack with
    | .error (.runtime what) => pure ⟨1, some [], ["ERROR in processing: " ++ what]⟩
    | .error e => throw e
    | .ok (_, procedures, _) =>
      match emitProgram fuel procedures rand with
      | .error (.runtime what) => pure ⟨1, none, ["ERROR in code generation: " ++ what]⟩
      | .error e => throw e
      | .ok s => pure ⟨0, some s.out, []⟩

/-! ## Vocabulary of the statements -/

/-- The node `t` with its children replaced by `cs`. -/
def Treenode.withChildren : Treenode → List Treenode → Treenode
  | .mk t r k ty _, cs => .mk t r k ty cs

/-- A leaf as `shift` builds it: a terminal node without children. -/
def Treenode.IsLeaf (t : Treenode) : Prop :=
  t.terminal = true ∧ t.children = []

mutual
/-- The node itself followed by all its descendants, in preorder. -/
def Treenode.subtrees : Treenode → List Treenode
  | .mk t r k ty cs => .mk t r k ty cs :: subtreesList cs
/-- The subtrees of every tree of a list. -/
def subtreesList : List Treenode → List Treenode
  | [] => []
  | c :: cs => c.subtrees ++ subtreesList cs
end

/-- Grammar shape of an argument list: `IsArglist al args` when `al` is a tree
of `arglist → expr` or `arglist → expr COMMA arglist` whose argument
expressions, left to right, are `args`. -/
inductive IsArglist : Treenode → List Treenode → Prop where
  | single (al e : Treenode) (hterm : al.terminal = false)
      (hrule : al.NTrule = ⟨"arglist", ["expr"]⟩) (hcs : al.children = [e])
      (heterm : e.terminal = false) (helhs : e.NTrule.lhs = "expr") : IsArglist al [e]
  | cons (al e comma rest : Treenode) (args : List Treenode) (hterm : al.terminal = false)
      (hrule : al.NTrule = ⟨"arglist", ["expr", "COMMA", "arglist"]⟩)
      (hcs : al.children = [e, comma, rest]) (heterm : e.terminal = false)
      (helhs : e.NTrule.lhs = "expr") (hcomma : comma.IsLeaf)
      (hrest : IsArglist rest args) : IsArglist al (e :: args)

/-- A node that is neither a `statement` nor a `test` node: what the subtrees of
an expression or lvalue are made of. -/
def Treenode.NotStatementOrTest (n : Treenode) : Prop :=
  n.terminal = true ∨ (n.NTrule.lhs ≠ "statement" ∧ n.NTrule.lhs ≠ "test")

/-- A call factor: a tree of `factor → ID LPAREN RPAREN` or of
`factor → ID LPAREN arglist RPAREN`. -/
def Treenode.IsCall (n : Treenode) : Prop :=
  n.terminal = false ∧
    (n.NTrule = ⟨"factor", ["ID", "LPAREN", "RPAREN"]⟩ ∨
      n.NTrule = ⟨"factor", ["ID", "LPAREN", "arglist", "RPAREN"]⟩)

/-- Grammar shape of a declaration: `IsDcl d v` when `d` is a tree of
`dcl → type ID` that declares the variable `v`: the identifier leaf carries
`v.name` in a token of kind `ID`, and the `type` node has one child
(`type → INT`) for `v.type = "int"` and two (`type → INT STAR`) for
`v.type = "int*"`. -/
def IsDcl (d : Treenode) (v : Variable) : Prop :=
  d.terminal = false ∧ d.NTrule = ⟨"dcl", ["type", "ID"]⟩ ∧
    ∃ ty id, d.children = [ty, id] ∧ id.Ttoken.value = v.name ∧
      ((ty.children.length = 1 ∧ v.type = "int") ∨
        (ty.children.length = 2 ∧ v.type = "int*")) ∧
      ty.terminal = false ∧ ty.NTrule.lhs = "type" ∧ id.terminal = true ∧
      id.Ttoken.type = "ID"

/-- One local declaration `type ID BECOMES init SEMI` of a declaration list: its
`dcl` node, the variable it declares, the kind of its initialiser, `NUM` or
`NULL`, and the lexeme of the initialiser. -/
structure LocalDcl where
  dcl : Treenode
  var : Variable
  init : String
  lexeme : String

/-- The declaration initialises an `int` with `NULL` or an `int*` with a number. -/
def LocalDcl.Mismatch (ld : LocalDcl) : Prop :=
  (ld.var.type = "int" ∧ ld.init = "NULL") ∨ (ld.var.type = "int*" ∧ ld.init = "NUM")

/-- Whether a declaration mismatches is decidable. -/
instance LocalDcl.instDecidableMismatch (ld : LocalDcl) : Decidable ld.Mismatch :=
  inferInstanceAs (Decidable (_ ∨ _))

/-- Grammar shape of a local declaration list: `IsDcls t chain` when `t` is a tree
of `dcls →` (then `chain = []`) or of `dcls → dcls dcl BECOMES init SEMI`. The
rule is left recursive, so the root holds the last declaration of the source:
`chain` lists the declarations from the root inwards, that is in reverse source
order. -/
inductive IsDcls : Treenode → List LocalDcl → Prop where
  | nil (t : Treenode) (hterm : t.terminal = false) (hrule : t.NTrule = ⟨"dcls", []⟩)
      (hcs : t.children = []) : IsDcls t []
  | cons (t rest b v s : Treenode) (ld : LocalDcl) (chain : List LocalDcl)
      (hterm : t.terminal = false)
      (hrule : t.NTrule = ⟨"dcls", ["dcls", "dcl", "BECOMES", ld.init, "SEMI"]⟩)
      (hinit : ld.init = "NUM" ∨ ld.init = "NULL")
      (hcs : t.children = [rest, ld.dcl, b, v, s]) (hdcl : IsDcl ld.dcl ld.var)
      (hb : b.terminal = true ∧ b.Ttoken.type = "BECOMES")
      (hv : v.terminal = true ∧ v.Ttoken = ⟨ld.init, ld.lexeme⟩)
      (hs : s.terminal = true ∧ s.Ttoken.type = "SEMI")
      (hrest : IsDcls rest chain) : IsDcls t (ld :: chain)

/-- The content of a symbol table that holds the variables `vs`, each under its
name. -/
def entries (vs : List Variable) : List (String × Variable) :=
  vs.map fun v => (v.name, v)

/-- Grammar shape of a non-empty parameter list: `IsParamlist t ds` when `t` is a
tree of `paramlist → dcl` or `paramlist → dcl COMMA paramlist` whose declaration
nodes, left to right, are `ds`. -/
inductive IsParamlist : Treenode → List Treenode → Prop where
  | single (t d : Treenode) (hterm : t.terminal = false)
      (hrule : t.NTrule = ⟨"paramlist", ["dcl"]⟩) (hcs : t.children = [d])
      (hdterm : d.terminal = false) (hdrule : d.NTrule = ⟨"dcl", ["type", "ID"]⟩) :
      IsParamlist t [d]
  | cons (t d comma rest : Treenode) (ds : List Treenode) (hterm : t.terminal = false)
      (hrule : t.NTrule = ⟨"paramlist", ["dcl", "COMMA", "paramlist"]⟩)
      (hcs : t.children = [d, comma, rest]) (hdterm : d.terminal = false)
      (hdrule : d.NTrule = ⟨"dcl", ["type", "ID"]⟩) (hcomma : comma.IsLeaf)
      (hct : comma.Ttoken.type = "COMMA")
      (hrest : IsParamlist rest ds) : IsParamlist t (d :: ds)

/-- Grammar shape of the parameters of a procedure: `IsParams t ds` when `t` is a
tree of `params →` (then `ds = []`) or of `params → paramlist` with the
declaration nodes `ds`, left to right. -/
def IsParams (t : Treenode) (ds : List Treenode) : Prop :=
  t.terminal = false ∧
    ((t.NTrule = ⟨"params", []⟩ ∧ t.children = [] ∧ ds = []) ∨
      (t.NTrule = ⟨"params", ["paramlist"]⟩ ∧ ∃ pl, t.children = [pl] ∧ IsParamlist pl ds))

/-- The parameter declarations the `Procedure` constructor takes from a node:
for a `procedure` node what `getDeclarations` harvests from its `params` child;
for the `main` node its first and second `dcl` children, the second one
declaring an `int`. -/
def ParamsOf (tree : Treenode) (ps : List Treenode) : Prop :=
  (tree.NTrule.lhs = "procedure" ∧
      ∃ pn, tree.getChild "params" 1 = some pn ∧ getDeclarations pn = .ok ps) ∨
    (tree.NTrule.lhs = "main" ∧
      ∃ d1 d2 v2, ps = [d1, d2] ∧ tree.getChild "dcl" 1 = some d1 ∧
        tree.getChild "dcl" 2 = some d2 ∧ IsDcl d2 v2 ∧ v2.type = "int")

/-- Grammar shape of an additive expression: `IsAdditive tree o e op t` when
`tree` is a tree of `expr → expr o term` with `o` one of `PLUS` and `MINUS`, whose
children are the expression `e`, the operator leaf `op` and the term `t`. -/
def IsAdditive (tree : Treenode) (o : String) (e op t : Treenode) : Prop :=
  tree.terminal = false ∧ tree.NTrule = ⟨"expr", ["expr", o, "term"]⟩ ∧
    (o = "PLUS" ∨ o = "MINUS") ∧ tree.children = [e, op, t] ∧
    e.terminal = false ∧ e.NTrule.lhs = "expr" ∧ op.terminal = true ∧ op.Ttoken.type = o ∧
    t.terminal = false ∧ t.NTrule.lhs = "term"

/-- The parameter declaration nodes the code generator reads from a procedure
node, left to right: for a `procedure` node those of its `params` child; for the
`main` node its first and second `dcl` children. -/
def FrameParams (tree : Treenode) (ds : List Treenode) : Prop :=
  (tree.NTrule.lhs = "procedure" ∧ ∃ pn, tree.getChild "params" = some pn ∧ IsParams pn ds) ∨
    (tree.NTrule.lhs = "main" ∧
      ∃ d1 d2, ds = [d1, d2] ∧ tree.getChild "dcl" 1 = some d1 ∧
        tree.getChild "dcl" 2 = some d2)

/-- The table that gives the names `names`, in this order, the offsets `start`,
`start - 4`, `start - 8`, and so on: one cell less at each step. -/
def offsetsFrom : Int → List String → List (String × Int)
  | _, [] => []
  | start, x :: xs => (x, start) :: offsetsFrom (start - 4) xs

mutual
/-- The tree with the type tag of every node removed. -/
def Treenode.eraseTypes : Treenode → Treenode
  | .mk t r k _ cs => .mk t r k "" (eraseTypesList cs)
/-- The trees of a list with their type tags removed. -/
def eraseTypesList : List Treenode → List Treenode
  | [] => []
  | c :: cs => c.eraseTypes :: eraseTypesList cs
end

/-- A tree as the parser builds it: no node carries a type. -/
def Treenode.Untyped (t : Treenode) : Prop :=
  ∀ n ∈ t.subtrees, n.type = ""

/-- A node of one of the expression-producing nonterminals `expr`, `term`,
`factor` and `lvalue`. -/
def Treenode.IsExpression (n : Treenode) : Prop :=
  n.terminal = false ∧ n.NTrule.lhs ∈ ["expr", "term", "factor", "lvalue"]

/-- The first `try` block of `generateCode`: the parse of the tokens with the
rules of `WLP4_CFG` and the table `dfa`, from the state stack `[0]`. -/
def parseTokens (WLP4_CFG : String) (dfa : SLR1DFA) (fuel : Nat) (testVecToken : List Token) :
    Except Err ParseState :=
  parseLoop (getRules WLP4_CFG WLP4_CFG) fuel fuel ⟨convertInput testVecToken, [], [0], dfa⟩

mutual
/-- The tokens of the terminal nodes of a tree, read left to right. -/
def Treenode.leaves : Treenode → List Token
  | .mk terminal _ k _ cs => if terminal then [k] else leavesList cs
/-- The tokens of the terminal nodes of the trees of a list, read left to
right. -/
def leavesList : List Treenode → List Token
  | [] => []
  | c :: cs => c.leaves ++ leavesList cs
end

/-- The state stack is one entry longer than the tree stack. -/
def ParseState.Aligned (p : ParseState) : Prop :=
  p.stateStack.length = p.treeStack.length + 1

/-- The register file of the MIPS machine the emitted code runs on: the word
each register holds, as a natural number read modulo `2^32`. -/
def Registers : Type := Int → Nat

/-- The register file with the word `v` written to register `d`; register 0
always reads as 0 and is never written. -/
def Registers.write (regs : Registers) (d : Int) (v : Nat) : Registers :=
  fun r => if r = d ∧ d ≠ 0 then v else regs r

/-- The two's-complement value of a 32-bit word. -/
def toSigned (w : Nat) : Int :=
  if w % 2 ^ 32 < 2 ^ 31 then ((w % 2 ^ 32 : Nat) : Int) else ((w % 2 ^ 32 : Nat) : Int) - 2 ^ 32

/-- The unsigned value of a 32-bit word. -/
def toUnsigned (w : Nat) : Int := ((w % 2 ^ 32 : Nat) : Int)

/-- The instructions of the ordering tests: `slt`, `sltu`, and `lis` together
with the `.word` that follows it. -/
inductive Instr where
  | slt (d s t : Int)
  | sltu (d s t : Int)
  | lisWord (d : Int) (i : Int)
  deriving DecidableEq, Repr

/-- The lines the emitters of the code generator write for an instruction. -/
def Instr.text : Instr → List String
  | .slt d s t => Slt d s t
  | .sltu d s t => Sltu d s t
  | .lisWord d i => Lis d ++ Word i

/-- Effect of an instruction on the registers, after the MIPS reference:
`slt $d, $s, $t` sets `$d` to 1 when `$s < $t` as two's-complement numbers and
to 0 otherwise; `sltu` does the same with the words read as unsigned numbers;
`lis $d` followed by `.word i` sets `$d` to the word `i`. -/
def Instr.exec : Instr → Registers → Registers
  | .slt d s t, regs => regs.write d (if toSigned (regs s) < toSigned (regs t) then 1 else 0)
  | .sltu d s t, regs =>
    regs.write d (if toUnsigned (regs s) < toUnsigned (regs t) then 1 else 0)
  | .lisWord d i, regs => regs.write d (i % 2 ^ 32).toNat

/-- Effect of a straight-line sequence of instructions. -/
def execAll : List Instr → Registers → Registers
  | [], regs => regs
  | i :: rest, regs => execAll rest (i.exec regs)

/-- The lines of a sequence of instructions. -/
def textAll : List Instr → List String
  | [] => []
  | i :: rest => i.text ++ textAll rest

/-- The ordering an ordering operator of WLP4 stands for. -/
def ordering (op : String) (a b : Int) : Prop :=
  if op = "LT" then a < b
  else if op = "LE" then a ≤ b
  else if op = "GE" then a ≥ b
  else if op = "GT" then a > b
  else False

/-- Whether an ordering holds is decidable. -/
instance ordering.instDecidable (op : String) (a b : Int) : Decidable (ordering op a b) := by
  unfold ordering
  exact inferInstance

/-- The line by which `push` moves the stack pointer down. -/
def pushLine : String := "sub $30, $30, $4"

/-- The line by which `pop` moves the stack pointer up. -/
def popLine : String := "add $30, $30, $4"

/-- The pushes of a piece of code less its pops. -/
def netPushes (code : List String) : Int :=
  (code.count pushLine : Int) - (code.count popLine : Int)

/-- The state `s'` comes from `s` by code generation that looks up only names
that satisfy `Q`: the output has grown by code with `k` more pushes than pops,
and the name-to-label table is the same when it has an entry for every name
that satisfies `Q`. -/
def Extends (Q : String → Prop) (k : Int) (s s' : CodegenState) : Prop :=
  (∃ code, s'.out = s.out ++ code ∧ netPushes code = k) ∧
  ((∀ name, Q name → mapContains s.functionlabel_map name = true) →
    s'.functionlabel_map = s.functionlabel_map)

/-- Grammar shape of the arguments of a call: `IsArguments al args` when `al` is
a tree of `arglist → expr` or `arglist → expr COMMA arglist` whose argument
expressions, left to right, are `args`, the separators being `COMMA` leaves. -/
inductive IsArguments : Treenode → List Treenode → Prop where
  | single (al e : Treenode) (hterm : al.terminal = false)
      (hrule : al.NTrule = ⟨"arglist", ["expr"]⟩) (hcs : al.children = [e])
      (heterm : e.terminal = false) (helhs : e.NTrule.lhs = "expr") : IsArguments al [e]
  | cons (al e comma rest : Treenode) (args : List Treenode) (hterm : al.terminal = false)
      (hrule : al.NTrule = ⟨"arglist", ["expr", "COMMA", "arglist"]⟩)
      (hcs : al.children = [e, comma, rest]) (heterm : e.terminal = false)
      (helhs : e.NTrule.lhs = "expr") (hcomma : comma.terminal = true)
      (hct : comma.Ttoken.type = "COMMA") (hrest : IsArguments rest args) :
      IsArguments al (e :: args)

/-- The code of the arguments of a call, as the statement describes it: for each
argument, left to right, the code of the argument followed by `push 3`. Returns
the code of each argument, that is what its evaluation appended to the output,
and the state after the last push. -/
def argCodes (fuel : Nat) (offsetTable : List (String × Int)) :
    List Treenode → CodegenState → Except Err (List (List String) × CodegenState)
  | [], s => pure ([], s)
  | e :: rest, s => do
    let s1 ← generateCodeOther fuel e offsetTable s
    let r ← argCodes fuel offsetTable rest (s1.emit (push 3))
    pure (s1.out.drop s.out.length :: r.1, r.2)

/-- Grammar shape of a program: `IsProcedures t procs` when `t` is a tree of
`procedures → main` (then `procs` is the `main` node alone) or of
`procedures → procedure procedures`; `procs` lists the `procedure` nodes in
source order, followed by the `main` node. -/
inductive IsProcedures : Treenode → List Treenode → Prop where
  | main (t m : Treenode) (hterm : t.terminal = false)
      (hrule : t.NTrule = ⟨"procedures", ["main"]⟩) (hcs : t.children = [m])
      (hmterm : m.terminal = false) (hmlhs : m.NTrule.lhs = "main") : IsProcedures t [m]
  | cons (t p rest : Treenode) (ps : List Treenode) (hterm : t.terminal = false)
      (hrule : t.NTrule = ⟨"procedures", ["procedure", "procedures"]⟩)
      (hcs : t.children = [p, rest]) (hpterm : p.terminal = false)
      (hplhs : p.NTrule.lhs = "procedure") (hrest : IsProcedures rest ps) :
      IsProcedures t (p :: ps)

/-- The procedures `procs`, as they are after semantic analysis, were collected
one after the other from the procedure table `pt`, leaving `pt'`: each one was
registered under the lexeme of its second child, then annotated with the table
that holds it and with its own symbol table. -/
inductive Collected : ProcedureTable → List Treenode → ProcedureTable → Prop where
  | nil (pt : ProcedureTable) : Collected pt [] pt
  | cons (pt pt1 pt' : ProcedureTable) (p : Treenode) (ps : List Treenode) (proc : Procedure)
      (hname : childValue p 1 = .ok proc.name) (hadd : pt.add proc = .ok pt1)
      (hann : p.annotateTypes pt1 proc.symbolTable = .ok p)
      (hrest : Collected pt1 ps pt') : Collected pt (p :: ps) pt'

/-- The result is not a thrown `std::runtime_error`. -/
def NoRuntime {α : Type} (x : Except Err α) : Prop :=
  ∀ msg, x ≠ .error (.runtime msg)

/-- Grammar shape of an `expr` node: a tree of `expr → term` or of
`expr → expr PLUS term` or `expr → expr MINUS term`. -/
def Treenode.IsExprNode (n : Treenode) : Prop :=
  (n.NTrule = ⟨"expr", ["term"]⟩ ∧ ∃ t, n.children = [t] ∧ t.terminal = false ∧
      t.NTrule.lhs = "term") ∨
    ∃ o e op t, IsAdditive n o e op t

/-- What the `expr` branch of `generateCodeOther` needs of an `expr` node to
throw no `std::runtime_error` of its own: a `term` child when the rule has a
single symbol, and otherwise operand types and an operator that the additive
lowering accepts. -/
def Treenode.ExprSafe (n : Treenode) : Prop :=
  (¬ n.NTrule.rhs.length > 1 → (n.getChild "term").isSome = true) ∧
  (n.NTrule.rhs.length > 1 → ∀ e t, n.getChild "expr" = some e → n.getChild "term" = some t →
    ∀ s, NoRuntime (combineAdditive e.type t.type
      (if (n.getChild "PLUS").isSome then n.getChild "PLUS" else n.getChild "MINUS") s))

/-- The loop `while (procedures)` of `generateCode`, started on `procedures` in
the state `s`, comes to generate the procedure `p` in the state `sp`: `p` is
the procedure of the first round, or the first round returns and the rest of
the loop comes to `p`. -/
inductive Reaches (codeFuel : Nat) :
    Option Treenode → CodegenState → Treenode → CodegenState → Prop where
  | here (procedures p : Treenode) (s : CodegenState)
      (hp : (if (procedures.getChild "procedure").isSome then procedures.getChild "procedure"
        else procedures.getChild "main") = some p) : Reaches codeFuel (some procedures) s p s
  | next (procedures p q : Treenode) (s s1 sq : CodegenState)
      (hp : (if (procedures.getChild "procedure").isSome then procedures.getChild "procedure"
        else procedures.getChild "main") = some p)
      (hgen : generateCodeProcedures codeFuel p s = .ok s1)
      (hrest : Reaches codeFuel (procedures.getChild "procedures") s1 q sq) :
      Reaches codeFuel (some procedures) s q sq

/-- Whether a node is a call factor can be computed. -/
instance Treenode.IsCall.instDecidable (n : Treenode) : Decidable n.IsCall :=
  inferInstanceAs (Decidable (n.terminal = false ∧
    (n.NTrule = ⟨"factor", ["ID", "LPAREN", "RPAREN"]⟩ ∨
      n.NTrule = ⟨"factor", ["ID", "LPAREN", "arglist", "RPAREN"]⟩)))

/-- The call `n` of the procedure `p` is resolved: `CallResolved codeFuel program
s p s1 n` when, the loop of `generateCode` having started on `program` in the
state `s` and the prologue of `p` having left the state `s1`,
* the call has an `ID` child, and the name-to-label table of `s1` has an entry
  for its lexeme, with a label `l` that is not empty;
* `l` is the label written at the entry of the callee: the loop comes to an
  ordinary procedure `q` of that name, whose prologue writes `l` followed by a
  colon as its first line, and what that prologue has written is already in
  the output of `s1`;
* generating code for any part of `p` from a state with the table of `s1`
  leaves the table as it is;
* in any state with that table the lookup of the callee returns `l` and
  changes nothing;
* the code of the call, generated from any state with that table, contains
  `lis $31`, `.word l`, `jalr $31`. -/
def CallResolved (codeFuel : Nat) (program : Treenode) (s : CodegenState) (p : Treenode)
    (s1 : CodegenState) (n : Treenode) : Prop :=
  ∃ id l, n.getChild "ID" = some id ∧ l ≠ "" ∧
    s1.functionlabel_map.lookup id.Ttoken.value = some l ∧
    (∃ q sq offsetTable localVarCount sq1 rest later,
      Reaches codeFuel (some program) s q sq ∧ q.NTrule.lhs = "procedure" ∧
      childValue q 1 = .ok id.Ttoken.value ∧
      procedurePrologue codeFuel q sq = .ok (offsetTable, localVarCount, sq1) ∧
      sq1.out = sq.out ++ (l ++ ":") :: rest ∧ s1.out = sq1.out ++ later) ∧
    (∀ x ∈ p.subtrees, ∀ fuel offsetTable st st',
      st.functionlabel_map = s1.functionlabel_map →
      generateCodeOther fuel x offsetTable st = .ok st' →
      st'.functionlabel_map = s1.functionlabel_map) ∧
    (∀ st : CodegenState, st.functionlabel_map = s1.functionlabel_map →
      labelAt st id.Ttoken.value = (l, st)) ∧
    (∀ fuel offsetTable st st', st.functionlabel_map = s1.functionlabel_map →
      generateCodeOther fuel n offsetTable st = .ok st' →
      ∃ pre post, st'.out = st.out ++ pre ++ ["lis $31", ".word " ++ l, "jalr $31"] ++ post)

/-- A test for `Treenode.IsExprNode` that can be evaluated. -/
def Treenode.exprNodeCheck (n : Treenode) : Bool :=
  match n.children with
  | [t] => decide (n.NTrule = ⟨"expr", ["term"]⟩) && !t.terminal && decide (t.NTrule.lhs = "term")
  | [e, op, t] =>
    !n.terminal && decide (n.NTrule = ⟨"expr", ["expr", op.Ttoken.type, "term"]⟩) &&
      (decide (op.Ttoken.type = "PLUS") || decide (op.Ttoken.type = "MINUS")) &&
      !e.terminal && decide (e.NTrule.lhs = "expr") && op.terminal &&
      !t.terminal && decide (t.NTrule.lhs = "term")
  | _ => false

/-! ## Sample trees

Trees as the parser builds them: `leaf` is what `shift` pushes, `node` what
`reduceTrees` pushes. -/

/-- Leaf for a token of kind `kind` with lexeme `lexeme`. -/
def leaf (kind lexeme : String) : Treenode := Treenode.ofToken ⟨kind, lexeme⟩

/-- Interior node for the rule `lhs → rhs` with children `cs`. -/
def node (lhs : String) (rhs : List String) (cs : List Treenode) : Treenode :=
  .mk false ⟨lhs, rhs⟩ ⟨"", ""⟩ "" cs

/-- Tree of `factor → ID`. -/
def factorId (x : String) : Treenode := node "factor" ["ID"] [leaf "ID" x]

/-- Tree of `factor → NUM`. -/
def factorNum (n : String) : Treenode := node "factor" ["NUM"] [leaf "NUM" n]

/-- Tree of `factor → NULL`. -/
def factorNull : Treenode := node "factor" ["NULL"] [leaf "NULL" "NULL"]

/-- Tree of `term → factor`. -/
def termOf (f : Treenode) : Treenode := node "term" ["factor"] [f]

/-- Tree of `expr → term` over `term → factor`. -/
def exprOf (f : Treenode) : Treenode := node "expr" ["term"] [termOf f]

/-- Tree of `lvalue → ID`. -/
def lvalueId (x : String) : Treenode := node "lvalue" ["ID"] [leaf "ID" x]

/-- Tree of `factor → ID LPAREN RPAREN`, the call `f()`. -/
def call0 (f : String) : Treenode :=
  node "factor" ["ID", "LPAREN", "RPAREN"] [leaf "ID" f, leaf "LPAREN" "(", leaf "RPAREN" ")"]

/-- Tree of `arglist → expr`. -/
def arglist1 (e : Treenode) : Treenode := node "arglist" ["expr"] [e]

/-- Tree of `arglist → expr COMMA arglist`. -/
def arglistCons (e rest : Treenode) : Treenode :=
  node "arglist" ["expr", "COMMA", "arglist"] [e, leaf "COMMA" ",", rest]

/-- Tree of `factor → ID LPAREN arglist RPAREN`, the call `f(args)`. -/
def callArgs (f : String) (args : Treenode) : Treenode :=
  node "factor" ["ID", "LPAREN", "arglist", "RPAREN"]
    [leaf "ID" f, leaf "LPAREN" "(", args, leaf "RPAREN" ")"]

/-- Tree of `dcl → type ID` with `type → INT`. -/
def dclInt (x : String) : Treenode :=
  node "dcl" ["type", "ID"] [node "type" ["INT"] [leaf "INT" "int"], leaf "ID" x]

/-- Tree of `dcl → type ID` with `type → INT STAR`. -/
def dclPtr (x : String) : Treenode :=
  node "dcl" ["type", "ID"]
    [node "type" ["INT", "STAR"] [leaf "INT" "int", leaf "STAR" "*"], leaf "ID" x]

/-- Tree of a procedure `int name(params) { dcls statements return e; }`. -/
def procedureTree (name : String) (params dcls statements e : Treenode) : Treenode :=
  node "procedure"
    ["INT", "ID", "LPAREN", "params", "RPAREN", "LBRACE", "dcls", "statements", "RETURN",
      "expr", "SEMI", "RBRACE"]
    [leaf "INT" "int", leaf "ID" name, leaf "LPAREN" "(", params, leaf "RPAREN" ")",
      leaf "LBRACE" "\x7b", dcls, statements, leaf "RETURN" "return", e, leaf "SEMI" ";",
      leaf "RBRACE" "\x7d"]

/-- Tree of the entry procedure `int wain(d1, d2) { dcls statements return e; }`. -/
def mainTree (d1 d2 dcls statements e : Treenode) : Treenode :=
  node "main"
    ["INT", "WAIN", "LPAREN", "dcl", "COMMA", "dcl", "RPAREN", "LBRACE", "dcls",
      "statements", "RETURN", "expr", "SEMI", "RBRACE"]
    [leaf "INT" "int", leaf "WAIN" "wain", leaf "LPAREN" "(", d1, leaf "COMMA" ",", d2,
      leaf "RPAREN" ")", leaf "LBRACE" "\x7b", dcls, statements, leaf "RETURN" "return", e,
      leaf "SEMI" ";", leaf "RBRACE" "\x7d"]

/-- Tree of `params →` (no parameters). -/
def noParams : Treenode := node "params" [] []

/-- Tree of `dcls →` (no local declarations). -/
def noDcls : Treenode := node "dcls" [] []

/-- Tree of `statements →` (no statements). -/
def noStatements : Treenode := node "statements" [] []

/-- Tree of `procedures → procedure procedures`. -/
def proceduresCons (p rest : Treenode) : Treenode :=
  node "procedures" ["procedure", "procedures"] [p, rest]

/-- Tree of `procedures → main`. -/
def proceduresMain (m : Treenode) : Treenode := node "procedures" ["main"] [m]

/-- Entry procedure `int wain(int a, int b) { return 0; }`. -/
def wainReturn0 : Treenode :=
  mainTree (dclInt "a") (dclInt "b") noDcls noStatements (exprOf (factorNum "0"))

/-- Program `int f() { return g(); }  int g() { return 0; }  int wain(int a, int b) { return 0; }`:
the body of `f` calls `g`, which is declared after it. -/
def forwardCallProgram : Treenode :=
  proceduresCons (procedureTree "f" noParams noDcls noStatements (exprOf (call0 "g")))
    (proceduresCons (procedureTree "g" noParams noDcls noStatements (exprOf (factorNum "0")))
      (proceduresMain wainReturn0))

/-- Program `int g() { return 0; }  int f() { return g(); }  int wain(int a, int b) { return 0; }`:
the same procedures, `g` declared before its caller. -/
def backwardCallProgram : Treenode :=
  proceduresCons (procedureTree "g" noParams noDcls noStatements (exprOf (factorNum "0")))
    (proceduresCons (procedureTree "f" noParams noDcls noStatements (exprOf (call0 "g")))
      (proceduresMain wainReturn0))

/-- Interior node for the rule `lhs → rhs` carrying the type `ty`. -/
def typedNode (lhs : String) (rhs : List String) (ty : String) (cs : List Treenode) :
    Treenode :=
  .mk false ⟨lhs, rhs⟩ ⟨"", ""⟩ ty cs

/-- Annotated tree of `factor → ID` for a variable of type `ty`. -/
def typedFactorId (x ty : String) : Treenode := typedNode "factor" ["ID"] ty [leaf "ID" x]

/-- Annotated tree of `term → factor → ID` for a variable of type `ty`. -/
def typedTermId (x ty : String) : Treenode :=
  typedNode "term" ["factor"] ty [typedFactorId x ty]

/-- Annotated tree of `expr → term → factor → ID` for a variable of type `ty`. -/
def typedExprId (x ty : String) : Treenode :=
  typedNode "expr" ["term"] ty [typedTermId x ty]

/-- Annotated tree of `lvalue → ID` for a variable of type `ty`. -/
def typedLvalueId (x ty : String) : Treenode := typedNode "lvalue" ["ID"] ty [leaf "ID" x]

/-- Symbol table with `int a` and `int* p`. -/
def sampleVars : VariableTable := ⟨[("a", ⟨"a", "int"⟩), ("p", ⟨"p", "int*"⟩)]⟩

/-- Tree of the expression `p + a`. -/
def ptrPlusInt : Treenode :=
  node "expr" ["expr", "PLUS", "term"]
    [exprOf (factorId "p"), leaf "PLUS" "+", termOf (factorId "a")]

/-- Tree of the expression `p - p`. -/
def ptrMinusPtr : Treenode :=
  node "expr" ["expr", "MINUS", "term"]
    [exprOf (factorId "p"), leaf "MINUS" "-", termOf (factorId "p")]

/-- Tree of the term `a * a`. -/
def intTimesInt : Treenode :=
  node "term" ["term", "STAR", "factor"] [termOf (factorId "a"), leaf "STAR" "*", factorId "a"]

/-- Tree of the factor `&a`. -/
def addressOfA : Treenode :=
  node "factor" ["AMP", "lvalue"] [leaf "AMP" "&", lvalueId "a"]

/-- Tree of the argument list `1, 2, 3`. -/
def threeArgs : Treenode :=
  arglistCons (exprOf (factorNum "1"))
    (arglistCons (exprOf (factorNum "2")) (arglist1 (exprOf (factorNum "3"))))

/-- Procedure table holding one procedure `f` with the signature `(int, int)`. -/
def tableWithF : ProcedureTable :=
  ⟨[("f", ⟨"f", ["int", "int"],
      ⟨[("x", ⟨"x", "int"⟩), ("y", ⟨"y", "int"⟩)]⟩⟩)]⟩

/-- Procedure table holding one procedure `a` without parameters. -/
def tableWithA : ProcedureTable := ⟨[("a", ⟨"a", [], ⟨[]⟩⟩)]⟩

/-- Annotated tree of the statement `a = a;` with `int a`. -/
def assignIntInt : Treenode :=
  node "statement" ["lvalue", "BECOMES", "expr", "SEMI"]
    [typedLvalueId "a" "int", leaf "BECOMES" "=", typedExprId "a" "int", leaf "SEMI" ";"]

/-- Annotated tree of the test `p < p` with `int* p`. -/
def testPtrPtr : Treenode :=
  node "test" ["expr", "LT", "expr"]
    [typedExprId "p" "int*", leaf "LT" "<", typedExprId "p" "int*"]

/-- Procedure table holding one procedure `g` without parameters. -/
def tableWithG : ProcedureTable := ⟨[("g", ⟨"g", [], ⟨[]⟩⟩)]⟩

/-- Tree of the procedure `int f() { return g(); }`. -/
def procFCallsG : Treenode :=
  procedureTree "f" noParams noDcls noStatements (exprOf (call0 "g"))

/-- Annotated tree of the procedure `int f() { return g(); }`. -/
def procFCallsGTyped : Treenode :=
  procedureTree "f" noParams noDcls noStatements
    (typedNode "expr" ["term"] "int"
      [typedNode "term" ["factor"] "int"
        [typedNode "factor" ["ID", "LPAREN", "RPAREN"] "int"
          [leaf "ID" "g", leaf "LPAREN" "(", leaf "RPAREN" ")"]]])

/-- Annotated tree of the expression `NULL`. -/
def typedExprNull : Treenode :=
  typedNode "expr" ["term"] "int*"
    [typedNode "term" ["factor"] "int*" [typedNode "factor" ["NULL"] "int*" [leaf "NULL" "NULL"]]]

/-- Tree of the procedure `int f() { return NULL; }`. -/
def procReturnsNull : Treenode :=
  procedureTree "f" noParams noDcls noStatements (exprOf factorNull)

/-- Annotated tree of the procedure `int f() { return NULL; }`. -/
def procReturnsNullTyped : Treenode :=
  procedureTree "f" noParams noDcls noStatements typedExprNull

/-- Tree of `dcls → dcls dcl BECOMES NUM SEMI`. -/
def dclsNum (rest d : Treenode) (n : String) : Treenode :=
  node "dcls" ["dcls", "dcl", "BECOMES", "NUM", "SEMI"]
    [rest, d, leaf "BECOMES" "=", leaf "NUM" n, leaf "SEMI" ";"]

/-- Tree of `dcls → dcls dcl BECOMES NULL SEMI`. -/
def dclsNull (rest d : Treenode) : Treenode :=
  node "dcls" ["dcls", "dcl", "BECOMES", "NULL", "SEMI"]
    [rest, d, leaf "BECOMES" "=", leaf "NULL" "NULL", leaf "SEMI" ";"]

/-- Tree of the local declarations `int x = 5; int* q = NULL;`. -/
def dclsXQ : Treenode := dclsNull (dclsNum noDcls (dclInt "x") "5") (dclPtr "q")

/-- The chain of `dclsXQ`, from the root inwards: `int* q = NULL`, then `int x = 5`. -/
def chainXQ : List LocalDcl :=
  [⟨dclPtr "q", ⟨"q", "int*"⟩, "NULL", "NULL"⟩, ⟨dclInt "x", ⟨"x", "int"⟩, "NUM", "5"⟩]

/-- Tree of `paramlist → dcl`. -/
def paramlist1 (d : Treenode) : Treenode := node "paramlist" ["dcl"] [d]

/-- Tree of `paramlist → dcl COMMA paramlist`. -/
def paramlistCons (d rest : Treenode) : Treenode :=
  node "paramlist" ["dcl", "COMMA", "paramlist"] [d, leaf "COMMA" ",", rest]

/-- Tree of `params → paramlist`. -/
def paramsOf (pl : Treenode) : Treenode := node "params" ["paramlist"] [pl]

/-- Tree of the procedure `int g(int* u, int w) { int x = 5; int* q = NULL; return 0; }`. -/
def procWithLocals : Treenode :=
  procedureTree "g" (paramsOf (paramlistCons (dclPtr "u") (paramlist1 (dclInt "w")))) dclsXQ
    noStatements (exprOf (factorNum "0"))

/-- Tree of the entry procedure `int wain(int* a, int b) { int x = 5; int* q = NULL; return 0; }`. -/
def wainWithLocals : Treenode :=
  mainTree (dclPtr "a") (dclInt "b") dclsXQ noStatements (exprOf (factorNum "0"))

/-- Annotated tree of the expression `p + a` with `int* p` and `int a`. -/
def ptrPlusIntTyped : Treenode :=
  typedNode "expr" ["expr", "PLUS", "term"] "int*"
    [typedExprId "p" "int*", leaf "PLUS" "+", typedTermId "a" "int"]

/-- Annotated tree of the expression `p - p` with `int* p`. -/
def ptrMinusPtrTyped : Treenode :=
  typedNode "expr" ["expr", "MINUS", "term"] "int"
    [typedExprId "p" "int*", leaf "MINUS" "-", typedTermId "p" "int*"]

/-- Tree of `statements → statements statement`. -/
def statementsCons (rest st : Treenode) : Treenode :=
  node "statements" ["statements", "statement"] [rest, st]

/-- Tree of the statement `delete [] e;`. -/
def deleteStatement (e : Treenode) : Treenode :=
  node "statement" ["DELETE", "LBRACK", "RBRACK", "expr", "SEMI"]
    [leaf "DELETE" "delete", leaf "LBRACK" "[", leaf "RBRACK" "]", e, leaf "SEMI" ";"]

/-- Program
`int f() { int* q = NULL; delete [] q; return 0; }  int nwlrbbmqbh() { return 0; }
 int wain(int a, int b) { return 0; }`. -/
def labelClashProgram : Treenode :=
  proceduresCons
    (procedureTree "f" noParams (dclsNull noDcls (dclPtr "q"))
      (statementsCons noStatements (deleteStatement (exprOf (factorId "q"))))
      (exprOf (factorNum "0")))
    (proceduresCons
      (procedureTree "nwlrbbmqbh" noParams noDcls noStatements (exprOf (factorNum "0")))
      (proceduresMain wainReturn0))

/-- The first twenty values of `rand()` in the GNU C library when `srand` is
never called, as in this program. -/
def unseededRand : List Nat :=
  [1804289383, 846930886, 1681692777, 1714636915, 1957747793, 424238335, 719885386,
   1649760492, 596516649, 1189641421, 1025202362, 1350490027, 783368690, 1102520059,
   2044897763, 1967513926, 1365180540, 1540383426, 304089172, 1303455736]

/-- The code generation loop of `generateCode` run on the procedures of
`labelClashProgram` after semantic analysis, with `unseededRand` for `rand()`. -/
def labelClashRun : Except Err CodegenState :=
  (collectProcedures labelClashProgram ⟨[]⟩).bind fun r =>
    generateProceduresLoop 8 3 (some r.1) (CodegenState.init unseededRand)

/-- Program `int wain(int* a, int b) { return 0; }`. -/
def wainPtrProgram : Treenode :=
  proceduresMain (mainTree (dclPtr "a") (dclInt "b") noDcls noStatements (exprOf (factorNum "0")))

/-- Semantic analysis and then the code generation loop of `generateCode` on a
tree of `procedures`: the signatures recorded and the lines written. -/
def analyseAndGenerate (procedures : Treenode) (rand : List Nat) :
    Except Err (List (String × List String) × List String) :=
  (collectProcedures procedures ⟨[]⟩).bind fun r =>
    (generateProceduresLoop 8 3 (some r.1) (CodegenState.init rand)).map fun st =>
      (r.2.table.map fun e => (e.1, e.2.signature), st.out)

/-- Tree of the factor `new int [e]`. -/
def factorNew (e : Treenode) : Treenode :=
  node "factor" ["NEW", "INT", "LBRACK", "expr", "RBRACK"]
    [leaf "NEW" "new", leaf "INT" "int", leaf "LBRACK" "[", e, leaf "RBRACK" "]"]

/-- The state after the first label has been generated from `unseededRand` and
`lines` have been written. -/
def stateAfterLabel (lines : List String) : CodegenState :=
  ⟨reservedLabels ++ ["nwlrbbmqbh"], [], unseededRand.drop 10, lines⟩

/-- The state after two labels have been generated from `unseededRand` and
`lines` have been written. -/
def stateAfterLabels (lines : List String) : CodegenState :=
  ⟨reservedLabels ++ ["nwlrbbmqbh", "cdarzowkky"], [], [], lines⟩

/-- Annotated tree of the statement `while (p < p) {}` with `int* p`. -/
def whileSample : Treenode :=
  node "statement" ["WHILE", "LPAREN", "test", "RPAREN", "LBRACE", "statements", "RBRACE"]
    [leaf "WHILE" "while", leaf "LPAREN" "(", testPtrPtr, leaf "RPAREN" ")", leaf "LBRACE" "\x7b",
      noStatements, leaf "RBRACE" "\x7d"]

/-- Annotated tree of the statement `if (p < p) { a = a; } else {}` with `int* p`
and `int a`. -/
def ifSample : Treenode :=
  node "statement"
    ["IF", "LPAREN", "test", "RPAREN", "LBRACE", "statements", "RBRACE", "ELSE", "LBRACE",
      "statements", "RBRACE"]
    [leaf "IF" "if", leaf "LPAREN" "(", testPtrPtr, leaf "RPAREN" ")", leaf "LBRACE" "\x7b",
      statementsCons noStatements assignIntInt, leaf "RBRACE" "\x7d", leaf "ELSE" "else",
      leaf "LBRACE" "\x7b", noStatements, leaf "RBRACE" "\x7d"]

/-- A state in which the procedure `f` has the label `f`. -/
def stateWithF : CodegenState := ⟨reservedLabels ++ ["f"], [("f", "f")], [], []⟩

/-- Tree of the call `f()` after type annotation. -/
def typedCall0 (f : String) : Treenode :=
  typedNode "factor" ["ID", "LPAREN", "RPAREN"] "int"
    [leaf "ID" f, leaf "LPAREN" "(", leaf "RPAREN" ")"]

/-- Tree of the expression `1` after type annotation. -/
def typedExprOne : Treenode :=
  typedNode "expr" ["term"] "int"
    [typedNode "term" ["factor"] "int" [typedNode "factor" ["NUM"] "int" [leaf "NUM" "1"]]]

/-- Procedure `int f() { return 1; }`. -/
def procF : Treenode := procedureTree "f" noParams noDcls noStatements (exprOf (factorNum "1"))

/-- Entry procedure `int wain(int a, int b) { return f() + b; }`. -/
def wainCallsF : Treenode :=
  mainTree (dclInt "a") (dclInt "b") noDcls noStatements
    (node "expr" ["expr", "PLUS", "term"]
      [exprOf (call0 "f"), leaf "PLUS" "+", termOf (factorId "b")])

/-- Program `int f() { return 1; }  int wain(int a, int b) { return f() + b; }`. -/
def callProgram : Treenode := proceduresCons procF (proceduresMain wainCallsF)

/-- The procedure `f` of `callProgram` after semantic analysis. -/
def procFTyped : Treenode := procedureTree "f" noParams noDcls noStatements typedExprOne

/-- The entry procedure of `callProgram` after semantic analysis. -/
def wainCallsFTyped : Treenode :=
  mainTree (dclInt "a") (dclInt "b") noDcls noStatements
    (typedNode "expr" ["expr", "PLUS", "term"] "int"
      [typedNode "expr" ["term"] "int" [typedNode "term" ["factor"] "int" [typedCall0 "f"]],
        leaf "PLUS" "+", typedTermId "b" "int"])

/-- The program `callProgram` after semantic analysis. -/
def callProgramTyped : Treenode := proceduresCons procFTyped (proceduresMain wainCallsFTyped)

/-- The procedure table semantic analysis of `callProgram` leaves. -/
def callProgramTable : ProcedureTable :=
  ⟨[("f", ⟨"f", [], ⟨[]⟩⟩),
    ("wain", ⟨"wain", ["int", "int"], ⟨[("a", ⟨"a", "int"⟩), ("b", ⟨"b", "int"⟩)]⟩⟩)]⟩

/-- The state of the code generator after the procedure `f` of `callProgram`,
started from `CodegenState.init unseededRand`. -/
def stateAfterF : CodegenState :=
  ⟨reservedLabels ++ ["f"], [("f", "f")], unseededRand,
    ["f:", "sub $29, $30, $4", "lis $3", ".word 1", "jr $31"]⟩

/-- Tree of the entry procedure `int wain(int a, int* a) { return 0; }`: the two
parameters have the same name and the second one is a pointer. -/
def wainDupParams : Treenode :=
  mainTree (dclInt "a") (dclPtr "a") noDcls noStatements (exprOf (factorNum "0"))

/-- Tree of the procedure `int g(int x) { int x = NULL; return 0; }`: the local
has the name of the parameter and its initialiser disagrees with its type. -/
def procDupLocal : Treenode :=
  procedureTree "g" (paramsOf (paramlist1 (dclInt "x"))) (dclsNull noDcls (dclInt "x"))
    noStatements (exprOf (factorNum "0"))

/-- Tree of the entry procedure `int wain(int a, int* b) { int x = NULL; return 0; }`:
the second parameter is a pointer and the initialiser of the local disagrees
with its type. -/
def wainBadLocal : Treenode :=
  mainTree (dclInt "a") (dclPtr "b") (dclsNull noDcls (dclInt "x")) noStatements
    (exprOf (factorNum "0"))

/-! ## Sample grammar, tables and token sequences -/

/-- The text whose lines are `lines`, each ended by a newline. -/
def textOf (lines : List String) : String :=
  lines.foldr (fun line rest => line ++ "\n" ++ rest) ""

/-- The text of a rule file for the grammar of WLP4: a header line, then one rule
per line. -/
def sampleCFG : String :=
  textOf
   [".CFG", "start BOF procedures EOF", "procedures procedure procedures", "procedures main",
    "procedure INT ID LPAREN params RPAREN LBRACE dcls statements RETURN expr SEMI RBRACE",
    "main INT WAIN LPAREN dcl COMMA dcl RPAREN LBRACE dcls statements RETURN expr SEMI RBRACE",
    "params .EMPTY", "params paramlist", "paramlist dcl", "paramlist dcl COMMA paramlist",
    "type INT", "type INT STAR", "dcls .EMPTY", "dcls dcls dcl BECOMES NUM SEMI",
    "dcls dcls dcl BECOMES NULL SEMI", "dcl type ID", "statements .EMPTY",
    "statements statements statement", "statement lvalue BECOMES expr SEMI",
    "statement IF LPAREN test RPAREN LBRACE statements RBRACE ELSE LBRACE statements RBRACE",
    "statement WHILE LPAREN test RPAREN LBRACE statements RBRACE",
    "statement PRINTLN LPAREN expr RPAREN SEMI", "statement DELETE LBRACK RBRACK expr SEMI",
    "test expr EQ expr", "test expr NE expr", "test expr LT expr", "test expr LE expr",
    "test expr GE expr", "test expr GT expr", "expr term", "expr expr PLUS term",
    "expr expr MINUS term", "term factor", "term term STAR factor", "term term SLASH factor",
    "term term PCT factor", "factor ID", "factor NUM", "factor NULL",
    "factor LPAREN expr RPAREN", "factor AMP lvalue", "factor STAR factor",
    "factor NEW INT LBRACK expr RBRACK", "factor ID LPAREN RPAREN",
    "factor ID LPAREN arglist RPAREN", "arglist expr", "arglist expr COMMA arglist", "lvalue ID",
    "lvalue STAR factor", "lvalue LPAREN lvalue RPAREN"]

/-- The text of a transition file: a header line, then `state symbol state` per
line. The lines are the entries of the SLR(1) table of the grammar that the
sample programs visit. -/
def sampleTransitions : String :=
  textOf
   [".TRANSITIONS", "0 BOF 1", "1 INT 5", "1 main 4", "1 procedure 3", "1 procedures 2",
    "2 EOF 6", "3 INT 5", "3 main 4", "3 procedures 7", "5 ID 8", "5 WAIN 9", "8 LPAREN 10",
    "9 LPAREN 11", "10 INT 15", "10 dcl 14", "10 paramlist 13", "10 params 12", "10 type 16",
    "11 INT 15", "11 dcl 17", "11 type 16", "12 RPAREN 18", "14 COMMA 19", "15 STAR 20",
    "16 ID 21", "17 COMMA 22", "18 LBRACE 23", "19 INT 15", "19 dcl 14", "19 paramlist 24",
    "19 type 16", "22 INT 15", "22 dcl 25", "22 type 16", "23 dcls 26", "25 RPAREN 27",
    "26 statements 28", "27 LBRACE 30", "28 RETURN 31", "30 dcls 42", "31 NUM 47", "31 expr 43",
    "31 factor 45", "31 term 44", "42 statements 62", "43 SEMI 63", "46 LPAREN 69",
    "62 RETURN 83", "63 RBRACE 84", "69 NUM 47", "69 arglist 92", "69 expr 90", "69 factor 45",
    "69 term 44", "83 ID 46", "83 NUM 47", "83 expr 106", "83 factor 45", "83 term 44",
    "90 COMMA 107", "92 RPAREN 108", "106 SEMI 120", "107 NUM 47", "107 arglist 121",
    "107 expr 90", "107 factor 45", "107 term 44", "120 RBRACE 125"]

/-- The text of a reduction file: a header line, then `state rule symbol` per
line, for the same excerpt of the table. -/
def sampleReductions : String :=
  textOf
   [".REDUCTIONS", "4 2 EOF", "7 1 EOF", "13 6 RPAREN", "14 7 RPAREN", "15 9 ID", "20 10 ID",
    "21 14 COMMA", "21 14 RPAREN", "23 11 RETURN", "24 8 RPAREN", "26 15 RETURN", "30 11 RETURN",
    "42 15 RETURN", "44 28 COMMA", "44 28 RPAREN", "44 28 SEMI", "45 31 COMMA", "45 31 RPAREN",
    "45 31 SEMI", "47 36 COMMA", "47 36 RPAREN", "47 36 SEMI", "84 3 INT", "90 44 RPAREN",
    "108 43 SEMI", "121 45 RPAREN", "125 4 EOF"]

/-- The tokens of the program
`int f(int a, int b) { return 0; } int wain(int a, int b) { return f(1, 2, 3); }`. -/
def arityProgramTokens : List Token :=
  [⟨"INT", "int"⟩, ⟨"ID", "f"⟩, ⟨"LPAREN", "("⟩, ⟨"INT", "int"⟩, ⟨"ID", "a"⟩, ⟨"COMMA", ","⟩,
    ⟨"INT", "int"⟩, ⟨"ID", "b"⟩, ⟨"RPAREN", ")"⟩, ⟨"LBRACE", "\x7b"⟩, ⟨"RETURN", "return"⟩,
    ⟨"NUM", "0"⟩, ⟨"SEMI", ";"⟩, ⟨"RBRACE", "\x7d"⟩, ⟨"INT", "int"⟩, ⟨"WAIN", "wain"⟩,
    ⟨"LPAREN", "("⟩, ⟨"INT", "int"⟩, ⟨"ID", "a"⟩, ⟨"COMMA", ","⟩, ⟨"INT", "int"⟩, ⟨"ID", "b"⟩,
    ⟨"RPAREN", ")"⟩, ⟨"LBRACE", "\x7b"⟩, ⟨"RETURN", "return"⟩, ⟨"ID", "f"⟩, ⟨"LPAREN", "("⟩,
    ⟨"NUM", "1"⟩, ⟨"COMMA", ","⟩, ⟨"NUM", "2"⟩, ⟨"COMMA", ","⟩, ⟨"NUM", "3"⟩, ⟨"RPAREN", ")"⟩,
    ⟨"SEMI", ";"⟩, ⟨"RBRACE", "\x7d"⟩]

/-- The tokens of the program `int wain(int* a, int b) { return 0; }`. -/
def wainPtrTokens : List Token :=
  [⟨"INT", "int"⟩, ⟨"WAIN", "wain"⟩, ⟨"LPAREN", "("⟩, ⟨"INT", "int"⟩, ⟨"STAR", "*"⟩, ⟨"ID", "a"⟩,
    ⟨"COMMA", ","⟩, ⟨"INT", "int"⟩, ⟨"ID", "b"⟩, ⟨"RPAREN", ")"⟩, ⟨"LBRACE", "\x7b"⟩,
    ⟨"RETURN", "return"⟩, ⟨"NUM", "0"⟩, ⟨"SEMI", ";"⟩, ⟨"RBRACE", "\x7d"⟩]

/-- The tokens of the program `int wain(int a, int b) { return 0; }`. -/
def wainIntTokens : List Token :=
  [⟨"INT", "int"⟩, ⟨"WAIN", "wain"⟩, ⟨"LPAREN", "("⟩, ⟨"INT", "int"⟩, ⟨"ID", "a"⟩,
    ⟨"COMMA", ","⟩, ⟨"INT", "int"⟩, ⟨"ID", "b"⟩, ⟨"RPAREN", ")"⟩, ⟨"LBRACE", "\x7b"⟩,
    ⟨"RETURN", "return"⟩, ⟨"NUM", "0"⟩, ⟨"SEMI", ";"⟩, ⟨"RBRACE", "\x7d"⟩]

/-- A two-rule grammar, `start → A EOF` and `A → BOF`. -/
def toyRules : List Rule := [⟨"start", ["A", "EOF"]⟩, ⟨"A", ["BOF"]⟩]

/-- A table for `toyRules` that shifts `BOF` from state 0, reduces by `A → BOF` in
state 1 before `EOF`, and shifts `EOF` from state 0; it has no transition from
state 0 on `A`. -/
def toyTable : SLR1DFA := ⟨[((0, "BOF"), 1), ((0, "EOF"), 2)], [((1, "EOF"), 1)]⟩

/-- The text of a rule file with the one rule `start → BOF procedures EOF`. -/
def startOnlyCFG : String := ".CFG\nstart BOF procedures EOF\n"

/-- The text of a transition file that shifts `BOF`, two `ID` tokens and `EOF` in
a row. -/
def shiftAllTransitions : String := ".TRANSITIONS\n0 BOF 1\n1 ID 2\n2 ID 3\n3 EOF 4\n"

/-- Kind or left-hand side of each tree of a stack, with those of its
children. -/
def stackShape (trees : List Treenode) : List (String × List String) :=
  trees.map fun t => (t.label, t.children.map Treenode.label)

/-! ## Basic facts about the embedding -/

theorem annotateChildren_nil (pt : ProcedureTable) (vt : VariableTable) :
    annotateChildren [] pt vt = .ok [] := by
  rw [annotateChildren]; rfl

theorem annotateChildren_cons (c : Treenode) (cs : List Treenode) (pt : ProcedureTable)
    (vt : VariableTable) :
    annotateChildren (c :: cs) pt vt =
      (c.annotateTypes pt vt).bind fun c' =>
        (annotateChildren cs pt vt).bind fun cs' => .ok (c' :: cs') := by
  rw [annotateChildren]; rfl

theorem annotateTypes_eq (t : Treenode) (pt : ProcedureTable) (vt : VariableTable) :
    t.annotateTypes pt vt =
      (annotateChildren t.children pt vt).bind fun cs =>
        annotateNode (t.withChildren cs) pt vt := by
  cases t
  rw [Treenode.annotateTypes]
  rfl

/-- Once the children are annotated, the node gets the type its rule computes. -/
theorem annotateTypes_of_children {t : Treenode} {pt : ProcedureTable} {vt : VariableTable}
    {cs : List Treenode} (h : annotateChildren t.children pt vt = .ok cs) :
    t.annotateTypes pt vt =
      (nodeType (t.withChildren cs) pt vt).map (t.withChildren cs).setType := by
  rw [annotateTypes_eq, h]; rfl

/-- A leaf is left as it is by type annotation. -/
theorem annotateTypes_leaf {t : Treenode} (h : t.IsLeaf) (pt : ProcedureTable)
    (vt : VariableTable) : t.annotateTypes pt vt = .ok t := by
  obtain ⟨tm, r, k, ty, cs⟩ := t
  obtain ⟨h1, h2⟩ := h
  simp only [Treenode.terminal, Treenode.children] at h1 h2
  subst h1 h2
  rw [annotateTypes_eq]
  simp [Treenode.children, annotateChildren_nil, Except.bind, annotateNode, nodeType,
    Treenode.withChildren, Treenode.terminal, Except.map, pure, Except.pure, Treenode.setType,
    Treenode.type]

/-! ## Typing rules of the additive and multiplicative operators -/

/-- C3: for a node `expr → expr PLUS term` whose annotated operands are `a` and
`b`, `annotateTypes` gives the node the type `int` for int+int, `int*` for
int*+int and for int+int*, and throws for int*+int*. -/
theorem plus_typing (t : Treenode) (pt : ProcedureTable) (vt : VariableTable)
    (a op b : Treenode) (hterm : t.terminal = false)
    (hrule : t.NTrule = ⟨"expr", ["expr", "PLUS", "term"]⟩)
    (hcs : annotateChildren t.children pt vt = .ok [a, op, b]) :
    (a.type = "int" ∧ b.type = "int" →
      t.annotateTypes pt vt = .ok ((t.withChildren [a, op, b]).setType "int")) ∧
    (a.type = "int*" ∧ b.type = "int" →
      t.annotateTypes pt vt = .ok ((t.withChildren [a, op, b]).setType "int*")) ∧
    (a.type = "int" ∧ b.type = "int*" →
      t.annotateTypes pt vt = .ok ((t.withChildren [a, op, b]).setType "int*")) ∧
    (a.type = "int*" ∧ b.type = "int*" →
      t.annotateTypes pt vt = .error (.runtime "expr 'PLUS' derived type error")) := by
  obtain ⟨tm, r, k, ty, cs⟩ := t
  simp only [Treenode.terminal, Treenode.NTrule] at hterm hrule
  subst hterm hrule
  rw [annotateTypes_of_children hcs]
  refine ⟨?_, ?_, ?_, ?_⟩ <;> rintro ⟨h1, h2⟩ <;>
    simp [Except.bind, Except.map, Except.pure, nodeType, Treenode.withChildren,
      Treenode.terminal, Treenode.NTrule, Rule.rhsAt, childType, at?, Treenode.children, h1,
      h2, bind, pure, throw, throwThe, MonadExceptOf.throw]

theorem plus_typing_witness :
    ptrPlusInt.terminal = false ∧
    ptrPlusInt.NTrule = ⟨"expr", ["expr", "PLUS", "term"]⟩ ∧
    annotateChildren ptrPlusInt.children ⟨[]⟩ sampleVars =
      .ok [typedExprId "p" "int*", leaf "PLUS" "+", typedTermId "a" "int"] ∧
    ptrPlusInt.annotateTypes ⟨[]⟩ sampleVars =
      .ok (typedNode "expr" ["expr", "PLUS", "term"] "int*"
        [typedExprId "p" "int*", leaf "PLUS" "+", typedTermId "a" "int"]) :=
  ⟨rfl, rfl, rfl,
    (plus_typing ptrPlusInt ⟨[]⟩ sampleVars (typedExprId "p" "int*") (leaf "PLUS" "+")
      (typedTermId "a" "int") rfl rfl rfl).2.1 ⟨rfl, rfl⟩⟩

/-- C4: for a node `expr → expr MINUS term` whose annotated operands are `a` and
`b`, `annotateTypes` gives the node the type `int` for int-int, `int*` for
int*-int, `int` for int*-int* (pointer difference), and throws for int-int*. -/
theorem minus_typing (t : Treenode) (pt : ProcedureTable) (vt : VariableTable)
    (a op b : Treenode) (hterm : t.terminal = false)
    (hrule : t.NTrule = ⟨"expr", ["expr", "MINUS", "term"]⟩)
    (hcs : annotateChildren t.children pt vt = .ok [a, op, b]) :
    (a.type = "int" ∧ b.type = "int" →
      t.annotateTypes pt vt = .ok ((t.withChildren [a, op, b]).setType "int")) ∧
    (a.type = "int*" ∧ b.type = "int" →
      t.annotateTypes pt vt = .ok ((t.withChildren [a, op, b]).setType "int*")) ∧
    (a.type = "int*" ∧ b.type = "int*" →
      t.annotateTypes pt vt = .ok ((t.withChildren [a, op, b]).setType "int")) ∧
    (a.type = "int" ∧ b.type = "int*" →
      t.annotateTypes pt vt = .error (.runtime "expr 'PLUS' derived type error")) := by
  obtain ⟨tm, r, k, ty, cs⟩ := t
  simp only [Treenode.terminal, Treenode.NTrule] at hterm hrule
  subst hterm hrule
  rw [annotateTypes_of_children hcs]
  refine ⟨?_, ?_, ?_, ?_⟩ <;> rintro ⟨h1, h2⟩ <;>
    simp [Except.bind, Except.map, Except.pure, nodeType, Treenode.withChildren,
      Treenode.terminal, Treenode.NTrule, Rule.rhsAt, childType, at?, Treenode.children, h1,
      h2, bind, pure, throw, throwThe, MonadExceptOf.throw]

theorem minus_typing_witness :
    ptrMinusPtr.terminal = false ∧
    ptrMinusPtr.NTrule = ⟨"expr", ["expr", "MINUS", "term"]⟩ ∧
    annotateChildren ptrMinusPtr.children ⟨[]⟩ sampleVars =
      .ok [typedExprId "p" "int*", leaf "MINUS" "-", typedTermId "p" "int*"] ∧
    ptrMinusPtr.annotateTypes ⟨[]⟩ sampleVars =
      .ok (typedNode "expr" ["expr", "MINUS", "term"] "int"
        [typedExprId "p" "int*", leaf "MINUS" "-", typedTermId "p" "int*"]) :=
  ⟨rfl, rfl, rfl,
    (minus_typing ptrMinusPtr ⟨[]⟩ sampleVars (typedExprId "p" "int*") (leaf "MINUS" "-")
      (typedTermId "p" "int*") rfl rfl rfl).2.2.1 ⟨rfl, rfl⟩⟩

/-- C5: for a node `term → term o factor` (the code does not inspect the operator
symbol `o`, so this covers STAR, SLASH and PCT) whose annotated operands are `a`
and `b`, `annotateTypes` succeeds if and only if both have type `int`; the node
then has type `int`, and every other combination throws. -/
theorem term_typing (t : Treenode) (pt : ProcedureTable) (vt : VariableTable)
    (o : String) (a op b : Treenode) (hterm : t.terminal = false)
    (hrule : t.NTrule = ⟨"term", ["term", o, "factor"]⟩)
    (hcs : annotateChildren t.children pt vt = .ok [a, op, b]) :
    ((∃ t', t.annotateTypes pt vt = .ok t') ↔ (a.type = "int" ∧ b.type = "int")) ∧
    (a.type = "int" ∧ b.type = "int" →
      t.annotateTypes pt vt = .ok ((t.withChildren [a, op, b]).setType "int")) ∧
    (¬ (a.type = "int" ∧ b.type = "int") →
      t.annotateTypes pt vt =
        .error (.runtime "invalid term or factor in term expression")) := by
  obtain ⟨tm, r, k, ty, cs⟩ := t
  simp only [Treenode.terminal, Treenode.NTrule] at hterm hrule
  subst hterm hrule
  rw [annotateTypes_of_children hcs]
  have key : nodeType ((Treenode.mk false ⟨"term", ["term", o, "factor"]⟩ k ty cs).withChildren
      [a, op, b]) pt vt =
      if a.type = "int" ∧ b.type = "int" then .ok "int"
      else .error (.runtime "invalid term or factor in term expression") := by
    by_cases h1 : a.type = "int" <;> by_cases h2 : b.type = "int" <;>
      simp [Except.bind, Except.map, Except.pure, nodeType, Treenode.withChildren,
        Treenode.terminal, Treenode.NTrule, Rule.rhsAt, childType, at?, Treenode.children,
        h1, h2, bind, pure, throw, throwThe, MonadExceptOf.throw]
  rw [key]
  by_cases h : a.type = "int" ∧ b.type = "int"
  · simp [h, Except.map]
  · simp [h, Except.map]

theorem term_typing_witness :
    intTimesInt.terminal = false ∧
    intTimesInt.NTrule = ⟨"term", ["term", "STAR", "factor"]⟩ ∧
    annotateChildren intTimesInt.children ⟨[]⟩ sampleVars =
      .ok [typedTermId "a" "int", leaf "STAR" "*", typedFactorId "a" "int"] ∧
    intTimesInt.annotateTypes ⟨[]⟩ sampleVars =
      .ok (typedNode "term" ["term", "STAR", "factor"] "int"
        [typedTermId "a" "int", leaf "STAR" "*", typedFactorId "a" "int"]) :=
  ⟨rfl, rfl, rfl,
    (term_typing intTimesInt ⟨[]⟩ sampleVars "STAR" (typedTermId "a" "int") (leaf "STAR" "*")
      (typedFactorId "a" "int") rfl rfl rfl).2.1 ⟨rfl, rfl⟩⟩

/-! ## Typing rules of the pointer operators and of identifiers -/

/-- C6: with `x` the annotated operand, `&lvalue` succeeds exactly when `x` has
type `int` and then has type `int*`; `*factor`, as a factor or as an lvalue,
succeeds exactly when `x` has type `int*` and then has type `int`; any other
operand type throws. -/
theorem pointer_operator_typing (t : Treenode) (pt : ProcedureTable) (vt : VariableTable)
    (o x : Treenode) (hterm : t.terminal = false)
    (hcs : annotateChildren t.children pt vt = .ok [o, x]) :
    (t.NTrule = ⟨"factor", ["AMP", "lvalue"]⟩ →
      (x.type = "int" →
        t.annotateTypes pt vt = .ok ((t.withChildren [o, x]).setType "int*")) ∧
      (x.type ≠ "int" →
        t.annotateTypes pt vt = .error (.runtime "invalid '&' address retrieval"))) ∧
    (t.NTrule = ⟨"factor", ["STAR", "factor"]⟩ ∨ t.NTrule = ⟨"lvalue", ["STAR", "factor"]⟩ →
      (x.type = "int*" →
        t.annotateTypes pt vt = .ok ((t.withChildren [o, x]).setType "int")) ∧
      (x.type ≠ "int*" →
        t.annotateTypes pt vt = .error (.runtime "invalid '*' address retrieval"))) := by
  obtain ⟨tm, r, k, ty, cs⟩ := t
  simp only [Treenode.terminal, Treenode.NTrule] at hterm ⊢
  subst hterm
  rw [annotateTypes_of_children hcs]
  refine ⟨?_, ?_⟩
  · intro hrule
    subst hrule
    refine ⟨?_, ?_⟩ <;> intro h1 <;>
      simp [Except.bind, Except.map, Except.pure, nodeType, Treenode.withChildren,
        Treenode.terminal, Treenode.NTrule, Rule.rhsAt, childType, at?, Treenode.children,
        h1, bind, pure, throw, throwThe, MonadExceptOf.throw]
  · rintro (hrule | hrule) <;> subst hrule <;> refine ⟨?_, ?_⟩ <;> intro h1 <;>
      simp [Except.bind, Except.map, Except.pure, nodeType, Treenode.withChildren,
        Treenode.terminal, Treenode.NTrule, Rule.rhsAt, childType, at?, Treenode.children,
        h1, bind, pure, throw, throwThe, MonadExceptOf.throw]

theorem pointer_operator_typing_witness :
    addressOfA.terminal = false ∧
    annotateChildren addressOfA.children ⟨[]⟩ sampleVars =
      .ok [leaf "AMP" "&", typedLvalueId "a" "int"] ∧
    addressOfA.annotateTypes ⟨[]⟩ sampleVars =
      .ok (typedNode "factor" ["AMP", "lvalue"] "int*"
        [leaf "AMP" "&", typedLvalueId "a" "int"]) :=
  ⟨rfl, rfl,
    ((pointer_operator_typing addressOfA ⟨[]⟩ sampleVars (leaf "AMP" "&")
      (typedLvalueId "a" "int") rfl rfl).1 rfl).1 rfl⟩

/-- C7: for an identifier used as a factor (`factor → ID`) or as an lvalue
(`lvalue → ID`), `annotateTypes` gives the node the type recorded for the name
in the symbol table `vt`, and throws 'use of undeclared variable' exactly when
the name is not in `vt`. -/
theorem identifier_typing (t : Treenode) (pt : ProcedureTable) (vt : VariableTable)
    (id : Treenode) (hterm : t.terminal = false)
    (hrule : t.NTrule = ⟨"factor", ["ID"]⟩ ∨ t.NTrule = ⟨"lvalue", ["ID"]⟩)
    (hcs : t.children = [id]) (hid : id.IsLeaf) :
    (∀ v, vt.table.lookup id.Ttoken.value = some v →
      t.annotateTypes pt vt = .ok (t.setType v.type)) ∧
    (t.annotateTypes pt vt = .error (.runtime "use of undeclared variable") ↔
      mapContains vt.table id.Ttoken.value = false) := by
  obtain ⟨tm, r, k, ty, cs⟩ := t
  simp only [Treenode.terminal, Treenode.NTrule, Treenode.children] at hterm hrule hcs
  subst hterm hcs
  have hch : annotateChildren (Treenode.mk false r k ty [id]).children pt vt = .ok [id] := by
    simp [Treenode.children, annotateChildren_cons, annotateChildren_nil,
      annotateTypes_leaf hid, Except.bind]
  rw [annotateTypes_of_children hch]
  rcases hrule with hrule | hrule <;> subst hrule <;>
    cases hl : vt.table.lookup id.Ttoken.value <;>
    simp [Except.bind, Except.map, Except.pure, nodeType, Treenode.withChildren,
      Treenode.terminal, Treenode.NTrule, Rule.rhsAt, childValue, at?, Treenode.children,
      VariableTable.get, mapContains, Treenode.setType, hl, bind, pure, throw, throwThe,
      MonadExceptOf.throw]

theorem identifier_typing_witness :
    (factorId "p").terminal = false ∧
    ((factorId "p").NTrule = ⟨"factor", ["ID"]⟩ ∨ (factorId "p").NTrule = ⟨"lvalue", ["ID"]⟩) ∧
    (factorId "p").children = [leaf "ID" "p"] ∧
    (leaf "ID" "p").IsLeaf ∧
    (factorId "p").annotateTypes ⟨[]⟩ sampleVars = .ok (typedFactorId "p" "int*") :=
  ⟨rfl, Or.inl rfl, rfl, ⟨rfl, rfl⟩,
    (identifier_typing (factorId "p") ⟨[]⟩ sampleVars (leaf "ID" "p") rfl (Or.inl rfl) rfl
      ⟨rfl, rfl⟩).1 ⟨"p", "int*"⟩ rfl⟩

/-! ## Calls -/

/-- Type annotation of a node keeps its `terminal`, `NTrule` and `Ttoken` fields,
and its children are the annotated children. -/
theorem annotateTypes_ok_fields {t t' : Treenode} {pt : ProcedureTable} {vt : VariableTable}
    (h : t.annotateTypes pt vt = .ok t') :
    t'.terminal = t.terminal ∧ t'.NTrule = t.NTrule ∧ t'.Ttoken = t.Ttoken ∧
      annotateChildren t.children pt vt = .ok t'.children := by
  obtain ⟨tm, r, k, ty, cs⟩ := t
  rw [annotateTypes_eq] at h
  cases hcs : annotateChildren (Treenode.mk tm r k ty cs).children pt vt with
  | error e => rw [hcs] at h; cases h
  | ok cs' =>
    rw [hcs] at h
    simp only [Except.bind, annotateNode, Treenode.withChildren, Except.map] at h
    split at h
    · cases h
    · cases h
      simp [Treenode.setType, Treenode.terminal, Treenode.NTrule, Treenode.Ttoken,
        Treenode.children]

/-- The argument types `getArgTypes` reads off a well-shaped argument list are
the types of its argument expressions, in order. -/
theorem getArgTypes_of_isArglist {al : Treenode} {args : List Treenode}
    (h : IsArglist al args) : getArgTypes al = args.map Treenode.type := by
  induction h with
  | single al e hterm hrule hcs heterm helhs =>
    obtain ⟨tm, r, k, ty, cs⟩ := al
    obtain ⟨etm, er, ek, ety, ecs⟩ := e
    simp only [Treenode.terminal, Treenode.NTrule, Treenode.children] at *
    subst hterm hrule hcs heterm
    simp [getArgTypes, getArgTypesList, helhs, Treenode.type]
  | cons al e comma rest args hterm hrule hcs heterm helhs hcomma hrest ih =>
    obtain ⟨tm, r, k, ty, cs⟩ := al
    obtain ⟨etm, er, ek, ety, ecs⟩ := e
    obtain ⟨ctm, cr, ck, cty, ccs⟩ := comma
    obtain ⟨hc1, hc2⟩ := hcomma
    simp only [Treenode.terminal, Treenode.NTrule, Treenode.children] at *
    subst hterm hrule hcs heterm hc1 hc2
    simp [getArgTypes, getArgTypesList, helhs, Treenode.type, ih]

/-- Type annotation keeps the shape of an argument list, and so the number of
arguments. -/
theorem isArglist_annotateTypes {al : Treenode} {args : List Treenode}
    (h : IsArglist al args) (pt : ProcedureTable) (vt : VariableTable) :
    ∀ al', al.annotateTypes pt vt = .ok al' →
      ∃ args', IsArglist al' args' ∧ args'.length = args.length := by
  induction h with
  | single al e hterm hrule hcs heterm helhs =>
    intro al' hal
    obtain ⟨h1, h2, _, h4⟩ := annotateTypes_ok_fields hal
    rw [hcs, annotateChildren_cons, annotateChildren_nil] at h4
    cases he : e.annotateTypes pt vt with
    | error err => rw [he] at h4; cases h4
    | ok e' =>
      rw [he] at h4
      simp only [Except.bind, Except.ok.injEq] at h4
      obtain ⟨g1, g2, _, _⟩ := annotateTypes_ok_fields he
      exact ⟨[e'], IsArglist.single al' e' (h1.trans hterm) (h2.trans hrule) h4.symm
        (g1.trans heterm) (by rw [g2]; exact helhs), rfl⟩
  | cons al e comma rest args hterm hrule hcs heterm helhs hcomma hrest ih =>
    intro al' hal
    obtain ⟨h1, h2, _, h4⟩ := annotateTypes_ok_fields hal
    rw [hcs, annotateChildren_cons, annotateChildren_cons, annotateChildren_cons,
      annotateChildren_nil, annotateTypes_leaf hcomma] at h4
    cases he : e.annotateTypes pt vt with
    | error err => rw [he] at h4; cases h4
    | ok e' =>
      cases hr : rest.annotateTypes pt vt with
      | error err => rw [he, hr] at h4; cases h4
      | ok rest' =>
        rw [he, hr] at h4
        simp only [Except.bind, Except.ok.injEq] at h4
        obtain ⟨g1, g2, _, _⟩ := annotateTypes_ok_fields he
        obtain ⟨args', ha, hl⟩ := ih rest' hr
        exact ⟨e' :: args', IsArglist.cons al' e' comma rest' args' (h1.trans hterm)
          (h2.trans hrule) h4.symm (g1.trans heterm) (by rw [g2]; exact helhs) hcomma ha,
          by simp [hl]⟩

/-- Children of a call without arguments are leaves and annotate to themselves. -/
theorem annotateChildren_call0 {id lp rp : Treenode} (hid : id.IsLeaf) (hlp : lp.IsLeaf)
    (hrp : rp.IsLeaf) (pt : ProcedureTable) (vt : VariableTable) :
    annotateChildren [id, lp, rp] pt vt = .ok [id, lp, rp] := by
  simp [annotateChildren_cons, annotateChildren_nil, annotateTypes_leaf, hid, hlp, hrp,
    Except.bind]

/-- Children of a call with arguments: only the argument list is annotated. -/
theorem annotateChildren_callArgs {id lp al rp : Treenode} (hid : id.IsLeaf)
    (hlp : lp.IsLeaf) (hrp : rp.IsLeaf) (pt : ProcedureTable) (vt : VariableTable) :
    annotateChildren [id, lp, al, rp] pt vt =
      (al.annotateTypes pt vt).bind fun al' => .ok [id, lp, al', rp] := by
  simp only [annotateChildren_cons, annotateChildren_nil, annotateTypes_leaf, hid, hlp, hrp,
    Except.bind]
  cases al.annotateTypes pt vt <;> rfl

/-- C1: a call whose callee `id` is a registered procedure `p` and not a local
variable, and whose number of arguments differs from the length of the
signature of `p`, makes `annotateTypes` throw the arity error: 'invalid
parameters' for `id()`, 'invalid parameters incorrect amount' for `id(args)`
once the arguments themselves are annotated, whatever their types; the
type-mismatch error 'invalid parameters incorrect types' is not thrown. -/
theorem arity_mismatch (t : Treenode) (pt : ProcedureTable) (vt : VariableTable)
    (id lp rp : Treenode) (p : Procedure) (hterm : t.terminal = false) (hid : id.IsLeaf)
    (hlp : lp.IsLeaf) (hrp : rp.IsLeaf)
    (hlocal : mapContains vt.table id.Ttoken.value = false)
    (hproc : pt.table.lookup id.Ttoken.value = some p) :
    (t.NTrule = ⟨"factor", ["ID", "LPAREN", "RPAREN"]⟩ → t.children = [id, lp, rp] →
      p.signature.length ≠ 0 →
      t.annotateTypes pt vt = .error (.runtime "invalid parameters") ∧
      t.annotateTypes pt vt ≠ .error (.runtime "invalid parameters incorrect types")) ∧
    (∀ al args, t.NTrule = ⟨"factor", ["ID", "LPAREN", "arglist", "RPAREN"]⟩ →
      t.children = [id, lp, al, rp] → IsArglist al args →
      (al.annotateTypes pt vt).isOk = true → args.length ≠ p.signature.length →
      t.annotateTypes pt vt = .error (.runtime "invalid parameters incorrect amount") ∧
      t.annotateTypes pt vt ≠ .error (.runtime "invalid parameters incorrect types")) := by
  obtain ⟨tm, r, k, ty, cs⟩ := t
  simp only [Treenode.terminal, Treenode.NTrule, Treenode.children] at hterm ⊢
  subst hterm
  refine ⟨?_, ?_⟩
  · intro hrule hcs hlen
    subst hrule hcs
    have hch : annotateChildren (Treenode.mk false ⟨"factor", ["ID", "LPAREN", "RPAREN"]⟩ k ty
        [id, lp, rp]).children pt vt = .ok [id, lp, rp] := annotateChildren_call0 hid hlp hrp pt vt
    have key : (Treenode.mk false ⟨"factor", ["ID", "LPAREN", "RPAREN"]⟩ k ty
        [id, lp, rp]).annotateTypes pt vt = .error (.runtime "invalid parameters") := by
      rw [annotateTypes_of_children hch]
      simp [Except.bind, Except.map, Except.pure, nodeType, Treenode.withChildren,
        Treenode.terminal, Treenode.NTrule, Rule.rhsAt, childValue, at?, Treenode.children,
        ProcedureTable.get, hlocal, hproc, hlen, bind, pure, throw, throwThe,
        MonadExceptOf.throw]
    rw [key]
    exact ⟨rfl, by simp⟩
  · intro al args hrule hcs hal hok hlen
    subst hrule hcs
    cases hann : al.annotateTypes pt vt with
    | error e => rw [hann] at hok; cases hok
    | ok al' =>
      obtain ⟨args', hal', hlen'⟩ := isArglist_annotateTypes hal pt vt al' hann
      have hch : annotateChildren (Treenode.mk false
          ⟨"factor", ["ID", "LPAREN", "arglist", "RPAREN"]⟩ k ty [id, lp, al, rp]).children pt vt =
          .ok [id, lp, al', rp] := by
        simp only [Treenode.children]
        rw [annotateChildren_callArgs hid hlp hrp, hann]; rfl
      have hne : ¬ p.signature.length = args.length := fun h => hlen h.symm
      have key : (Treenode.mk false ⟨"factor", ["ID", "LPAREN", "arglist", "RPAREN"]⟩ k ty
          [id, lp, al, rp]).annotateTypes pt vt =
          .error (.runtime "invalid parameters incorrect amount") := by
        rw [annotateTypes_of_children hch]
        simp [Except.bind, Except.map, Except.pure, nodeType, Treenode.withChildren,
          Treenode.terminal, Treenode.NTrule, Rule.rhsAt, childValue, at?, Treenode.children,
          ProcedureTable.get, hlocal, hproc, getArgTypes_of_isArglist hal', hlen', hne, bind,
          pure, throw, throwThe, MonadExceptOf.throw]
      rw [key]
      exact ⟨rfl, by simp⟩

theorem arity_mismatch_witness :
    (callArgs "f" threeArgs).terminal = false ∧
    (leaf "ID" "f").IsLeaf ∧ (leaf "LPAREN" "(").IsLeaf ∧ (leaf "RPAREN" ")").IsLeaf ∧
    mapContains sampleVars.table (leaf "ID" "f").Ttoken.value = false ∧
    tableWithF.table.lookup (leaf "ID" "f").Ttoken.value =
      some ⟨"f", ["int", "int"], ⟨[("x", ⟨"x", "int"⟩), ("y", ⟨"y", "int"⟩)]⟩⟩ ∧
    IsArglist threeArgs
      [exprOf (factorNum "1"), exprOf (factorNum "2"), exprOf (factorNum "3")] ∧
    (threeArgs.annotateTypes tableWithF sampleVars).isOk = true ∧
    (callArgs "f" threeArgs).annotateTypes tableWithF sampleVars =
      .error (.runtime "invalid parameters incorrect amount") :=
  have hargs : IsArglist threeArgs
      [exprOf (factorNum "1"), exprOf (factorNum "2"), exprOf (factorNum "3")] :=
    IsArglist.cons _ _ (leaf "COMMA" ",") _ _ rfl rfl rfl rfl rfl ⟨rfl, rfl⟩
      (IsArglist.cons _ _ (leaf "COMMA" ",") _ _ rfl rfl rfl rfl rfl ⟨rfl, rfl⟩
        (IsArglist.single _ _ rfl rfl rfl rfl rfl))
  ⟨rfl, ⟨rfl, rfl⟩, ⟨rfl, rfl⟩, ⟨rfl, rfl⟩, rfl, rfl, hargs, rfl,
    ((arity_mismatch (callArgs "f" threeArgs) tableWithF sampleVars (leaf "ID" "f")
      (leaf "LPAREN" "(") (leaf "RPAREN" ")")
      ⟨"f", ["int", "int"], ⟨[("x", ⟨"x", "int"⟩), ("y", ⟨"y", "int"⟩)]⟩⟩ rfl ⟨rfl, rfl⟩
      ⟨rfl, rfl⟩ ⟨rfl, rfl⟩ rfl rfl).2 threeArgs _ rfl rfl hargs rfl (by decide)).1⟩

/-- C8: a call `id()` or `id(args)` whose callee name is a variable of the
symbol table `vt` makes `annotateTypes` throw 'function call on local
variable', whatever the procedure table holds; a call whose callee is neither
in `vt` nor in the procedure table throws 'use of undeclared procedure'. For
`id(args)` the arguments are annotated first, so these are the errors once
the arguments are annotated; in every case the call is rejected. -/
theorem call_resolution (t : Treenode) (pt : ProcedureTable) (vt : VariableTable)
    (id lp rp : Treenode) (hterm : t.terminal = false) (hid : id.IsLeaf) (hlp : lp.IsLeaf)
    (hrp : rp.IsLeaf) :
    (t.NTrule = ⟨"factor", ["ID", "LPAREN", "RPAREN"]⟩ → t.children = [id, lp, rp] →
      (mapContains vt.table id.Ttoken.value = true →
        t.annotateTypes pt vt = .error (.runtime "function call on local variable")) ∧
      (mapContains vt.table id.Ttoken.value = false →
        mapContains pt.table id.Ttoken.value = false →
        t.annotateTypes pt vt = .error (.runtime "use of undeclared procedure"))) ∧
    (∀ al, t.NTrule = ⟨"factor", ["ID", "LPAREN", "arglist", "RPAREN"]⟩ →
      t.children = [id, lp, al, rp] →
      ((al.annotateTypes pt vt).isOk = true →
        (mapContains vt.table id.Ttoken.value = true →
          t.annotateTypes pt vt = .error (.runtime "function call on local variable")) ∧
        (mapContains vt.table id.Ttoken.value = false →
          mapContains pt.table id.Ttoken.value = false →
          t.annotateTypes pt vt = .error (.runtime "use of undeclared procedure"))) ∧
      (mapContains vt.table id.Ttoken.value = true ∨
          mapContains pt.table id.Ttoken.value = false →
        ∀ t', t.annotateTypes pt vt ≠ .ok t')) := by
  obtain ⟨tm, r, k, ty, cs⟩ := t
  simp only [Treenode.terminal, Treenode.NTrule, Treenode.children] at hterm ⊢
  subst hterm
  refine ⟨?_, ?_⟩
  · intro hrule hcs
    subst hrule hcs
    have hch : annotateChildren (Treenode.mk false ⟨"factor", ["ID", "LPAREN", "RPAREN"]⟩ k ty
        [id, lp, rp]).children pt vt = .ok [id, lp, rp] := annotateChildren_call0 hid hlp hrp pt vt
    rw [annotateTypes_of_children hch]
    refine ⟨?_, ?_⟩
    · intro hlocal
      simp [Except.bind, Except.map, Except.pure, nodeType, Treenode.withChildren,
        Treenode.terminal, Treenode.NTrule, Rule.rhsAt, childValue, at?, Treenode.children,
        hlocal, bind, pure, throw, throwThe, MonadExceptOf.throw]
    · intro hlocal hproc
      have hnone : pt.table.lookup id.Ttoken.value = none := by
        simpa [mapContains] using hproc
      simp [Except.bind, Except.map, Except.pure, nodeType, Treenode.withChildren,
        Treenode.terminal, Treenode.NTrule, Rule.rhsAt, childValue, at?, Treenode.children,
        ProcedureTable.get, hlocal, hnone, bind, pure, throw, throwThe, MonadExceptOf.throw]
  · intro al hrule hcs
    subst hrule hcs
    have main : ∀ al', al.annotateTypes pt vt = .ok al' →
        (mapContains vt.table id.Ttoken.value = true →
          (Treenode.mk false ⟨"factor", ["ID", "LPAREN", "arglist", "RPAREN"]⟩ k ty
            [id, lp, al, rp]).annotateTypes pt vt =
            .error (.runtime "function call on local variable")) ∧
        (mapContains vt.table id.Ttoken.value = false →
          mapContains pt.table id.Ttoken.value = false →
          (Treenode.mk false ⟨"factor", ["ID", "LPAREN", "arglist", "RPAREN"]⟩ k ty
            [id, lp, al, rp]).annotateTypes pt vt =
            .error (.runtime "use of undeclared procedure")) := by
      intro al' hann
      have hch : annotateChildren (Treenode.mk false
          ⟨"factor", ["ID", "LPAREN", "arglist", "RPAREN"]⟩ k ty [id, lp, al, rp]).children pt vt =
          .ok [id, lp, al', rp] := by
        simp only [Treenode.children]
        rw [annotateChildren_callArgs hid hlp hrp, hann]; rfl
      rw [annotateTypes_of_children hch]
      refine ⟨?_, ?_⟩
      · intro hlocal
        simp [Except.bind, Except.map, Except.pure, nodeType, Treenode.withChildren,
          Treenode.terminal, Treenode.NTrule, Rule.rhsAt, childValue, at?, Treenode.children,
          hlocal, bind, pure, throw, throwThe, MonadExceptOf.throw]
      · intro hlocal hproc
        have hnone : pt.table.lookup id.Ttoken.value = none := by
          simpa [mapContains] using hproc
        simp [Except.bind, Except.map, Except.pure, nodeType, Treenode.withChildren,
          Treenode.terminal, Treenode.NTrule, Rule.rhsAt, childValue, at?, Treenode.children,
          ProcedureTable.get, hlocal, hnone, bind, pure, throw, throwThe,
          MonadExceptOf.throw]
    refine ⟨?_, ?_⟩
    · intro hok
      cases hann : al.annotateTypes pt vt with
      | error e => rw [hann] at hok; cases hok
      | ok al' => exact main al' hann
    · intro hcase t' ht'
      cases hann : al.annotateTypes pt vt with
      | error e =>
        rw [annotateTypes_eq] at ht'
        simp only [Treenode.children] at ht'
        rw [annotateChildren_callArgs hid hlp hrp, hann] at ht'
        cases ht'
      | ok al' =>
        obtain ⟨m1, m2⟩ := main al' hann
        cases hl : mapContains vt.table id.Ttoken.value with
        | true => rw [m1 hl] at ht'; cases ht'
        | false =>
          rcases hcase with hcase | hcase
          · rw [hl] at hcase; cases hcase
          · rw [m2 hl hcase] at ht'; cases ht'

theorem call_resolution_witness :
    (callArgs "a" (arglist1 (exprOf (factorId "p")))).terminal = false ∧
    (leaf "ID" "a").IsLeaf ∧ (leaf "LPAREN" "(").IsLeaf ∧ (leaf "RPAREN" ")").IsLeaf ∧
    ((arglist1 (exprOf (factorId "p"))).annotateTypes tableWithA sampleVars).isOk = true ∧
    mapContains sampleVars.table (leaf "ID" "a").Ttoken.value = true ∧
    mapContains tableWithA.table (leaf "ID" "a").Ttoken.value = true ∧
    (callArgs "a" (arglist1 (exprOf (factorId "p")))).annotateTypes tableWithA sampleVars =
      .error (.runtime "function call on local variable") :=
  ⟨rfl, ⟨rfl, rfl⟩, ⟨rfl, rfl⟩, ⟨rfl, rfl⟩, rfl, rfl, rfl,
    (((call_resolution (callArgs "a" (arglist1 (exprOf (factorId "p")))) tableWithA sampleVars
      (leaf "ID" "a") (leaf "LPAREN" "(") (leaf "RPAREN" ")") rfl ⟨rfl, rfl⟩ ⟨rfl, rfl⟩
      ⟨rfl, rfl⟩).2 (arglist1 (exprOf (factorId "p"))) rfl rfl).1 rfl).1 rfl⟩

/-! ## Statement and test checks -/

theorem checkStatementsAndTests_eq (t : Treenode) :
    checkStatementsAndTests t = (checkNode t).bind fun _ => checkChildren t.children := by
  cases t
  rw [checkStatementsAndTests]
  rfl

theorem checkChildren_cons (c : Treenode) (cs : List Treenode) :
    checkChildren (c :: cs) = (checkStatementsAndTests c).bind fun _ => checkChildren cs := by
  rw [checkChildren]; rfl

/-- The test of a node that is neither a statement nor a test never throws. -/
theorem checkNode_ok {n : Treenode} (h : n.NotStatementOrTest) : checkNode n = .ok () := by
  rcases h with h | ⟨h1, h2⟩
  · simp [checkNode, h, pure, Except.pure]
  · cases n.terminal <;> simp [checkNode, h1, h2, pure, Except.pure]

mutual
/-- A tree without statement and test nodes passes `checkStatementsAndTests`. -/
theorem checkStatementsAndTests_ok : (t : Treenode) →
    (∀ n ∈ t.subtrees, n.NotStatementOrTest) → checkStatementsAndTests t = .ok ()
  | .mk tm r k ty cs, h => by
    rw [checkStatementsAndTests_eq, checkNode_ok (h _ (by simp [Treenode.subtrees]))]
    exact checkChildren_ok cs fun n hn => h n (by simp [Treenode.subtrees, hn])
/-- Trees without statement and test nodes pass the loop over the children. -/
theorem checkChildren_ok : (cs : List Treenode) →
    (∀ n ∈ subtreesList cs, n.NotStatementOrTest) → checkChildren cs = .ok ()
  | [], _ => by rw [checkChildren]; rfl
  | c :: cs, h => by
    rw [checkChildren_cons,
      checkStatementsAndTests_ok c fun n hn => h n (by simp [subtreesList, hn])]
    exact checkChildren_ok cs fun n hn => h n (by simp [subtreesList, hn])
end

/-- C9: for an annotated assignment statement `lvalue BECOMES expr SEMI` with
lvalue `l` and expression `e` (whose subtrees hold no statement or test node),
`checkStatementsAndTests` throws if and only if the types of `l` and `e`
differ, and the error is then the one of the assignment test. -/
theorem assignment_check (tree l b e s : Treenode) (hterm : tree.terminal = false)
    (hrule : tree.NTrule = ⟨"statement", ["lvalue", "BECOMES", "expr", "SEMI"]⟩)
    (hcs : tree.children = [l, b, e, s])
    (hsub : ∀ n ∈ subtreesList tree.children, n.NotStatementOrTest) :
    ((∃ err, checkStatementsAndTests tree = .error err) ↔ l.type ≠ e.type) ∧
    (l.type ≠ e.type → checkStatementsAndTests tree =
      .error (.runtime "lvalue and expression must have the same type")) ∧
    (l.type = e.type → checkStatementsAndTests tree = .ok ()) := by
  have hch := checkChildren_ok tree.children hsub
  obtain ⟨tm, r, k, ty, cs⟩ := tree
  simp only [Treenode.terminal, Treenode.NTrule, Treenode.children] at hterm hrule hcs hch
  subst hterm hrule hcs
  rw [checkStatementsAndTests_eq]
  simp only [Treenode.children, hch]
  by_cases h : l.type = e.type <;>
    simp [Except.bind, Except.map, Except.pure, checkNode, Treenode.terminal, Treenode.NTrule,
      Rule.rhsAt, childType, at?, Treenode.children, h, bind, pure, throw, throwThe,
      MonadExceptOf.throw]

theorem assignment_check_witness :
    assignIntInt.terminal = false ∧
    assignIntInt.NTrule = ⟨"statement", ["lvalue", "BECOMES", "expr", "SEMI"]⟩ ∧
    assignIntInt.children =
      [typedLvalueId "a" "int", leaf "BECOMES" "=", typedExprId "a" "int", leaf "SEMI" ";"] ∧
    (∀ n ∈ subtreesList assignIntInt.children, n.NotStatementOrTest) ∧
    checkStatementsAndTests assignIntInt = .ok () :=
  have hsub : ∀ n ∈ subtreesList assignIntInt.children, n.NotStatementOrTest := by
    simp [assignIntInt, node, typedLvalueId, typedExprId, typedTermId, typedFactorId, typedNode,
      leaf, Treenode.ofToken, Treenode.children, subtreesList, Treenode.subtrees,
      Treenode.NotStatementOrTest, Treenode.terminal, Treenode.NTrule]
  ⟨rfl, rfl, rfl, hsub,
    (assignment_check assignIntInt (typedLvalueId "a" "int") (leaf "BECOMES" "=")
      (typedExprId "a" "int") (leaf "SEMI" ";") rfl rfl rfl hsub).2.2 rfl⟩

/-- C10: for an annotated test node `expr o expr` (the code does not inspect the
operator symbol `o`, so this covers EQ, NE, LT, LE, GE and GT) with operands `l`
and `e` (whose subtrees hold no statement or test node),
`checkStatementsAndTests` throws if and only if the types of `l` and `e`
differ; equal types, both `int` or both `int*`, are accepted. -/
theorem test_check (tree l op e : Treenode) (o : String) (hterm : tree.terminal = false)
    (hrule : tree.NTrule = ⟨"test", ["expr", o, "expr"]⟩)
    (hcs : tree.children = [l, op, e])
    (hsub : ∀ n ∈ subtreesList tree.children, n.NotStatementOrTest) :
    ((∃ err, checkStatementsAndTests tree = .error err) ↔ l.type ≠ e.type) ∧
    (l.type ≠ e.type → checkStatementsAndTests tree =
      .error (.runtime "expression derived from test must have the same type")) ∧
    (l.type = e.type → checkStatementsAndTests tree = .ok ()) := by
  have hch := checkChildren_ok tree.children hsub
  obtain ⟨tm, r, k, ty, cs⟩ := tree
  simp only [Treenode.terminal, Treenode.NTrule, Treenode.children] at hterm hrule hcs hch
  subst hterm hrule hcs
  rw [checkStatementsAndTests_eq]
  simp only [Treenode.children, hch]
  by_cases h : l.type = e.type <;>
    simp [Except.bind, Except.map, Except.pure, checkNode, Treenode.terminal, Treenode.NTrule,
      Rule.rhsAt, childType, at?, Treenode.children, h, bind, pure, throw, throwThe,
      MonadExceptOf.throw]

theorem test_check_witness :
    testPtrPtr.terminal = false ∧
    testPtrPtr.NTrule = ⟨"test", ["expr", "LT", "expr"]⟩ ∧
    testPtrPtr.children = [typedExprId "p" "int*", leaf "LT" "<", typedExprId "p" "int*"] ∧
    (∀ n ∈ subtreesList testPtrPtr.children, n.NotStatementOrTest) ∧
    checkStatementsAndTests testPtrPtr = .ok () :=
  have hsub : ∀ n ∈ subtreesList testPtrPtr.children, n.NotStatementOrTest := by
    simp [testPtrPtr, node, typedExprId, typedTermId, typedFactorId, typedNode,
      leaf, Treenode.ofToken, Treenode.children, subtreesList, Treenode.subtrees,
      Treenode.NotStatementOrTest, Treenode.terminal, Treenode.NTrule]
  ⟨rfl, rfl, rfl, hsub,
    (test_check testPtrPtr (typedExprId "p" "int*") (leaf "LT" "<") (typedExprId "p" "int*")
      "LT" rfl rfl rfl hsub).2.2 rfl⟩

/-! ## Order of registration and annotation -/

/-- The typing rule of a call succeeds only if the callee is in the procedure
table. -/
theorem nodeType_call_ok {t : Treenode} {pt : ProcedureTable} {vt : VariableTable}
    {ty name : String} (hcall : t.IsCall) (h : nodeType t pt vt = .ok ty)
    (hname : childValue t 0 = .ok name) : mapContains pt.table name = true := by
  obtain ⟨tm, r, k, ty0, cs⟩ := t
  obtain ⟨hterm, hrule⟩ := hcall
  simp only [Treenode.terminal, Treenode.NTrule] at hterm hrule
  subst hterm
  cases hl : pt.table.lookup name with
  | some p => simp [mapContains, hl]
  | none =>
    exfalso
    rcases hrule with hrule | hrule <;> subst hrule <;>
      cases hv : mapContains vt.table name <;>
      simp [Except.bind, Except.map, Except.pure, nodeType, Treenode.terminal,
        Treenode.NTrule, Rule.rhsAt, hname, ProcedureTable.get, hl, hv, bind, pure, throw,
        throwThe, MonadExceptOf.throw] at h

/-- Annotating a non-empty list of children annotates the head and the tail. -/
theorem annotateChildren_cons_ok {c : Treenode} {cs cs' : List Treenode}
    {pt : ProcedureTable} {vt : VariableTable}
    (h : annotateChildren (c :: cs) pt vt = .ok cs') :
    ∃ c' rest, cs' = c' :: rest ∧ c.annotateTypes pt vt = .ok c' ∧
      annotateChildren cs pt vt = .ok rest := by
  rw [annotateChildren_cons] at h
  cases hc : c.annotateTypes pt vt with
  | error e => rw [hc] at h; cases h
  | ok c' =>
    cases hr : annotateChildren cs pt vt with
    | error e => rw [hc, hr] at h; cases h
    | ok rest =>
      rw [hc, hr] at h
      simp only [Except.bind, Except.ok.injEq] at h
      exact ⟨c', rest, h.symm, rfl, rfl⟩

/-- The lexeme of the first child is not changed by annotating the children. -/
theorem childValue_annotated {t : Treenode} {cs' : List Treenode} {pt : ProcedureTable}
    {vt : VariableTable} {name : String}
    (hcs : annotateChildren t.children pt vt = .ok cs') (hname : childValue t 0 = .ok name) :
    childValue (t.withChildren cs') 0 = .ok name := by
  obtain ⟨tm, r, k, ty, cs⟩ := t
  cases cs with
  | nil => simp [childValue, at?, Treenode.children, Except.map] at hname
  | cons c rest =>
    simp only [Treenode.children] at hcs
    obtain ⟨c', rest', rfl, hc, _⟩ := annotateChildren_cons_ok hcs
    obtain ⟨_, _, h3, _⟩ := annotateTypes_ok_fields hc
    simp only [childValue, at?, Treenode.children, Except.map, List.getElem?_cons_zero,
      Except.ok.injEq] at hname
    simp [childValue, at?, Treenode.children, Treenode.withChildren, Except.map, h3, hname]

mutual
/-- When type annotation of a tree succeeds, the callee of every call in the
tree is in the procedure table the annotation ran with. -/
theorem annotateTypes_calls_registered : (t : Treenode) → (pt : ProcedureTable) →
    (vt : VariableTable) → (t' : Treenode) → t.annotateTypes pt vt = .ok t' →
    ∀ n ∈ t.subtrees, n.IsCall → ∀ name, childValue n 0 = .ok name →
      mapContains pt.table name = true
  | .mk tm r k ty cs, pt, vt, t', h => by
    intro n hn hcall name hname
    obtain ⟨_, _, _, hcs⟩ := annotateTypes_ok_fields h
    rw [Treenode.subtrees, List.mem_cons] at hn
    rcases hn with hn | hn
    · subst hn
      rw [annotateTypes_of_children hcs] at h
      cases hty : nodeType ((Treenode.mk tm r k ty cs).withChildren t'.children) pt vt with
      | error e => rw [hty] at h; cases h
      | ok ty' =>
        refine nodeType_call_ok ?_ hty (childValue_annotated hcs hname)
        exact hcall
    · exact annotateChildren_calls_registered cs pt vt t'.children hcs n hn hcall name hname
/-- The same for a list of children. -/
theorem annotateChildren_calls_registered : (cs : List Treenode) → (pt : ProcedureTable) →
    (vt : VariableTable) → (cs' : List Treenode) → annotateChildren cs pt vt = .ok cs' →
    ∀ n ∈ subtreesList cs, n.IsCall → ∀ name, childValue n 0 = .ok name →
      mapContains pt.table name = true
  | [], _, _, _, _ => by
    intro n hn
    simp [subtreesList] at hn
  | c :: cs, pt, vt, cs', h => by
    intro n hn hcall name hname
    obtain ⟨c', rest, _, hc, hrest⟩ := annotateChildren_cons_ok h
    rw [subtreesList, List.mem_append] at hn
    rcases hn with hn | hn
    · exact annotateTypes_calls_registered c pt vt c' hc n hn hcall name hname
    · exact annotateChildren_calls_registered cs pt vt rest hrest n hn hcall name hname
end

/-- A tree is among its own subtrees. -/
theorem mem_subtrees_self (t : Treenode) : t ∈ t.subtrees := by
  cases t
  simp [Treenode.subtrees]

/-- The subtrees of a member of a list are subtrees of the list. -/
theorem mem_subtreesList {n c : Treenode} {cs : List Treenode} (hc : c ∈ cs)
    (hn : n ∈ c.subtrees) : n ∈ subtreesList cs := by
  induction cs with
  | nil => cases hc
  | cons d ds ih =>
    rw [subtreesList, List.mem_append]
    rcases List.mem_cons.mp hc with h | h
    · left; rw [← h]; exact hn
    · right; exact ih h

/-- The subtrees of a child are subtrees of the parent. -/
theorem mem_subtrees_of_child (t n c : Treenode) (hc : c ∈ t.children)
    (hn : n ∈ c.subtrees) : n ∈ t.subtrees := by
  cases t
  rw [Treenode.subtrees]
  exact List.mem_cons_of_mem _ (mem_subtreesList hc hn)

/-- A successful run of the `procedure`/`main` branch built the procedure,
registered it, and annotated the tree with the table that holds it. -/
theorem collectProcedure_ok {tree tree' : Treenode} {pt pt' : ProcedureTable}
    (h : collectProcedure tree pt = .ok (tree', pt')) :
    ∃ p, Procedure.ofTree tree = .ok p ∧ pt.add p = .ok pt' ∧
      tree.annotateTypes pt' p.symbolTable = .ok tree' := by
  unfold collectProcedure at h
  cases hp : Procedure.ofTree tree with
  | error e => simp [hp, bind, Except.bind] at h
  | ok p =>
    cases hadd : pt.add p with
    | error e => simp [hp, hadd, bind, Except.bind] at h
    | ok pt1 =>
      cases hann : tree.annotateTypes pt1 p.symbolTable with
      | error e => simp [hp, hadd, hann, bind, Except.bind] at h
      | ok tree1 =>
        cases hchk : checkStatementsAndTests tree1 with
        | error e => simp [hp, hadd, hann, hchk, bind, Except.bind] at h
        | ok u =>
          cases hd : deref (tree1.getChild "expr") with
          | error e => simp [hp, hadd, hann, hchk, hd, bind, Except.bind] at h
          | ok e =>
            simp only [hp, hadd, hann, hchk, hd, bind, Except.bind] at h
            split at h
            · cases h
            · simp only [pure, Except.pure, Except.ok.injEq, Prod.mk.injEq] at h
              obtain ⟨h1, h2⟩ := h
              subst h1 h2
              exact ⟨p, rfl, hadd, hann⟩

/-- On a `procedure` or `main` node `collectProcedures` runs the
`procedure`/`main` branch. -/
theorem collectProcedures_procedure {tree : Treenode} (pt : ProcedureTable)
    (hterm : tree.terminal = false)
    (hlhs : tree.NTrule.lhs = "procedure" ∨ tree.NTrule.lhs = "main") :
    collectProcedures tree pt = collectProcedure tree pt := by
  obtain ⟨tm, r, k, ty, cs⟩ := tree
  simp only [Treenode.terminal, Treenode.NTrule] at hterm hlhs
  subst hterm
  rw [collectProcedures]
  simp [hlhs]

/-- C2, as the code has it: `collectProcedures` registers a procedure just before
annotating that procedure's own tree. When it succeeds on a `procedure` or
`main` node from the table `pt`, the table afterwards is `pt` plus that one
procedure `p`, the tree was annotated with exactly that table, and every call
in the node names `p` itself or a procedure already in `pt` (one declared
earlier in source order): a call to a procedure declared later is not accepted. -/
theorem calls_registered_before_use (tree tree' : Treenode) (pt pt' : ProcedureTable)
    (p : Procedure) (hterm : tree.terminal = false)
    (hlhs : tree.NTrule.lhs = "procedure" ∨ tree.NTrule.lhs = "main")
    (hp : Procedure.ofTree tree = .ok p)
    (h : collectProcedures tree pt = .ok (tree', pt')) :
    pt'.table = pt.table ++ [(p.name, p)] ∧
    tree.annotateTypes pt' p.symbolTable = .ok tree' ∧
    ∀ n ∈ tree.subtrees, n.IsCall → ∀ name, childValue n 0 = .ok name →
      name = p.name ∨ mapContains pt.table name = true := by
  rw [collectProcedures_procedure pt hterm hlhs] at h
  obtain ⟨q, hq, hadd, hann⟩ := collectProcedure_ok h
  rw [hp] at hq
  cases hq
  have htable : pt'.table = pt.table ++ [(p.name, p)] := by
    unfold ProcedureTable.add at hadd
    split at hadd
    · cases hadd
    · cases hadd; rfl
  refine ⟨htable, hann, ?_⟩
  intro n hn hcall name hname
  have hreg := annotateTypes_calls_registered tree pt' p.symbolTable tree' hann n hn hcall
    name hname
  rw [mapContains, htable, List.lookup_append] at hreg
  cases hl : pt.table.lookup name with
  | some q => right; simp [mapContains, hl]
  | none =>
    left
    rw [hl] at hreg
    by_contra hne
    have hb : (name == p.name) = false := by simpa using hne
    simp [List.lookup, hb] at hreg

theorem calls_registered_before_use_witness :
    procFCallsG.terminal = false ∧
    (procFCallsG.NTrule.lhs = "procedure" ∨ procFCallsG.NTrule.lhs = "main") ∧
    Procedure.ofTree procFCallsG = .ok ⟨"f", [], ⟨[]⟩⟩ ∧
    collectProcedures procFCallsG tableWithG =
      .ok (procFCallsGTyped, ⟨[("g", ⟨"g", [], ⟨[]⟩⟩), ("f", ⟨"f", [], ⟨[]⟩⟩)]⟩) ∧
    ("g" = "f" ∨ mapContains tableWithG.table "g" = true) :=
  ⟨rfl, Or.inl rfl, rfl, rfl,
    (calls_registered_before_use procFCallsG procFCallsGTyped tableWithG
      ⟨[("g", ⟨"g", [], ⟨[]⟩⟩), ("f", ⟨"f", [], ⟨[]⟩⟩)]⟩ ⟨"f", [], ⟨[]⟩⟩ rfl (Or.inl rfl) rfl
      rfl).2.2 (call0 "g")
      (mem_subtrees_of_child procFCallsG (call0 "g") (exprOf (call0 "g"))
        (by simp [procFCallsG, procedureTree, node, Treenode.children])
        (mem_subtrees_of_child (exprOf (call0 "g")) (call0 "g") (termOf (call0 "g"))
          (by simp [exprOf, node, Treenode.children])
          (mem_subtrees_of_child (termOf (call0 "g")) (call0 "g") (call0 "g")
            (by simp [termOf, node, Treenode.children]) (mem_subtrees_self _))))
      ⟨rfl, Or.inl rfl⟩ "g" rfl⟩

/-- C2 as stated fails: in `forwardCallProgram` the body of `f` calls `g`, declared
after it, with the right (empty) argument list, and `collectProcedures` throws
'use of undeclared procedure'; the same procedures with `g` declared first are
accepted. -/
theorem forward_call_rejected :
    collectProcedures forwardCallProgram ⟨[]⟩ =
      .error (.runtime "use of undeclared procedure") ∧
    (collectProcedures backwardCallProgram ⟨[]⟩).isOk = true :=
  ⟨rfl, rfl⟩

/-! ## Return type of a procedure -/

/-- The child `getChild` finds in the annotated children is the annotated
version of the child it finds in the original children. -/
theorem getChildLoop_annotated {lhs : String} {n : Int} {pt : ProcedureTable}
    {vt : VariableTable} : ∀ (cs cs' : List Treenode) (index : Int) (e : Treenode),
    annotateChildren cs pt vt = .ok cs' → getChildLoop lhs n cs index = some e →
    ∃ e', getChildLoop lhs n cs' index = some e' ∧ e.annotateTypes pt vt = .ok e' := by
  intro cs
  induction cs with
  | nil => intro cs' index e _ h; simp [getChildLoop] at h
  | cons c rest ih =>
    intro cs' index e hcs h
    obtain ⟨c', rest', rfl, hc, hrest⟩ := annotateChildren_cons_ok hcs
    obtain ⟨h1, h2, h3, _⟩ := annotateTypes_ok_fields hc
    rw [getChildLoop] at h ⊢
    rw [h1, h2, h3]
    split_ifs at h ⊢ <;>
      first
        | (cases h; exact ⟨c', rfl, hc⟩)
        | exact ih rest' _ e hrest h

/-- C11: for a `procedure` or `main` node whose procedure record `p` is built and
registered (table `pt'`), let `e` be the return expression, the `expr` child
`collectProcedures` looks at, and `e'` its annotation. If the type of `e'` is
not `int`, in particular if it is `int*`, `collectProcedures` fails; when the
annotation and the statement checks of the tree pass, the error is the one of
the return-type test. -/
theorem return_type_must_be_int (tree : Treenode) (pt pt' : ProcedureTable) (p : Procedure)
    (e e' : Treenode) (hterm : tree.terminal = false)
    (hlhs : tree.NTrule.lhs = "procedure" ∨ tree.NTrule.lhs = "main")
    (hp : Procedure.ofTree tree = .ok p) (hadd : pt.add p = .ok pt')
    (hret : tree.getChild "expr" = some e)
    (hty : e.annotateTypes pt' p.symbolTable = .ok e') (hne : e'.type ≠ "int") :
    (∃ err, collectProcedures tree pt = .error err) ∧
    (∀ tree', tree.annotateTypes pt' p.symbolTable = .ok tree' →
      checkStatementsAndTests tree' = .ok () →
      collectProcedures tree pt =
        .error (.runtime "expression derived from procedure/main must return int")) := by
  rw [collectProcedures_procedure pt hterm hlhs]
  have key : ∀ tree', tree.annotateTypes pt' p.symbolTable = .ok tree' →
      tree'.getChild "expr" = some e' := by
    intro tree' hann
    obtain ⟨_, _, _, hcs⟩ := annotateTypes_ok_fields hann
    obtain ⟨e'', h1, h2⟩ := getChildLoop_annotated tree.children tree'.children 1 e hcs hret
    rw [hty] at h2
    cases h2
    exact h1
  unfold collectProcedure
  simp only [hp, hadd, bind, Except.bind]
  cases hann : tree.annotateTypes pt' p.symbolTable with
  | error err => exact ⟨⟨err, rfl⟩, fun tree' h => by cases h⟩
  | ok tree1 =>
    have hget := key tree1 hann
    dsimp only
    cases hchk : checkStatementsAndTests tree1 with
    | error err =>
      refine ⟨⟨err, rfl⟩, ?_⟩
      intro tree' h hc
      cases h
      rw [hchk] at hc
      cases hc
    | ok u =>
      simp only [hget, deref, hne, ne_eq, not_false_eq_true, ↓reduceIte, throw, throwThe,
        MonadExceptOf.throw]
      exact ⟨⟨_, rfl⟩, fun _ _ _ => trivial⟩

theorem return_type_must_be_int_witness :
    procReturnsNull.terminal = false ∧
    (procReturnsNull.NTrule.lhs = "procedure" ∨ procReturnsNull.NTrule.lhs = "main") ∧
    Procedure.ofTree procReturnsNull = .ok ⟨"f", [], ⟨[]⟩⟩ ∧
    (⟨[]⟩ : ProcedureTable).add ⟨"f", [], ⟨[]⟩⟩ = .ok ⟨[("f", ⟨"f", [], ⟨[]⟩⟩)]⟩ ∧
    procReturnsNull.getChild "expr" = some (exprOf factorNull) ∧
    (exprOf factorNull).annotateTypes ⟨[("f", ⟨"f", [], ⟨[]⟩⟩)]⟩ ⟨[]⟩ = .ok typedExprNull ∧
    typedExprNull.type ≠ "int" ∧
    collectProcedures procReturnsNull ⟨[]⟩ =
      .error (.runtime "expression derived from procedure/main must return int") :=
  ⟨rfl, Or.inl rfl, rfl, rfl, rfl, rfl, by decide,
    (return_type_must_be_int procReturnsNull ⟨[]⟩ ⟨[("f", ⟨"f", [], ⟨[]⟩⟩)]⟩ ⟨"f", [], ⟨[]⟩⟩
      (exprOf factorNull) typedExprNull rfl (Or.inl rfl) rfl rfl rfl rfl (by decide)).2
      procReturnsNullTyped rfl rfl⟩

/-! ## Declarations -/

/-- A declaration node yields the variable it declares. -/
theorem Variable.ofTree_of_isDcl {d : Treenode} {v : Variable} (h : IsDcl d v) :
    Variable.ofTree d = .ok v := by
  obtain ⟨_, _, ty, id, hcs, hname, hty, _⟩ := h
  obtain ⟨vn, vty⟩ := v
  simp only at hname hty
  rcases hty with ⟨h1, h2⟩ | ⟨h1, h2⟩ <;>
    simp [Variable.ofTree, hcs, at?, bind, Except.bind, pure, Except.pure, hname, h1, h2]

/-- `getDeclarations` on a declaration node returns the node itself. -/
theorem getDeclarations_of_isDcl {d : Treenode} {v : Variable} (h : IsDcl d v) :
    getDeclarations d = .ok [d] := by
  obtain ⟨h1, h2, _⟩ := h
  obtain ⟨tm, r, k, ty, cs⟩ := d
  simp only [Treenode.terminal, Treenode.NTrule] at h1 h2
  subst h1 h2
  unfold getDeclarations
  simp only [Bool.not_false, ↓reduceIte]
  simp [pure, Except.pure]

/-- The initialiser test on a declaration node against the rule of its `dcls`
node. -/
theorem initMismatch_of_isDcl (ld : LocalDcl) (h : IsDcl ld.dcl ld.var) :
    initMismatch [ld.dcl] ⟨"dcls", ["dcls", "dcl", "BECOMES", ld.init, "SEMI"]⟩ =
      .ok (decide ld.Mismatch) := by
  obtain ⟨_, _, ty, id, hcs, _, hty, _⟩ := h
  rcases hty with ⟨h1, h2⟩ | ⟨h1, h2⟩ <;>
    simp [initMismatch, hcs, at?, bind, Except.bind, pure, Except.pure, h1, h2,
      LocalDcl.Mismatch]

/-- C12: on a local declaration list `getDeclarations` throws 'incorrect
assignment in declaration' if and only if some declaration of the chain
initialises an `int` with `NULL` or an `int*` with a number; otherwise it
returns the declaration nodes of the chain, each once (from the root of the
list inwards). -/
theorem getDeclarations_dcls (t : Treenode) (chain : List LocalDcl) (h : IsDcls t chain) :
    (getDeclarations t = .error (.runtime "incorrect assignment in declaration") ↔
      ∃ ld ∈ chain, ld.Mismatch) ∧
    ((∀ ld ∈ chain, ¬ ld.Mismatch) → getDeclarations t = .ok (chain.map LocalDcl.dcl)) := by
  induction h with
  | nil t hterm hrule hcs =>
    obtain ⟨tm, r, k, ty, cs⟩ := t
    simp only [Treenode.terminal, Treenode.NTrule, Treenode.children] at hterm hrule hcs
    subst hterm hrule hcs
    simp [getDeclarations, getDeclarationsList, pure, Except.pure]
  | cons t rest b v s ld chain hterm hrule hinit hcs hdcl hb hv hs hrest ih =>
    obtain ⟨tm, r, k, ty, cs⟩ := t
    simp only [Treenode.terminal, Treenode.NTrule, Treenode.children] at hterm hrule hcs
    subst hterm hrule hcs
    obtain ⟨ih1, ih2⟩ := ih
    have step : getDeclarations (Treenode.mk false
        ⟨"dcls", ["dcls", "dcl", "BECOMES", ld.init, "SEMI"]⟩ k ty [rest, ld.dcl, b, v, s]) =
        if ld.Mismatch then .error (.runtime "incorrect assignment in declaration")
        else (getDeclarations rest).map fun d1 => ld.dcl :: d1 := by
      rw [getDeclarations]
      simp only [Bool.not_false, ↓reduceIte, List.length_cons, List.length_nil, ne_eq,
        Nat.add_one_ne_zero, not_false_eq_true, and_self, getDeclarations_of_isDcl hdcl,
        initMismatch_of_isDcl ld hdcl, bind, Except.bind, decide_eq_true_eq]
      by_cases hm : ld.Mismatch
      · simp [hm, throw, throwThe, MonadExceptOf.throw]
      · simp only [hm, ↓reduceIte]
        cases getDeclarations rest <;> rfl
    rw [step]
    by_cases hm : ld.Mismatch
    · simp only [hm, ↓reduceIte, true_iff]
      exact ⟨⟨ld, List.mem_cons_self _ _, hm⟩, fun hall => absurd hm (hall ld (List.mem_cons_self _ _))⟩
    · simp only [hm, ↓reduceIte]
      constructor
      · constructor
        · intro herr
          cases hr : getDeclarations rest with
          | ok d1 => rw [hr] at herr; cases herr
          | error err =>
            rw [hr] at herr
            simp only [Except.map, Except.error.injEq] at herr
            rw [herr] at hr
            obtain ⟨ld', hmem, hmis⟩ := ih1.mp hr
            exact ⟨ld', List.mem_cons_of_mem _ hmem, hmis⟩
        · rintro ⟨ld', hmem, hmis⟩
          rcases List.mem_cons.mp hmem with heq | hmem'
          · subst heq; exact absurd hmis hm
          · rw [ih1.mpr ⟨ld', hmem', hmis⟩]; rfl
      · intro hall
        rw [ih2 fun ld' hmem => hall ld' (List.mem_cons_of_mem _ hmem)]
        rfl

/-- The sample declaration `int x` has the shape of a declaration of an `int`. -/
theorem isDcl_dclInt (x : String) : IsDcl (dclInt x) ⟨x, "int"⟩ :=
  ⟨rfl, rfl, node "type" ["INT"] [leaf "INT" "int"], leaf "ID" x, rfl, rfl, Or.inl ⟨rfl, rfl⟩,
    rfl, rfl, rfl, rfl⟩

/-- The sample declaration `int* x` has the shape of a declaration of an `int*`. -/
theorem isDcl_dclPtr (x : String) : IsDcl (dclPtr x) ⟨x, "int*"⟩ :=
  ⟨rfl, rfl, node "type" ["INT", "STAR"] [leaf "INT" "int", leaf "STAR" "*"], leaf "ID" x, rfl,
    rfl, Or.inr ⟨rfl, rfl⟩, rfl, rfl, rfl, rfl⟩

theorem getDeclarations_dcls_witness :
    IsDcls dclsXQ chainXQ ∧ getDeclarations dclsXQ = .ok [dclPtr "q", dclInt "x"] :=
  have hshape : IsDcls dclsXQ chainXQ :=
    IsDcls.cons dclsXQ (dclsNum noDcls (dclInt "x") "5") (leaf "BECOMES" "=")
      (leaf "NULL" "NULL") (leaf "SEMI" ";") ⟨dclPtr "q", ⟨"q", "int*"⟩, "NULL", "NULL"⟩ _ rfl
      rfl (Or.inr rfl) rfl (isDcl_dclPtr "q") ⟨rfl, rfl⟩ ⟨rfl, rfl⟩ ⟨rfl, rfl⟩
      (IsDcls.cons (dclsNum noDcls (dclInt "x") "5") noDcls (leaf "BECOMES" "=")
        (leaf "NUM" "5") (leaf "SEMI" ";") ⟨dclInt "x", ⟨"x", "int"⟩, "NUM", "5"⟩ _ rfl rfl
        (Or.inl rfl) rfl (isDcl_dclInt "x") ⟨rfl, rfl⟩ ⟨rfl, rfl⟩ ⟨rfl, rfl⟩
        (IsDcls.nil noDcls rfl rfl rfl))
  ⟨hshape, (getDeclarations_dcls dclsXQ chainXQ hshape).2 (by decide)⟩

/-! ## Symbol table and signature of a procedure -/

/-- A name is found in the table of the variables `ws` exactly when one of them
has it. -/
theorem mapContains_entries (ws : List Variable) (n : String) :
    mapContains (entries ws) n = true ↔ n ∈ ws.map Variable.name := by
  induction ws with
  | nil => simp [mapContains, entries]
  | cons w ws ih =>
    simp only [mapContains, entries, List.map_cons, List.lookup_cons, List.mem_cons] at ih ⊢
    by_cases h : n = w.name
    · simp [h]
    · have hb : (n == w.name) = false := by simpa using h
      simp only [hb, h, false_or]
      exact ih

/-- Adding declared variables to a table that holds `ws`: the table afterwards
holds `ws` and the new variables when all names are distinct, and the addition
throws otherwise. -/
theorem addLocals_entries {ds : List Treenode} {vs : List Variable}
    (h : List.Forall₂ IsDcl ds vs) : ∀ ws : List Variable, (ws.map Variable.name).Nodup →
    addLocals ds ⟨entries ws⟩ =
      if ((ws ++ vs).map Variable.name).Nodup then .ok ⟨entries (ws ++ vs)⟩
      else .error (.runtime "duplicate variable declaration") := by
  induction h with
  | nil => intro ws hws; simp [addLocals, hws, pure, Except.pure]
  | @cons d v ds vs hd _ ih =>
    intro ws hws
    rw [addLocals]
    simp only [Variable.ofTree_of_isDcl hd, bind, Except.bind, VariableTable.add]
    by_cases hc : v.name ∈ ws.map Variable.name
    · have hdup : ¬ ((ws ++ v :: vs).map Variable.name).Nodup := by
        rw [List.map_append, List.map_cons]
        intro hn
        exact (List.nodup_append.mp hn).2.2 hc (List.mem_cons_self _ _)
      rw [if_neg hdup]
      simp [(mapContains_entries ws v.name).mpr hc]
    · have hcf : mapContains (entries ws) v.name = false := by
        cases hm : mapContains (entries ws) v.name with
        | false => rfl
        | true => exact absurd ((mapContains_entries ws v.name).mp hm) hc
      have hws' : ((ws ++ [v]).map Variable.name).Nodup := by
        rw [List.map_append]
        refine List.nodup_append.mpr ⟨hws, by simp, ?_⟩
        intro a ha hb
        simp only [List.map_cons, List.map_nil, List.mem_singleton] at hb
        exact hc (hb ▸ ha)
      have hent : entries ws ++ [(v.name, v)] = entries (ws ++ [v]) := by simp [entries]
      simp only [hcf, Bool.false_eq_true, ↓reduceIte, hent]
      rw [ih (ws ++ [v]) hws', List.append_assoc]
      rfl

/-- The same for the parameters, whose types are also appended to the
signature. -/
theorem addParams_entries {ds : List Treenode} {vs : List Variable}
    (h : List.Forall₂ IsDcl ds vs) : ∀ (ws : List Variable) (sig : List String),
    (ws.map Variable.name).Nodup →
    addParams (ds.map some) ⟨entries ws⟩ sig =
      if ((ws ++ vs).map Variable.name).Nodup then
        .ok (⟨entries (ws ++ vs)⟩, sig ++ vs.map Variable.type)
      else .error (.runtime "duplicate variable declaration") := by
  induction h with
  | nil => intro ws sig hws; simp [addParams, hws, pure, Except.pure]
  | @cons d v ds vs hd _ ih =>
    intro ws sig hws
    rw [List.map_cons, addParams]
    simp only [deref, Variable.ofTree_of_isDcl hd, bind, Except.bind, VariableTable.add]
    by_cases hc : v.name ∈ ws.map Variable.name
    · have hdup : ¬ ((ws ++ v :: vs).map Variable.name).Nodup := by
        rw [List.map_append, List.map_cons]
        intro hn
        exact (List.nodup_append.mp hn).2.2 hc (List.mem_cons_self _ _)
      rw [if_neg hdup]
      simp [(mapContains_entries ws v.name).mpr hc]
    · have hcf : mapContains (entries ws) v.name = false := by
        cases hm : mapContains (entries ws) v.name with
        | false => rfl
        | true => exact absurd ((mapContains_entries ws v.name).mp hm) hc
      have hws' : ((ws ++ [v]).map Variable.name).Nodup := by
        rw [List.map_append]
        refine List.nodup_append.mpr ⟨hws, by simp, ?_⟩
        intro a ha hb
        simp only [List.map_cons, List.map_nil, List.mem_singleton] at hb
        exact hc (hb ▸ ha)
      have hent : entries ws ++ [(v.name, v)] = entries (ws ++ [v]) := by simp [entries]
      simp only [hcf, Bool.false_eq_true, ↓reduceIte, hent]
      rw [ih (ws ++ [v]) (sig ++ [v.type]) hws', List.append_assoc, List.append_assoc]
      rfl

/-- The `Procedure` constructor once the local declarations `locs` and the
parameters `ps` are harvested: the parameters are added, then the locals. -/
theorem Procedure.ofTree_of_harvest {tree dn : Treenode} {ps locs : List Treenode}
    {name : String} (hdn : tree.getChild "dcls" = some dn)
    (hloc : getDeclarations dn = .ok locs) (hparams : ParamsOf tree ps)
    (hname : childValue tree 1 = .ok name) :
    Procedure.ofTree tree =
      (addParams (ps.map some) ⟨[]⟩ []).bind fun r =>
        (addLocals locs r.1).bind fun vt => .ok ⟨name, r.2, vt⟩ := by
  unfold Procedure.ofTree
  rcases hparams with ⟨hlhs, pn, hpn, hps⟩ | ⟨hlhs, d1, d2, v2, rfl, h1, h2, hd2, hint⟩
  · simp only [hdn, deref, hloc, hlhs, ↓reduceIte, hpn, hps, bind, Except.bind, pure,
      Except.pure, hname]
  · obtain ⟨_, _, ty, id, hcs, _, hty, _⟩ := hd2
    have hlen : ty.children.length = 1 := by
      rcases hty with ⟨h, _⟩ | ⟨_, h⟩
      · exact h
      · rw [hint] at h; simp at h
    have hne : ¬ tree.NTrule.lhs = "procedure" := by rw [hlhs]; decide
    simp only [hdn, deref, hloc, hne, ↓reduceIte, h1, h2, hcs, at?, List.getElem?_cons_zero,
      hlen, ne_eq, not_true_eq_false, bind, Except.bind, pure, Except.pure, hname,
      List.map_cons, List.map_nil]

/-- `getDeclarations` on a non-empty parameter list returns its declaration
nodes, left to right. -/
theorem getDeclarations_paramlist {t : Treenode} {ds : List Treenode}
    (h : IsParamlist t ds) : getDeclarations t = .ok ds := by
  have hdcl : ∀ d : Treenode, d.terminal = false → d.NTrule = ⟨"dcl", ["type", "ID"]⟩ →
      getDeclarations d = .ok [d] := by
    intro d h1 h2
    obtain ⟨tm, r, k, ty, cs⟩ := d
    simp only [Treenode.terminal, Treenode.NTrule] at h1 h2
    subst h1 h2
    unfold getDeclarations
    simp only [Bool.not_false, ↓reduceIte]
    simp [pure, Except.pure]
  have hleaf : ∀ c : Treenode, c.IsLeaf → getDeclarations c = .ok [] := by
    intro c hc
    obtain ⟨tm, r, k, ty, cs⟩ := c
    obtain ⟨h1, _⟩ := hc
    simp only [Treenode.terminal] at h1
    subst h1
    unfold getDeclarations
    simp [pure, Except.pure]
  induction h with
  | single t d hterm hrule hcs hdterm hdrule =>
    obtain ⟨tm, r, k, ty, cs⟩ := t
    simp only [Treenode.terminal, Treenode.NTrule, Treenode.children] at hterm hrule hcs
    subst hterm hrule hcs
    unfold getDeclarations
    simp only [Bool.not_false, ↓reduceIte]
    simp [getDeclarationsList, hdcl d hdterm hdrule, bind, Except.bind, pure, Except.pure]
  | cons t d comma rest ds hterm hrule hcs hdterm hdrule hcomma hct hrest ih =>
    obtain ⟨tm, r, k, ty, cs⟩ := t
    simp only [Treenode.terminal, Treenode.NTrule, Treenode.children] at hterm hrule hcs
    subst hterm hrule hcs
    unfold getDeclarations
    simp only [Bool.not_false, ↓reduceIte]
    simp [getDeclarationsList, hdcl d hdterm hdrule, hleaf comma hcomma, ih, bind, Except.bind,
      pure, Except.pure]

/-- `getDeclarations` on the parameters of a procedure returns the declaration
nodes, left to right. -/
theorem getDeclarations_params {t : Treenode} {ds : List Treenode} (h : IsParams t ds) :
    getDeclarations t = .ok ds := by
  obtain ⟨tm, r, k, ty, cs⟩ := t
  obtain ⟨hterm, hshape⟩ := h
  simp only [Treenode.terminal, Treenode.NTrule, Treenode.children] at hterm hshape
  subst hterm
  rcases hshape with ⟨hrule, hcs, hds⟩ | ⟨hrule, pl, hcs, hpl⟩
  · subst hrule hcs hds
    unfold getDeclarations
    simp only [Bool.not_false, ↓reduceIte]
    simp [getDeclarationsList, pure, Except.pure]
  · subst hrule hcs
    unfold getDeclarations
    simp only [Bool.not_false, ↓reduceIte]
    simp [getDeclarationsList, getDeclarations_paramlist hpl, bind, Except.bind, pure,
      Except.pure]

/-- Whatever the table, adding parameters appends their types to the
signature, in order. -/
theorem addParams_signature {ds : List Treenode} {vs : List Variable}
    (h : List.Forall₂ IsDcl ds vs) : ∀ (vt vt' : VariableTable) (sig sig' : List String),
    addParams (ds.map some) vt sig = .ok (vt', sig') → sig' = sig ++ vs.map Variable.type := by
  induction h with
  | nil =>
    intro vt vt' sig sig' h
    simp only [List.map_nil, addParams, pure, Except.pure, Except.ok.injEq, Prod.mk.injEq] at h
    simp [h.2]
  | @cons d v ds vs hd _ ih =>
    intro vt vt' sig sig' h
    rw [List.map_cons, addParams] at h
    simp only [deref, Variable.ofTree_of_isDcl hd, bind, Except.bind] at h
    cases hadd : vt.add v with
    | error e => rw [hadd] at h; cases h
    | ok vt1 =>
      rw [hadd] at h
      rw [ih vt1 vt' (sig ++ [v.type]) sig' h]
      simp

/-- A successful `Procedure` constructor got its signature from adding the
parameters: those harvested from `params` for a `procedure` node, the two `dcl`
children otherwise. -/
theorem Procedure.ofTree_ok_params {tree : Treenode} {p : Procedure}
    (h : Procedure.ofTree tree = .ok p) :
    ∃ params vt, addParams params ⟨[]⟩ [] = .ok (vt, p.signature) ∧
      ((tree.NTrule.lhs = "procedure" ∧ ∃ pn ps, tree.getChild "params" 1 = some pn ∧
          getDeclarations pn = .ok ps ∧ params = ps.map some) ∨
        (tree.NTrule.lhs ≠ "procedure" ∧
          params = [tree.getChild "dcl" 1, tree.getChild "dcl" 2])) := by
  unfold Procedure.ofTree at h
  simp only [bind, Except.bind] at h
  cases h0 : deref (tree.getChild "dcls") with
  | error e => rw [h0] at h; cases h
  | ok dn =>
    rw [h0] at h
    dsimp only at h
    cases h1 : getDeclarations dn with
    | error e => rw [h1] at h; cases h
    | ok locs =>
      rw [h1] at h
      dsimp only at h
      by_cases hlhs : tree.NTrule.lhs = "procedure"
      · simp only [hlhs, ↓reduceIte] at h
        cases h2 : deref (tree.getChild "params" 1) with
        | error e => rw [h2] at h; cases h
        | ok pn =>
          rw [h2] at h
          dsimp only at h
          cases h3 : getDeclarations pn with
          | error e => rw [h3] at h; cases h
          | ok ps =>
            rw [h3] at h
            dsimp only [pure, Except.pure] at h
            have hg : tree.getChild "params" 1 = some pn := by
              cases hc : tree.getChild "params" 1 with
              | none => rw [hc] at h2; cases h2
              | some x => rw [hc] at h2; cases h2; rfl
            cases ha : addParams (ps.map some) ⟨[]⟩ [] with
            | error e => rw [ha] at h; cases h
            | ok r =>
              obtain ⟨vt, sig⟩ := r
              rw [ha] at h
              dsimp only at h
              cases hn : childValue tree 1 with
              | error e => rw [hn] at h; cases h
              | ok name =>
                rw [hn] at h
                dsimp only at h
                cases hl : addLocals locs vt with
                | error e => rw [hl] at h; cases h
                | ok vt2 =>
                  rw [hl] at h
                  simp only [Except.ok.injEq] at h
                  subst h
                  exact ⟨ps.map some, vt, ha, Or.inl ⟨hlhs, pn, ps, hg, h3, rfl⟩⟩
      · simp only [hlhs, ↓reduceIte] at h
        cases h2 : deref (tree.getChild "dcl" 2) with
        | error e => rw [h2] at h; cases h
        | ok second =>
          rw [h2] at h
          dsimp only at h
          cases h3 : at? second.children 0 with
          | error e => rw [h3] at h; cases h
          | ok ty =>
            rw [h3] at h
            dsimp only at h
            split at h
            · cases h
            · dsimp only [pure, Except.pure] at h
              cases ha : addParams [tree.getChild "dcl" 1, tree.getChild "dcl" 2] ⟨[]⟩ [] with
              | error e => rw [ha] at h; cases h
              | ok r =>
                obtain ⟨vt, sig⟩ := r
                rw [ha] at h
                dsimp only at h
                cases hn : childValue tree 1 with
                | error e => rw [hn] at h; cases h
                | ok name =>
                  rw [hn] at h
                  dsimp only at h
                  cases hl : addLocals locs vt with
                  | error e => rw [hl] at h; cases h
                  | ok vt2 =>
                    rw [hl] at h
                    simp only [Except.ok.injEq] at h
                    subst h
                    exact ⟨_, vt, ha, Or.inr ⟨hlhs, rfl⟩⟩

/-! ## Idempotence of type annotation -/

/-- One `if` of the typing rule: when both branches are either the same for the
old types `a` and `b` or return the old type, so is the `if`. -/
theorem ite_type_cases {c : Prop} [Decidable c] {a b : String}
    {X Y X' Y' : Except Err String} (hX : X = X' ∨ (X = .ok a ∧ X' = .ok b))
    (hY : Y = Y' ∨ (Y = .ok a ∧ Y' = .ok b)) :
    (if c then X else Y) = (if c then X' else Y') ∨
      ((if c then X else Y) = .ok a ∧ (if c then X' else Y') = .ok b) := by
  by_cases h : c
  · rw [if_pos h, if_pos h]; exact hX
  · rw [if_neg h, if_neg h]; exact hY

/-- The typing rule of a node reads the `type` field only where it assigns
nothing: for two old types the outcome is the same, or it is the old type. -/
theorem nodeType_type_cases (tm : Bool) (r : Rule) (k : Token) (cs : List Treenode)
    (pt : ProcedureTable) (vt : VariableTable) (a b : String) :
    nodeType (Treenode.mk tm r k a cs) pt vt = nodeType (Treenode.mk tm r k b cs) pt vt ∨
      (nodeType (Treenode.mk tm r k a cs) pt vt = .ok a ∧
        nodeType (Treenode.mk tm r k b cs) pt vt = .ok b) := by
  unfold nodeType
  simp only [Treenode.terminal, Treenode.NTrule]
  repeat' apply ite_type_cases
  all_goals first | (left; rfl) | (right; exact ⟨rfl, rfl⟩)

/-- The type the rule of a node computes does not change when that type is
written into the node. -/
theorem nodeType_setType {t : Treenode} {pt : ProcedureTable} {vt : VariableTable}
    {ty : String} (h : nodeType t pt vt = .ok ty) : nodeType (t.setType ty) pt vt = .ok ty := by
  obtain ⟨tm, r, k, ty0, cs⟩ := t
  rcases nodeType_type_cases tm r k cs pt vt ty0 ty with heq | ⟨_, h2⟩
  · rw [Treenode.setType, ← heq]; exact h
  · exact h2

mutual
/-- An annotated tree is a fixed point of type annotation. -/
theorem annotateTypes_fixed : (t : Treenode) → (pt : ProcedureTable) →
    (vt : VariableTable) → (t' : Treenode) → t.annotateTypes pt vt = .ok t' →
    t'.annotateTypes pt vt = .ok t'
  | .mk tm r k ty cs, pt, vt, t', h => by
    obtain ⟨_, _, _, hcs⟩ := annotateTypes_ok_fields h
    have ih := annotateChildren_fixed cs pt vt t'.children hcs
    rw [annotateTypes_of_children hcs] at h
    cases hty : nodeType ((Treenode.mk tm r k ty cs).withChildren t'.children) pt vt with
    | error e => rw [hty] at h; cases h
    | ok ty1 =>
      rw [hty] at h
      simp only [Except.map, Except.ok.injEq] at h
      have hfix := nodeType_setType hty
      rw [h] at hfix
      rw [annotateTypes_of_children ih]
      have hw : t'.withChildren t'.children = t' := by cases t'; rfl
      rw [hw, hfix]
      simp only [Except.map, Except.ok.injEq]
      rw [← h]
      rfl
/-- Annotated children are a fixed point of the loop over the children. -/
theorem annotateChildren_fixed : (cs : List Treenode) → (pt : ProcedureTable) →
    (vt : VariableTable) → (cs' : List Treenode) → annotateChildren cs pt vt = .ok cs' →
    annotateChildren cs' pt vt = .ok cs'
  | [], pt, vt, cs', h => by
    rw [annotateChildren_nil] at h
    cases h
    exact annotateChildren_nil pt vt
  | c :: cs, pt, vt, cs', h => by
    obtain ⟨c', rest, rfl, hc, hrest⟩ := annotateChildren_cons_ok h
    rw [annotateChildren_cons, annotateTypes_fixed c pt vt c' hc,
      annotateChildren_fixed cs pt vt rest hrest]
    rfl
end

/-- C15: type annotation is idempotent. When `annotateTypes` succeeds on a tree
and gives `t'`, running it again on `t'` with the same tables succeeds and
gives `t'` again: every node keeps the type tag of the first run. -/
theorem annotateTypes_idempotent (t t' : Treenode) (pt : ProcedureTable) (vt : VariableTable)
    (h : t.annotateTypes pt vt = .ok t') :
    t'.annotateTypes pt vt = .ok t' ∧
      (t.annotateTypes pt vt).bind (fun u => u.annotateTypes pt vt) = t.annotateTypes pt vt := by
  have hfix := annotateTypes_fixed t pt vt t' h
  refine ⟨hfix, ?_⟩
  rw [h]
  exact hfix

theorem annotateTypes_idempotent_witness :
    ptrPlusInt.annotateTypes ⟨[]⟩ sampleVars = .ok ptrPlusIntTyped ∧
    ptrPlusIntTyped.annotateTypes ⟨[]⟩ sampleVars = .ok ptrPlusIntTyped :=
  ⟨rfl, (annotateTypes_idempotent ptrPlusInt ptrPlusIntTyped ⟨[]⟩ sampleVars rfl).1⟩

/-! ## Labels -/

/-- A candidate the loop of `generateLabel` accepts is not a used label. -/
theorem generateLabelLoop_fresh : ∀ (fuel : Nat) (tape rest : List Nat) (set : List String)
    (l : String), generateLabelLoop fuel tape set = some (l, rest) → l ∉ set := by
  intro fuel
  induction fuel with
  | zero => intro tape rest set l h; simp [generateLabelLoop] at h
  | succ n ih =>
    intro tape rest set l h
    rw [generateLabelLoop] at h
    simp only at h
    split_ifs at h with h1 h2
    · exact ih _ _ _ _ h
    · simp only [Option.some.injEq, Prod.mk.injEq] at h
      rw [← h.1]
      exact h2

/-- What a successful call of `generateLabel` does to the state. -/
theorem generateLabel_ok {s s' : CodegenState} {l : String}
    (h : generateLabel s = .ok (l, s')) :
    l ∉ s.label_set ∧ s'.label_set = s.label_set ++ [l] ∧
      s'.functionlabel_map = s.functionlabel_map ∧ s'.out = s.out := by
  unfold generateLabel at h
  split at h
  · cases h
  · rename_i newLabel rest heq
    simp only [Except.ok.injEq, Prod.mk.injEq] at h
    obtain ⟨h1, h2⟩ := h
    subst h1
    have hfresh := generateLabelLoop_fresh _ _ _ _ _ heq
    subst h2
    simp [setInsert, hfresh]

/-- C19: a label `generateLabel` returns is not in the set of used labels before
the call and is in it afterwards, and that set only grows; so the label differs
from every label used before, among them the reserved names. Two calls in a
row, as the `while` and `if` branches make them, return two different labels,
both different from every label used before. -/
theorem generateLabel_fresh (s s1 s2 : CodegenState) (l1 l2 : String)
    (h1 : generateLabel s = .ok (l1, s1)) (h2 : generateLabel s1 = .ok (l2, s2)) :
    l1 ∉ s.label_set ∧ l1 ∈ s1.label_set ∧ (∀ l ∈ s.label_set, l ∈ s1.label_set) ∧
    (∀ l ∈ s.label_set, l1 ≠ l) ∧
    (reservedLabels ⊆ s.label_set → l1 ∉ reservedLabels ∧ l2 ∉ reservedLabels) ∧
    l2 ≠ l1 ∧ (∀ l ∈ s.label_set, l2 ≠ l) ∧ l2 ∈ s2.label_set ∧ l1 ∈ s2.label_set := by
  obtain ⟨a1, a2, _, _⟩ := generateLabel_ok h1
  obtain ⟨b1, b2, _, _⟩ := generateLabel_ok h2
  rw [a2] at b1 b2
  have hl2 : ∀ l ∈ s.label_set, l2 ≠ l := by
    intro l hl heq
    exact b1 (List.mem_append_left _ (heq ▸ hl))
  have hl1 : ∀ l ∈ s.label_set, l1 ≠ l := by
    intro l hl heq
    exact a1 (heq ▸ hl)
  refine ⟨a1, ?_, ?_, hl1, ?_, ?_, hl2, ?_, ?_⟩
  · rw [a2]; simp
  · intro l hl; rw [a2]; exact List.mem_append_left _ hl
  · intro hres
    exact ⟨fun hm => a1 (hres hm), fun hm => b1 (List.mem_append_left _ (hres hm))⟩
  · intro heq
    exact b1 (by rw [heq]; simp)
  · rw [b2]; simp
  · rw [b2]; simp

theorem generateLabel_fresh_witness :
    generateLabel (CodegenState.init (List.replicate 20 0 ++ List.replicate 10 1)) =
      .ok ("aaaaaaaaaa",
        ⟨reservedLabels ++ ["aaaaaaaaaa"], [], List.replicate 10 0 ++ List.replicate 10 1, []⟩) ∧
    generateLabel
        ⟨reservedLabels ++ ["aaaaaaaaaa"], [], List.replicate 10 0 ++ List.replicate 10 1, []⟩ =
      .ok ("bbbbbbbbbb", ⟨reservedLabels ++ ["aaaaaaaaaa", "bbbbbbbbbb"], [], [], []⟩) ∧
    "bbbbbbbbbb" ≠ "aaaaaaaaaa" :=
  ⟨by decide, by decide,
    (generateLabel_fresh (CodegenState.init (List.replicate 20 0 ++ List.replicate 10 1))
      ⟨reservedLabels ++ ["aaaaaaaaaa"], [], List.replicate 10 0 ++ List.replicate 10 1, []⟩
      ⟨reservedLabels ++ ["aaaaaaaaaa", "bbbbbbbbbb"], [], [], []⟩ "aaaaaaaaaa" "bbbbbbbbbb"
      (by decide) (by decide)).2.2.2.2.2.1⟩

/-! ## Code of the additive operators -/

/-- The children `generateCodeOther` looks up in an additive expression. -/
theorem getChild_additive {tree e op t : Treenode} {o : String}
    (h : IsAdditive tree o e op t) :
    tree.getChild "expr" = some e ∧ tree.getChild "term" = some t ∧
      (if (tree.getChild "PLUS").isSome then tree.getChild "PLUS"
        else tree.getChild "MINUS") = some op := by
  obtain ⟨_, _, ho, hcs, he1, he2, hop1, hop2, ht1, ht2⟩ := h
  rcases ho with rfl | rfl <;>
    simp [Treenode.getChild, getChildLoop, hcs, he1, he2, hop1, hop2, ht1, ht2]

/-- Code of an additive expression: the left operand, a push, the right operand,
the reload of the left operand into `$5`, and the operator-specific part. -/
theorem generateCodeOther_additive {tree e op t : Treenode} {o : String}
    (h : IsAdditive tree o e op t) (fuel : Nat) (offsetTable : List (String × Int))
    (s : CodegenState) :
    generateCodeOther (fuel + 1) tree offsetTable s =
      (generateCodeOther fuel e offsetTable (s.emit (push 5))).bind fun s1 =>
        (generateCodeOther fuel t offsetTable (s1.emit (push 3))).bind fun s2 =>
          (combineAdditive e.type t.type (some op) (s2.emit (pop 5))).bind fun s3 =>
            .ok (s3.emit (pop 5)) := by
  obtain ⟨hg1, hg2, hg3⟩ := getChild_additive h
  obtain ⟨hterm, hrule, _, _⟩ := h
  rw [generateCodeOther]
  simp only [hterm, hrule, hg1, hg2, hg3, Bool.not_false, ↓reduceIte, List.length_cons,
    List.length_nil, deref, bind, Except.bind, pure, Except.pure, gt_iff_lt,
    Nat.lt_add_left_iff_pos, Nat.zero_lt_succ, Nat.reduceAdd, Nat.one_lt_ofNat]

/-- C17: for an additive expression that passed its typing rule and whose two
operands both have type `int*` (the operator is then `MINUS`), the code emitted
once the operands are evaluated and the left one is reloaded into `$5` is
exactly `sub $3, $5, $3`, `div $3, $4`, `mflo $3`: the right operand is
subtracted from the left and the difference divided by the cell size in `$4`;
then `$5` is restored. -/
theorem pointer_difference_code (tree e op t : Treenode) (o : String) (pt : ProcedureTable)
    (vt : VariableTable) (fuel : Nat) (offsetTable : List (String × Int))
    (s s1 s2 : CodegenState) (hshape : IsAdditive tree o e op t)
    (htyped : (nodeType tree pt vt).isOk = true) (he : e.type = "int*")
    (ht : t.type = "int*")
    (h1 : generateCodeOther fuel e offsetTable (s.emit (push 5)) = .ok s1)
    (h2 : generateCodeOther fuel t offsetTable (s1.emit (push 3)) = .ok s2) :
    o = "MINUS" ∧
    generateCodeOther (fuel + 1) tree offsetTable s =
      .ok (((s2.emit (pop 5)).emit (Subtract 3 5 3 ++ Divide 3 4 ++ Mflo 3)).emit (pop 5)) ∧
    Subtract 3 5 3 ++ Divide 3 4 ++ Mflo 3 = ["sub $3, $5, $3", "div $3, $4", "mflo $3"] := by
  have ho : o = "MINUS" := by
    obtain ⟨hterm, hrule, ho, hcs, _⟩ := hshape
    rcases ho with rfl | rfl
    · exfalso
      obtain ⟨tm, r, k, ty, cs⟩ := tree
      simp only [Treenode.terminal, Treenode.NTrule, Treenode.children] at hterm hrule hcs
      subst hterm hrule hcs
      simp [nodeType, Treenode.terminal, Treenode.NTrule, Rule.rhsAt, childType, at?,
        Treenode.children, Except.map, he, ht, bind, Except.bind, throw, throwThe,
        MonadExceptOf.throw, Except.isOk, Except.toBool] at htyped
    · rfl
  refine ⟨ho, ?_, by decide⟩
  rw [generateCodeOther_additive hshape, h1]
  simp only [Except.bind, h2]
  have hop : op.Ttoken.type = "MINUS" := by rw [hshape.2.2.2.2.2.2.2.1, ho]
  simp [combineAdditive, he, ht, deref, hop, bind, Except.bind, pure, Except.pure]

theorem pointer_difference_code_witness :
    IsAdditive ptrMinusPtrTyped "MINUS" (typedExprId "p" "int*") (leaf "MINUS" "-")
      (typedTermId "p" "int*") ∧
    (nodeType ptrMinusPtrTyped ⟨[]⟩ sampleVars).isOk = true ∧
    (typedExprId "p" "int*").type = "int*" ∧ (typedTermId "p" "int*").type = "int*" ∧
    generateCodeOther 3 (typedExprId "p" "int*") [("p", 4)]
        ((CodegenState.init []).emit (push 5)) =
      .ok (((CodegenState.init []).emit (push 5)).emit (Load 3 29 4)) ∧
    generateCodeOther 3 (typedTermId "p" "int*") [("p", 4)]
        ((((CodegenState.init []).emit (push 5)).emit (Load 3 29 4)).emit (push 3)) =
      .ok ((((CodegenState.init []).emit (push 5)).emit (Load 3 29 4)).emit
        (push 3 ++ Load 3 29 4)) ∧
    generateCodeOther 4 ptrMinusPtrTyped [("p", 4)] (CodegenState.init []) =
      .ok ⟨reservedLabels, [], [],
        ["sw $5, -4($30)", "sub $30, $30, $4", "lw $3, 4($29)", "sw $3, -4($30)",
          "sub $30, $30, $4", "lw $3, 4($29)", "add $30, $30, $4", "lw $5, -4($30)",
          "sub $3, $5, $3", "div $3, $4", "mflo $3", "add $30, $30, $4", "lw $5, -4($30)"]⟩ :=
  have hshape : IsAdditive ptrMinusPtrTyped "MINUS" (typedExprId "p" "int*") (leaf "MINUS" "-")
      (typedTermId "p" "int*") := ⟨rfl, rfl, Or.inr rfl, rfl, rfl, rfl, rfl, rfl, rfl, rfl⟩
  ⟨hshape, rfl, rfl, rfl, by decide, by decide,
    ((pointer_difference_code ptrMinusPtrTyped (typedExprId "p" "int*") (leaf "MINUS" "-")
      (typedTermId "p" "int*") "MINUS" ⟨[]⟩ sampleVars 3 [("p", 4)] (CodegenState.init [])
      (((CodegenState.init []).emit (push 5)).emit (Load 3 29 4))
      ((((CodegenState.init []).emit (push 5)).emit (Load 3 29 4)).emit (push 3 ++ Load 3 29 4))
      hshape rfl rfl rfl (by decide) (by decide)).2.1).trans (by decide)⟩

/-- C18: for an additive expression with one `int*` operand and one `int`
operand, the code emitted once the operands are evaluated (left one in `$5`,
right one in `$3`) first multiplies the register of the `int` operand by the
cell size in `$4` and moves the product back into that register, then adds or
subtracts: `$3` is scaled for `int* + int` and `int* - int`, `$5` for
`int + int*`. -/
theorem pointer_scaling_code (tree e op t : Treenode) (o : String) (fuel : Nat)
    (offsetTable : List (String × Int)) (s s1 s2 : CodegenState)
    (hshape : IsAdditive tree o e op t)
    (h1 : generateCodeOther fuel e offsetTable (s.emit (push 5)) = .ok s1)
    (h2 : generateCodeOther fuel t offsetTable (s1.emit (push 3)) = .ok s2) :
    (o = "PLUS" → e.type = "int*" → t.type = "int" →
      generateCodeOther (fuel + 1) tree offsetTable s =
        .ok (((s2.emit (pop 5)).emit
          ["mult $3, $4", "mflo $3", "add $3, $5, $3"]).emit (pop 5))) ∧
    (o = "MINUS" → e.type = "int*" → t.type = "int" →
      generateCodeOther (fuel + 1) tree offsetTable s =
        .ok (((s2.emit (pop 5)).emit
          ["mult $3, $4", "mflo $3", "sub $3, $5, $3"]).emit (pop 5))) ∧
    (o = "PLUS" → e.type = "int" → t.type = "int*" →
      generateCodeOther (fuel + 1) tree offsetTable s =
        .ok (((s2.emit (pop 5)).emit
          ["mult $5, $4", "mflo $5", "add $3, $5, $3"]).emit (pop 5))) := by
  have hop : op.Ttoken.type = o := hshape.2.2.2.2.2.2.2.1
  have e1 : Multiply 3 4 ++ Mflo 3 ++ Add 3 5 3 = ["mult $3, $4", "mflo $3", "add $3, $5, $3"] := by
    decide
  have e2 : Multiply 3 4 ++ Mflo 3 ++ Subtract 3 5 3 =
      ["mult $3, $4", "mflo $3", "sub $3, $5, $3"] := by decide
  have e3 : Multiply 5 4 ++ Mflo 5 ++ Add 3 5 3 = ["mult $5, $4", "mflo $5", "add $3, $5, $3"] := by
    decide
  rw [generateCodeOther_additive hshape, h1]
  simp only [Except.bind, h2]
  refine ⟨?_, ?_, ?_⟩ <;> intro ho he ht <;> rw [ho] at hop
  · rw [← e1]
    simp [combineAdditive, he, ht, deref, hop, bind, Except.bind, pure, Except.pure]
  · rw [← e2]
    simp [combineAdditive, he, ht, deref, hop, bind, Except.bind, pure, Except.pure]
  · rw [← e3]
    simp [combineAdditive, he, ht, deref, hop, bind, Except.bind, pure, Except.pure]

theorem pointer_scaling_code_witness :
    IsAdditive ptrPlusIntTyped "PLUS" (typedExprId "p" "int*") (leaf "PLUS" "+")
      (typedTermId "a" "int") ∧
    generateCodeOther 3 (typedExprId "p" "int*") [("p", 4), ("a", 8)]
        ((CodegenState.init []).emit (push 5)) =
      .ok (((CodegenState.init []).emit (push 5)).emit (Load 3 29 4)) ∧
    generateCodeOther 3 (typedTermId "a" "int") [("p", 4), ("a", 8)]
        ((((CodegenState.init []).emit (push 5)).emit (Load 3 29 4)).emit (push 3)) =
      .ok ((((CodegenState.init []).emit (push 5)).emit (Load 3 29 4)).emit
        (push 3 ++ Load 3 29 8)) ∧
    generateCodeOther 4 ptrPlusIntTyped [("p", 4), ("a", 8)] (CodegenState.init []) =
      .ok ⟨reservedLabels, [], [],
        ["sw $5, -4($30)", "sub $30, $30, $4", "lw $3, 4($29)", "sw $3, -4($30)",
          "sub $30, $30, $4", "lw $3, 8($29)", "add $30, $30, $4", "lw $5, -4($30)",
          "mult $3, $4", "mflo $3", "add $3, $5, $3", "add $30, $30, $4", "lw $5, -4($30)"]⟩ :=
  have hshape : IsAdditive ptrPlusIntTyped "PLUS" (typedExprId "p" "int*") (leaf "PLUS" "+")
      (typedTermId "a" "int") := ⟨rfl, rfl, Or.inl rfl, rfl, rfl, rfl, rfl, rfl, rfl, rfl⟩
  ⟨hshape, by decide, by decide,
    ((pointer_scaling_code ptrPlusIntTyped (typedExprId "p" "int*") (leaf "PLUS" "+")
      (typedTermId "a" "int") "PLUS" 3 [("p", 4), ("a", 8)] (CodegenState.init [])
      (((CodegenState.init []).emit (push 5)).emit (Load 3 29 4))
      ((((CodegenState.init []).emit (push 5)).emit (Load 3 29 4)).emit (push 3 ++ Load 3 29 8))
      hshape (by decide) (by decide)).1 rfl rfl rfl).trans (by decide)⟩

/-! ## Label of a procedure -/

/-- Looking up a key in a map that holds it does not change the state. -/
theorem labelAt_of_lookup {s : CodegenState} {name l : String}
    (h : s.functionlabel_map.lookup name = some l) : labelAt s name = (l, s) := by
  simp [labelAt, h]

/-- The key just appended to a map that did not hold it is found. -/
theorem lookup_append_new {m : List (String × String)} {name l : String}
    (h : mapContains m name = false) : (m ++ [(name, l)]).lookup name = some l := by
  have hnone : m.lookup name = none := by
    cases hm : m.lookup name with
    | none => rfl
    | some x => simp [mapContains, hm] at h
  rw [List.lookup_append, hnone]
  simp [List.lookup]

/-- C20, as the code has it: for an ordinary procedure `name` that has no entry
yet in the name-to-label table, the label written at its entry is its source
name unless that name is already in the set of used labels (a reserved name or
any label issued earlier in the run); then a label fresh from `generateLabel`
is written instead. In both cases the table maps `name` to the label written,
and a call site of `name`, with or without arguments, loads in its `.word` the
label the table holds for `name`. -/
theorem procedure_label (name : String) (s s' : CodegenState)
    (hnew : mapContains s.functionlabel_map name = false)
    (h : procedureLabel name s = .ok s') :
    (name ∉ s.label_set →
      s'.out = s.out ++ [name ++ ":"] ∧ s'.functionlabel_map.lookup name = some name ∧
      name ∈ s'.label_set) ∧
    (name ∈ s.label_set → ∀ l s1, generateLabel s = .ok (l, s1) →
      l ∉ s.label_set ∧ l ≠ name ∧ s'.out = s.out ++ [l ++ ":"] ∧
      s'.functionlabel_map.lookup name = some l ∧ l ∈ s'.label_set) ∧
    (∀ (l : String) (fuel : Nat) (offsetTable : List (String × Int)) (call id : Treenode)
      (st : CodegenState), call.terminal = false → call.getChild "ID" = some id →
      id.Ttoken.value = name → st.functionlabel_map.lookup name = some l →
      (call.NTrule = ⟨"factor", ["ID", "LPAREN", "RPAREN"]⟩ →
        generateCodeOther (fuel + 1) call offsetTable st =
          .ok (st.emit (push 29 ++ push 31 ++ Lis 31 ++ WordLabel l ++ Jalr 31 ++ pop 31 ++
            pop 29))) ∧
      (call.NTrule = ⟨"factor", ["ID", "LPAREN", "arglist", "RPAREN"]⟩ →
        ∀ (sa : CodegenState) (args : Int) (st1 : CodegenState),
        argsLoop (genChild fuel offsetTable) fuel (call.getChild "arglist") 0
            (sa.emit (push 29 ++ push 31)) = .ok (args, st1) →
        st1.functionlabel_map.lookup name = some l →
        generateCodeOther (fuel + 1) call offsetTable sa =
          .ok ((((st1.emit (Lis 31)).emit (WordLabel l ++ Jalr 31)).emit
            (List.replicate args.toNat popBare).flatten).emit (pop 31 ++ pop 29)))) := by
  refine ⟨?_, ?_, ?_⟩
  · intro hn
    unfold procedureLabel at h
    simp only [hn, ↓reduceIte, bind, Except.bind, pure, Except.pure] at h
    have hl : labelAt
        { s with
          label_set := setInsert name s.label_set
          functionlabel_map := mapInsert s.functionlabel_map name name } name =
        (name, { s with
          label_set := setInsert name s.label_set
          functionlabel_map := mapInsert s.functionlabel_map name name }) := by
      apply labelAt_of_lookup
      simp only [mapInsert, hnew, Bool.false_eq_true, ↓reduceIte]
      exact lookup_append_new hnew
    rw [hl] at h
    simp only [Except.ok.injEq] at h
    subst h
    refine ⟨rfl, ?_, ?_⟩
    · simp only [CodegenState.emit, mapInsert, hnew, Bool.false_eq_true, ↓reduceIte]
      exact lookup_append_new hnew
    · simp [CodegenState.emit, setInsert, hn]
  · intro hn l s1 hgen
    obtain ⟨g1, g2, g3, g4⟩ := generateLabel_ok hgen
    have hne : l ≠ name := fun heq => g1 (heq ▸ hn)
    unfold procedureLabel at h
    simp only [hn, ↓reduceIte, bind, Except.bind, pure, Except.pure, hgen] at h
    have hnew1 : mapContains s1.functionlabel_map name = false := by rw [g3]; exact hnew
    have hl : labelAt
        { s1 with
          label_set := setInsert l s1.label_set
          functionlabel_map := mapInsert s1.functionlabel_map name l } name =
        (l, { s1 with
          label_set := setInsert l s1.label_set
          functionlabel_map := mapInsert s1.functionlabel_map name l }) := by
      apply labelAt_of_lookup
      simp only [mapInsert, hnew1, Bool.false_eq_true, ↓reduceIte]
      exact lookup_append_new hnew1
    rw [hl] at h
    simp only [Except.ok.injEq] at h
    subst h
    refine ⟨g1, hne, ?_, ?_, ?_⟩
    · simp [CodegenState.emit, g4, Label]
    · simp only [CodegenState.emit, mapInsert, hnew1, Bool.false_eq_true, ↓reduceIte]
      exact lookup_append_new hnew1
    · simp [CodegenState.emit, setInsert, g2]
  · intro l fuel offsetTable call id st hterm hid hname hlook
    refine ⟨?_, ?_⟩
    · intro hrule
      rw [generateCodeOther]
      have hl : labelAt (st.emit (push 29 ++ push 31 ++ Lis 31)) name =
          (l, st.emit (push 29 ++ push 31 ++ Lis 31)) := labelAt_of_lookup hlook
      simp only [hterm, hrule, hid, hname, hl, Bool.not_false, ↓reduceIte, List.length_cons,
        List.length_nil, deref, bind, Except.bind, pure, Except.pure, Rule.rhsAt, List.getD,
        List.get?_cons_zero, List.get?_cons_succ, Option.getD_some, and_self, and_true,
        Nat.reduceAdd, Nat.reduceEqDiff, String.reduceEq, false_and, and_false]
      simp [CodegenState.emit, List.append_assoc]
    · intro hrule sa args st1 hargs hlook1
      rw [generateCodeOther]
      have hl : labelAt (st1.emit (Lis 31)) name = (l, st1.emit (Lis 31)) :=
        labelAt_of_lookup hlook1
      have hargs' : argsLoop (fun c s => do generateCodeOther fuel (← deref c) offsetTable s) fuel
          (call.getChild "arglist") 0 (sa.emit (push 29 ++ push 31)) = .ok (args, st1) := hargs
      simp only [hterm, hrule, hid, hname, Bool.not_false, ↓reduceIte,
        List.length_cons, List.length_nil, deref, bind, Except.bind, pure, Except.pure,
        Rule.rhsAt, List.getD, List.get?_cons_zero, List.get?_cons_succ,
        Option.getD_some, and_self, Nat.reduceAdd, Nat.reduceEqDiff, String.reduceEq]
      simp only [deref, bind, Except.bind, pure, Except.pure] at hargs'
      rw [hargs']
      simp only [hl]

/-- C20, counterexample: in the program
`int f() { int* q = NULL; delete [] q; return 0; }  int nwlrbbmqbh() { return 0; }
 int wain(int a, int b) { return 0; }` the second procedure has a name that is
not reserved, yet the label written at its entry is not its name: the `delete`
statement of `f` was given the generated label `nwlrbbmqbh`, so the procedure
gets the next generated label, `cdarzowkky`, and the table maps
`nwlrbbmqbh` to `cdarzowkky`. -/
theorem procedure_label_clash :
    "nwlrbbmqbh" ∉ reservedLabels ∧
    labelClashRun.map (fun st => st.functionlabel_map) =
      .ok [("f", "f"), ("nwlrbbmqbh", "cdarzowkky")] ∧
    labelClashRun.map (fun st => st.out.filter fun line => line.toList.getLast? = some ':') =
      .ok ["f:", "nwlrbbmqbh:", "cdarzowkky:", "main:"] := by
  decide

theorem procedure_label_witness :
    (mapContains (CodegenState.init unseededRand).functionlabel_map "print" = false ∧
      procedureLabel "print" (CodegenState.init unseededRand) =
        .ok ⟨reservedLabels ++ ["nwlrbbmqbh"], [("print", "nwlrbbmqbh")], unseededRand.drop 10,
          ["nwlrbbmqbh:"]⟩) ∧
    ("nwlrbbmqbh" ∉ (CodegenState.init unseededRand).label_set ∧ "nwlrbbmqbh" ≠ "print" ∧
      (⟨reservedLabels ++ ["nwlrbbmqbh"], [("print", "nwlrbbmqbh")], unseededRand.drop 10,
          ["nwlrbbmqbh:"]⟩ : CodegenState).out =
        (CodegenState.init unseededRand).out ++ ["nwlrbbmqbh" ++ ":"] ∧
      (⟨reservedLabels ++ ["nwlrbbmqbh"], [("print", "nwlrbbmqbh")], unseededRand.drop 10,
          ["nwlrbbmqbh:"]⟩ : CodegenState).functionlabel_map.lookup "print" =
        some "nwlrbbmqbh" ∧
      "nwlrbbmqbh" ∈ (⟨reservedLabels ++ ["nwlrbbmqbh"], [("print", "nwlrbbmqbh")],
          unseededRand.drop 10, ["nwlrbbmqbh:"]⟩ : CodegenState).label_set) :=
  ⟨⟨by decide, by decide⟩,
    (procedure_label "print" (CodegenState.init unseededRand)
      ⟨reservedLabels ++ ["nwlrbbmqbh"], [("print", "nwlrbbmqbh")], unseededRand.drop 10,
        ["nwlrbbmqbh:"]⟩ (by decide) (by decide)).2.1 (by decide) "nwlrbbmqbh"
      ⟨reservedLabels ++ ["nwlrbbmqbh"], [], unseededRand.drop 10, []⟩ (by decide)⟩

/-! ## Offsets of parameters and locals -/

theorem offsetsFrom_append (start : Int) (xs ys : List String) :
    offsetsFrom start (xs ++ ys) =
      offsetsFrom start xs ++ offsetsFrom (start - 4 * (xs.length : Int)) ys := by
  induction xs generalizing start with
  | nil => simp [offsetsFrom]
  | cons x xs ih =>
    have e : start - 4 * ((xs.length : Int) + 1) = start - 4 - 4 * (xs.length : Int) := by ring
    rw [List.cons_append, offsetsFrom, offsetsFrom, ih, List.cons_append]
    simp only [List.length_cons, Nat.cast_add, Nat.cast_one, e]

theorem lookup_offsetsFrom_of_not_mem {start : Int} {xs : List String} {x : String}
    (h : x ∉ xs) : (offsetsFrom start xs).lookup x = none := by
  induction xs generalizing start with
  | nil => rfl
  | cons y ys ih =>
    simp only [List.mem_cons, not_or] at h
    have hne : (x == y) = false := by simpa using h.1
    simp only [offsetsFrom, List.lookup, hne]
    exact ih h.2

/-- In the table of distinct names, the name at position `k` has the offset
`start - 4 * k`. -/
theorem lookup_offsetsFrom {start : Int} {xs : List String} (hnd : xs.Nodup) {k : Nat}
    (hk : k < xs.length) : (offsetsFrom start xs).lookup (xs.getD k "") = some (start - 4 * k) := by
  induction xs generalizing start k with
  | nil => simp at hk
  | cons y ys ih =>
    rw [List.nodup_cons] at hnd
    cases k with
    | zero => simp [offsetsFrom, List.lookup]
    | succ k =>
      have hk1 : k < ys.length := by simpa using hk
      have hmem : ys.getD k "" ∈ ys := by
        rw [List.getD_eq_getElem ys "" hk1]
        exact List.getElem_mem hk1
      have hne : (ys.getD k "" == y) = false := by
        simp only [beq_eq_false_iff_ne, ne_eq]
        intro heq
        exact hnd.1 (heq ▸ hmem)
      simp only [List.getD_cons_succ, offsetsFrom, List.lookup, hne]
      rw [ih hnd.2 hk1]
      congr 1
      push_cast
      ring

theorem mapContains_append_new {m : List (String × Int)} {x y : String} {v : Int}
    (hm : mapContains m x = false) (hne : x ≠ y) : mapContains (m ++ [(y, v)]) x = false := by
  have hnone : m.lookup x = none := by
    cases h : m.lookup x with
    | none => rfl
    | some a => simp [mapContains, h] at hm
  have hb : (x == y) = false := by simpa using hne
  simp [mapContains, List.lookup_append, hnone, List.lookup, hb]

/-- Inserting distinct names that the table does not hold appends them with
offsets going down by 4. -/
theorem insertParams_fresh (names : List String) (offsetTable : List (String × Int))
    (offset : Int) (hnew : ∀ x ∈ names, mapContains offsetTable x = false)
    (hnd : names.Nodup) :
    insertParams names offsetTable offset =
      (offsetTable ++ offsetsFrom offset names, offset - 4 * (names.length : Int)) := by
  induction names generalizing offsetTable offset with
  | nil => simp [insertParams, offsetsFrom]
  | cons x xs ih =>
    rw [List.nodup_cons] at hnd
    have hx : mapContains offsetTable x = false := hnew x (List.mem_cons_self _ _)
    rw [insertParams]
    simp only [mapInsert, hx, Bool.false_eq_true, ↓reduceIte]
    rw [ih _ _ ?_ hnd.2]
    · simp only [offsetsFrom, List.append_assoc, List.singleton_append, List.length_cons,
        Nat.cast_add, Nat.cast_one, Prod.mk.injEq, true_and]
      ring
    · intro y hy
      apply mapContains_append_new (hnew y (List.mem_cons_of_mem _ hy))
      intro heq
      exact hnd.1 (heq ▸ hy)

/-- The same for the locals: the table and the count of pushed cells. -/
theorem pushLocals_fresh (decls : List (String × Int)) (offsetTable : List (String × Int))
    (offset localVarCount : Int) (s : CodegenState)
    (hnew : ∀ x ∈ decls.map Prod.fst, mapContains offsetTable x = false)
    (hnd : (decls.map Prod.fst).Nodup) :
    (pushLocals decls offsetTable offset localVarCount s).1 =
        offsetTable ++ offsetsFrom offset (decls.map Prod.fst) ∧
      (pushLocals decls offsetTable offset localVarCount s).2.2.1 =
        localVarCount + (decls.length : Int) := by
  induction decls generalizing offsetTable offset localVarCount s with
  | nil => simp [pushLocals, offsetsFrom]
  | cons x xs ih =>
    rw [List.map_cons, List.nodup_cons] at hnd
    have hx : mapContains offsetTable x.1 = false := hnew x.1 (by simp)
    rw [pushLocals]
    simp only [mapInsert, hx, Bool.false_eq_true, ↓reduceIte]
    obtain ⟨h1, h2⟩ := ih (offsetTable ++ [(x.1, offset)]) (offset - 4) (localVarCount + 1)
      (s.emit (Lis 3 ++ Word x.2 ++ push 3)) (by
        intro y hy
        apply mapContains_append_new (hnew y (by simp only [List.map_cons, List.mem_cons]; exact Or.inr hy))
        intro heq
        exact hnd.1 (heq ▸ hy)) hnd.2
    rw [h1, h2]
    refine ⟨?_, ?_⟩
    · simp [offsetsFrom]
    · simp only [List.length_cons, Nat.cast_add, Nat.cast_one]
      ring

/-- The identifier leaf of a declaration. -/
theorem getChild_ID_of_isDcl {d : Treenode} {v : Variable} (h : IsDcl d v) :
    ∃ id, d.getChild "ID" = some id ∧ id.Ttoken.value = v.name := by
  obtain ⟨_, _, ty, id, hcs, hname, _, hty1, hty2, hid1, hid2⟩ := h
  refine ⟨id, ?_, hname⟩
  have hne : ¬ ty.NTrule.lhs = "ID" := by rw [hty2]; decide
  simp [Treenode.getChild, getChildLoop, hcs, hty1, hne, hid1, hid2]

theorem isParamlist_root {pl : Treenode} {ds : List Treenode} (h : IsParamlist pl ds) :
    pl.terminal = false ∧ pl.NTrule.lhs = "paramlist" := by
  cases h with
  | single _ d hterm hrule _ _ _ => exact ⟨hterm, by rw [hrule]⟩
  | cons _ d comma rest ds hterm hrule _ _ _ _ _ _ => exact ⟨hterm, by rw [hrule]⟩

/-- The loop over a parameter list collects the names from left to right and
adds 4 to the offset for each. -/
theorem paramNamesLoop_paramlist {pl : Treenode} {ds : List Treenode}
    (h : IsParamlist pl ds) :
    ∀ (vs : List Variable), List.Forall₂ IsDcl ds vs →
      ∀ (fuel : Nat) (acc : List String) (offset : Int), ds.length ≤ fuel →
        paramNamesLoop fuel (some pl) acc offset =
          .ok (acc ++ vs.map Variable.name, offset + 4 * (ds.length : Int)) := by
  induction h with
  | single t d hterm hrule hcs hdterm hdrule =>
    intro vs hvs fuel acc offset hfuel
    cases hvs with
    | @cons _ v _ vs' hd htl =>
      cases htl
      obtain ⟨id, hid, hname⟩ := getChild_ID_of_isDcl hd
      cases fuel with
      | zero => simp at hfuel
      | succ f =>
        have hg1 : t.getChild "dcl" = some d := by
          simp [Treenode.getChild, getChildLoop, hcs, hdterm, hdrule]
        have hg2 : t.getChild "paramlist" = none := by
          simp [Treenode.getChild, getChildLoop, hcs, hdterm, hdrule]
        rw [paramNamesLoop]
        simp only [hg1, hg2, hid, hname, deref, bind, Except.bind]
        rw [paramNamesLoop]
        simp [pure, Except.pure]
  | cons t d comma rest ds hterm hrule hcs hdterm hdrule hcomma hct hrest ih =>
    intro vs hvs fuel acc offset hfuel
    cases hvs with
    | @cons _ v _ vs' hd htl =>
      obtain ⟨id, hid, hname⟩ := getChild_ID_of_isDcl hd
      obtain ⟨hr1, hr2⟩ := isParamlist_root hrest
      cases fuel with
      | zero => simp at hfuel
      | succ f =>
        have hg1 : t.getChild "dcl" = some d := by
          simp [Treenode.getChild, getChildLoop, hcs, hdterm, hdrule]
        have hg2 : t.getChild "paramlist" = some rest := by
          simp [Treenode.getChild, getChildLoop, hcs, hdterm, hdrule, hcomma.1, hct, hr1, hr2]
        rw [paramNamesLoop]
        simp only [hg1, hg2, hid, hname, deref, bind, Except.bind]
        rw [ih vs' htl f _ _ (by simpa using hfuel)]
        simp only [List.map_cons, List.append_assoc, List.singleton_append, List.length_cons,
          Nat.cast_add, Nat.cast_one, Except.ok.injEq, Prod.mk.injEq, true_and]
        ring

theorem isDcls_root {dn : Treenode} {chain : List LocalDcl} (h : IsDcls dn chain) :
    dn.terminal = false ∧ dn.NTrule.lhs = "dcls" := by
  cases h with
  | nil _ hterm hrule _ => exact ⟨hterm, by rw [hrule]⟩
  | cons _ rest b v s ld chain hterm hrule _ _ _ _ _ _ _ => exact ⟨hterm, by rw [hrule]⟩

/-- The loop over a declaration list collects the names from the root inwards,
when the lexeme of every number initialiser is in the range of `std::stoi`. -/
theorem declarationsLoop_dcls {dn : Treenode} {chain : List LocalDcl} (h : IsDcls dn chain) :
    (∀ ld ∈ chain, ld.init = "NUM" → (stoi ld.lexeme).isOk = true) →
      ∀ (fuel : Nat) (acc : List (String × Int)), chain.length < fuel →
        ∃ decls, declarationsLoop fuel (some dn) acc = .ok (acc ++ decls) ∧
          decls.map Prod.fst = chain.map fun ld => ld.var.name := by
  induction h with
  | nil t hterm hrule hcs =>
    intro _ fuel acc hfuel
    cases fuel with
    | zero => simp at hfuel
    | succ f =>
      refine ⟨[], ?_, rfl⟩
      have hg : ∀ x, t.getChild x = none := by
        intro x
        simp [Treenode.getChild, getChildLoop, hcs]
      rw [declarationsLoop]
      simp only [hg, bind, Except.bind, pure, Except.pure]
      rw [declarationsLoop]
      simp [pure, Except.pure]
  | cons t rest b v s ld chain hterm hrule hinit hcs hdcl hb hv hs hrest ih =>
    intro hnum fuel acc hfuel
    obtain ⟨id, hid, hname⟩ := getChild_ID_of_isDcl hdcl
    obtain ⟨hr1, hr2⟩ := isDcls_root hrest
    obtain ⟨hd1, hd2, _⟩ := hdcl
    have hvt : v.Ttoken.type = ld.init := by rw [hv.2]
    have hvv : v.Ttoken.value = ld.lexeme := by rw [hv.2]
    cases fuel with
    | zero => simp at hfuel
    | succ f =>
      have hg1 : t.getChild "dcl" = some ld.dcl := by
        simp [Treenode.getChild, getChildLoop, hcs, hr1, hr2, hd1, hd2]
      have hg4 : t.getChild "dcls" = some rest := by
        simp [Treenode.getChild, getChildLoop, hcs, hr1, hr2]
      have hf : chain.length < f := by simpa using hfuel
      have hnum' : ∀ ld' ∈ chain, ld'.init = "NUM" → (stoi ld'.lexeme).isOk = true :=
        fun ld' hm => hnum ld' (List.mem_cons_of_mem _ hm)
      rcases hinit with hi | hi
      · have hg2 : t.getChild "NUM" = some v := by
          simp [Treenode.getChild, getChildLoop, hcs, hr1, hr2, hd1, hd2, hb.1, hb.2, hv.1,
            hvt, hi]
        have hok := hnum ld (List.mem_cons_self _ _) hi
        cases hst : stoi ld.lexeme with
        | error e => rw [hst] at hok; simp [Except.isOk, Except.toBool] at hok
        | ok val =>
          obtain ⟨decls, hrun, hnames⟩ := ih hnum' f (acc ++ [(id.Ttoken.value, val)]) hf
          refine ⟨(ld.var.name, val) :: decls, ?_, by simp [hnames]⟩
          rw [declarationsLoop]
          simp only [hg1, hg2, hg4, hid, hvv, hst, deref, bind, Except.bind, pure, Except.pure]
          rw [hrun, hname]
          simp
      · have hg2 : t.getChild "NUM" = none := by
          simp [Treenode.getChild, getChildLoop, hcs, hr1, hr2, hd1, hd2, hb.1, hb.2, hv.1,
            hvt, hi, hs.1, hs.2]
        have hg3 : t.getChild "NULL" = some v := by
          simp [Treenode.getChild, getChildLoop, hcs, hr1, hr2, hd1, hd2, hb.1, hb.2, hv.1,
            hvt, hi]
        obtain ⟨decls, hrun, hnames⟩ := ih hnum' f (acc ++ [(id.Ttoken.value, 1)]) hf
        refine ⟨(ld.var.name, 1) :: decls, ?_, by simp [hnames]⟩
        rw [declarationsLoop]
        simp only [hg1, hg2, hg3, hg4, hid, deref, bind, Except.bind, pure, Except.pure]
        rw [hrun, hname]
        simp

/-- The sample declaration list `int x = 5; int* q = NULL;` has the shape of a
declaration list with the chain `chainXQ`. -/
theorem isDcls_dclsXQ : IsDcls dclsXQ chainXQ :=
  IsDcls.cons dclsXQ (dclsNum noDcls (dclInt "x") "5") (leaf "BECOMES" "=")
    (leaf "NULL" "NULL") (leaf "SEMI" ";") ⟨dclPtr "q", ⟨"q", "int*"⟩, "NULL", "NULL"⟩ _ rfl
    rfl (Or.inr rfl) rfl (isDcl_dclPtr "q") ⟨rfl, rfl⟩ ⟨rfl, rfl⟩ ⟨rfl, rfl⟩
    (IsDcls.cons (dclsNum noDcls (dclInt "x") "5") noDcls (leaf "BECOMES" "=")
      (leaf "NUM" "5") (leaf "SEMI" ";") ⟨dclInt "x", ⟨"x", "int"⟩, "NUM", "5"⟩ _ rfl rfl
      (Or.inl rfl) rfl (isDcl_dclInt "x") ⟨rfl, rfl⟩ ⟨rfl, rfl⟩ ⟨rfl, rfl⟩
      (IsDcls.nil noDcls rfl rfl rfl))

/-- The sample parameters `int* u, int w` have the shape of a parameter list. -/
theorem isParams_sample :
    IsParams (paramsOf (paramlistCons (dclPtr "u") (paramlist1 (dclInt "w"))))
      [dclPtr "u", dclInt "w"] :=
  ⟨rfl, Or.inr ⟨rfl, paramlistCons (dclPtr "u") (paramlist1 (dclInt "w")), rfl,
    IsParamlist.cons _ (dclPtr "u") (leaf "COMMA" ",") (paramlist1 (dclInt "w")) _ rfl rfl rfl
      rfl rfl ⟨rfl, rfl⟩ rfl
      (IsParamlist.single (paramlist1 (dclInt "w")) (dclInt "w") rfl rfl rfl rfl rfl)⟩⟩

/-- The offset table the prologue of a procedure builds: the parameters first,
then the locals, each one cell below the one before. -/
theorem procedurePrologue_offsets {tree : Treenode} {ds : List Treenode}
    {pvars : List Variable} {dn : Treenode} {locals : List LocalDcl} {fuel : Nat}
    {s : CodegenState} (hparams : FrameParams tree ds) (hpv : List.Forall₂ IsDcl ds pvars)
    (hdn : tree.getChild "dcls" = some dn) (hdcls : IsDcls dn locals.reverse)
    (hnum : ∀ ld ∈ locals, ld.init = "NUM" → (stoi ld.lexeme).isOk = true)
    (hnd : (pvars.map Variable.name ++ locals.map fun ld => ld.var.name).Nodup)
    (hlabel : tree.NTrule.lhs = "procedure" →
      ∃ id s1, tree.getChild "ID" = some id ∧ procedureLabel id.Ttoken.value s = .ok s1)
    (hfuel : pvars.length ≤ fuel ∧ locals.length < fuel) :
    ∃ offsetTable localVarCount s',
      procedurePrologue fuel tree s = .ok (offsetTable, localVarCount, s') ∧
      offsetTable =
        offsetsFrom (4 * (pvars.length : Int))
          (pvars.map Variable.name ++ locals.map fun ld => ld.var.name) := by
  have hlen : ds.length = pvars.length := hpv.length_eq
  -- the locals
  obtain ⟨decls, hrun, hnames⟩ := declarationsLoop_dcls hdcls
    (fun ld hm => hnum ld (List.mem_reverse.mp hm)) fuel [] (by simpa using hfuel.2)
  have hlnames : decls.reverse.map Prod.fst = locals.map fun ld => ld.var.name := by
    rw [List.map_reverse, hnames, ← List.map_reverse, List.reverse_reverse]
  have hndp : (pvars.map Variable.name).Nodup := (List.nodup_append.mp hnd).1
  have hndl : (locals.map fun ld => ld.var.name).Nodup := (List.nodup_append.mp hnd).2.1
  have hdisj : ∀ x ∈ locals.map (fun ld => ld.var.name),
      mapContains (offsetsFrom (4 * (pvars.length : Int)) (pvars.map Variable.name)) x = false := by
    intro x hx
    have hx' : x ∉ pvars.map Variable.name := fun hmem =>
      (List.nodup_append.mp hnd).2.2 hmem hx
    simp [mapContains, lookup_offsetsFrom_of_not_mem hx']
  -- the table is as stated, whatever the state
  have key : ∀ (lvc : Int) (s0 : CodegenState),
      (pushLocals decls.reverse (offsetsFrom (4 * (pvars.length : Int)) (pvars.map Variable.name))
        0 lvc s0).1 =
        offsetsFrom (4 * (pvars.length : Int))
          (pvars.map Variable.name ++ locals.map fun ld => ld.var.name) := by
    intro lvc s0
    rw [(pushLocals_fresh decls.reverse _ 0 lvc s0 (by rw [hlnames]; exact hdisj)
      (by rw [hlnames]; exact hndl)).1, hlnames, offsetsFrom_append]
    simp
  have hfirst : ∃ lvc s0, procedurePrologue fuel tree s =
      .ok ((pushLocals decls.reverse
          (offsetsFrom (4 * (pvars.length : Int)) (pvars.map Variable.name)) 0 lvc s0).1,
        (pushLocals decls.reverse
          (offsetsFrom (4 * (pvars.length : Int)) (pvars.map Variable.name)) 0 lvc s0).2.2.1,
        (pushLocals decls.reverse
          (offsetsFrom (4 * (pvars.length : Int)) (pvars.map Variable.name)) 0 lvc s0).2.2.2) := by
    rw [List.nil_append] at hrun
    rcases hparams with ⟨hlhs, pn, hpn, hpterm, hp⟩ | ⟨hlhs, d1, d2, hds, h1, h2⟩
    · obtain ⟨id, s1, hid, hlab⟩ := hlabel hlhs
      rcases hp with ⟨hrule, hcs, hnil⟩ | ⟨hrule, pl, hcs, hpl⟩
      · subst hnil
        cases hpv
        refine ⟨0, s1.emit (Subtract 29 30 4), ?_⟩
        unfold procedurePrologue
        simp only [hlhs, ↓reduceIte, hid, hlab, hpn, hrule, hdn, hrun, deref, bind, Except.bind,
          pure, Except.pure, List.length_nil]
        rfl
      · obtain ⟨hr1, hr2⟩ := isParamlist_root hpl
        have hg : pn.getChild "paramlist" = some pl := by
          simp [Treenode.getChild, getChildLoop, hcs, hr1, hr2]
        have hloop := paramNamesLoop_paramlist hpl pvars hpv fuel [] 0 (by rw [hlen]; exact hfuel.1)
        have hins := insertParams_fresh (pvars.map Variable.name) [] (4 * (pvars.length : Int))
          (by intro x _; rfl) hndp
        rw [List.nil_append, zero_add, hlen] at hloop
        rw [List.nil_append, List.length_map, sub_self] at hins
        refine ⟨0, s1.emit (Subtract 29 30 4), ?_⟩
        unfold procedurePrologue
        simp only [hlhs, ↓reduceIte, hid, hlab, hpn, hrule, hg, hloop, hins, hdn, hrun, deref, bind,
          Except.bind, pure, Except.pure, List.length_cons, List.length_nil]
        rfl
    · have hne : ¬ tree.NTrule.lhs = "procedure" := by rw [hlhs]; decide
      subst hds
      cases hpv with
      | @cons _ v1 _ vs1 hd1 htl =>
        cases htl with
        | @cons _ v2 _ vs2 hd2 htl2 =>
          cases htl2
          obtain ⟨id1, hid1, hname1⟩ := getChild_ID_of_isDcl hd1
          obtain ⟨id2, hid2, hname2⟩ := getChild_ID_of_isDcl hd2
          have hne12 : v2.name ≠ v1.name := by
            intro heq
            simp [heq] at hndp
          have hb : (v2.name == v1.name) = false := by simpa using hne12
          refine ⟨2, ((((s.emit (Label "main")).emit
            (if d1.type = "int*" then
              push 31 ++ Lis 31 ++ WordLabel "init" ++ Jalr 31 ++ pop 31
            else
              push 2 ++ Lis 2 ++ Word 0 ++ push 31 ++ Lis 31 ++ WordLabel "init" ++
                Jalr 31 ++ pop 31 ++ pop 2)).emit (push 1)).emit (push 2)).emit
            (Subtract 29 30 4), ?_⟩
          unfold procedurePrologue
          simp only [hne, ↓reduceIte, h1, h2, hid1, hid2, hname1, hname2, hdn, hrun, deref, bind,
            Except.bind, pure, Except.pure, mapInsert, mapContains, List.lookup, Option.isSome,
            Bool.false_eq_true, List.nil_append, List.singleton_append, hb]
          split_ifs <;> rfl
  obtain ⟨lvc, s0, hrunp⟩ := hfirst
  exact ⟨_, _, _, hrunp, key lvc s0⟩

/-- C16: offsets of the frame. For a procedure node, ordinary or `main`, whose
parameters are declared by `ds` (variables `pvars` = p1..pN, left to right) and
whose locals, in source order, are `locals` = a1..aM, all names distinct, the
part of `generateCodeProcedures` that runs before the statements returns, with
enough fuel, and the offset table it has built is exactly
`(p1, 4N), (p2, 4N - 4), ..., (pN, 4), (a1, 0), (a2, -4), ...`: it maps p_i to
`4 * (N - i + 1)` and a_j to `-4 * (j - 1)`, one cell less at each step from p1
on. The lexeme of every number initialiser is taken to be in the range of
`std::stoi`, as the scanner ensures, and for an ordinary procedure the label is
taken to be issued. -/
theorem frame_offsets (tree : Treenode) (ds : List Treenode) (pvars : List Variable)
    (dn : Treenode) (locals : List LocalDcl) (fuel : Nat) (s : CodegenState)
    (hparams : FrameParams tree ds) (hpv : List.Forall₂ IsDcl ds pvars)
    (hdn : tree.getChild "dcls" = some dn) (hdcls : IsDcls dn locals.reverse)
    (hnum : ∀ ld ∈ locals, ld.init = "NUM" → (stoi ld.lexeme).isOk = true)
    (hnd : (pvars.map Variable.name ++ locals.map fun ld => ld.var.name).Nodup)
    (hlabel : tree.NTrule.lhs = "procedure" →
      ∃ id s1, tree.getChild "ID" = some id ∧ procedureLabel id.Ttoken.value s = .ok s1)
    (hfuel : pvars.length ≤ fuel ∧ locals.length < fuel) :
    ∃ offsetTable localVarCount s',
      procedurePrologue fuel tree s = .ok (offsetTable, localVarCount, s') ∧
      offsetTable =
        offsetsFrom (4 * (pvars.length : Int))
          (pvars.map Variable.name ++ locals.map fun ld => ld.var.name) ∧
      (∀ i : Nat, 1 ≤ i → i ≤ pvars.length →
        offsetTable.lookup ((pvars.map Variable.name).getD (i - 1) "") =
          some (4 * ((pvars.length : Int) - i + 1))) ∧
      (∀ j : Nat, 1 ≤ j → j ≤ locals.length →
        offsetTable.lookup ((locals.map fun ld => ld.var.name).getD (j - 1) "") =
          some (-4 * ((j : Int) - 1))) := by
  obtain ⟨offsetTable, localVarCount, s', hrunp, hkey⟩ :=
    procedurePrologue_offsets hparams hpv hdn hdcls hnum hnd hlabel hfuel
  refine ⟨offsetTable, localVarCount, s', hrunp, hkey, ?_, ?_⟩
  · intro i hi1 hiN
    rw [hkey]
    have hk : i - 1 < (pvars.map Variable.name).length := by rw [List.length_map]; omega
    have hk2 : i - 1 < (pvars.map Variable.name ++ locals.map fun ld => ld.var.name).length := by
      rw [List.length_append]; omega
    rw [← List.getD_append _ (locals.map fun ld => ld.var.name) "" _ hk,
      lookup_offsetsFrom hnd hk2]
    congr 1
    rw [Nat.cast_sub hi1]
    push_cast
    ring
  · intro j hj1 hjM
    rw [hkey]
    have hk2 : pvars.length + (j - 1) <
        (pvars.map Variable.name ++ locals.map fun ld => ld.var.name).length := by
      rw [List.length_append, List.length_map, List.length_map]; omega
    have hget : (pvars.map Variable.name ++ locals.map fun ld => ld.var.name).getD
        (pvars.length + (j - 1)) "" = (locals.map fun ld => ld.var.name).getD (j - 1) "" := by
      rw [List.getD_append_right _ _ _ _ (by rw [List.length_map]; omega), List.length_map]
      congr 1
      omega
    rw [← hget, lookup_offsetsFrom hnd hk2]
    congr 1
    rw [Nat.cast_add, Nat.cast_sub hj1]
    push_cast
    ring

theorem frame_offsets_witness :
    FrameParams procWithLocals [dclPtr "u", dclInt "w"] ∧
    procWithLocals.getChild "dcls" = some dclsXQ ∧
    (procedurePrologue 3 procWithLocals (CodegenState.init [])).map (fun r => r.1) =
      .ok [("u", 8), ("w", 4), ("x", 0), ("q", -4)] := by
  have hp : FrameParams procWithLocals [dclPtr "u", dclInt "w"] :=
    Or.inl ⟨rfl, _, rfl, isParams_sample⟩
  refine ⟨hp, rfl, ?_⟩
  obtain ⟨ot, lvc, s', hrun, htab, _, _⟩ :=
    frame_offsets procWithLocals [dclPtr "u", dclInt "w"] [⟨"u", "int*"⟩, ⟨"w", "int"⟩] dclsXQ
      [⟨dclInt "x", ⟨"x", "int"⟩, "NUM", "5"⟩, ⟨dclPtr "q", ⟨"q", "int*"⟩, "NULL", "NULL"⟩] 3
      (CodegenState.init []) hp (.cons (isDcl_dclPtr "u") (.cons (isDcl_dclInt "w") .nil)) rfl
      isDcls_dclsXQ (by decide) (by decide) (fun _ => ⟨leaf "ID" "g", _, rfl, rfl⟩)
      ⟨by decide, by decide⟩
  rw [hrun, htab]
  rfl

/-! ## Children by label -/

/-- The loop of `getChild` started with the counter at `index`, at most `n`:
the match number `n - index`, counted from 0, among the remaining children. -/
theorem getChildLoop_filter (lhs : String) (n : Int) (cs : List Treenode) (index : Int)
    (h : index ≤ n) :
    getChildLoop lhs n cs index =
      (cs.filter fun c => c.label = lhs)[(n - index).toNat]? := by
  induction cs generalizing index with
  | nil => simp [getChildLoop]
  | cons c cs ih =>
    rw [getChildLoop]
    by_cases ht : c.terminal = true
    · by_cases hl : c.Ttoken.type = lhs
      · have hlab : c.label = lhs := by simp [Treenode.label, ht, hl]
        by_cases hn : n = index
        · simp [ht, hl, hn, hlab, List.filter_cons]
        · have hlt : index + 1 ≤ n := by omega
          have hk : (n - index).toNat = (n - (index + 1)).toNat + 1 := by omega
          simp only [ht, hl, hn, and_false, ↓reduceIte, ih (index + 1) hlt, List.filter_cons,
            hlab, decide_True, hk, List.getElem?_cons_succ]
      · have hlab : ¬ c.label = lhs := by simp [Treenode.label, ht, hl]
        simp [ht, hl, hlab, List.filter_cons, ih index h]
    · have ht' : c.terminal = false := by simpa using ht
      by_cases hl : c.NTrule.lhs = lhs
      · have hlab : c.label = lhs := by simp [Treenode.label, ht', hl]
        by_cases hn : n = index
        · simp [ht', hl, hn, hlab, List.filter_cons]
        · have hlt : index + 1 ≤ n := by omega
          have hk : (n - index).toNat = (n - (index + 1)).toNat + 1 := by omega
          simp only [ht', hl, hn, and_false, ↓reduceIte, ih (index + 1) hlt, List.filter_cons,
            hlab, decide_True, hk, List.getElem?_cons_succ, Bool.false_eq_true]
      · have hlab : ¬ c.label = lhs := by simp [Treenode.label, ht', hl]
        simp [ht', hl, hlab, List.filter_cons, ih index h]

/-- C23: for `n ≥ 1`, `getChild lhs n` is the `n`-th immediate child, counted
left to right from 1, whose label (token kind of a leaf, left-hand side of the
rule of an interior node) is `lhs`; it is the null pointer exactly when fewer
than `n` immediate children have that label; what it returns is one of the
immediate children. The function is a pure function of the node, which it
leaves as it is. -/
theorem getChild_nth (t : Treenode) (lhs : String) (n : Nat) (hn : 1 ≤ n) :
    t.getChild lhs n = (t.children.filter fun c => c.label = lhs)[n - 1]? ∧
    (t.getChild lhs n = none ↔ (t.children.filter fun c => c.label = lhs).length < n) ∧
    (∀ c, t.getChild lhs n = some c → c ∈ t.children ∧ c.label = lhs) := by
  have key : t.getChild lhs n = (t.children.filter fun c => c.label = lhs)[n - 1]? := by
    unfold Treenode.getChild
    rw [getChildLoop_filter lhs n t.children 1 (by omega)]
    congr 1
    omega
  refine ⟨key, ?_, ?_⟩
  · rw [key, List.getElem?_eq_none_iff]
    omega
  · intro c hc
    rw [key] at hc
    have hmem : c ∈ t.children.filter fun c => c.label = lhs := List.mem_iff_getElem?.mpr ⟨_, hc⟩
    simpa using hmem

theorem getChild_nth_witness :
    (1 ≤ 2) ∧ wainWithLocals.getChild "dcl" 2 = some (dclInt "b") ∧
    (wainWithLocals.children.filter fun c => c.label = "dcl").length = 2 ∧
    wainWithLocals.getChild "ID" 1 = none :=
  ⟨by decide, rfl, by decide,
    ((getChild_nth wainWithLocals "ID" 1 (by decide)).2.1).mpr (by decide)⟩

/-! ## Type tags after annotation -/

/-- The typing rule leaves the type of a node that is no expression node as it
is. -/
theorem nodeType_other {t : Treenode} (h : ¬ t.IsExpression) (pt : ProcedureTable)
    (vt : VariableTable) : nodeType t pt vt = .ok t.type := by
  unfold nodeType
  by_cases ht : t.terminal = true
  · simp [ht, pure, Except.pure]
  · have ht' : t.terminal = false := by simpa using ht
    simp only [Treenode.IsExpression, ht', true_and, List.mem_cons, List.mem_singleton,
      List.mem_nil_iff, or_false, not_or] at h
    obtain ⟨h1, h2, h3, h4⟩ := h
    simp only [ht', Bool.not_false, ↓reduceIte, h1, h2, h3, h4]
    rfl

theorem subtreesList_mem {cs : List Treenode} {n : Treenode} :
    n ∈ subtreesList cs ↔ ∃ c ∈ cs, n ∈ c.subtrees := by
  induction cs with
  | nil => simp [subtreesList]
  | cons c cs ih => simp [subtreesList, ih]

mutual
/-- An untyped tree is its own erasure. -/
theorem eraseTypes_of_untyped : (t : Treenode) → t.Untyped → t.eraseTypes = t
  | .mk tm r k ty cs, h => by
    have hty : ty = "" :=
      h (Treenode.mk tm r k ty cs) (by rw [Treenode.subtrees]; exact List.mem_cons_self _ _)
    have hcs : ∀ c ∈ cs, c.Untyped := by
      intro c hc n hn
      apply h
      rw [Treenode.subtrees]
      exact List.mem_cons_of_mem _ (subtreesList_mem.mpr ⟨c, hc, hn⟩)
    rw [Treenode.eraseTypes, eraseTypesList_of_untyped cs hcs, hty]
/-- The same for a list of untyped trees. -/
theorem eraseTypesList_of_untyped : (cs : List Treenode) → (∀ c ∈ cs, c.Untyped) →
    eraseTypesList cs = cs
  | [], _ => by rw [eraseTypesList]
  | c :: cs, h => by
    rw [eraseTypesList, eraseTypes_of_untyped c (h c (List.mem_cons_self _ _)),
      eraseTypesList_of_untyped cs fun d hd => h d (List.mem_cons_of_mem _ hd)]
end

mutual
/-- Type annotation changes type tags only. -/
theorem annotateTypes_eraseTypes : (t : Treenode) → (pt : ProcedureTable) →
    (vt : VariableTable) → (t' : Treenode) → t.annotateTypes pt vt = .ok t' →
    t'.eraseTypes = t.eraseTypes
  | .mk tm r k ty cs, pt, vt, t', h => by
    obtain ⟨h1, h2, h3, hcs⟩ := annotateTypes_ok_fields h
    have ih := annotateChildren_eraseTypes cs pt vt t'.children hcs
    obtain ⟨tm', r', k', ty', cs'⟩ := t'
    simp only [Treenode.terminal, Treenode.NTrule, Treenode.Ttoken, Treenode.children] at h1 h2 h3 ih
    rw [Treenode.eraseTypes, Treenode.eraseTypes, ih, h1, h2, h3]
/-- The same for the loop over the children. -/
theorem annotateChildren_eraseTypes : (cs : List Treenode) → (pt : ProcedureTable) →
    (vt : VariableTable) → (cs' : List Treenode) → annotateChildren cs pt vt = .ok cs' →
    eraseTypesList cs' = eraseTypesList cs
  | [], pt, vt, cs', h => by
    rw [annotateChildren_nil] at h
    cases h
    rfl
  | c :: cs, pt, vt, cs', h => by
    obtain ⟨c', rest, rfl, hc, hrest⟩ := annotateChildren_cons_ok h
    rw [eraseTypesList, eraseTypesList, annotateTypes_eraseTypes c pt vt c' hc,
      annotateChildren_eraseTypes cs pt vt rest hrest]
end

mutual
/-- After the annotation of an untyped tree, a node that is no expression node
has no type. -/
theorem annotateTypes_other_untyped : (t : Treenode) → (pt : ProcedureTable) →
    (vt : VariableTable) → (t' : Treenode) → t.Untyped → t.annotateTypes pt vt = .ok t' →
    ∀ n ∈ t'.subtrees, ¬ n.IsExpression → n.type = ""
  | .mk tm r k ty cs, pt, vt, t', hu, h => by
    have hty : ty = "" :=
      hu (Treenode.mk tm r k ty cs) (by rw [Treenode.subtrees]; exact List.mem_cons_self _ _)
    have hucs : ∀ c ∈ cs, c.Untyped := by
      intro c hc n hn
      apply hu
      rw [Treenode.subtrees]
      exact List.mem_cons_of_mem _ (subtreesList_mem.mpr ⟨c, hc, hn⟩)
    obtain ⟨_, _, _, hcs⟩ := annotateTypes_ok_fields h
    have ih := annotateChildren_other_untyped cs pt vt t'.children hucs hcs
    rw [annotateTypes_of_children hcs] at h
    generalize t'.children = cs' at hcs ih h
    cases hnt : nodeType ((Treenode.mk tm r k ty cs).withChildren cs') pt vt with
    | error e => rw [hnt] at h; cases h
    | ok ty1 =>
      rw [hnt] at h
      simp only [Except.map, Except.ok.injEq] at h
      subst h
      intro n hn hne
      simp only [Treenode.withChildren, Treenode.setType, Treenode.subtrees,
        List.mem_cons] at hn
      rcases hn with rfl | hn
      · have hne' : ¬ (Treenode.mk tm r k ty cs').IsExpression := hne
        have := nodeType_other hne' pt vt
        simp only [Treenode.withChildren, Treenode.children] at this hnt
        rw [hnt] at this
        simp only [Except.ok.injEq] at this
        rw [Treenode.type, this, Treenode.type, hty]
      · exact ih n hn hne
/-- The same for the loop over the children. -/
theorem annotateChildren_other_untyped : (cs : List Treenode) → (pt : ProcedureTable) →
    (vt : VariableTable) → (cs' : List Treenode) → (∀ c ∈ cs, c.Untyped) →
    annotateChildren cs pt vt = .ok cs' →
    ∀ n ∈ subtreesList cs', ¬ n.IsExpression → n.type = ""
  | [], pt, vt, cs', _, h => by
    rw [annotateChildren_nil] at h
    cases h
    intro n hn
    simp [subtreesList] at hn
  | c :: cs, pt, vt, cs', hu, h => by
    obtain ⟨c', rest, rfl, hc, hrest⟩ := annotateChildren_cons_ok h
    intro n hn hne
    rw [subtreesList, List.mem_append] at hn
    rcases hn with hn | hn
    · exact annotateTypes_other_untyped c pt vt c' (hu c (List.mem_cons_self _ _)) hc n hn hne
    · exact annotateChildren_other_untyped cs pt vt rest
        (fun d hd => hu d (List.mem_cons_of_mem _ hd)) hrest n hn hne
end

/-- C28: after `annotateTypes` succeeds on a tree as the parser builds it (no
node has a type), only nodes of `expr`, `term`, `factor` and `lvalue` can carry a
type: every other node of the result, leaf or interior, has none; and the
result differs from the tree in type tags only: with the tags removed it is
the tree itself, so rules, tokens, children and their order are as before. -/
theorem annotateTypes_types_only (t t' : Treenode) (pt : ProcedureTable) (vt : VariableTable)
    (hfresh : t.Untyped) (h : t.annotateTypes pt vt = .ok t') :
    (∀ n ∈ t'.subtrees, ¬ n.IsExpression → n.type = "") ∧ t'.eraseTypes = t :=
  ⟨annotateTypes_other_untyped t pt vt t' hfresh h, by
    rw [annotateTypes_eraseTypes t pt vt t' h, eraseTypes_of_untyped t hfresh]⟩

/-- A tree is untyped when the test for an empty type holds at all its nodes. -/
theorem untyped_of_all {t : Treenode} (h : (t.subtrees.all fun n => n.type = "") = true) :
    t.Untyped := by
  intro n hn
  have := List.all_eq_true.mp h n hn
  simpa using this

theorem annotateTypes_types_only_witness :
    wainWithLocals.Untyped ∧
    wainWithLocals.annotateTypes ⟨[]⟩ sampleVars =
      .ok (mainTree (dclPtr "a") (dclInt "b") dclsXQ noStatements
        (typedNode "expr" ["term"] "int"
          [typedNode "term" ["factor"] "int" [typedNode "factor" ["NUM"] "int" [leaf "NUM" "0"]]])) ∧
    (mainTree (dclPtr "a") (dclInt "b") dclsXQ noStatements
        (typedNode "expr" ["term"] "int"
          [typedNode "term" ["factor"] "int"
            [typedNode "factor" ["NUM"] "int" [leaf "NUM" "0"]]])).eraseTypes = wainWithLocals :=
  ⟨untyped_of_all (by decide), rfl,
    (annotateTypes_types_only wainWithLocals _ ⟨[]⟩ sampleVars (untyped_of_all (by decide))
      rfl).2⟩

/-! ## Initialisation call of the entry procedure -/

/-- A child found by label is one of the subtrees of the node. -/
theorem getChild_mem_subtrees {t c : Treenode} {lhs : String} {n : Nat} (hn : 1 ≤ n)
    (h : t.getChild lhs n = some c) : c ∈ t.subtrees ∧ c.label = lhs := by
  have key : t.getChild lhs n = (t.children.filter fun c => c.label = lhs)[n - 1]? := by
    unfold Treenode.getChild
    rw [getChildLoop_filter lhs n t.children 1 (by omega)]
    congr 1
    omega
  rw [key] at h
  have hmem : c ∈ t.children.filter fun c => c.label = lhs := List.mem_iff_getElem?.mpr ⟨_, h⟩
  simp only [List.mem_filter, decide_eq_true_eq] at hmem
  exact ⟨mem_subtrees_of_child t c c hmem.1 (mem_subtrees_self c), hmem.2⟩

/-- After the annotation of a tree as the parser builds it, a `dcl` child of the
node has no type, whatever it declares: the test `param1->type == "int*"` of
`generateCodeProcedures` is then false. -/
theorem dcl_child_untyped {t t' d : Treenode} {pt : ProcedureTable} {vt : VariableTable}
    {n : Nat} (hn : 1 ≤ n) (hfresh : t.Untyped) (h : t.annotateTypes pt vt = .ok t')
    (hd : t'.getChild "dcl" n = some d) : d.type = "" ∧ ¬ d.type = "int*" := by
  obtain ⟨hmem, hlab⟩ := getChild_mem_subtrees hn hd
  have hne : ¬ d.IsExpression := by
    rintro ⟨hterm, hl⟩
    simp only [Treenode.label, hterm, Bool.false_eq_true, ↓reduceIte] at hlab
    rw [hlab] at hl
    simp at hl
  have := annotateTypes_other_untyped t pt vt t' hfresh h d hmem hne
  exact ⟨this, by rw [this]; decide⟩

/-- C21, the code at `int wain(int* a, int b) { return 0; }`: the program passes
semantic analysis with the signature `[int*, int]`, and the code written for
`wain` calls `init` before the parameters are pushed, but with the code of the
`int` case: `$2` is saved, set to zero (`lis $2`, `.word 0`) and restored,
although the first parameter is an `int*`. The code is, line for line, the
code written for `int wain(int a, int b) { return 0; }`. The same lines come
out of `generateCode` run on the tokens of the program. -/
theorem wain_pointer_init_code :
    analyseAndGenerate wainPtrProgram [] =
      .ok ([("wain", ["int*", "int"])],
        ["main:", "sw $2, -4($30)", "sub $30, $30, $4", "lis $2", ".word 0", "sw $31, -4($30)",
          "sub $30, $30, $4", "lis $31", ".word init", "jalr $31", "add $30, $30, $4",
          "lw $31, -4($30)", "add $30, $30, $4", "lw $2, -4($30)", "sw $1, -4($30)",
          "sub $30, $30, $4", "sw $2, -4($30)", "sub $30, $30, $4", "sub $29, $30, $4", "lis $3",
          ".word 0", "add $30, $30, $4", "add $30, $30, $4", "jr $31"]) ∧
    (analyseAndGenerate wainPtrProgram []).map Prod.snd =
      (analyseAndGenerate (proceduresMain wainReturn0) []).map Prod.snd ∧
    generateCode sampleCFG sampleTransitions sampleReductions [] 40 wainPtrTokens =
      .ok ⟨0, some ([".import print", ".import init", ".import new", ".import delete", "lis $4",
          ".word 4", "beq $0, $0, main"] ++
        ["main:", "sw $2, -4($30)", "sub $30, $30, $4", "lis $2", ".word 0", "sw $31, -4($30)",
          "sub $30, $30, $4", "lis $31", ".word init", "jalr $31", "add $30, $30, $4",
          "lw $31, -4($30)", "add $30, $30, $4", "lw $2, -4($30)", "sw $1, -4($30)",
          "sub $30, $30, $4", "sw $2, -4($30)", "sub $30, $30, $4", "sub $29, $30, $4", "lis $3",
          ".word 0", "add $30, $30, $4", "add $30, $30, $4", "jr $31"]), []⟩ := by
  refine ⟨by decide, by decide, by decide!⟩

/-! ## Shift -/

theorem back_append_singleton {α : Type} (v : List α) (a : α) : back (v ++ [a]) = .ok a := by
  simp [back, pure, Except.pure]

/-- C30: for a token queue with first token `tok` and a state stack with the
state `top` on top, `shift` succeeds exactly when the transitions have an entry
for `(top, kind of tok)`. On success the queue has lost exactly its first
token, the tree stack has gained one leaf holding `tok`, and the state stack
has gained the target of the transition. Otherwise it throws 'No next
transition', and the queue and the state stack are as before. -/
theorem shift_spec (tok : Token) (rest : List Token) (trees : List Treenode)
    (below : List Int) (top : Int) (dfa : SLR1DFA) :
    (∀ target, dfa.transitions.lookup (top, tok.type) = some target →
      shift (tok :: rest) trees (below ++ [top]) dfa =
        .ok ⟨none, rest, trees ++ [Treenode.ofToken tok], below ++ [top] ++ [target]⟩) ∧
    (dfa.transitions.lookup (top, tok.type) = none →
      ∃ o, shift (tok :: rest) trees (below ++ [top]) dfa = .ok o ∧
        o.thrown = some "No next transition" ∧ o.tokens = tok :: rest ∧
        o.states = below ++ [top]) ∧
    ((∃ o, shift (tok :: rest) trees (below ++ [top]) dfa = .ok o ∧ o.thrown = none) ↔
      ∃ target, dfa.transitions.lookup (top, tok.type) = some target) := by
  have hs : ∀ target, dfa.transitions.lookup (top, tok.type) = some target →
      shift (tok :: rest) trees (below ++ [top]) dfa =
        .ok ⟨none, rest, trees ++ [Treenode.ofToken tok], below ++ [top] ++ [target]⟩ := by
    intro target h
    simp [shift, front, back_append_singleton, h, bind, Except.bind, pure, Except.pure]
  have hn : dfa.transitions.lookup (top, tok.type) = none →
      shift (tok :: rest) trees (below ++ [top]) dfa =
        .ok ⟨some "No next transition", tok :: rest, trees ++ [Treenode.ofToken tok],
          below ++ [top]⟩ := by
    intro h
    simp [shift, front, back_append_singleton, h, bind, Except.bind, pure, Except.pure]
  refine ⟨hs, fun h => ⟨_, hn h, rfl, rfl, rfl⟩, ?_⟩
  constructor
  · rintro ⟨o, ho, hthrown⟩
    cases hl : dfa.transitions.lookup (top, tok.type) with
    | some target => exact ⟨target, rfl⟩
    | none =>
      rw [hn hl] at ho
      cases ho
      cases hthrown
  · rintro ⟨target, h⟩
    exact ⟨_, hs target h, rfl⟩

theorem shift_spec_witness :
    shift [⟨"BOF", "BOF"⟩, ⟨"EOF", "EOF"⟩] [] ([] ++ [0]) ⟨[((0, "BOF"), 1)], []⟩ =
      .ok ⟨none, [⟨"EOF", "EOF"⟩], [] ++ [Treenode.ofToken ⟨"BOF", "BOF"⟩], [] ++ [0] ++ [1]⟩ ∧
    ∃ o, shift [⟨"EOF", "EOF"⟩] [leaf "BOF" "BOF"] ([0] ++ [1]) ⟨[((0, "BOF"), 1)], []⟩ = .ok o ∧
      o.thrown = some "No next transition" ∧ o.tokens = [⟨"EOF", "EOF"⟩] ∧
      o.states = [0] ++ [1] :=
  ⟨(shift_spec ⟨"BOF", "BOF"⟩ [⟨"EOF", "EOF"⟩] [] [] 0 ⟨[((0, "BOF"), 1)], []⟩).1 1 rfl,
    (shift_spec ⟨"EOF", "EOF"⟩ [] [leaf "BOF" "BOF"] [0] 1 ⟨[((0, "BOF"), 1)], []⟩).2.1 rfl⟩

/-! ## Reduce -/

/-- Popping as many entries as the list `w` on top of `v` has leaves `v`. -/
theorem popBack_append {α : Type} (v w : List α) : popBack w.length (v ++ w) = .ok v := by
  induction w using List.reverseRecOn with
  | nil => simp [popBack, pure, Except.pure]
  | append_singleton w a ih =>
    rw [List.length_append, List.length_singleton, popBack]
    have hne : (v ++ (w ++ [a])).isEmpty = false := by
      cases v <;> cases w <;> simp
    rw [hne, ← List.append_assoc, List.dropLast_concat]
    simpa using ih

/-- Popping more entries than the vector holds is undefined behaviour. -/
theorem popBack_short {α : Type} (n : Nat) (v : List α) (h : v.length < n) :
    popBack n v = .error .undefined := by
  induction n generalizing v with
  | zero => omega
  | succ n ih =>
    rw [popBack]
    cases hv : v.isEmpty with
    | true => simp [throw, throwThe, MonadExceptOf.throw]
    | false =>
      simp only [Bool.false_eq_true, ↓reduceIte]
      apply ih
      have : v ≠ [] := by
        intro h0
        rw [h0] at hv
        simp at hv
      have := List.length_dropLast v
      have hpos : 0 < v.length := List.length_pos.mpr ‹v ≠ []›
      omega

/-- The tree half of a reduce step on a stack that holds the trees `popped`,
as many as the right-hand side is long, on top of the trees `below`. -/
theorem reduceTrees_append (below popped : List Treenode) (r : Rule)
    (h : popped.length = r.rhs.length) :
    reduceTrees (below ++ popped) r =
      .ok (below ++ [Treenode.mk false r ⟨"", ""⟩ "" popped]) := by
  unfold reduceTrees
  have hle : r.rhs.length ≤ (below ++ popped).length := by
    rw [List.length_append]; omega
  have hdrop : (below ++ popped).drop ((below ++ popped).length - r.rhs.length) = popped := by
    have : (below ++ popped).length - r.rhs.length = below.length := by
      rw [List.length_append]; omega
    rw [this, List.drop_left]
  simp only [hle, ↓reduceIte, hdrop, bind, Except.bind]
  rw [← h, popBack_append]
  rfl

/-- The state half of a reduce step: the entry pushed is the target of the
transition from the exposed state on the left-hand side; when the transitions
have no such entry the value 0 is pushed, and the entry `0` is added to the
transitions. -/
theorem reduceStates_append (below popped : List Int) (exposed : Int) (r : Rule)
    (dfa : SLR1DFA) (h : popped.length = r.rhs.length) :
    reduceStates (below ++ [exposed] ++ popped) r dfa =
      match dfa.transitions.lookup (exposed, r.lhs) with
      | some target => .ok (below ++ [exposed] ++ [target], dfa)
      | none => .ok (below ++ [exposed] ++ [0],
          { dfa with transitions := dfa.transitions ++ [((exposed, r.lhs), 0)] }) := by
  unfold reduceStates
  simp only [bind, Except.bind]
  rw [← h, popBack_append]
  simp only [back_append_singleton]
  cases dfa.transitions.lookup (exposed, r.lhs) <;> rfl

/-- C29: one reduce step by a rule `r`, on a tree stack that holds the trees
`popped` on top of `belowTrees` and a state stack that holds the states
`poppedStates` on top of the state `exposed` and of `belowStates`, both as
many as the right-hand side of `r` is long. `reduceTrees` replaces `popped` by
one interior node for `r` (no token, no type) whose children are `popped` in
their order, so as many as the right-hand side is long; `reduceStates`
replaces `poppedStates` by the target of the transition from `exposed` on the
left-hand side of `r`, and leaves the table as it is; the entries below are
unchanged on both stacks. -/
theorem reduce_step (r : Rule) (belowTrees popped : List Treenode) (belowStates : List Int)
    (exposed : Int) (poppedStates : List Int) (dfa : SLR1DFA) (target : Int)
    (htrees : popped.length = r.rhs.length) (hstates : poppedStates.length = r.rhs.length)
    (htarget : dfa.transitions.lookup (exposed, r.lhs) = some target) :
    reduceTrees (belowTrees ++ popped) r =
      .ok (belowTrees ++ [Treenode.mk false r ⟨"", ""⟩ "" popped]) ∧
    (Treenode.mk false r ⟨"", ""⟩ "" popped).children.length = r.rhs.length ∧
    reduceStates (belowStates ++ [exposed] ++ poppedStates) r dfa =
      .ok (belowStates ++ [exposed] ++ [target], dfa) := by
  refine ⟨reduceTrees_append belowTrees popped r htrees, htrees, ?_⟩
  rw [reduceStates_append belowStates poppedStates exposed r dfa hstates, htarget]

theorem reduce_step_witness :
    reduceTrees ([leaf "BOF" "BOF"] ++ [leaf "INT" "int", leaf "ID" "a"]) ⟨"dcl", ["INT", "ID"]⟩ =
      .ok ([leaf "BOF" "BOF"] ++
        [Treenode.mk false ⟨"dcl", ["INT", "ID"]⟩ ⟨"", ""⟩ "" [leaf "INT" "int", leaf "ID" "a"]]) ∧
    reduceStates ([0] ++ [1] ++ [5, 8]) ⟨"dcl", ["INT", "ID"]⟩ ⟨[((1, "dcl"), 14)], []⟩ =
      .ok ([0] ++ [1] ++ [14], ⟨[((1, "dcl"), 14)], []⟩) :=
  have h := reduce_step ⟨"dcl", ["INT", "ID"]⟩ [leaf "BOF" "BOF"] [leaf "INT" "int", leaf "ID" "a"]
    [0] 1 [5, 8] ⟨[((1, "dcl"), 14)], []⟩ 14 rfl rfl rfl
  ⟨h.1, h.2.2⟩

/-! ## Missing transitions, the final reduction and the rule loader -/

/-- C24, the code at a table without the transition a reduction needs. With the
rules `start → A EOF`, `A → BOF` and a table that has no transition from state 0
on `A`, the reduce step by `A → BOF` on the state stack `[0, 1]` raises no error:
`reduceStates` pushes the state 0, which no entry of the table gives, and adds
`(0, A) ↦ 0` to the transitions. The parse of the empty token sequence then goes
on from that state, shifts `EOF` and ends without an error. -/
theorem missing_goto_continues :
    toyTable.transitions.lookup (0, "A") = none ∧
    reduceStates [0, 1] ⟨"A", ["BOF"]⟩ toyTable =
      .ok ([0, 0], ⟨[((0, "BOF"), 1), ((0, "EOF"), 2), ((0, "A"), 0)], [((1, "EOF"), 1)]⟩) ∧
    (parseLoop toyRules 5 5 ⟨convertInput [], [], [0], toyTable⟩).map
        (fun p => (p.tokens, p.stateStack, stackShape p.treeStack)) =
      .ok ([], [0, 0, 2], [("A", ["BOF"]), ("EOF", [])]) := by
  decide

/-- C25, counterexample: with the one rule `start → BOF procedures EOF` and a
table that shifts `BOF`, two `ID` tokens and `EOF`, the loop ends without error
on the tokens `a b` with four trees on the stack; the final reduction by rule 0
takes the three on top, so two trees are on the stack afterwards and the
`BOF` leaf is no child of the new node. -/
theorem final_reduction_leaves_two :
    ((buildDFA shiftAllTransitions ".REDUCTIONS\n").bind fun dfa =>
      (parseLoop (getRules startOnlyCFG startOnlyCFG) 5 5
        ⟨convertInput [⟨"ID", "a"⟩, ⟨"ID", "b"⟩], [], [0], dfa⟩).bind fun p =>
      (at? (getRules startOnlyCFG startOnlyCFG) 0).bind fun r =>
      (reduceTrees p.treeStack r).map fun treeStack =>
        (stackShape p.treeStack, stackShape treeStack)) =
      .ok ([("BOF", []), ("ID", []), ("ID", []), ("EOF", [])],
        [("BOF", []), ("start", ["ID", "ID", "EOF"])]) := by
  decide

/-- C25, as the code has it: the final reduction by rule 0 replaces the trees on
top of the stack, as many as the right-hand side of rule 0 is long, by one
interior node for rule 0 whose children are those trees in their order, and
leaves the trees below. So when the stack holds exactly that many trees, the
stack afterwards holds exactly one node, whose children are all the trees that
were on the stack, in their order. With fewer trees on the stack the
behaviour is undefined. -/
theorem final_reduction (CFG : List Rule) (r : Rule) (treeStack : List Treenode)
    (hr : at? CFG 0 = .ok r) :
    (treeStack.length = r.rhs.length →
      (at? CFG 0).bind (reduceTrees treeStack) =
        .ok [Treenode.mk false r ⟨"", ""⟩ "" treeStack]) ∧
    (∀ below popped, treeStack = below ++ popped → popped.length = r.rhs.length →
      (at? CFG 0).bind (reduceTrees treeStack) =
        .ok (below ++ [Treenode.mk false r ⟨"", ""⟩ "" popped])) ∧
    (treeStack.length < r.rhs.length →
      (at? CFG 0).bind (reduceTrees treeStack) = .error .undefined) := by
  rw [hr]
  refine ⟨?_, ?_, ?_⟩
  · intro h
    have := reduceTrees_append [] treeStack r h
    simpa [Except.bind] using this
  · intro below popped hsplit h
    rw [hsplit]
    exact reduceTrees_append below popped r h
  · intro h
    simp only [Except.bind, reduceTrees, bind]
    rw [popBack_short _ _ h]

theorem final_reduction_witness :
    at? (getRules startOnlyCFG startOnlyCFG) 0 = .ok ⟨"start", ["BOF", "procedures", "EOF"]⟩ ∧
    (at? (getRules startOnlyCFG startOnlyCFG) 0).bind
        (reduceTrees [leaf "BOF" "BOF", proceduresMain wainReturn0, leaf "EOF" "EOF"]) =
      .ok [Treenode.mk false ⟨"start", ["BOF", "procedures", "EOF"]⟩ ⟨"", ""⟩ ""
        [leaf "BOF" "BOF", proceduresMain wainReturn0, leaf "EOF" "EOF"]] :=
  ⟨by decide,
    (final_reduction (getRules startOnlyCFG startOnlyCFG) ⟨"start", ["BOF", "procedures", "EOF"]⟩
      [leaf "BOF" "BOF", proceduresMain wainReturn0, leaf "EOF" "EOF"] (by decide)).1 rfl⟩

/-- C26, the code: `getRules` does not read its argument. Two texts with
different rule lines give the same rule list, and so do any two texts: the
result is the list of the rules of the constant `WLP4_CFG`, whatever text is
passed. The result is as the claim describes only for the text of the constant:
the first line is skipped, each further line gives one rule in order, its
first symbol is the left-hand side and `.EMPTY` is left out of the right-hand
side. -/
theorem getRules_ignores_input (WLP4_CFG : String) :
    getRules WLP4_CFG ".CFG\nexpr term\n" = getRules WLP4_CFG ".CFG\nterm factor\n" ∧
    (∀ input other : String, getRules WLP4_CFG input = getRules WLP4_CFG other) ∧
    getRules ".CFG\nstart BOF procedures EOF\ndcls .EMPTY\n" ".CFG\nexpr term\n" =
      [⟨"start", ["BOF", "procedures", "EOF"]⟩, ⟨"dcls", []⟩] :=
  ⟨rfl, fun _ _ => rfl, by decide⟩

/-! ## No output before the end of semantic analysis -/

theorem exists_of_isOk {ε α : Type} {x : Except ε α} (h : x.isOk = true) : ∃ a, x = .ok a := by
  cases x with
  | error e => simp [Except.isOk, Except.toBool] at h
  | ok a => exact ⟨a, rfl⟩

/-- C22: no assembly before the end of semantic analysis. When the parse throws
(`shift` finds no transition), `generateCode` returns 1 and has written nothing
to the standard output, only 'ERROR in setup' to the error output. When the
parse ends and the final reduction with the semantic analysis of all
procedures throws, as for a call with three arguments of a procedure with two
parameters, `generateCode` returns 1 and has written nothing to the standard
output, only 'ERROR in processing'. And whenever `generateCode` has written a
line to the standard output, the parse and the semantic analysis of the whole
program had succeeded. -/
theorem no_output_on_failure (WLP4_CFG WLP4_TRANSITIONS WLP4_REDUCTIONS : String)
    (rand : List Nat) (fuel : Nat) (testVecToken : List Token) (dfa : SLR1DFA)
    (hdfa : buildDFA WLP4_TRANSITIONS WLP4_REDUCTIONS = .ok dfa) :
    (∀ what, parseTokens WLP4_CFG dfa fuel testVecToken = .error (.runtime what) →
      generateCode WLP4_CFG WLP4_TRANSITIONS WLP4_REDUCTIONS rand fuel testVecToken =
        .ok ⟨1, some [], ["ERROR in setup: " ++ what]⟩) ∧
    (∀ p what, parseTokens WLP4_CFG dfa fuel testVecToken = .ok p →
      analyse (getRules WLP4_CFG WLP4_CFG) p.treeStack = .error (.runtime what) →
      generateCode WLP4_CFG WLP4_TRANSITIONS WLP4_REDUCTIONS rand fuel testVecToken =
        .ok ⟨1, some [], ["ERROR in processing: " ++ what]⟩) ∧
    (∀ run, generateCode WLP4_CFG WLP4_TRANSITIONS WLP4_REDUCTIONS rand fuel testVecToken =
        .ok run → run.out ≠ some [] →
      ∃ p result, parseTokens WLP4_CFG dfa fuel testVecToken = .ok p ∧
        analyse (getRules WLP4_CFG WLP4_CFG) p.treeStack = .ok result) := by
  unfold parseTokens
  refine ⟨?_, ?_, ?_⟩
  · intro what hp
    simp only [generateCode, hdfa, hp, bind, Except.bind, pure, Except.pure]
  · intro p what hp ha
    simp only [generateCode, hdfa, hp, ha, bind, Except.bind, pure, Except.pure]
  · intro run hrun hout
    simp only [generateCode, hdfa, bind, Except.bind, pure, Except.pure] at hrun
    cases hp : parseLoop (getRules WLP4_CFG WLP4_CFG) fuel fuel
        ⟨convertInput testVecToken, [], [0], dfa⟩ with
    | error e =>
      rw [hp] at hrun
      cases e <;> simp only [throw, throwThe, MonadExceptOf.throw] at hrun <;> cases hrun
      exact absurd rfl hout
    | ok p =>
      rw [hp] at hrun
      simp only at hrun
      cases ha : analyse (getRules WLP4_CFG WLP4_CFG) p.treeStack with
      | error e =>
        rw [ha] at hrun
        cases e <;> simp only [throw, throwThe, MonadExceptOf.throw] at hrun <;> cases hrun
        exact absurd rfl hout
      | ok result => exact ⟨p, result, rfl, ha⟩

theorem no_output_on_failure_witness :
    generateCode sampleCFG sampleTransitions sampleReductions unseededRand 40
        [⟨"RBRACE", "\x7d"⟩] =
      .ok ⟨1, some [], ["ERROR in setup: " ++ "No next transition"]⟩ ∧
    generateCode sampleCFG sampleTransitions sampleReductions unseededRand 40
        arityProgramTokens =
      .ok ⟨1, some [], ["ERROR in processing: " ++ "invalid parameters incorrect amount"]⟩ := by
  have h1 : ((buildDFA sampleTransitions sampleReductions).bind fun d =>
      (parseTokens sampleCFG d 40 [⟨"RBRACE", "\x7d"⟩]).map fun _ => ()) =
      .error (.runtime "No next transition") := by decide!
  have h2 : ((buildDFA sampleTransitions sampleReductions).bind fun d =>
      (parseTokens sampleCFG d 40 arityProgramTokens).map fun q =>
        (analyse (getRules sampleCFG sampleCFG) q.treeStack).map fun _ => ()) =
      .ok (.error (.runtime "invalid parameters incorrect amount")) := by decide!
  obtain ⟨dfa, hdfa⟩ : ∃ dfa, buildDFA sampleTransitions sampleReductions = .ok dfa := by
    cases hb : buildDFA sampleTransitions sampleReductions with
    | error e => rw [hb] at h2; cases h2
    | ok dfa => exact ⟨dfa, rfl⟩
  rw [hdfa] at h1 h2
  change (parseTokens sampleCFG dfa 40 [⟨"RBRACE", "\x7d"⟩]).map (fun _ => ()) = _ at h1
  change (parseTokens sampleCFG dfa 40 arityProgramTokens).map (fun q =>
    (analyse (getRules sampleCFG sampleCFG) q.treeStack).map fun _ => ()) = _ at h2
  have hsetup : parseTokens sampleCFG dfa 40 [⟨"RBRACE", "\x7d"⟩] =
      .error (.runtime "No next transition") := by
    generalize parseTokens sampleCFG dfa 40 [⟨"RBRACE", "\x7d"⟩] = P at h1 ⊢
    cases P with
    | error e => exact congrArg Except.error (Except.error.inj h1)
    | ok p => cases h1
  obtain ⟨p, hp, han⟩ : ∃ p, parseTokens sampleCFG dfa 40 arityProgramTokens = .ok p ∧
      analyse (getRules sampleCFG sampleCFG) p.treeStack =
        .error (.runtime "invalid parameters incorrect amount") := by
    generalize analyse (getRules sampleCFG sampleCFG) = F at h2 ⊢
    generalize parseTokens sampleCFG dfa 40 arityProgramTokens = P at h2 ⊢
    cases P with
    | error e => cases h2
    | ok p =>
      refine ⟨p, rfl, ?_⟩
      have h3 : (F p.treeStack).map (fun _ => ()) =
          .error (.runtime "invalid parameters incorrect amount") := Except.ok.inj h2
      generalize F p.treeStack = A at h3 ⊢
      cases A with
      | error e => exact congrArg Except.error (Except.error.inj h3)
      | ok r => cases h3
  exact ⟨(no_output_on_failure sampleCFG sampleTransitions sampleReductions unseededRand 40
      [⟨"RBRACE", "\x7d"⟩] dfa hdfa).1 _ hsetup,
    (no_output_on_failure sampleCFG sampleTransitions sampleReductions unseededRand 40
      arityProgramTokens dfa hdfa).2.1 p _ hp han⟩

/-! ## Invariants of the parser -/

theorem leavesList_append (a b : List Treenode) :
    leavesList (a ++ b) = leavesList a ++ leavesList b := by
  induction a with
  | nil => simp [leavesList]
  | cons c cs ih => simp [leavesList, ih]

/-- What `popBack` returns: the vector without its last `n` entries. -/
theorem popBack_ok {α : Type} {n : Nat} {v v' : List α} (h : popBack n v = .ok v') :
    ∃ w, v = v' ++ w ∧ w.length = n := by
  induction n generalizing v with
  | zero =>
    simp only [popBack, pure, Except.pure, Except.ok.injEq] at h
    exact ⟨[], by simp [h], rfl⟩
  | succ n ih =>
    rw [popBack] at h
    cases hv : v.isEmpty with
    | true => simp [hv, throw, throwThe, MonadExceptOf.throw] at h
    | false =>
      simp only [hv, Bool.false_eq_true, ↓reduceIte] at h
      obtain ⟨w, hw, hlen⟩ := ih h
      have hne : v ≠ [] := by
        intro h0
        rw [h0] at hv
        simp at hv
      refine ⟨w ++ [v.getLast hne], ?_, by simp [hlen]⟩
      rw [← List.append_assoc, ← hw]
      exact (List.dropLast_append_getLast hne).symm

/-- A successful `reduceTrees` replaced the trees on top, as many as the
right-hand side is long, by one node over them. -/
theorem reduceTrees_ok {trees trees' : List Treenode} {r : Rule}
    (h : reduceTrees trees r = .ok trees') :
    ∃ below popped, trees = below ++ popped ∧ popped.length = r.rhs.length ∧
      trees' = below ++ [Treenode.mk false r ⟨"", ""⟩ "" popped] := by
  cases hp : popBack r.rhs.length trees with
  | error e => simp [reduceTrees, hp, bind, Except.bind] at h
  | ok below =>
    obtain ⟨popped, hsplit, hlen⟩ := popBack_ok hp
    refine ⟨below, popped, hsplit, hlen, ?_⟩
    rw [hsplit, reduceTrees_append below popped r hlen] at h
    cases h
    rfl

/-- A successful `reduceStates` replaced the states on top, as many as the
right-hand side is long, by one state. -/
theorem reduceStates_ok {states states' : List Int} {r : Rule} {dfa dfa' : SLR1DFA}
    (h : reduceStates states r dfa = .ok (states', dfa')) :
    ∃ below popped target, states = below ++ popped ∧ popped.length = r.rhs.length ∧
      states' = below ++ [target] := by
  unfold reduceStates at h
  cases hp : popBack r.rhs.length states with
  | error e => simp [hp, bind, Except.bind] at h
  | ok below =>
    obtain ⟨popped, hsplit, hlen⟩ := popBack_ok hp
    simp only [hp, bind, Except.bind] at h
    cases hb : back below with
    | error e => simp [hb] at h
    | ok top =>
      simp only [hb] at h
      cases hl : dfa.transitions.lookup (top, r.lhs) with
      | none =>
        simp only [hl, pure, Except.pure, Except.ok.injEq, Prod.mk.injEq] at h
        exact ⟨below, popped, 0, hsplit, hlen, h.1.symm⟩
      | some target =>
        simp only [hl, pure, Except.pure, Except.ok.injEq, Prod.mk.injEq] at h
        exact ⟨below, popped, target, hsplit, hlen, h.1.symm⟩

/-- A `shift` that did not throw consumed the first token and pushed one leaf
for it and one state. -/
theorem shift_ok {tokens : List Token} {trees : List Treenode} {states : List Int}
    {dfa : SLR1DFA} {o : ShiftOutcome} (h : shift tokens trees states dfa = .ok o)
    (hthrown : o.thrown = none) :
    ∃ tok target, tokens = tok :: o.tokens ∧ o.trees = trees ++ [Treenode.ofToken tok] ∧
      o.states = states ++ [target] := by
  unfold shift at h
  cases tokens with
  | nil => simp [front, bind, Except.bind, throw, throwThe, MonadExceptOf.throw] at h
  | cons tok rest =>
    simp only [front, bind, Except.bind, pure, Except.pure] at h
    cases hb : back states with
    | error e => simp [hb] at h
    | ok top =>
      simp only [hb] at h
      cases hl : dfa.transitions.lookup (top, tok.type) with
      | none =>
        simp only [hl, Except.ok.injEq] at h
        subst h
        cases hthrown
      | some target =>
        simp only [hl, Except.ok.injEq] at h
        subst h
        exact ⟨tok, target, rfl, rfl, rfl⟩

/-- The inner loop keeps the leaves of the tree stack and the difference of the
lengths of the two stacks. -/
theorem reduceLoop_ok (CFG : List Rule) (tokens : List Token) :
    ∀ (fuel : Nat) (trees : List Treenode) (states : List Int) (dfa : SLR1DFA)
      (trees' : List Treenode) (states' : List Int) (dfa' : SLR1DFA),
      reduceLoop CFG tokens fuel trees states dfa = .ok (trees', states', dfa') →
      leavesList trees' = leavesList trees ∧
        (states.length = trees.length + 1 → states'.length = trees'.length + 1) := by
  intro fuel
  induction fuel with
  | zero =>
    intro trees states dfa trees' states' dfa' h
    simp [reduceLoop, throw, throwThe, MonadExceptOf.throw] at h
  | succ fuel ih =>
    intro trees states dfa trees' states' dfa' h
    rw [reduceLoop] at h
    simp only [bind, Except.bind] at h
    cases hb : back states with
    | error e => simp [hb] at h
    | ok currState =>
      cases hf : front tokens with
      | error e => simp [hb, hf] at h
      | ok topToken =>
        simp only [hb, hf] at h
        cases hl : dfa.reductions.lookup (currState, topToken.type) with
        | none =>
          simp only [hl, pure, Except.pure, Except.ok.injEq, Prod.mk.injEq] at h
          obtain ⟨h1, h2, _⟩ := h
          subst h1 h2
          exact ⟨rfl, id⟩
        | some ruleNum =>
          simp only [hl] at h
          cases hr : ruleAt CFG ruleNum with
          | error e => simp [hr] at h
          | ok r =>
            simp only [hr] at h
            cases ht : reduceTrees trees r with
            | error e => simp [ht] at h
            | ok trees1 =>
              simp only [ht] at h
              cases hs : reduceStates states r dfa with
              | error e => simp [hs] at h
              | ok res =>
                obtain ⟨states1, dfa1⟩ := res
                simp only [hs] at h
                obtain ⟨i1, i2⟩ := ih trees1 states1 dfa1 trees' states' dfa' h
                obtain ⟨bt, pt, hbt, hpt, hbt'⟩ := reduceTrees_ok ht
                obtain ⟨bs, ps, q, hbs, hps, hbs'⟩ := reduceStates_ok hs
                refine ⟨?_, ?_⟩
                · rw [i1, hbt', hbt, leavesList_append, leavesList_append]
                  simp [leavesList, Treenode.leaves]
                · intro hal
                  apply i2
                  rw [hbs', hbt']
                  rw [hbs, hbt] at hal
                  simp only [List.length_append, List.length_singleton] at hal ⊢
                  omega

/-- The outer loop, when it ends without error: no token is left, the leaves of
the tree stack are the leaves it had followed by the tokens consumed, the
difference of the stack lengths is kept, and the loop ran one round, with one
`shift`, for each token. -/
theorem parseLoop_ok (CFG : List Rule) (fuel : Nat) :
    ∀ (n : Nat) (p p' : ParseState), parseLoop CFG fuel n p = .ok p' →
      p'.tokens = [] ∧ leavesList p'.treeStack = leavesList p.treeStack ++ p.tokens ∧
        (p.Aligned → p'.Aligned) ∧ p.tokens.length ≤ n ∧
        parseLoop CFG fuel p.tokens.length p = .ok p' := by
  intro n
  induction n with
  | zero =>
    intro p p' h
    rw [parseLoop] at h
    by_cases hlen : p.tokens.length ≠ 0
    · rw [if_pos hlen] at h
      cases h
    · have h0 : p.tokens = [] := by
        cases ht : p.tokens with
        | nil => rfl
        | cons a b => simp [ht] at hlen
      rw [if_neg hlen] at h
      cases h
      refine ⟨h0, by simp [h0], id, by simp [h0], ?_⟩
      rw [h0, List.length_nil, parseLoop, if_neg hlen]
      rfl
  | succ n ih =>
    intro p p' h
    rw [parseLoop] at h
    by_cases hlen : p.tokens.length ≠ 0
    · rw [if_pos hlen] at h
      simp only [bind, Except.bind] at h
      cases hr : reduceLoop CFG p.tokens fuel p.treeStack p.stateStack p.dfa with
      | error e => simp [hr] at h
      | ok res =>
        obtain ⟨trees1, states1, dfa1⟩ := res
        simp only [hr] at h
        cases hs : shift p.tokens trees1 states1 dfa1 with
        | error e => simp [hs] at h
        | ok o =>
          simp only [hs] at h
          cases hth : o.thrown with
          | some what => simp [hth, throw, throwThe, MonadExceptOf.throw] at h
          | none =>
            simp only [hth] at h
            obtain ⟨i1, i2, i3, i4, i5⟩ := ih _ _ h
            obtain ⟨r1, r2⟩ := reduceLoop_ok CFG p.tokens fuel _ _ _ _ _ _ hr
            obtain ⟨tok, target, s1, s2, s3⟩ := shift_ok hs hth
            simp only at i2 i3 i4 i5
            refine ⟨i1, ?_, ?_, ?_, ?_⟩
            · rw [i2, s2, leavesList_append, r1, s1]
              simp [leavesList, Treenode.leaves, Treenode.ofToken]
            · intro hal
              apply i3
              have := r2 hal
              simp only [ParseState.Aligned, s2, s3, List.length_append, List.length_singleton]
              omega
            · rw [s1]
              simp only [List.length_cons]
              omega
            · have hl : p.tokens.length = o.tokens.length + 1 := by rw [s1]; rfl
              rw [hl, parseLoop, if_pos hlen]
              simp only [bind, Except.bind, hr, hs, hth]
              exact i5
    · have h0 : p.tokens = [] := by
        cases ht : p.tokens with
        | nil => rfl
        | cons a b => simp [ht] at hlen
      rw [if_neg hlen] at h
      cases h
      refine ⟨h0, by simp [h0], id, by simp [h0], ?_⟩
      rw [h0, List.length_nil, parseLoop, if_neg hlen]
      rfl

/-- C31, counterexample: the two stacks do not have the same length. After
initialisation the state stack holds the state 0 and the tree stack is empty;
at the end of the parse of the tokens `a b` with a table that shifts `BOF`, two
`ID` tokens and `EOF`, the state stack holds five states and the tree stack four
trees. -/
theorem stacks_differ :
    (⟨convertInput [], [], [0], toyTable⟩ : ParseState).stateStack.length = 1 ∧
    (⟨convertInput [], [], [0], toyTable⟩ : ParseState).treeStack.length = 0 ∧
    ((buildDFA shiftAllTransitions ".REDUCTIONS\n").bind fun dfa =>
      (parseTokens startOnlyCFG dfa 5 [⟨"ID", "a"⟩, ⟨"ID", "b"⟩]).map fun p =>
        (p.stateStack.length, p.treeStack.length)) = .ok (5, 4) := by
  decide

/-- C31, as the code has it: throughout a parse the state stack is exactly one
entry longer than the tree stack. This holds after initialisation (the state
stack `[0]`, no tree), is kept by every reduce step (`reduceTrees` then
`reduceStates` by the same rule) and by every `shift` that does not throw, and
so holds when the loop of `generateCode` ends. -/
theorem stack_lengths :
    (∀ (dfa : SLR1DFA) (testVecToken : List Token),
      (⟨convertInput testVecToken, [], [0], dfa⟩ : ParseState).Aligned) ∧
    (∀ (trees trees' : List Treenode) (states states' : List Int) (r : Rule)
      (dfa dfa' : SLR1DFA), reduceTrees trees r = .ok trees' →
      reduceStates states r dfa = .ok (states', dfa') →
      states.length = trees.length + 1 → states'.length = trees'.length + 1) ∧
    (∀ (tokens : List Token) (trees : List Treenode) (states : List Int) (dfa : SLR1DFA)
      (o : ShiftOutcome), shift tokens trees states dfa = .ok o → o.thrown = none →
      states.length = trees.length + 1 → o.states.length = o.trees.length + 1) ∧
    (∀ (WLP4_CFG : String) (dfa : SLR1DFA) (fuel : Nat) (testVecToken : List Token)
      (p : ParseState), parseTokens WLP4_CFG dfa fuel testVecToken = .ok p → p.Aligned) := by
  refine ⟨fun _ _ => rfl, ?_, ?_, ?_⟩
  · intro trees trees' states states' r dfa dfa' ht hs hal
    obtain ⟨bt, pt, hbt, hpt, hbt'⟩ := reduceTrees_ok ht
    obtain ⟨bs, ps, q, hbs, hps, hbs'⟩ := reduceStates_ok hs
    rw [hbs', hbt']
    rw [hbs, hbt] at hal
    simp only [List.length_append, List.length_singleton] at hal ⊢
    omega
  · intro tokens trees states dfa o hs hth hal
    obtain ⟨tok, target, _, s2, s3⟩ := shift_ok hs hth
    rw [s2, s3]
    simp only [List.length_append, List.length_singleton]
    omega
  · intro cfg dfa fuel toks p hp
    exact (parseLoop_ok _ fuel fuel _ p hp).2.2.1 rfl

theorem stack_lengths_witness :
    reduceTrees [leaf "BOF" "BOF", leaf "INT" "int", leaf "ID" "a"] ⟨"dcl", ["INT", "ID"]⟩ =
      .ok [leaf "BOF" "BOF", node "dcl" ["INT", "ID"] [leaf "INT" "int", leaf "ID" "a"]] ∧
    reduceStates [0, 1, 5, 8] ⟨"dcl", ["INT", "ID"]⟩ ⟨[((1, "dcl"), 14)], []⟩ =
      .ok ([0, 1, 14], ⟨[((1, "dcl"), 14)], []⟩) ∧
    ([0, 1, 14] : List Int).length =
      [leaf "BOF" "BOF", node "dcl" ["INT", "ID"] [leaf "INT" "int", leaf "ID" "a"]].length + 1 :=
  ⟨rfl, by decide,
    stack_lengths.2.1 [leaf "BOF" "BOF", leaf "INT" "int", leaf "ID" "a"] _ [0, 1, 5, 8] _
      ⟨"dcl", ["INT", "ID"]⟩ ⟨[((1, "dcl"), 14)], []⟩ ⟨[((1, "dcl"), 14)], []⟩ rfl (by decide)
      rfl⟩

/-- C36: the parser preserves the input. When the loop of `generateCode` ends
without error, and so every reduction found the entries it pops, no token is
left and the tokens of the terminal nodes of the tree stack, read left to
right, are `BOF`, the input tokens in their order, `EOF`: nothing is dropped,
doubled or moved. The loop ran exactly as many rounds, each with one `shift`,
as there are input tokens plus two. -/
theorem parser_preserves_input (WLP4_CFG : String) (dfa : SLR1DFA) (fuel : Nat)
    (testVecToken : List Token) (p : ParseState)
    (h : parseTokens WLP4_CFG dfa fuel testVecToken = .ok p) :
    p.tokens = [] ∧
    leavesList p.treeStack = [⟨"BOF", "BOF"⟩] ++ testVecToken ++ [⟨"EOF", "EOF"⟩] ∧
    (leavesList p.treeStack).length = testVecToken.length + 2 ∧
    testVecToken.length + 2 ≤ fuel ∧
    parseLoop (getRules WLP4_CFG WLP4_CFG) fuel (testVecToken.length + 2)
      ⟨convertInput testVecToken, [], [0], dfa⟩ = .ok p := by
  obtain ⟨h1, h2, _, h4, h5⟩ := parseLoop_ok _ fuel fuel _ p h
  have hlen : (convertInput testVecToken).length = testVecToken.length + 2 := by
    simp [convertInput]
  simp only [hlen] at h4 h5
  have hleaves : leavesList p.treeStack =
      [⟨"BOF", "BOF"⟩] ++ testVecToken ++ [⟨"EOF", "EOF"⟩] := by
    rw [h2]
    simp [leavesList, convertInput]
  refine ⟨h1, hleaves, ?_, h4, h5⟩
  rw [hleaves]
  simp

theorem parser_preserves_input_witness :
    ∃ p, parseTokens startOnlyCFG ⟨[((0, "BOF"), 1), ((1, "ID"), 2), ((2, "ID"), 3),
        ((3, "EOF"), 4)], []⟩ 5 [⟨"ID", "a"⟩, ⟨"ID", "b"⟩] = .ok p ∧
      leavesList p.treeStack =
        [⟨"BOF", "BOF"⟩] ++ [⟨"ID", "a"⟩, ⟨"ID", "b"⟩] ++ [⟨"EOF", "EOF"⟩] :=
  ⟨⟨[], [leaf "BOF" "BOF", leaf "ID" "a", leaf "ID" "b", leaf "EOF" "EOF"], [0, 1, 2, 3, 4],
      ⟨[((0, "BOF"), 1), ((1, "ID"), 2), ((2, "ID"), 3), ((3, "EOF"), 4)], []⟩⟩,
    rfl,
    (parser_preserves_input startOnlyCFG ⟨[((0, "BOF"), 1), ((1, "ID"), 2), ((2, "ID"), 3),
        ((3, "EOF"), 4)], []⟩ 5 [⟨"ID", "a"⟩, ⟨"ID", "b"⟩]
      ⟨[], [leaf "BOF" "BOF", leaf "ID" "a", leaf "ID" "b", leaf "EOF" "EOF"], [0, 1, 2, 3, 4],
        ⟨[((0, "BOF"), 1), ((1, "ID"), 2), ((2, "ID"), 3), ((3, "EOF"), 4)], []⟩⟩ rfl).2.1⟩

/-! ## Ordering tests -/

/-- The words 0 and 1 read as two's-complement numbers. -/
theorem toSigned_bit (b : Nat) (hb : b = 0 ∨ b = 1) : toSigned b = b := by
  rcases hb with rfl | rfl <;> decide

/-- C32: for a `test` node whose operator is one of `LT`, `LE`, `GE`, `GT` and
whose operands have the types `leftType` and `rightType`, the code emitted once
both operands are evaluated and the left one is reloaded into `$5` (the right
one is in `$3`) is a sequence of `slt`, `sltu` and `lis`/`.word` instructions
that leaves in `$3` the word 1 when `left op right` holds and 0 otherwise: the
operands are compared as two's-complement numbers when both have type `int`,
and as unsigned numbers otherwise, so when both have type `int*`; then `$5` is
restored. -/
theorem ordering_test_code (tree l r opNode : Treenode) (op : String) (fuel : Nat)
    (offsetTable : List (String × Int)) (s s1 s2 : CodegenState)
    (hterm : tree.terminal = false) (hlhs : tree.NTrule.lhs = "test")
    (hl : tree.getChild "expr" = some l) (hr : tree.getChild "expr" 2 = some r)
    (hopNode : at? tree.children 1 = .ok opNode) (hop : opNode.Ttoken.type = op)
    (hord : op = "LT" ∨ op = "LE" ∨ op = "GE" ∨ op = "GT")
    (h1 : generateCodeOther fuel l offsetTable (s.emit (push 5)) = .ok s1)
    (h2 : generateCodeOther fuel r offsetTable (s1.emit (push 3)) = .ok s2) :
    ∃ prog : List Instr,
      generateCodeOther (fuel + 1) tree offsetTable s =
        .ok (((s2.emit (pop 5)).emit (textAll prog)).emit (pop 5)) ∧
      ∀ regs : Registers,
        (l.type = "int" ∧ r.type = "int" →
          execAll prog regs 3 =
            if ordering op (toSigned (regs 5)) (toSigned (regs 3)) then 1 else 0) ∧
        (l.type = "int*" ∧ r.type = "int*" →
          execAll prog regs 3 =
            if ordering op (toUnsigned (regs 5)) (toUnsigned (regs 3)) then 1 else 0) := by
  have hgen : generateCodeOther (fuel + 1) tree offsetTable s =
      (combineTest op l.type r.type (s2.emit (pop 5))).bind fun s3 => .ok (s3.emit (pop 5)) := by
    rw [generateCodeOther]
    have hne1 : tree.NTrule.lhs ≠ "expr" := by rw [hlhs]; decide
    have hne2 : tree.NTrule.lhs ≠ "term" := by rw [hlhs]; decide
    have hne3 : tree.NTrule.lhs ≠ "factor" := by rw [hlhs]; decide
    have hne4 : tree.NTrule.lhs ≠ "statements" := by rw [hlhs]; decide
    have hne5 : tree.NTrule.lhs ≠ "statement" := by rw [hlhs]; decide
    simp only [hterm, hne1, hne2, hne3, hne4, hne5, Bool.not_false, ↓reduceIte]
    simp only [hlhs, hl, hr, hopNode, hop, h1, h2, ↓reduceIte, deref, bind, Except.bind, pure,
      Except.pure]
  have h0 : toSigned 0 = 0 := by decide
  have h10 : toSigned 1 = 1 := by decide
  have hlis : ((1 : Int) % 2 ^ 32).toNat = 1 := by decide
  by_cases hint : l.type = "int" ∧ r.type = "int"
  · have hnot : ¬ (l.type = "int*" ∧ r.type = "int*") := by
      rw [hint.1]
      simp
    rcases hord with rfl | rfl | rfl | rfl
    · refine ⟨[.slt 3 5 3], ?_, fun regs => ⟨fun _ => ?_, fun hp => absurd hp hnot⟩⟩
      · rw [hgen]
        simp [combineTest, hint, Except.bind, pure, Except.pure, textAll, Instr.text]
      · simp [execAll, Instr.exec, Registers.write, ordering]
    · refine ⟨[.slt 3 3 5, .lisWord 5 1, .slt 3 3 5], ?_,
        fun regs => ⟨fun _ => ?_, fun hp => absurd hp hnot⟩⟩
      · rw [hgen]
        simp [combineTest, hint, Except.bind, pure, Except.pure, textAll, Instr.text]
      · simp only [execAll, Instr.exec, Registers.write, ordering, hlis]
        rcases lt_or_ge (toSigned (regs 3)) (toSigned (regs 5)) with hc | hc
        · have hc2 : ¬ (toSigned (regs 5)) ≤ (toSigned (regs 3)) := not_le.mpr hc
          simp [hc, hc2, h0, h10]
        · have hc2 : ¬ (toSigned (regs 3)) < (toSigned (regs 5)) := not_lt.mpr hc
          have hc3 : (toSigned (regs 5)) ≤ (toSigned (regs 3)) := hc
          simp [hc2, hc3, h0, h10]
    · refine ⟨[.slt 3 5 3, .lisWord 5 1, .slt 3 3 5], ?_,
        fun regs => ⟨fun _ => ?_, fun hp => absurd hp hnot⟩⟩
      · rw [hgen]
        simp [combineTest, hint, Except.bind, pure, Except.pure, textAll, Instr.text]
      · simp only [execAll, Instr.exec, Registers.write, ordering, hlis]
        rcases lt_or_ge (toSigned (regs 5)) (toSigned (regs 3)) with hc | hc
        · have hc2 : ¬ (toSigned (regs 3)) ≤ (toSigned (regs 5)) := not_le.mpr hc
          simp [hc, hc2, h0, h10]
        · have hc2 : ¬ (toSigned (regs 5)) < (toSigned (regs 3)) := not_lt.mpr hc
          have hc3 : (toSigned (regs 3)) ≤ (toSigned (regs 5)) := hc
          simp [hc2, hc3, h0, h10]
    · refine ⟨[.slt 3 3 5], ?_, fun regs => ⟨fun _ => ?_, fun hp => absurd hp hnot⟩⟩
      · rw [hgen]
        simp [combineTest, hint, Except.bind, pure, Except.pure, textAll, Instr.text]
      · simp [execAll, Instr.exec, Registers.write, ordering]
  · rcases hord with rfl | rfl | rfl | rfl
    · refine ⟨[.sltu 3 5 3], ?_, fun regs => ⟨fun hp => absurd hp hint, fun _ => ?_⟩⟩
      · rw [hgen]
        simp [combineTest, hint, Except.bind, pure, Except.pure, textAll, Instr.text]
      · simp [execAll, Instr.exec, Registers.write, ordering]
    · refine ⟨[.sltu 3 3 5, .lisWord 5 1, .slt 3 3 5], ?_,
        fun regs => ⟨fun hp => absurd hp hint, fun _ => ?_⟩⟩
      · rw [hgen]
        simp [combineTest, hint, Except.bind, pure, Except.pure, textAll, Instr.text]
      · simp only [execAll, Instr.exec, Registers.write, ordering, hlis]
        rcases lt_or_ge (toUnsigned (regs 3)) (toUnsigned (regs 5)) with hc | hc
        · have hc2 : ¬ (toUnsigned (regs 5)) ≤ (toUnsigned (regs 3)) := not_le.mpr hc
          simp [hc, hc2, h0, h10]
        · have hc2 : ¬ (toUnsigned (regs 3)) < (toUnsigned (regs 5)) := not_lt.mpr hc
          have hc3 : (toUnsigned (regs 5)) ≤ (toUnsigned (regs 3)) := hc
          simp [hc2, hc3, h0, h10]
    · refine ⟨[.sltu 3 5 3, .lisWord 5 1, .slt 3 3 5], ?_,
        fun regs => ⟨fun hp => absurd hp hint, fun _ => ?_⟩⟩
      · rw [hgen]
        simp [combineTest, hint, Except.bind, pure, Except.pure, textAll, Instr.text]
      · simp only [execAll, Instr.exec, Registers.write, ordering, hlis]
        rcases lt_or_ge (toUnsigned (regs 5)) (toUnsigned (regs 3)) with hc | hc
        · have hc2 : ¬ (toUnsigned (regs 3)) ≤ (toUnsigned (regs 5)) := not_le.mpr hc
          simp [hc, hc2, h0, h10]
        · have hc2 : ¬ (toUnsigned (regs 5)) < (toUnsigned (regs 3)) := not_lt.mpr hc
          have hc3 : (toUnsigned (regs 3)) ≤ (toUnsigned (regs 5)) := hc
          simp [hc2, hc3, h0, h10]
    · refine ⟨[.sltu 3 3 5], ?_, fun regs => ⟨fun hp => absurd hp hint, fun _ => ?_⟩⟩
      · rw [hgen]
        simp [combineTest, hint, Except.bind, pure, Except.pure, textAll, Instr.text]
      · simp [execAll, Instr.exec, Registers.write, ordering]

theorem ordering_test_code_witness :
    ∃ prog : List Instr,
      generateCodeOther 4 testPtrPtr [("p", 8)] (CodegenState.init []) =
        .ok ((((((((CodegenState.init []).emit (push 5)).emit (Load 3 29 8)).emit
          (push 3)).emit (Load 3 29 8)).emit (pop 5)).emit (textAll prog)).emit (pop 5)) ∧
      ∀ regs : Registers,
        ((typedExprId "p" "int*").type = "int" ∧ (typedExprId "p" "int*").type = "int" →
          execAll prog regs 3 =
            if ordering "LT" (toSigned (regs 5)) (toSigned (regs 3)) then 1 else 0) ∧
        ((typedExprId "p" "int*").type = "int*" ∧ (typedExprId "p" "int*").type = "int*" →
          execAll prog regs 3 =
            if ordering "LT" (toUnsigned (regs 5)) (toUnsigned (regs 3)) then 1 else 0) :=
  ordering_test_code testPtrPtr (typedExprId "p" "int*") (typedExprId "p" "int*")
    (leaf "LT" "<") "LT" 3 [("p", 8)] (CodegenState.init [])
    (((CodegenState.init []).emit (push 5)).emit (Load 3 29 8))
    (((((CodegenState.init []).emit (push 5)).emit (Load 3 29 8)).emit (push 3)).emit
      (Load 3 29 8))
    rfl rfl rfl rfl rfl rfl (Or.inl rfl) rfl rfl

/-! ## The branches of `generateCodeOther` -/

/-- A child found by label is a child of the node and carries the label. -/
theorem getChild_mem {t c : Treenode} {lhs : String} {n : Int} (hn : 1 ≤ n)
    (h : t.getChild lhs n = some c) : c ∈ t.children ∧ c.label = lhs := by
  unfold Treenode.getChild at h
  rw [getChildLoop_filter lhs n t.children 1 hn] at h
  have hmem : c ∈ t.children.filter fun c => c.label = lhs := List.mem_iff_getElem?.mpr ⟨_, h⟩
  simpa only [List.mem_filter, decide_eq_true_eq] using hmem

mutual
/-- A subtree of a subtree of a tree is a subtree of the tree. -/
theorem subtrees_trans : (t : Treenode) → (x n : Treenode) → x ∈ t.subtrees →
    n ∈ x.subtrees → n ∈ t.subtrees
  | .mk tm r k ty cs, x, n, hx, hn => by
    rw [Treenode.subtrees, List.mem_cons] at hx
    rcases hx with rfl | hx
    · exact hn
    · rw [Treenode.subtrees, List.mem_cons]
      exact Or.inr (subtreesList_trans cs x n hx hn)
/-- A subtree of a subtree of a tree of a list is a subtree of a tree of the
list. -/
theorem subtreesList_trans : (cs : List Treenode) → (x n : Treenode) → x ∈ subtreesList cs →
    n ∈ x.subtrees → n ∈ subtreesList cs
  | [], x, n, hx, _ => by
    rw [subtreesList] at hx
    cases hx
  | c :: cs, x, n, hx, hn => by
    rw [subtreesList, List.mem_append] at hx ⊢
    rcases hx with hx | hx
    · exact Or.inl (subtrees_trans c x n hx hn)
    · exact Or.inr (subtreesList_trans cs x n hx hn)
end

/-- A child of a subtree of a tree is a subtree of the tree. -/
theorem mem_subtrees_of_child' {t x c : Treenode} (hx : x ∈ t.subtrees) (hc : c ∈ x.children) :
    c ∈ t.subtrees :=
  subtrees_trans t x c hx (mem_subtrees_of_child x c c hc (mem_subtrees_self c))

/-- A sequence of two steps returns when both do. -/
theorem bind_eq_ok {α β : Type} {x : Except Err α} {f : α → Except Err β} {b : β} :
    (x >>= f) = .ok b ↔ ∃ a, x = .ok a ∧ f a = .ok b := by
  cases x with
  | error e => simp [bind, Except.bind]
  | ok a => simp [bind, Except.bind]

/-- A step that only returns a value returns that value. -/
theorem pure_eq_ok {α : Type} {a b : α} : (pure a : Except Err α) = .ok b ↔ a = b := by
  simp [pure, Except.pure]

/-- A step that throws does not return. -/
theorem throw_eq_ok {α : Type} {e : Err} {b : α} : (throw e : Except Err α) = .ok b ↔ False := by
  simp [throw, throwThe, MonadExceptOf.throw]

/-- Dereferencing returns the node a non-null pointer points to. -/
theorem deref_eq_ok {α : Type} {p : Option α} {a : α} : deref p = .ok a ↔ p = some a := by
  cases p <;> simp [deref]

/-- The `expr` branch of `generateCodeOther`. -/
theorem generateCodeOther_expr (fuel : Nat) (tree : Treenode) (offsetTable : List (String × Int))
    (s : CodegenState) (hterm : tree.terminal = false) (hlhs : tree.NTrule.lhs = "expr") :
    generateCodeOther (fuel + 1) tree offsetTable s =
      if tree.NTrule.rhs.length > 1 then do
        let s1 ← genChild fuel offsetTable (tree.getChild "expr") (s.emit (push 5))
        let s2 ← genChild fuel offsetTable (tree.getChild "term") (s1.emit (push 3))
        let e ← deref (tree.getChild "expr")
        let t ← deref (tree.getChild "term")
        let s3 ← combineAdditive e.type t.type
          (if (tree.getChild "PLUS").isSome then tree.getChild "PLUS"
            else tree.getChild "MINUS") (s2.emit (pop 5))
        pure (s3.emit (pop 5))
      else if (tree.getChild "term").isSome then
        genChild fuel offsetTable (tree.getChild "term") s
      else throw (.runtime "expression must have at least one term") := by
  rw [generateCodeOther]
  simp only [hterm, hlhs, Bool.not_false, ↓reduceIte]
  rfl

/-- The `term` branch of `generateCodeOther`. -/
theorem generateCodeOther_term (fuel : Nat) (tree : Treenode) (offsetTable : List (String × Int))
    (s : CodegenState) (hterm : tree.terminal = false) (hlhs : tree.NTrule.lhs = "term") :
    generateCodeOther (fuel + 1) tree offsetTable s =
      if tree.NTrule.rhs.length > 1 then do
        let s1 ← genChild fuel offsetTable (tree.getChild "term") (s.emit (push 5))
        let s2 ← genChild fuel offsetTable (tree.getChild "factor") (s1.emit (push 3))
        let s3 ← combineMultiplicative
          (if (tree.getChild "STAR").isSome then tree.getChild "STAR"
            else if (tree.getChild "SLASH").isSome then tree.getChild "SLASH"
            else tree.getChild "PCT") (s2.emit (pop 5))
        pure (s3.emit (pop 5))
      else if (tree.getChild "factor").isSome then
        genChild fuel offsetTable (tree.getChild "factor") s
      else pure s := by
  rw [generateCodeOther]
  simp only [hterm, hlhs, Bool.not_false, ↓reduceIte, String.reduceEq]
  rfl

/-- The `factor` branch of `generateCodeOther`. -/
theorem generateCodeOther_factor (fuel : Nat) (tree : Treenode)
    (offsetTable : List (String × Int)) (s : CodegenState) (hterm : tree.terminal = false)
    (hlhs : tree.NTrule.lhs = "factor") :
    generateCodeOther (fuel + 1) tree offsetTable s =
      if tree.NTrule.rhs.length = 1 then
        if tree.NTrule.rhsAt 0 = "ID" then do
          let id ← deref (tree.getChild "ID")
          pure (s.emit (Load 3 29 (offsetAt offsetTable id.Ttoken.value)))
        else if tree.NTrule.rhsAt 0 = "NUM" then do
          let num ← deref (tree.getChild "NUM")
          let val ← stoi num.Ttoken.value
          pure (s.emit (Lis 3 ++ Word val))
        else if tree.NTrule.rhsAt 0 = "NULL" then
          pure (s.emit (Lis 3 ++ Word 1))
        else pure s
      else if tree.NTrule.rhs.length = 2 then
        if tree.NTrule.rhsAt 0 = "AMP" ∧ tree.NTrule.rhsAt 1 = "lvalue" then do
          let lvalue ← unwrapLvalue fuel (tree.getChild "lvalue")
          if lvalue.children.length = 1 then do
            let id ← deref (lvalue.getChild "ID")
            pure (s.emit (Lis 3 ++ Word (offsetAt offsetTable id.Ttoken.value) ++ Add 3 29 3))
          else if lvalue.children.length = 2 then
            genChild fuel offsetTable (lvalue.getChild "factor") s
          else pure s
        else if tree.NTrule.rhsAt 0 = "STAR" ∧ tree.NTrule.rhsAt 1 = "factor" then do
          let s1 ← genChild fuel offsetTable (tree.getChild "factor") s
          pure (s1.emit (Load 3 3 0))
        else pure s
      else if tree.NTrule.rhs.length = 3 then
        if tree.NTrule.rhsAt 0 = "LPAREN" ∧ tree.NTrule.rhsAt 1 = "expr" ∧
            tree.NTrule.rhsAt 2 = "RPAREN" then
          genChild fuel offsetTable (tree.getChild "expr") s
        else if tree.NTrule.rhsAt 0 = "ID" ∧ tree.NTrule.rhsAt 1 = "LPAREN" ∧
            tree.NTrule.rhsAt 2 = "RPAREN" then do
          let id ← deref (tree.getChild "ID")
          pure ((labelAt (s.emit (push 29 ++ push 31 ++ Lis 31)) id.Ttoken.value).2.emit
            (WordLabel (labelAt (s.emit (push 29 ++ push 31 ++ Lis 31)) id.Ttoken.value).1 ++
              Jalr 31 ++ pop 31 ++ pop 29))
        else pure s
      else if tree.NTrule.rhs.length = 4 then
        if tree.NTrule.rhsAt 0 = "ID" ∧ tree.NTrule.rhsAt 1 = "LPAREN" ∧
            tree.NTrule.rhsAt 2 = "arglist" ∧ tree.NTrule.rhsAt 3 = "RPAREN" then do
          let r ← argsLoop (genChild fuel offsetTable) fuel (tree.getChild "arglist") 0
            (s.emit (push 29 ++ push 31))
          let id ← deref (tree.getChild "ID")
          pure ((((labelAt (r.2.emit (Lis 31)) id.Ttoken.value).2.emit
            (WordLabel (labelAt (r.2.emit (Lis 31)) id.Ttoken.value).1 ++ Jalr 31)).emit
              (List.replicate r.1.toNat popBare).flatten).emit (pop 31 ++ pop 29))
        else pure s
      else if tree.NTrule.rhs.length = 5 then do
        let s1 ← genChild fuel offsetTable (tree.getChild "expr") s
        let r ← generateLabel s1
        pure (r.2.emit (push 1 ++ Add 1 3 0 ++ push 31 ++ Lis 31 ++ WordLabel "new" ++ Jalr 31 ++
          pop 31 ++ pop 1 ++ Bne 3 0 r.1 ++ Lis 3 ++ Word 1 ++ Label r.1))
      else pure s := by
  rw [generateCodeOther]
  simp only [hterm, hlhs, Bool.not_false, ↓reduceIte, String.reduceEq]
  rfl

/-- The `statements` branch of `generateCodeOther`. -/
theorem generateCodeOther_statements (fuel : Nat) (tree : Treenode)
    (offsetTable : List (String × Int)) (s : CodegenState) (hterm : tree.terminal = false)
    (hlhs : tree.NTrule.lhs = "statements") :
    generateCodeOther (fuel + 1) tree offsetTable s =
      if tree.NTrule.rhs.length = 0 then pure s
      else if tree.NTrule.rhs.length = 2 then do
        let s1 ← genChild fuel offsetTable (tree.getChild "statements") s
        genChild fuel offsetTable (tree.getChild "statement") s1
      else pure s := by
  rw [generateCodeOther]
  simp only [hterm, hlhs, Bool.not_false, ↓reduceIte, String.reduceEq]
  rfl

/-- The `statement` branch of `generateCodeOther`. -/
theorem generateCodeOther_statement (fuel : Nat) (tree : Treenode)
    (offsetTable : List (String × Int)) (s : CodegenState) (hterm : tree.terminal = false)
    (hlhs : tree.NTrule.lhs = "statement") :
    generateCodeOther (fuel + 1) tree offsetTable s =
      if tree.NTrule.rhs.length = 4 then do
        let lvalue ← unwrapLvalue fuel (tree.getChild "lvalue")
        if lvalue.children.length = 1 then do
          let id ← deref (lvalue.getChild "ID")
          let s1 ← genChild fuel offsetTable (tree.getChild "expr") s
          pure (s1.emit (Store 3 29 (offsetAt offsetTable id.Ttoken.value)))
        else if lvalue.children.length = 2 then do
          let s1 ← genChild fuel offsetTable (lvalue.getChild "factor") (s.emit (push 5))
          let s2 ← genChild fuel offsetTable (tree.getChild "expr") (s1.emit (push 3))
          pure (s2.emit (pop 5 ++ Store 3 5 0 ++ pop 5))
        else pure s
      else if tree.NTrule.rhs.length = 5 then
        if tree.NTrule.rhsAt 0 = "PRINTLN" ∧ tree.NTrule.rhsAt 1 = "LPAREN" ∧
            tree.NTrule.rhsAt 2 = "expr" ∧ tree.NTrule.rhsAt 3 = "RPAREN" ∧
            tree.NTrule.rhsAt 4 = "SEMI" then do
          let s1 ← genChild fuel offsetTable (tree.getChild "expr") s
          pure (s1.emit (push 1 ++ Add 1 3 0 ++ push 31 ++ Lis 31 ++ WordLabel "print" ++
            Jalr 31 ++ pop 31 ++ pop 1))
        else if tree.NTrule.rhsAt 0 = "DELETE" ∧ tree.NTrule.rhsAt 1 = "LBRACK" ∧
            tree.NTrule.rhsAt 2 = "RBRACK" ∧ tree.NTrule.rhsAt 3 = "expr" ∧
            tree.NTrule.rhsAt 4 = "SEMI" then do
          let s1 ← genChild fuel offsetTable (tree.getChild "expr") s
          let r ← generateLabel s1
          pure (r.2.emit (push 1 ++ Lis 1 ++ Word 1 ++ Beq 3 1 r.1 ++ Add 1 3 0 ++
            push 31 ++ Lis 31 ++ WordLabel "delete" ++ Jalr 31 ++ pop 31 ++ Label r.1 ++
            pop 1))
        else pure s
      else if tree.NTrule.rhs.length = 7 then do
        let r1 ← generateLabel s
        let r2 ← generateLabel r1.2
        let s1 ← genChild fuel offsetTable (tree.getChild "test") (r2.2.emit (Label r1.1))
        let s2 ← genChild fuel offsetTable (tree.getChild "statements")
          (s1.emit (Beq 3 0 r2.1))
        pure (s2.emit (Beq 0 0 r1.1 ++ Label r2.1))
      else if tree.NTrule.rhs.length = 11 then do
        let r1 ← generateLabel s
        let r2 ← generateLabel r1.2
        let s1 ← genChild fuel offsetTable (tree.getChild "test") r2.2
        let s2 ← genChild fuel offsetTable (tree.getChild "statements")
          (s1.emit (Beq 3 0 r1.1))
        let s3 ← genChild fuel offsetTable (tree.getChild "statements" 2)
          (s2.emit (Beq 0 0 r2.1 ++ Label r1.1))
        pure (s3.emit (Label r2.1))
      else pure s := by
  rw [generateCodeOther]
  simp only [hterm, hlhs, Bool.not_false, ↓reduceIte, String.reduceEq]
  rfl

/-- The `test` branch of `generateCodeOther`. -/
theorem generateCodeOther_test (fuel : Nat) (tree : Treenode) (offsetTable : List (String × Int))
    (s : CodegenState) (hterm : tree.terminal = false) (hlhs : tree.NTrule.lhs = "test") :
    generateCodeOther (fuel + 1) tree offsetTable s = (do
      let opNode ← at? tree.children 1
      let s1 ← genChild fuel offsetTable (tree.getChild "expr") (s.emit (push 5))
      let s2 ← genChild fuel offsetTable (tree.getChild "expr" 2) (s1.emit (push 3))
      let l ← deref (tree.getChild "expr")
      let rt ← deref (tree.getChild "expr" 2)
      let s3 ← combineTest opNode.Ttoken.type l.type rt.type (s2.emit (pop 5))
      pure (s3.emit (pop 5))) := by
  rw [generateCodeOther]
  simp only [hterm, hlhs, Bool.not_false, ↓reduceIte, String.reduceEq]
  rfl

/-- Every other node: `generateCodeOther` emits nothing. -/
theorem generateCodeOther_other (fuel : Nat) (tree : Treenode)
    (offsetTable : List (String × Int)) (s : CodegenState)
    (h : tree.terminal = true ∨
      tree.NTrule.lhs ∉ ["expr", "term", "factor", "statements", "statement", "test"]) :
    generateCodeOther (fuel + 1) tree offsetTable s = .ok s := by
  rw [generateCodeOther]
  rcases h with h | h
  · simp only [h, Bool.not_true, Bool.false_eq_true, ↓reduceIte]
    rfl
  · simp only [List.mem_cons, List.mem_singleton, not_or, List.not_mem_nil, or_false] at h
    obtain ⟨h1, h2, h3, h4, h5, h6⟩ := h
    simp only [h1, h2, h3, h4, h5, h6, ↓reduceIte, ite_self]
    rfl

/-! ## Growth of the output and balance of the stack -/

/-- The net pushes of two pieces of code add up. -/
theorem netPushes_append (a b : List String) : netPushes (a ++ b) = netPushes a + netPushes b := by
  simp only [netPushes, List.count_append, Nat.cast_add]
  omega

/-- A line that differs from the push and the pop line in its first two
characters counts as neither. -/
theorem netPushes_line (line : String) (h : line.data.take 2 ≠ ['s', 'u'])
    (h' : line.data.take 2 ≠ ['a', 'd']) : netPushes [line] = 0 := by
  have h1 : line ≠ pushLine := by
    intro he
    rw [he] at h
    exact h (by decide)
  have h2 : line ≠ popLine := by
    intro he
    rw [he] at h'
    exact h' (by decide)
  simp [netPushes, List.count_singleton, h1, h2]

/-- The first two characters of a line are those of its first part, when that
has two characters or more. -/
theorem take_two_append (p rest : String) (hp : 2 ≤ p.data.length) :
    (p ++ rest).data.take 2 = p.data.take 2 := by
  rw [String.data_append, List.take_append_of_le_length hp]

/-- A push moves the stack pointer down once. -/
theorem netPushes_push (r : Int) : netPushes (push r) = 1 := by
  have h := netPushes_line ("sw " ++ (reg r ++ (", " ++ (toString (-4 : Int) ++
    ("(" ++ (reg 30 ++ ")")))))) (by rw [take_two_append _ _ (by decide)]; decide)
    (by rw [take_two_append _ _ (by decide)]; decide)
  rw [push, netPushes_append, Store]
  simp only [String.append_assoc]
  rw [h]
  decide

/-- A load moves no stack pointer. -/
theorem netPushes_Load (t s i : Int) : netPushes (Load t s i) = 0 := by
  rw [Load]
  try simp only [String.append_assoc]
  exact netPushes_line _ (by rw [take_two_append _ _ (by decide)]; decide)
    (by rw [take_two_append _ _ (by decide)]; decide)

/-- A store moves no stack pointer. -/
theorem netPushes_Store (t s i : Int) : netPushes (Store t s i) = 0 := by
  rw [Store]
  try simp only [String.append_assoc]
  exact netPushes_line _ (by rw [take_two_append _ _ (by decide)]; decide)
    (by rw [take_two_append _ _ (by decide)]; decide)

/-- A word moves no stack pointer. -/
theorem netPushes_Word (i : Int) : netPushes (Word i) = 0 := by
  rw [Word]
  try simp only [String.append_assoc]
  exact netPushes_line _ (by rw [take_two_append _ _ (by decide)]; decide)
    (by rw [take_two_append _ _ (by decide)]; decide)

/-- The address of a label moves no stack pointer. -/
theorem netPushes_WordLabel (l : String) : netPushes (WordLabel l) = 0 := by
  rw [WordLabel]
  try simp only [String.append_assoc]
  exact netPushes_line _ (by rw [take_two_append _ _ (by decide)]; decide)
    (by rw [take_two_append _ _ (by decide)]; decide)

/-- A branch on equality moves no stack pointer. -/
theorem netPushes_Beq (s t : Int) (l : String) : netPushes (Beq s t l) = 0 := by
  rw [Beq]
  try simp only [String.append_assoc]
  exact netPushes_line _ (by rw [take_two_append _ _ (by decide)]; decide)
    (by rw [take_two_append _ _ (by decide)]; decide)

/-- A branch on inequality moves no stack pointer. -/
theorem netPushes_Bne (s t : Int) (l : String) : netPushes (Bne s t l) = 0 := by
  rw [Bne]
  try simp only [String.append_assoc]
  exact netPushes_line _ (by rw [take_two_append _ _ (by decide)]; decide)
    (by rw [take_two_append _ _ (by decide)]; decide)

/-- The instruction lis moves no stack pointer. -/
theorem netPushes_Lis (d : Int) : netPushes (Lis d) = 0 := by
  rw [Lis]
  try simp only [String.append_assoc]
  exact netPushes_line _ (by rw [take_two_append _ _ (by decide)]; decide)
    (by rw [take_two_append _ _ (by decide)]; decide)

/-- The instruction jalr moves no stack pointer. -/
theorem netPushes_Jalr (s : Int) : netPushes (Jalr s) = 0 := by
  rw [Jalr]
  try simp only [String.append_assoc]
  exact netPushes_line _ (by rw [take_two_append _ _ (by decide)]; decide)
    (by rw [take_two_append _ _ (by decide)]; decide)

/-- The instruction jr moves no stack pointer. -/
theorem netPushes_Jr (s : Int) : netPushes (Jr s) = 0 := by
  rw [Jr]
  try simp only [String.append_assoc]
  exact netPushes_line _ (by rw [take_two_append _ _ (by decide)]; decide)
    (by rw [take_two_append _ _ (by decide)]; decide)

/-- A multiplication moves no stack pointer. -/
theorem netPushes_Multiply (s t : Int) : netPushes (Multiply s t) = 0 := by
  rw [Multiply]
  try simp only [String.append_assoc]
  exact netPushes_line _ (by rw [take_two_append _ _ (by decide)]; decide)
    (by rw [take_two_append _ _ (by decide)]; decide)

/-- A division moves no stack pointer. -/
theorem netPushes_Divide (s t : Int) : netPushes (Divide s t) = 0 := by
  rw [Divide]
  try simp only [String.append_assoc]
  exact netPushes_line _ (by rw [take_two_append _ _ (by decide)]; decide)
    (by rw [take_two_append _ _ (by decide)]; decide)

/-- The instruction mflo moves no stack pointer. -/
theorem netPushes_Mflo (d : Int) : netPushes (Mflo d) = 0 := by
  rw [Mflo]
  try simp only [String.append_assoc]
  exact netPushes_line _ (by rw [take_two_append _ _ (by decide)]; decide)
    (by rw [take_two_append _ _ (by decide)]; decide)

/-- The instruction mfhi moves no stack pointer. -/
theorem netPushes_Mfhi (d : Int) : netPushes (Mfhi d) = 0 := by
  rw [Mfhi]
  try simp only [String.append_assoc]
  exact netPushes_line _ (by rw [take_two_append _ _ (by decide)]; decide)
    (by rw [take_two_append _ _ (by decide)]; decide)

/-- A signed comparison moves no stack pointer. -/
theorem netPushes_Slt (d s t : Int) : netPushes (Slt d s t) = 0 := by
  rw [Slt]
  try simp only [String.append_assoc]
  exact netPushes_line _ (by rw [take_two_append _ _ (by decide)]; decide)
    (by rw [take_two_append _ _ (by decide)]; decide)

/-- An unsigned comparison moves no stack pointer. -/
theorem netPushes_Sltu (d s t : Int) : netPushes (Sltu d s t) = 0 := by
  rw [Sltu]
  try simp only [String.append_assoc]
  exact netPushes_line _ (by rw [take_two_append _ _ (by decide)]; decide)
    (by rw [take_two_append _ _ (by decide)]; decide)

/-- A label moves no stack pointer. -/
theorem netPushes_Label (l : String) : netPushes (Label l) = 0 := by
  have hlast : (l ++ ":").data.getLast? = some ':' := by
    rw [String.data_append]
    exact List.getLast?_append_of_ne_nil _ (by decide)
  have h1 : l ++ ":" ≠ pushLine := by
    intro he
    rw [he] at hlast
    exact absurd hlast (by decide)
  have h2 : l ++ ":" ≠ popLine := by
    intro he
    rw [he] at hlast
    exact absurd hlast (by decide)
  simp [Label, netPushes, List.count_singleton, h1, h2]

/-- A pop moves the stack pointer up once. -/
theorem netPushes_pop (d : Int) : netPushes (pop d) = -1 := by
  rw [pop, netPushes_append, netPushes_Load]
  decide

/-- A bare pop moves the stack pointer up once. -/
theorem netPushes_popBare : netPushes popBare = -1 := by decide

/-- Bare pops move the stack pointer up once each. -/
theorem netPushes_replicate (n : Nat) :
    netPushes (List.replicate n popBare).flatten = -(n : Int) := by
  induction n with
  | zero => rfl
  | succ n ih =>
    rw [List.replicate_succ, List.flatten_cons, netPushes_append, ih, netPushes_popBare]
    push_cast
    omega

/-- Nothing is nothing. -/
theorem netPushes_nil : netPushes [] = 0 := rfl

/-- Nothing generated: the state extends itself. -/
theorem Extends.refl (Q : String → Prop) (s : CodegenState) : Extends Q 0 s s :=
  ⟨⟨[], by simp, rfl⟩, fun _ => rfl⟩

/-- The index of an extension may be rewritten. -/
theorem Extends.cast {Q : String → Prop} {a b : Int} {s s' : CodegenState}
    (h : Extends Q a s s') (hab : a = b) : Extends Q b s s' := hab ▸ h

/-- Extensions compose. -/
theorem Extends.trans {Q : String → Prop} {a b : Int} {s1 s2 s3 : CodegenState}
    (h1 : Extends Q a s1 s2) (h2 : Extends Q b s2 s3) : Extends Q (a + b) s1 s3 := by
  obtain ⟨⟨c1, ho1, hn1⟩, hm1⟩ := h1
  obtain ⟨⟨c2, ho2, hn2⟩, hm2⟩ := h2
  refine ⟨⟨c1 ++ c2, by rw [ho2, ho1, List.append_assoc], by rw [netPushes_append, hn1, hn2]⟩,
    fun hq => ?_⟩
  have e1 := hm1 hq
  rw [hm2 (by rw [e1]; exact hq), e1]

/-- Writing lines extends the state by them. -/
theorem Extends.emit {Q : String → Prop} {k : Int} {s s' : CodegenState}
    (h : Extends Q k s s') (lines : List String) :
    Extends Q (k + netPushes lines) s (s'.emit lines) :=
  h.trans ⟨⟨lines, rfl, rfl⟩, fun _ => rfl⟩

/-- A new label extends the state by no code. -/
theorem Extends.label {Q : String → Prop} {k : Int} {s s' : CodegenState}
    {r : String × CodegenState} (h : Extends Q k s s') (hl : generateLabel s' = .ok r) :
    Extends Q k s r.2 := by
  obtain ⟨_, _, hm, ho⟩ := generateLabel_ok (show generateLabel s' = .ok (r.1, r.2) from hl)
  exact (h.trans ⟨⟨[], by simp [ho], rfl⟩, fun _ => hm⟩).cast (by simp [netPushes])

/-- The lookup of a name that satisfies `Q` extends the state by no code. -/
theorem Extends.lookup {Q : String → Prop} {k : Int} {s s' : CodegenState} {name : String}
    (h : Extends Q k s s') (hq : Q name) : Extends Q k s (labelAt s' name).2 := by
  refine (h.trans ⟨⟨[], ?_, rfl⟩, fun hall => ?_⟩).cast (by simp [netPushes])
  · unfold labelAt
    cases s'.functionlabel_map.lookup name <;> simp
  · have hc := hall name hq
    unfold mapContains at hc
    unfold labelAt
    cases hlk : s'.functionlabel_map.lookup name with
    | none => rw [hlk] at hc; cases hc
    | some l => rfl

/-- The additive lowering extends the state by balanced code. -/
theorem combineAdditive_extends (Q : String → Prop) {a b : String} {op : Option Treenode}
    {s s' : CodegenState} (h : combineAdditive a b op s = .ok s') : Extends Q 0 s s' := by
  unfold combineAdditive at h
  split_ifs at h <;> simp only [bind_eq_ok, deref_eq_ok, pure_eq_ok] at h
  all_goals first
    | (obtain ⟨o, _, h⟩ := h
       split_ifs at h <;> simp only [pure_eq_ok, throw_eq_ok] at h
       all_goals
         subst h
         refine ((Extends.refl Q s).emit _).cast ?_
         try simp only [netPushes_append, netPushes_Multiply, netPushes_Mflo, netPushes_Divide]
         decide)
    | (subst h
       exact Extends.refl Q s)

/-- The addition of two operands moves no stack pointer. -/
theorem netPushes_Add_3_5_3 : netPushes (Add 3 5 3) = 0 := by decide

/-- The copy of the result into register 1 moves no stack pointer. -/
theorem netPushes_Add_1_3_0 : netPushes (Add 1 3 0) = 0 := by decide

/-- Clearing register 3 moves no stack pointer. -/
theorem netPushes_Add_3_0_0 : netPushes (Add 3 0 0) = 0 := by decide

/-- The address of a variable moves no stack pointer. -/
theorem netPushes_Add_3_29_3 : netPushes (Add 3 29 3) = 0 := by decide

/-- The subtraction of two operands moves no stack pointer. -/
theorem netPushes_Subtract_3_5_3 : netPushes (Subtract 3 5 3) = 0 := by decide

/-- The multiplicative lowering extends the state by balanced code. -/
theorem combineMultiplicative_extends (Q : String → Prop) {op : Option Treenode}
    {s s' : CodegenState} (h : combineMultiplicative op s = .ok s') : Extends Q 0 s s' := by
  unfold combineMultiplicative at h
  simp only [bind_eq_ok, deref_eq_ok] at h
  obtain ⟨o, _, h⟩ := h
  split_ifs at h <;> simp only [pure_eq_ok] at h <;> subst h
  · exact ((Extends.refl Q s).emit _).cast (by
      simp [netPushes_append, netPushes_push, netPushes_pop, netPushes_Load, netPushes_Store,
        netPushes_Word, netPushes_WordLabel, netPushes_Beq, netPushes_Bne, netPushes_Lis,
        netPushes_Jalr, netPushes_Jr, netPushes_Multiply, netPushes_Divide, netPushes_Mflo,
        netPushes_Mfhi, netPushes_Slt, netPushes_Sltu, netPushes_Label, netPushes_replicate,
        netPushes_nil, netPushes_Add_3_5_3, netPushes_Add_1_3_0, netPushes_Add_3_0_0,
        netPushes_Add_3_29_3, netPushes_Subtract_3_5_3])
  · exact ((Extends.refl Q s).emit _).cast (by
      simp [netPushes_append, netPushes_push, netPushes_pop, netPushes_Load, netPushes_Store,
        netPushes_Word, netPushes_WordLabel, netPushes_Beq, netPushes_Bne, netPushes_Lis,
        netPushes_Jalr, netPushes_Jr, netPushes_Multiply, netPushes_Divide, netPushes_Mflo,
        netPushes_Mfhi, netPushes_Slt, netPushes_Sltu, netPushes_Label, netPushes_replicate,
        netPushes_nil, netPushes_Add_3_5_3, netPushes_Add_1_3_0, netPushes_Add_3_0_0,
        netPushes_Add_3_29_3, netPushes_Subtract_3_5_3])
  · exact ((Extends.refl Q s).emit _).cast (by
      simp [netPushes_append, netPushes_push, netPushes_pop, netPushes_Load, netPushes_Store,
        netPushes_Word, netPushes_WordLabel, netPushes_Beq, netPushes_Bne, netPushes_Lis,
        netPushes_Jalr, netPushes_Jr, netPushes_Multiply, netPushes_Divide, netPushes_Mflo,
        netPushes_Mfhi, netPushes_Slt, netPushes_Sltu, netPushes_Label, netPushes_replicate,
        netPushes_nil, netPushes_Add_3_5_3, netPushes_Add_1_3_0, netPushes_Add_3_0_0,
        netPushes_Add_3_29_3, netPushes_Subtract_3_5_3])
  · exact Extends.refl Q s

/-- The lowering of a comparison extends the state by balanced code. -/
theorem combineTest_extends (Q : String → Prop) {op a b : String} {s s' : CodegenState}
    (h : combineTest op a b s = .ok s') : Extends Q 0 s s' := by
  unfold combineTest at h
  split_ifs at h
  all_goals first
    | (simp only [bind_eq_ok, pure_eq_ok] at h
       obtain ⟨r1, h1, r2, h2, h⟩ := h
       subst h
       exact ((((Extends.refl Q s).label h1).label h2).emit _).cast
         (by
             simp [netPushes_append, netPushes_push, netPushes_pop, netPushes_Load,
               netPushes_Store, netPushes_Word, netPushes_WordLabel, netPushes_Beq, netPushes_Bne,
               netPushes_Lis, netPushes_Jalr, netPushes_Jr, netPushes_Multiply, netPushes_Divide,
               netPushes_Mflo, netPushes_Mfhi, netPushes_Slt, netPushes_Sltu, netPushes_Label,
               netPushes_replicate, netPushes_nil, netPushes_Add_3_5_3, netPushes_Add_1_3_0,
               netPushes_Add_3_0_0, netPushes_Add_3_29_3, netPushes_Subtract_3_5_3]))
    | (simp only [pure_eq_ok] at h
       subst h
       first
         | exact Extends.refl Q s
         | exact ((Extends.refl Q s).emit _).cast (by
             simp [netPushes_append, netPushes_push, netPushes_pop, netPushes_Load,
               netPushes_Store, netPushes_Word, netPushes_WordLabel, netPushes_Beq, netPushes_Bne,
               netPushes_Lis, netPushes_Jalr, netPushes_Jr, netPushes_Multiply, netPushes_Divide,
               netPushes_Mflo, netPushes_Mfhi, netPushes_Slt, netPushes_Sltu, netPushes_Label,
               netPushes_replicate, netPushes_nil, netPushes_Add_3_5_3, netPushes_Add_1_3_0,
               netPushes_Add_3_0_0, netPushes_Add_3_29_3, netPushes_Subtract_3_5_3]))

/-- The lvalue left when the parentheses are stripped is a subtree of the
tree the search started in. -/
theorem unwrapLvalue_mem (tree : Treenode) : ∀ (fuel : Nat) (c : Option Treenode) (l : Treenode),
    (∀ x, c = some x → x ∈ tree.subtrees) → unwrapLvalue fuel c = .ok l → l ∈ tree.subtrees := by
  intro fuel
  induction fuel with
  | zero =>
    intro c l hc h
    unfold unwrapLvalue at h
    simp only [bind_eq_ok, deref_eq_ok] at h
    obtain ⟨x, hx, h⟩ := h
    split_ifs at h
    simp only [pure_eq_ok] at h
    subst h
    exact hc x hx
  | succ fuel ih =>
    intro c l hc h
    unfold unwrapLvalue at h
    simp only [bind_eq_ok, deref_eq_ok] at h
    obtain ⟨x, hx, h⟩ := h
    split_ifs at h
    · refine ih _ l (fun y hy => ?_) h
      exact mem_subtrees_of_child' (hc x hx) (getChild_mem (by decide) hy).1
    · simp only [pure_eq_ok] at h
      subst h
      exact hc x hx

/-- A rule with three symbols on its right-hand side is given by them. -/
theorem rule_of_rhs3 {r : Rule} {l a b c : String} (hl : r.lhs = l) (hlen : r.rhs.length = 3)
    (h0 : r.rhsAt 0 = a) (h1 : r.rhsAt 1 = b) (h2 : r.rhsAt 2 = c) : r = ⟨l, [a, b, c]⟩ := by
  obtain ⟨lhs, rhs⟩ := r
  match rhs, hlen with
  | [x, y, z], _ =>
    simp only [Rule.rhsAt, List.getD, List.get?_cons_zero, List.get?_cons_succ,
      Option.getD_some] at h0 h1 h2
    simp only at hl
    rw [hl, h0, h1, h2]

/-- A rule with four symbols on its right-hand side is given by them. -/
theorem rule_of_rhs4 {r : Rule} {l a b c d : String} (hl : r.lhs = l) (hlen : r.rhs.length = 4)
    (h0 : r.rhsAt 0 = a) (h1 : r.rhsAt 1 = b) (h2 : r.rhsAt 2 = c) (h3 : r.rhsAt 3 = d) :
    r = ⟨l, [a, b, c, d]⟩ := by
  obtain ⟨lhs, rhs⟩ := r
  match rhs, hlen with
  | [x, y, z, w], _ =>
    simp only [Rule.rhsAt, List.getD, List.get?_cons_zero, List.get?_cons_succ,
      Option.getD_some] at h0 h1 h2 h3
    simp only at hl
    rw [hl, h0, h1, h2, h3]

/-- The argument loop extends the state by code with as many pushes more than
pops as it counts arguments, when the code of each argument is balanced. -/
theorem argsLoop_extends (Q : String → Prop) (tree : Treenode)
    (gen : Option Treenode → CodegenState → Except Err CodegenState)
    (hgen : ∀ (c : Option Treenode) (s1 s2 : CodegenState),
      (∀ x, c = some x → x ∈ tree.subtrees) → gen c s1 = .ok s2 → Extends Q 0 s1 s2) :
    ∀ (fuel : Nat) (al : Option Treenode) (args : Int) (s : CodegenState)
      (r : Int × CodegenState), (∀ x, al = some x → x ∈ tree.subtrees) →
      argsLoop gen fuel al args s = .ok r →
      ∃ n : Nat, r.1 = args + n ∧ Extends Q n s r.2 := by
  intro fuel
  induction fuel with
  | zero =>
    intro al args s r hal h
    cases al with
    | none =>
      rw [argsLoop, pure_eq_ok] at h
      subst h
      exact ⟨0, by simp, Extends.refl Q s⟩
    | some arglist =>
      rw [argsLoop, throw_eq_ok] at h
      exact h.elim
  | succ fuel ih =>
    intro al args s r hal h
    cases al with
    | none =>
      rw [argsLoop, pure_eq_ok] at h
      subst h
      exact ⟨0, by simp, Extends.refl Q s⟩
    | some arglist =>
      rw [argsLoop, bind_eq_ok] at h
      obtain ⟨s1, h1, h⟩ := h
      have hin := hal arglist rfl
      have e1 := hgen _ _ _
        (fun x hx => mem_subtrees_of_child' hin (getChild_mem (by decide) hx).1) h1
      obtain ⟨n, hn, e2⟩ := ih _ _ _ r
        (fun x hx => mem_subtrees_of_child' hin (getChild_mem (by decide) hx).1) h
      refine ⟨n + 1, by rw [hn]; push_cast; omega, ?_⟩
      exact ((e1.emit (push 3)).trans e2).cast (by simp [netPushes_push]; omega)

/-- Whatever the tree, the code `generateCodeOther` emits is appended to the
output and has as many pushes as pops; the name-to-label table is not changed
when it has an entry for the callee of every call in the tree. -/
theorem generateCodeOther_extends (Q : String → Prop) :
    ∀ (fuel : Nat) (tree : Treenode) (offsetTable : List (String × Int)) (s s' : CodegenState),
      (∀ n ∈ tree.subtrees, n.IsCall → ∀ id, n.getChild "ID" = some id → Q id.Ttoken.value) →
      generateCodeOther fuel tree offsetTable s = .ok s' → Extends Q 0 s s' := by
  intro fuel
  induction fuel with
  | zero =>
    intro tree ot s s' _ h
    rw [generateCodeOther, throw_eq_ok] at h
    exact h.elim
  | succ fuel ih =>
    intro tree ot s s' hQ h
    have hgen : ∀ (c : Option Treenode) (s1 s2 : CodegenState),
        (∀ x, c = some x → x ∈ tree.subtrees) → genChild fuel ot c s1 = .ok s2 →
        Extends Q 0 s1 s2 := by
      intro c s1 s2 hc hg
      unfold genChild at hg
      simp only [bind_eq_ok, deref_eq_ok] at hg
      obtain ⟨x, hx, hg⟩ := hg
      exact ih x ot s1 s2 (fun n hn => hQ n (subtrees_trans tree x n (hc x hx) hn)) hg
    have hchild : ∀ (lhs : String) (k : Int), 1 ≤ k → ∀ x, tree.getChild lhs k = some x →
        x ∈ tree.subtrees := fun lhs k hk x hx =>
      mem_subtrees_of_child tree x x (getChild_mem hk hx).1 (mem_subtrees_self x)
    have hsub : ∀ (l : Treenode) (lhs : String), l ∈ tree.subtrees → ∀ x,
        l.getChild lhs = some x → x ∈ tree.subtrees := fun l lhs hl x hx =>
      mem_subtrees_of_child' hl (getChild_mem (by decide) hx).1
    by_cases hterm : tree.terminal = true
    · rw [generateCodeOther_other _ _ _ _ (Or.inl hterm)] at h
      cases h
      exact Extends.refl Q s
    have hterm' : tree.terminal = false := by simpa using hterm
    by_cases hexpr : tree.NTrule.lhs = "expr"
    · rw [generateCodeOther_expr fuel tree ot s hterm' hexpr] at h
      by_cases hlen : tree.NTrule.rhs.length > 1
      · rw [if_pos hlen] at h
        simp only [bind_eq_ok, deref_eq_ok, pure_eq_ok] at h
        obtain ⟨s1, h1, s2, h2, e, _, t, _, s3, h3, h⟩ := h
        subst h
        have e1 := hgen _ _ _ (hchild "expr" 1 (by decide)) h1
        have e2 := hgen _ _ _ (hchild "term" 1 (by decide)) h2
        exact Extends.refl Q s |>.emit (push 5) |>.trans e1 |>.emit (push 3) |>.trans e2
          |>.emit (pop 5) |>.trans (combineAdditive_extends Q h3) |>.emit (pop 5)
          |>.cast (by
              simp [netPushes_append, netPushes_push, netPushes_pop, netPushes_Load,
                netPushes_Store, netPushes_Word, netPushes_WordLabel, netPushes_Beq, netPushes_Bne,
                netPushes_Lis, netPushes_Jalr, netPushes_Jr, netPushes_Multiply, netPushes_Divide,
                netPushes_Mflo, netPushes_Mfhi, netPushes_Slt, netPushes_Sltu, netPushes_Label,
                netPushes_replicate, netPushes_nil, netPushes_Add_3_5_3, netPushes_Add_1_3_0,
                netPushes_Add_3_0_0, netPushes_Add_3_29_3, netPushes_Subtract_3_5_3])
      · rw [if_neg hlen] at h
        by_cases hsome : (tree.getChild "term").isSome = true
        · rw [if_pos hsome] at h
          exact hgen _ _ _ (hchild "term" 1 (by decide)) h
        · rw [if_neg hsome, throw_eq_ok] at h
          exact h.elim
    by_cases htermn : tree.NTrule.lhs = "term"
    · rw [generateCodeOther_term fuel tree ot s hterm' htermn] at h
      by_cases hlen : tree.NTrule.rhs.length > 1
      · rw [if_pos hlen] at h
        simp only [bind_eq_ok, deref_eq_ok, pure_eq_ok] at h
        obtain ⟨s1, h1, s2, h2, s3, h3, h⟩ := h
        subst h
        have e1 := hgen _ _ _ (hchild "term" 1 (by decide)) h1
        have e2 := hgen _ _ _ (hchild "factor" 1 (by decide)) h2
        exact Extends.refl Q s |>.emit (push 5) |>.trans e1 |>.emit (push 3) |>.trans e2
          |>.emit (pop 5) |>.trans (combineMultiplicative_extends Q h3) |>.emit (pop 5)
          |>.cast (by
              simp [netPushes_append, netPushes_push, netPushes_pop, netPushes_Load,
                netPushes_Store, netPushes_Word, netPushes_WordLabel, netPushes_Beq, netPushes_Bne,
                netPushes_Lis, netPushes_Jalr, netPushes_Jr, netPushes_Multiply, netPushes_Divide,
                netPushes_Mflo, netPushes_Mfhi, netPushes_Slt, netPushes_Sltu, netPushes_Label,
                netPushes_replicate, netPushes_nil, netPushes_Add_3_5_3, netPushes_Add_1_3_0,
                netPushes_Add_3_0_0, netPushes_Add_3_29_3, netPushes_Subtract_3_5_3])
      · rw [if_neg hlen] at h
        by_cases hsome : (tree.getChild "factor").isSome = true
        · rw [if_pos hsome] at h
          exact hgen _ _ _ (hchild "factor" 1 (by decide)) h
        · rw [if_neg hsome, pure_eq_ok] at h
          subst h
          exact Extends.refl Q s
    by_cases hfactor : tree.NTrule.lhs = "factor"
    · rw [generateCodeOther_factor fuel tree ot s hterm' hfactor] at h
      split_ifs at h
      · simp only [bind_eq_ok, deref_eq_ok, pure_eq_ok] at h
        obtain ⟨id, _, h⟩ := h
        subst h
        exact Extends.refl Q s |>.emit _ |>.cast (by
            simp [netPushes_append, netPushes_push, netPushes_pop, netPushes_Load,
              netPushes_Store, netPushes_Word, netPushes_WordLabel, netPushes_Beq, netPushes_Bne,
              netPushes_Lis, netPushes_Jalr, netPushes_Jr, netPushes_Multiply, netPushes_Divide,
              netPushes_Mflo, netPushes_Mfhi, netPushes_Slt, netPushes_Sltu, netPushes_Label,
              netPushes_replicate, netPushes_nil, netPushes_Add_3_5_3, netPushes_Add_1_3_0,
              netPushes_Add_3_0_0, netPushes_Add_3_29_3, netPushes_Subtract_3_5_3])
      · simp only [bind_eq_ok, deref_eq_ok, pure_eq_ok] at h
        obtain ⟨num, _, val, _, h⟩ := h
        subst h
        exact Extends.refl Q s |>.emit _ |>.cast (by
            simp [netPushes_append, netPushes_push, netPushes_pop, netPushes_Load,
              netPushes_Store, netPushes_Word, netPushes_WordLabel, netPushes_Beq, netPushes_Bne,
              netPushes_Lis, netPushes_Jalr, netPushes_Jr, netPushes_Multiply, netPushes_Divide,
              netPushes_Mflo, netPushes_Mfhi, netPushes_Slt, netPushes_Sltu, netPushes_Label,
              netPushes_replicate, netPushes_nil, netPushes_Add_3_5_3, netPushes_Add_1_3_0,
              netPushes_Add_3_0_0, netPushes_Add_3_29_3, netPushes_Subtract_3_5_3])
      · simp only [pure_eq_ok] at h
        subst h
        exact Extends.refl Q s |>.emit _ |>.cast (by
            simp [netPushes_append, netPushes_push, netPushes_pop, netPushes_Load,
              netPushes_Store, netPushes_Word, netPushes_WordLabel, netPushes_Beq, netPushes_Bne,
              netPushes_Lis, netPushes_Jalr, netPushes_Jr, netPushes_Multiply, netPushes_Divide,
              netPushes_Mflo, netPushes_Mfhi, netPushes_Slt, netPushes_Sltu, netPushes_Label,
              netPushes_replicate, netPushes_nil, netPushes_Add_3_5_3, netPushes_Add_1_3_0,
              netPushes_Add_3_0_0, netPushes_Add_3_29_3, netPushes_Subtract_3_5_3])
      · simp only [pure_eq_ok] at h
        subst h
        exact Extends.refl Q s
      · simp only [bind_eq_ok] at h
        obtain ⟨lvalue, hl, h⟩ := h
        have hlin := unwrapLvalue_mem tree fuel _ lvalue (hchild "lvalue" 1 (by decide)) hl
        split_ifs at h
        · simp only [bind_eq_ok, deref_eq_ok, pure_eq_ok] at h
          obtain ⟨id, _, h⟩ := h
          subst h
          exact Extends.refl Q s |>.emit _ |>.cast (by
              simp [netPushes_append, netPushes_push, netPushes_pop, netPushes_Load,
                netPushes_Store, netPushes_Word, netPushes_WordLabel, netPushes_Beq, netPushes_Bne,
                netPushes_Lis, netPushes_Jalr, netPushes_Jr, netPushes_Multiply, netPushes_Divide,
                netPushes_Mflo, netPushes_Mfhi, netPushes_Slt, netPushes_Sltu, netPushes_Label,
                netPushes_replicate, netPushes_nil, netPushes_Add_3_5_3, netPushes_Add_1_3_0,
                netPushes_Add_3_0_0, netPushes_Add_3_29_3, netPushes_Subtract_3_5_3])
        · exact hgen _ _ _ (hsub lvalue "factor" hlin) h
        · simp only [pure_eq_ok] at h
          subst h
          exact Extends.refl Q s
      · simp only [bind_eq_ok, pure_eq_ok] at h
        obtain ⟨s1, h1, h⟩ := h
        subst h
        exact hgen _ _ _ (hchild "factor" 1 (by decide)) h1 |>.emit _ |>.cast (by
            simp [netPushes_append, netPushes_push, netPushes_pop, netPushes_Load,
              netPushes_Store, netPushes_Word, netPushes_WordLabel, netPushes_Beq, netPushes_Bne,
              netPushes_Lis, netPushes_Jalr, netPushes_Jr, netPushes_Multiply, netPushes_Divide,
              netPushes_Mflo, netPushes_Mfhi, netPushes_Slt, netPushes_Sltu, netPushes_Label,
              netPushes_replicate, netPushes_nil, netPushes_Add_3_5_3, netPushes_Add_1_3_0,
              netPushes_Add_3_0_0, netPushes_Add_3_29_3, netPushes_Subtract_3_5_3])
      · simp only [pure_eq_ok] at h
        subst h
        exact Extends.refl Q s
      · exact hgen _ _ _ (hchild "expr" 1 (by decide)) h
      · rename_i hlen _ hrule
        simp only [bind_eq_ok, deref_eq_ok, pure_eq_ok] at h
        obtain ⟨id, hid, h⟩ := h
        subst h
        have hq : Q id.Ttoken.value :=
          hQ tree (mem_subtrees_self tree)
            ⟨hterm', Or.inl (rule_of_rhs3 hfactor hlen hrule.1 hrule.2.1 hrule.2.2)⟩ id hid
        exact Extends.refl Q s |>.emit _ |>.lookup hq |>.emit _ |>.cast (by
            simp [netPushes_append, netPushes_push, netPushes_pop, netPushes_Load,
              netPushes_Store, netPushes_Word, netPushes_WordLabel, netPushes_Beq, netPushes_Bne,
              netPushes_Lis, netPushes_Jalr, netPushes_Jr, netPushes_Multiply, netPushes_Divide,
              netPushes_Mflo, netPushes_Mfhi, netPushes_Slt, netPushes_Sltu, netPushes_Label,
              netPushes_replicate, netPushes_nil, netPushes_Add_3_5_3, netPushes_Add_1_3_0,
              netPushes_Add_3_0_0, netPushes_Add_3_29_3, netPushes_Subtract_3_5_3])
      · simp only [pure_eq_ok] at h
        subst h
        exact Extends.refl Q s
      · rename_i hlen hrule
        simp only [bind_eq_ok, deref_eq_ok, pure_eq_ok] at h
        obtain ⟨r, hr, id, hid, h⟩ := h
        subst h
        have hq : Q id.Ttoken.value :=
          hQ tree (mem_subtrees_self tree)
            ⟨hterm', Or.inr (rule_of_rhs4 hfactor hlen hrule.1 hrule.2.1 hrule.2.2.1
              hrule.2.2.2)⟩ id hid
        obtain ⟨n, hn, e⟩ := argsLoop_extends Q tree (genChild fuel ot) hgen fuel _ 0 _ r
          (hchild "arglist" 1 (by decide)) hr
        have hnat : r.1.toNat = n := by
          rw [hn]
          simp
        rw [hnat]
        exact Extends.refl Q s |>.emit _ |>.trans e |>.emit _ |>.lookup hq |>.emit _ |>.emit _
          |>.emit _ |>.cast (by
              simp [netPushes_append, netPushes_push, netPushes_pop, netPushes_Load,
                netPushes_Store, netPushes_Word, netPushes_WordLabel, netPushes_Beq, netPushes_Bne,
                netPushes_Lis, netPushes_Jalr, netPushes_Jr, netPushes_Multiply, netPushes_Divide,
                netPushes_Mflo, netPushes_Mfhi, netPushes_Slt, netPushes_Sltu, netPushes_Label,
                netPushes_replicate, netPushes_nil, netPushes_Add_3_5_3, netPushes_Add_1_3_0,
                netPushes_Add_3_0_0, netPushes_Add_3_29_3, netPushes_Subtract_3_5_3])
      · simp only [pure_eq_ok] at h
        subst h
        exact Extends.refl Q s
      · simp only [bind_eq_ok, pure_eq_ok] at h
        obtain ⟨s1, h1, r, hr, h⟩ := h
        subst h
        exact hgen _ _ _ (hchild "expr" 1 (by decide)) h1 |>.label hr |>.emit _
          |>.cast (by
              simp [netPushes_append, netPushes_push, netPushes_pop, netPushes_Load,
                netPushes_Store, netPushes_Word, netPushes_WordLabel, netPushes_Beq, netPushes_Bne,
                netPushes_Lis, netPushes_Jalr, netPushes_Jr, netPushes_Multiply, netPushes_Divide,
                netPushes_Mflo, netPushes_Mfhi, netPushes_Slt, netPushes_Sltu, netPushes_Label,
                netPushes_replicate, netPushes_nil, netPushes_Add_3_5_3, netPushes_Add_1_3_0,
                netPushes_Add_3_0_0, netPushes_Add_3_29_3, netPushes_Subtract_3_5_3])
      · simp only [pure_eq_ok] at h
        subst h
        exact Extends.refl Q s
    by_cases hstmts : tree.NTrule.lhs = "statements"
    · rw [generateCodeOther_statements fuel tree ot s hterm' hstmts] at h
      split_ifs at h
      · simp only [pure_eq_ok] at h
        subst h
        exact Extends.refl Q s
      · simp only [bind_eq_ok] at h
        obtain ⟨s1, h1, h⟩ := h
        exact (hgen _ _ _ (hchild "statements" 1 (by decide)) h1).trans
          (hgen _ _ _ (hchild "statement" 1 (by decide)) h) |>.cast (by simp)
      · simp only [pure_eq_ok] at h
        subst h
        exact Extends.refl Q s
    by_cases hstmt : tree.NTrule.lhs = "statement"
    · rw [generateCodeOther_statement fuel tree ot s hterm' hstmt] at h
      split_ifs at h
      · simp only [bind_eq_ok] at h
        obtain ⟨lvalue, hl, h⟩ := h
        have hlin := unwrapLvalue_mem tree fuel _ lvalue (hchild "lvalue" 1 (by decide)) hl
        split_ifs at h
        · simp only [bind_eq_ok, deref_eq_ok, pure_eq_ok] at h
          obtain ⟨id, _, s1, h1, h⟩ := h
          subst h
          exact hgen _ _ _ (hchild "expr" 1 (by decide)) h1 |>.emit _ |>.cast (by
              simp [netPushes_append, netPushes_push, netPushes_pop, netPushes_Load,
                netPushes_Store, netPushes_Word, netPushes_WordLabel, netPushes_Beq, netPushes_Bne,
                netPushes_Lis, netPushes_Jalr, netPushes_Jr, netPushes_Multiply, netPushes_Divide,
                netPushes_Mflo, netPushes_Mfhi, netPushes_Slt, netPushes_Sltu, netPushes_Label,
                netPushes_replicate, netPushes_nil, netPushes_Add_3_5_3, netPushes_Add_1_3_0,
                netPushes_Add_3_0_0, netPushes_Add_3_29_3, netPushes_Subtract_3_5_3])
        · simp only [bind_eq_ok, pure_eq_ok] at h
          obtain ⟨s1, h1, s2, h2, h⟩ := h
          subst h
          have e1 := hgen _ _ _ (hsub lvalue "factor" hlin) h1
          have e2 := hgen _ _ _ (hchild "expr" 1 (by decide)) h2
          exact Extends.refl Q s |>.emit (push 5) |>.trans e1 |>.emit (push 3) |>.trans e2
            |>.emit _ |>.cast (by
                simp [netPushes_append, netPushes_push, netPushes_pop, netPushes_Load,
                  netPushes_Store, netPushes_Word, netPushes_WordLabel, netPushes_Beq,
                  netPushes_Bne, netPushes_Lis, netPushes_Jalr, netPushes_Jr, netPushes_Multiply,
                  netPushes_Divide, netPushes_Mflo, netPushes_Mfhi, netPushes_Slt, netPushes_Sltu,
                  netPushes_Label, netPushes_replicate, netPushes_nil, netPushes_Add_3_5_3,
                  netPushes_Add_1_3_0, netPushes_Add_3_0_0, netPushes_Add_3_29_3,
                  netPushes_Subtract_3_5_3])
        · simp only [pure_eq_ok] at h
          subst h
          exact Extends.refl Q s
      · simp only [bind_eq_ok, pure_eq_ok] at h
        obtain ⟨s1, h1, h⟩ := h
        subst h
        exact hgen _ _ _ (hchild "expr" 1 (by decide)) h1 |>.emit _ |>.cast (by
            simp [netPushes_append, netPushes_push, netPushes_pop, netPushes_Load,
              netPushes_Store, netPushes_Word, netPushes_WordLabel, netPushes_Beq, netPushes_Bne,
              netPushes_Lis, netPushes_Jalr, netPushes_Jr, netPushes_Multiply, netPushes_Divide,
              netPushes_Mflo, netPushes_Mfhi, netPushes_Slt, netPushes_Sltu, netPushes_Label,
              netPushes_replicate, netPushes_nil, netPushes_Add_3_5_3, netPushes_Add_1_3_0,
              netPushes_Add_3_0_0, netPushes_Add_3_29_3, netPushes_Subtract_3_5_3])
      · simp only [bind_eq_ok, pure_eq_ok] at h
        obtain ⟨s1, h1, r, hr, h⟩ := h
        subst h
        exact hgen _ _ _ (hchild "expr" 1 (by decide)) h1 |>.label hr |>.emit _
          |>.cast (by
              simp [netPushes_append, netPushes_push, netPushes_pop, netPushes_Load,
                netPushes_Store, netPushes_Word, netPushes_WordLabel, netPushes_Beq, netPushes_Bne,
                netPushes_Lis, netPushes_Jalr, netPushes_Jr, netPushes_Multiply, netPushes_Divide,
                netPushes_Mflo, netPushes_Mfhi, netPushes_Slt, netPushes_Sltu, netPushes_Label,
                netPushes_replicate, netPushes_nil, netPushes_Add_3_5_3, netPushes_Add_1_3_0,
                netPushes_Add_3_0_0, netPushes_Add_3_29_3, netPushes_Subtract_3_5_3])
      · simp only [pure_eq_ok] at h
        subst h
        exact Extends.refl Q s
      · simp only [bind_eq_ok, pure_eq_ok] at h
        obtain ⟨r1, hr1, r2, hr2, s1, h1, s2, h2, h⟩ := h
        subst h
        have e1 := hgen _ _ _ (hchild "test" 1 (by decide)) h1
        have e2 := hgen _ _ _ (hchild "statements" 1 (by decide)) h2
        exact Extends.refl Q s |>.label hr1 |>.label hr2 |>.emit _ |>.trans e1 |>.emit _
          |>.trans e2 |>.emit _ |>.cast (by
              simp [netPushes_append, netPushes_push, netPushes_pop, netPushes_Load,
                netPushes_Store, netPushes_Word, netPushes_WordLabel, netPushes_Beq, netPushes_Bne,
                netPushes_Lis, netPushes_Jalr, netPushes_Jr, netPushes_Multiply, netPushes_Divide,
                netPushes_Mflo, netPushes_Mfhi, netPushes_Slt, netPushes_Sltu, netPushes_Label,
                netPushes_replicate, netPushes_nil, netPushes_Add_3_5_3, netPushes_Add_1_3_0,
                netPushes_Add_3_0_0, netPushes_Add_3_29_3, netPushes_Subtract_3_5_3])
      · simp only [bind_eq_ok, pure_eq_ok] at h
        obtain ⟨r1, hr1, r2, hr2, s1, h1, s2, h2, s3, h3, h⟩ := h
        subst h
        have e1 := hgen _ _ _ (hchild "test" 1 (by decide)) h1
        have e2 := hgen _ _ _ (hchild "statements" 1 (by decide)) h2
        have e3 := hgen _ _ _ (hchild "statements" 2 (by decide)) h3
        exact Extends.refl Q s |>.label hr1 |>.label hr2 |>.trans e1 |>.emit _ |>.trans e2
          |>.emit _ |>.trans e3 |>.emit _ |>.cast (by
              simp [netPushes_append, netPushes_push, netPushes_pop, netPushes_Load,
                netPushes_Store, netPushes_Word, netPushes_WordLabel, netPushes_Beq, netPushes_Bne,
                netPushes_Lis, netPushes_Jalr, netPushes_Jr, netPushes_Multiply, netPushes_Divide,
                netPushes_Mflo, netPushes_Mfhi, netPushes_Slt, netPushes_Sltu, netPushes_Label,
                netPushes_replicate, netPushes_nil, netPushes_Add_3_5_3, netPushes_Add_1_3_0,
                netPushes_Add_3_0_0, netPushes_Add_3_29_3, netPushes_Subtract_3_5_3])
      · simp only [pure_eq_ok] at h
        subst h
        exact Extends.refl Q s
    by_cases htest : tree.NTrule.lhs = "test"
    · rw [generateCodeOther_test fuel tree ot s hterm' htest] at h
      simp only [bind_eq_ok, deref_eq_ok, pure_eq_ok] at h
      obtain ⟨opNode, _, s1, h1, s2, h2, l, _, rt, _, s3, h3, h⟩ := h
      subst h
      have e1 := hgen _ _ _ (hchild "expr" 1 (by decide)) h1
      have e2 := hgen _ _ _ (hchild "expr" 2 (by decide)) h2
      exact Extends.refl Q s |>.emit (push 5) |>.trans e1 |>.emit (push 3) |>.trans e2
        |>.emit (pop 5) |>.trans (combineTest_extends Q h3) |>.emit (pop 5)
        |>.cast (by
            simp [netPushes_append, netPushes_push, netPushes_pop, netPushes_Load,
              netPushes_Store, netPushes_Word, netPushes_WordLabel, netPushes_Beq, netPushes_Bne,
              netPushes_Lis, netPushes_Jalr, netPushes_Jr, netPushes_Multiply, netPushes_Divide,
              netPushes_Mflo, netPushes_Mfhi, netPushes_Slt, netPushes_Sltu, netPushes_Label,
              netPushes_replicate, netPushes_nil, netPushes_Add_3_5_3, netPushes_Add_1_3_0,
              netPushes_Add_3_0_0, netPushes_Add_3_29_3, netPushes_Subtract_3_5_3])
    · rw [generateCodeOther_other _ _ _ _ (Or.inr (by simp [hexpr, htermn, hfactor, hstmts,
        hstmt, htest]))] at h
      cases h
      exact Extends.refl Q s

/-! ## Loops and conditionals -/

/-- The code of a subtree is appended to the output. -/
theorem generateCodeOther_out {fuel : Nat} {tree : Treenode} {offsetTable : List (String × Int)}
    {s s' : CodegenState} (h : generateCodeOther fuel tree offsetTable s = .ok s') :
    ∃ code, s'.out = s.out ++ code :=
  let ⟨⟨code, h1, _⟩, _⟩ :=
    generateCodeOther_extends (fun _ => True) fuel tree offsetTable s s'
      (fun _ _ _ _ _ => trivial) h
  ⟨code, h1⟩

/-- The line of a branch to a label when register 3 holds 0. -/
theorem Beq_3_0 (l : String) : Beq 3 0 l = ["beq $3, $0, " ++ l] := by
  have h : "beq " ++ reg 3 ++ ", " ++ reg 0 ++ ", " = "beq $3, $0, " := by decide
  rw [Beq, h]

/-- The line of an unconditional branch to a label. -/
theorem Beq_0_0 (l : String) : Beq 0 0 l = ["beq $0, $0, " ++ l] := by
  have h : "beq " ++ reg 0 ++ ", " ++ reg 0 ++ ", " = "beq $0, $0, " := by decide
  rw [Beq, h]

/-- Two labels generated one after the other are distinct and new. -/
theorem generateLabel_twice {s s1 s2 : CodegenState} {l1 l2 : String}
    (h1 : generateLabel s = .ok (l1, s1)) (h2 : generateLabel s1 = .ok (l2, s2)) :
    l1 ≠ l2 ∧ l1 ∉ s.label_set ∧ l2 ∉ s.label_set := by
  obtain ⟨a1, a2, _, _⟩ := generateLabel_ok h1
  obtain ⟨b1, _, _, _⟩ := generateLabel_ok h2
  rw [a2] at b1
  simp only [List.mem_append, List.mem_singleton, not_or] at b1
  exact ⟨fun e => b1.2 e.symm, a1, b1.1⟩

/-- C33: for a `while` statement (a `statement` node whose rule has seven
symbols) with the test `test` and the body `body`, when two labels `top` and
`done` are generated and the code of the test and of the body is generated, the
statement returns and the code it appends to the output is exactly, in this
order: the line `top:`, the code of the test, `beq $3, $0, done`, the code of
the body, `beq $0, $0, top`, the line `done:`. The two labels are distinct and
neither was in use before. -/
theorem while_code (tree test body : Treenode) (fuel : Nat) (offsetTable : List (String × Int))
    (s s1 s2 s3 s4 : CodegenState) (top done : String)
    (hterm : tree.terminal = false)
    (hrule : tree.NTrule = ⟨"statement",
      ["WHILE", "LPAREN", "test", "RPAREN", "LBRACE", "statements", "RBRACE"]⟩)
    (htest : tree.getChild "test" = some test) (hbody : tree.getChild "statements" = some body)
    (hl1 : generateLabel s = .ok (top, s1)) (hl2 : generateLabel s1 = .ok (done, s2))
    (h1 : generateCodeOther fuel test offsetTable (s2.emit (Label top)) = .ok s3)
    (h2 : generateCodeOther fuel body offsetTable (s3.emit (Beq 3 0 done)) = .ok s4) :
    ∃ testCode bodyCode : List String,
      s3.out = (s2.emit (Label top)).out ++ testCode ∧
      s4.out = (s3.emit (Beq 3 0 done)).out ++ bodyCode ∧
      generateCodeOther (fuel + 1) tree offsetTable s =
        .ok (s4.emit (Beq 0 0 top ++ Label done)) ∧
      (s4.emit (Beq 0 0 top ++ Label done)).out =
        s.out ++ [top ++ ":"] ++ testCode ++ ["beq $3, $0, " ++ done] ++ bodyCode ++
          ["beq $0, $0, " ++ top, done ++ ":"] ∧
      top ≠ done ∧ top ∉ s.label_set ∧ done ∉ s.label_set := by
  obtain ⟨testCode, ht⟩ := generateCodeOther_out h1
  obtain ⟨bodyCode, hb⟩ := generateCodeOther_out h2
  refine ⟨testCode, bodyCode, ht, hb, ?_, ?_, generateLabel_twice hl1 hl2⟩
  · rw [generateCodeOther_statement fuel tree offsetTable s hterm (by rw [hrule])]
    simp only [hrule, List.length_cons, List.length_nil, Nat.reduceAdd, Nat.reduceEqDiff,
      ↓reduceIte, hl1, hl2, htest, hbody, genChild, deref, h1, h2, bind, Except.bind, pure,
      Except.pure]
  · have ho1 := (generateLabel_ok hl1).2.2.2
    have ho2 := (generateLabel_ok hl2).2.2.2
    simp only [CodegenState.emit, hb, ht, ho1, ho2, Beq_3_0, Beq_0_0, Label,
      List.append_assoc, List.singleton_append, List.cons_append, List.nil_append]

/-- C34: for an `if` statement (a `statement` node whose rule has eleven
symbols) with the test `test`, the first `statements` child `thenBody` and the
second `statements` child `elseBody`, when two labels `other` and `done` are
generated and the code of the test and of the two bodies is generated, the
statement returns and the code it appends to the output is exactly, in this
order: the code of the test, `beq $3, $0, other`, the code of the first
`statements` child, `beq $0, $0, done`, the line `other:`, the code of the
second `statements` child, the line `done:`. Each body is generated once, the
first child before the second. -/
theorem if_code (tree test thenBody elseBody : Treenode) (fuel : Nat)
    (offsetTable : List (String × Int)) (s s1 s2 s3 s4 s5 : CodegenState)
    (other done : String) (hterm : tree.terminal = false)
    (hrule : tree.NTrule = ⟨"statement",
      ["IF", "LPAREN", "test", "RPAREN", "LBRACE", "statements", "RBRACE", "ELSE", "LBRACE",
        "statements", "RBRACE"]⟩)
    (htest : tree.getChild "test" = some test)
    (hthen : tree.getChild "statements" 1 = some thenBody)
    (helse : tree.getChild "statements" 2 = some elseBody)
    (hl1 : generateLabel s = .ok (other, s1)) (hl2 : generateLabel s1 = .ok (done, s2))
    (h1 : generateCodeOther fuel test offsetTable s2 = .ok s3)
    (h2 : generateCodeOther fuel thenBody offsetTable (s3.emit (Beq 3 0 other)) = .ok s4)
    (h3 : generateCodeOther fuel elseBody offsetTable
      (s4.emit (Beq 0 0 done ++ Label other)) = .ok s5) :
    ∃ testCode thenCode elseCode : List String,
      s3.out = s2.out ++ testCode ∧
      s4.out = (s3.emit (Beq 3 0 other)).out ++ thenCode ∧
      s5.out = (s4.emit (Beq 0 0 done ++ Label other)).out ++ elseCode ∧
      generateCodeOther (fuel + 1) tree offsetTable s = .ok (s5.emit (Label done)) ∧
      (s5.emit (Label done)).out =
        s.out ++ testCode ++ ["beq $3, $0, " ++ other] ++ thenCode ++
          ["beq $0, $0, " ++ done, other ++ ":"] ++ elseCode ++ [done ++ ":"] ∧
      other ≠ done ∧ other ∉ s.label_set ∧ done ∉ s.label_set := by
  obtain ⟨testCode, ht⟩ := generateCodeOther_out h1
  obtain ⟨thenCode, hb⟩ := generateCodeOther_out h2
  obtain ⟨elseCode, he⟩ := generateCodeOther_out h3
  refine ⟨testCode, thenCode, elseCode, ht, hb, he, ?_, ?_, generateLabel_twice hl1 hl2⟩
  · rw [generateCodeOther_statement fuel tree offsetTable s hterm (by rw [hrule])]
    simp only [hrule, List.length_cons, List.length_nil, Nat.reduceAdd, Nat.reduceEqDiff,
      ↓reduceIte, hl1, hl2, htest, hthen, helse, genChild, deref, h1, h2, h3, bind,
      Except.bind, pure, Except.pure]
  · have ho1 := (generateLabel_ok hl1).2.2.2
    have ho2 := (generateLabel_ok hl2).2.2.2
    simp only [CodegenState.emit, he, hb, ht, ho1, ho2, Beq_3_0, Beq_0_0, Label,
      List.append_assoc, List.singleton_append, List.cons_append, List.nil_append]

theorem while_code_witness :
    (generateCodeOther 5 whileSample [("p", 8)] (CodegenState.init unseededRand)).map
        CodegenState.out =
      .ok ["nwlrbbmqbh:", "sw $5, -4($30)", "sub $30, $30, $4", "lw $3, 8($29)",
        "sw $3, -4($30)", "sub $30, $30, $4", "lw $3, 8($29)", "add $30, $30, $4",
        "lw $5, -4($30)", "sltu $3, $5, $3", "add $30, $30, $4", "lw $5, -4($30)",
        "beq $3, $0, cdarzowkky", "beq $0, $0, nwlrbbmqbh", "cdarzowkky:"] := by
  obtain ⟨_, _, _, _, hgen, _⟩ :=
    while_code whileSample testPtrPtr noStatements 4 [("p", 8)] (CodegenState.init unseededRand)
      (stateAfterLabel []) (stateAfterLabels [])
      (stateAfterLabels ["nwlrbbmqbh:", "sw $5, -4($30)", "sub $30, $30, $4", "lw $3, 8($29)",
        "sw $3, -4($30)", "sub $30, $30, $4", "lw $3, 8($29)", "add $30, $30, $4",
        "lw $5, -4($30)", "sltu $3, $5, $3", "add $30, $30, $4", "lw $5, -4($30)"])
      (stateAfterLabels ["nwlrbbmqbh:", "sw $5, -4($30)", "sub $30, $30, $4", "lw $3, 8($29)",
        "sw $3, -4($30)", "sub $30, $30, $4", "lw $3, 8($29)", "add $30, $30, $4",
        "lw $5, -4($30)", "sltu $3, $5, $3", "add $30, $30, $4", "lw $5, -4($30)",
        "beq $3, $0, cdarzowkky"])
      "nwlrbbmqbh" "cdarzowkky" rfl rfl rfl rfl rfl rfl rfl rfl
  rw [hgen]
  decide

theorem if_code_witness :
    (generateCodeOther 6 ifSample [("p", 8), ("a", 4)] (CodegenState.init unseededRand)).map
        CodegenState.out =
      .ok ["sw $5, -4($30)", "sub $30, $30, $4", "lw $3, 8($29)",
        "sw $3, -4($30)", "sub $30, $30, $4", "lw $3, 8($29)", "add $30, $30, $4",
        "lw $5, -4($30)", "sltu $3, $5, $3", "add $30, $30, $4", "lw $5, -4($30)",
        "beq $3, $0, nwlrbbmqbh", "lw $3, 4($29)", "sw $3, 4($29)", "beq $0, $0, cdarzowkky",
        "nwlrbbmqbh:", "cdarzowkky:"] := by
  obtain ⟨_, _, _, _, _, _, hgen, _⟩ :=
    if_code ifSample testPtrPtr (statementsCons noStatements assignIntInt) noStatements 5
      [("p", 8), ("a", 4)] (CodegenState.init unseededRand)
      (stateAfterLabel []) (stateAfterLabels [])
      (stateAfterLabels ["sw $5, -4($30)", "sub $30, $30, $4", "lw $3, 8($29)",
        "sw $3, -4($30)", "sub $30, $30, $4", "lw $3, 8($29)", "add $30, $30, $4",
        "lw $5, -4($30)", "sltu $3, $5, $3", "add $30, $30, $4", "lw $5, -4($30)"])
      (stateAfterLabels ["sw $5, -4($30)", "sub $30, $30, $4", "lw $3, 8($29)",
        "sw $3, -4($30)", "sub $30, $30, $4", "lw $3, 8($29)", "add $30, $30, $4",
        "lw $5, -4($30)", "sltu $3, $5, $3", "add $30, $30, $4", "lw $5, -4($30)",
        "beq $3, $0, nwlrbbmqbh", "lw $3, 4($29)", "sw $3, 4($29)"])
      (stateAfterLabels ["sw $5, -4($30)", "sub $30, $30, $4", "lw $3, 8($29)",
        "sw $3, -4($30)", "sub $30, $30, $4", "lw $3, 8($29)", "add $30, $30, $4",
        "lw $5, -4($30)", "sltu $3, $5, $3", "add $30, $30, $4", "lw $5, -4($30)",
        "beq $3, $0, nwlrbbmqbh", "lw $3, 4($29)", "sw $3, 4($29)", "beq $0, $0, cdarzowkky",
        "nwlrbbmqbh:"])
      "nwlrbbmqbh" "cdarzowkky" rfl rfl rfl rfl rfl rfl rfl rfl rfl rfl
  rw [hgen]
  decide

/-! ## Balance of the stack -/

/-- The lookup of a label writes nothing. -/
theorem labelAt_out (s : CodegenState) (name : String) : (labelAt s name).2.out = s.out := by
  unfold labelAt
  cases s.functionlabel_map.lookup name <;> rfl

/-- The label of a procedure is the one line `procedureLabel` writes. -/
theorem procedureLabel_out {name : String} {s s' : CodegenState}
    (h : procedureLabel name s = .ok s') : ∃ l, s'.out = s.out ++ Label l := by
  have key : ∀ st : CodegenState, st.out = s.out →
      ∃ l, ((labelAt st name).2.emit (Label (labelAt st name).1)).out = s.out ++ Label l :=
    fun st hst => ⟨(labelAt st name).1, by simp only [CodegenState.emit, labelAt_out, hst]⟩
  unfold procedureLabel at h
  split_ifs at h
  · simp only [bind_eq_ok, pure_eq_ok] at h
    obtain ⟨r, hr, s1, h1, h⟩ := h
    subst h h1
    exact key _ (generateLabel_ok (show generateLabel s = .ok (r.1, r.2) from hr)).2.2.2
  · simp only [bind_eq_ok, pure_eq_ok] at h
    obtain ⟨s1, h1, h⟩ := h
    subst h h1
    exact key _ rfl

/-- The code that initialises the locals pushes one value for each, and
`localVarCount` grows by one for each. -/
theorem pushLocals_out : ∀ (decls offsetTable : List (String × Int)) (offset localVarCount : Int)
    (s : CodegenState),
    (pushLocals decls offsetTable offset localVarCount s).2.2.1 =
      localVarCount + decls.length ∧
    ∃ code, (pushLocals decls offsetTable offset localVarCount s).2.2.2.out = s.out ++ code ∧
      netPushes code = decls.length
  | [], _, _, _, s => ⟨by simp [pushLocals], [], by simp [pushLocals], rfl⟩
  | var :: rest, offsetTable, offset, localVarCount, s => by
    obtain ⟨h1, code, h2, h3⟩ := pushLocals_out rest (mapInsert offsetTable var.1 offset)
      (offset - 4) (localVarCount + 1) (s.emit (Lis 3 ++ Word var.2 ++ push 3))
    rw [pushLocals]
    refine ⟨by rw [h1]; simp only [List.length_cons]; push_cast; omega,
      Lis 3 ++ Word var.2 ++ push 3 ++ code, ?_, ?_⟩
    · rw [h2]
      simp [CodegenState.emit, List.append_assoc]
    · rw [netPushes_append, h3]
      simp [netPushes_append, netPushes_push, netPushes_pop, netPushes_Load, netPushes_Store,
          netPushes_Word, netPushes_WordLabel, netPushes_Beq, netPushes_Bne, netPushes_Lis,
          netPushes_Jalr, netPushes_Jr, netPushes_Multiply, netPushes_Divide, netPushes_Mflo,
          netPushes_Mfhi, netPushes_Slt, netPushes_Sltu, netPushes_Label, netPushes_replicate,
          netPushes_nil, netPushes_Add_3_5_3, netPushes_Add_1_3_0, netPushes_Add_3_0_0,
          netPushes_Add_3_29_3, netPushes_Subtract_3_5_3]
      omega

/-- The frame pointer is set by a line that moves no stack pointer. -/
theorem netPushes_Subtract_29_30_4 : netPushes (Subtract 29 30 4) = 0 := by decide

/-- The part of the prologue after the frame pointer is set: the locals. -/
theorem prologue_locals {fuel : Nat} {tree : Treenode} {s s0 s1 : CodegenState}
    {ot0 decls : List (String × Int)} {off0 lvc0 localVarCount : Int} {code0 : List String}
    (hd : declarationsLoop fuel (tree.getChild "dcls") [] = .ok decls)
    (hlvc : (pushLocals decls.reverse ot0 off0 lvc0 s0).2.2.1 = localVarCount)
    (hs : (pushLocals decls.reverse ot0 off0 lvc0 s0).2.2.2 = s1)
    (h0 : s0.out = s.out ++ code0) (hn : netPushes code0 = lvc0)
    (hbase : lvc0 = if tree.NTrule.lhs = "procedure" then 0 else 2) :
    ∃ decls, declarationsLoop fuel (tree.getChild "dcls") [] = .ok decls ∧
      localVarCount = (if tree.NTrule.lhs = "procedure" then 0 else 2) + (decls.length : Int) ∧
      ∃ code, s1.out = s.out ++ code ∧ netPushes code = localVarCount := by
  obtain ⟨h1, code, h2, h3⟩ := pushLocals_out decls.reverse ot0 off0 lvc0 s0
  rw [hlvc] at h1
  rw [hs] at h2
  rw [List.length_reverse] at h1 h3
  refine ⟨decls, hd, by rw [h1, hbase], code0 ++ code, by rw [h2, h0, List.append_assoc], ?_⟩
  rw [netPushes_append, hn, h3, h1]

/-- The prologue of a procedure pushes as many values as `localVarCount` says:
the two parameters of the entry procedure, none for an ordinary procedure, and
one for each declaration the loop over the declaration list finds. -/
theorem procedurePrologue_out {fuel : Nat} {tree : Treenode} {s s1 : CodegenState}
    {offsetTable : List (String × Int)} {localVarCount : Int}
    (h : procedurePrologue fuel tree s = .ok (offsetTable, localVarCount, s1)) :
    ∃ decls, declarationsLoop fuel (tree.getChild "dcls") [] = .ok decls ∧
      localVarCount = (if tree.NTrule.lhs = "procedure" then 0 else 2) + (decls.length : Int) ∧
      ∃ code, s1.out = s.out ++ code ∧ netPushes code = localVarCount := by
  unfold procedurePrologue at h
  split_ifs at h with hp
  · simp only [bind_eq_ok, deref_eq_ok] at h
    obtain ⟨id, _, s0, h0, params, _, h⟩ := h
    obtain ⟨l, hl⟩ := procedureLabel_out h0
    have hout : (s0.emit (Subtract 29 30 4)).out = s.out ++ (Label l ++ Subtract 29 30 4) := by
      simp only [CodegenState.emit, hl, List.append_assoc]
    have hnet : netPushes (Label l ++ Subtract 29 30 4) = 0 := by
      simp [netPushes_append, netPushes_push, netPushes_pop, netPushes_Load, netPushes_Store,
          netPushes_Word, netPushes_WordLabel, netPushes_Beq, netPushes_Bne, netPushes_Lis,
          netPushes_Jalr, netPushes_Jr, netPushes_Multiply, netPushes_Divide, netPushes_Mflo,
          netPushes_Mfhi, netPushes_Slt, netPushes_Sltu, netPushes_Label, netPushes_replicate,
          netPushes_nil, netPushes_Add_3_5_3, netPushes_Add_1_3_0, netPushes_Add_3_0_0,
          netPushes_Add_3_29_3, netPushes_Subtract_3_5_3, netPushes_Subtract_29_30_4]
    split_ifs at h
    · simp only [bind_eq_ok, pure_eq_ok, exists_eq_left, Prod.mk.injEq] at h
      obtain ⟨_, rfl, _, rfl, decls, hd, _, hlvc, hs⟩ := h
      exact prologue_locals hd hlvc hs hout hnet (by rw [if_pos hp])
    · simp only [bind_eq_ok, pure_eq_ok, exists_eq_left, Prod.mk.injEq] at h
      obtain ⟨_, _, _, rfl, _, rfl, decls, hd, _, hlvc, hs⟩ := h
      exact prologue_locals hd hlvc hs hout hnet (by rw [if_pos hp])
  · simp only [bind_eq_ok, deref_eq_ok, pure_eq_ok, exists_eq_left, Prod.mk.injEq] at h
    obtain ⟨param1, _, id1, _, p2, _, id2, _, _, rfl, decls, hd, _, hlvc, hs⟩ := h
    by_cases hty : param1.type = "int*"
    · rw [if_pos hty] at hlvc hs
      refine prologue_locals hd hlvc hs
        (show _ = s.out ++ (Label "main" ++ (push 31 ++ Lis 31 ++ WordLabel "init" ++ Jalr 31 ++
          pop 31) ++ push 1 ++ push 2 ++ Subtract 29 30 4) from by
            simp only [CodegenState.emit, List.append_assoc]) ?_ (by rw [if_neg hp])
      simp [netPushes_append, netPushes_push, netPushes_pop, netPushes_Load, netPushes_Store,
          netPushes_Word, netPushes_WordLabel, netPushes_Beq, netPushes_Bne, netPushes_Lis,
          netPushes_Jalr, netPushes_Jr, netPushes_Multiply, netPushes_Divide, netPushes_Mflo,
          netPushes_Mfhi, netPushes_Slt, netPushes_Sltu, netPushes_Label, netPushes_replicate,
          netPushes_nil, netPushes_Add_3_5_3, netPushes_Add_1_3_0, netPushes_Add_3_0_0,
          netPushes_Add_3_29_3, netPushes_Subtract_3_5_3, netPushes_Subtract_29_30_4]
    · rw [if_neg hty] at hlvc hs
      refine prologue_locals hd hlvc hs
        (show _ = s.out ++ (Label "main" ++ (push 2 ++ Lis 2 ++ Word 0 ++ push 31 ++ Lis 31 ++
          WordLabel "init" ++ Jalr 31 ++ pop 31 ++ pop 2) ++ push 1 ++ push 2 ++
          Subtract 29 30 4) from by
            simp only [CodegenState.emit, List.append_assoc]) ?_ (by rw [if_neg hp])
      simp [netPushes_append, netPushes_push, netPushes_pop, netPushes_Load, netPushes_Store,
          netPushes_Word, netPushes_WordLabel, netPushes_Beq, netPushes_Bne, netPushes_Lis,
          netPushes_Jalr, netPushes_Jr, netPushes_Multiply, netPushes_Divide, netPushes_Mflo,
          netPushes_Mfhi, netPushes_Slt, netPushes_Sltu, netPushes_Label, netPushes_replicate,
          netPushes_nil, netPushes_Add_3_5_3, netPushes_Add_1_3_0, netPushes_Add_3_0_0,
          netPushes_Add_3_29_3, netPushes_Subtract_3_5_3, netPushes_Subtract_29_30_4]

/-- Balanced code has as many push lines as pop lines. -/
theorem count_of_netPushes {code : List String} {k : Nat} (h : netPushes code = k) :
    code.count "sub $30, $30, $4" = code.count "add $30, $30, $4" + k := by
  simp only [netPushes, pushLine, popLine] at h
  omega

/-- The bare pops of an epilogue are that many pop lines. -/
theorem replicate_popBare (n : Nat) :
    (List.replicate n popBare).flatten = List.replicate n "add $30, $30, $4" := by
  induction n with
  | zero => rfl
  | succ n ih =>
    rw [List.replicate_succ, List.flatten_cons, ih, List.replicate_succ]
    rfl

/-- The loop over a declaration list of the grammar finds one declaration for
each local, when it returns. -/
theorem declarationsLoop_length {dn : Treenode} {chain : List LocalDcl} (h : IsDcls dn chain) :
    ∀ (fuel : Nat) (acc r : List (String × Int)),
      declarationsLoop fuel (some dn) acc = .ok r → r.length = acc.length + chain.length := by
  induction h with
  | nil t hterm hrule hcs =>
    intro fuel acc r hr
    cases fuel with
    | zero =>
      rw [declarationsLoop, throw_eq_ok] at hr
      exact hr.elim
    | succ f =>
      have hg : ∀ x, t.getChild x = none := by
        intro x
        simp [Treenode.getChild, getChildLoop, hcs]
      rw [declarationsLoop] at hr
      simp only [hg, bind_eq_ok, pure_eq_ok, exists_eq_left] at hr
      obtain ⟨_, rfl, hr⟩ := hr
      rw [declarationsLoop, pure_eq_ok] at hr
      rw [← hr]
      rfl
  | cons t rest b v s ld chain hterm hrule hinit hcs hdcl hb hv hs hrest ih =>
    intro fuel acc r hr
    obtain ⟨id, hid, hname⟩ := getChild_ID_of_isDcl hdcl
    obtain ⟨hr1, hr2⟩ := isDcls_root hrest
    obtain ⟨hd1, hd2, _⟩ := hdcl
    have hvt : v.Ttoken.type = ld.init := by rw [hv.2]
    cases fuel with
    | zero =>
      rw [declarationsLoop, throw_eq_ok] at hr
      exact hr.elim
    | succ f =>
      have hg1 : t.getChild "dcl" = some ld.dcl := by
        simp [Treenode.getChild, getChildLoop, hcs, hr1, hr2, hd1, hd2]
      have hg4 : t.getChild "dcls" = some rest := by
        simp [Treenode.getChild, getChildLoop, hcs, hr1, hr2]
      rcases hinit with hi | hi
      · have hg2 : t.getChild "NUM" = some v := by
          simp [Treenode.getChild, getChildLoop, hcs, hr1, hr2, hd1, hd2, hb.1, hb.2, hv.1,
            hvt, hi]
        rw [declarationsLoop] at hr
        simp only [hg1, hg2, hg4, hid, bind_eq_ok, deref_eq_ok, pure_eq_ok, Option.some.injEq,
          exists_eq_left] at hr
        obtain ⟨_, _, val, _, _, rfl, hr⟩ := hr
        rw [ih f _ r hr]
        simp only [List.length_append, List.length_singleton, List.length_cons, List.length_nil]
        omega
      · have hg2 : t.getChild "NUM" = none := by
          simp [Treenode.getChild, getChildLoop, hcs, hr1, hr2, hd1, hd2, hb.1, hb.2, hv.1,
            hvt, hi, hs.1, hs.2]
        have hg3 : t.getChild "NULL" = some v := by
          simp [Treenode.getChild, getChildLoop, hcs, hr1, hr2, hd1, hd2, hb.1, hb.2, hv.1,
            hvt, hi]
        rw [declarationsLoop] at hr
        simp only [hg1, hg2, hg3, hg4, hid, bind_eq_ok, deref_eq_ok, pure_eq_ok,
          Option.some.injEq, exists_eq_left] at hr
        obtain ⟨_, _, _, rfl, hr⟩ := hr
        rw [ih f _ r hr]
        simp only [List.length_append, List.length_singleton, List.length_cons, List.length_nil]
        omega

/-- C38: generated code is stack-balanced. Whatever the tree, so for every
grammar-conforming expression, test, statement or statement list, the code
`generateCodeOther` appends to the output has as many pops of the stack pointer
(`add $30, $30, $4`) as pushes (`sub $30, $30, $4`). For a procedure the code of
`generateCodeProcedures` is the prologue, the balanced code of the statements and
of the return expression, then as many bare pops as the prologue has pushes
more than pops, then `jr $31`; that number is one for each local the loop over
the declaration list finds, one for each declaration of a declaration list of
the grammar, and two more for the parameters of the entry procedure. -/
theorem stack_balance :
    (∀ (fuel : Nat) (tree : Treenode) (offsetTable : List (String × Int))
      (s s' : CodegenState), generateCodeOther fuel tree offsetTable s = .ok s' →
      ∃ code, s'.out = s.out ++ code ∧
        code.count "sub $30, $30, $4" = code.count "add $30, $30, $4") ∧
    (∀ (fuel : Nat) (tree : Treenode) (s s' : CodegenState),
      generateCodeProcedures fuel tree s = .ok s' →
      ∃ (offsetTable : List (String × Int)) (localVarCount : Int) (s1 : CodegenState)
        (decls : List (String × Int)) (prologue body : List String) (n : Nat),
        procedurePrologue fuel tree s = .ok (offsetTable, localVarCount, s1) ∧
        declarationsLoop fuel (tree.getChild "dcls") [] = .ok decls ∧
        n = (if tree.NTrule.lhs = "procedure" then 0 else 2) + decls.length ∧
        (∀ dn chain, tree.getChild "dcls" = some dn → IsDcls dn chain →
          decls.length = chain.length) ∧
        s1.out = s.out ++ prologue ∧
        prologue.count "sub $30, $30, $4" = prologue.count "add $30, $30, $4" + n ∧
        body.count "sub $30, $30, $4" = body.count "add $30, $30, $4" ∧
        s'.out = s.out ++ prologue ++ body ++ List.replicate n "add $30, $30, $4" ++
          ["jr $31"]) := by
  have hother : ∀ (fuel : Nat) (tree : Treenode) (offsetTable : List (String × Int))
      (s s' : CodegenState), generateCodeOther fuel tree offsetTable s = .ok s' →
      ∃ code, s'.out = s.out ++ code ∧
        code.count "sub $30, $30, $4" = code.count "add $30, $30, $4" := by
    intro fuel tree ot s s' h
    obtain ⟨⟨code, h1, h2⟩, _⟩ :=
      generateCodeOther_extends (fun _ => True) fuel tree ot s s' (fun _ _ _ _ _ => trivial) h
    exact ⟨code, h1, by simpa using @count_of_netPushes code 0 (by simpa using h2)⟩
  refine ⟨hother, ?_⟩
  intro fuel tree s s' h
  unfold generateCodeProcedures at h
  simp only [bind_eq_ok, deref_eq_ok, pure_eq_ok] at h
  obtain ⟨⟨ot, lvc, s1⟩, hpro, st, _, s2, h2, e, _, s3, h3, h⟩ := h
  obtain ⟨decls, hd, hlvc, pro, hp1, hp2⟩ := procedurePrologue_out hpro
  obtain ⟨c2, ho2, hb2⟩ := hother _ _ _ _ _ h2
  obtain ⟨c3, ho3, hb3⟩ := hother _ _ _ _ _ h3
  have hn : lvc = (((if tree.NTrule.lhs = "procedure" then 0 else 2) + decls.length : Nat) :
      Int) := by
    rw [hlvc]
    split_ifs <;> simp
  refine ⟨ot, lvc, s1, decls, pro, c2 ++ c3,
    (if tree.NTrule.lhs = "procedure" then 0 else 2) + decls.length, hpro, hd, rfl, ?_, hp1, ?_,
    ?_, ?_⟩
  · intro dn chain hdn hchain
    rw [hdn] at hd
    simpa using declarationsLoop_length hchain fuel [] decls hd
  · exact count_of_netPushes (hp2.trans hn)
  · rw [List.count_append, List.count_append, hb2, hb3]
  · rw [← h]
    simp only [CodegenState.emit, ho3, ho2, hp1, hn, Int.toNat_ofNat, replicate_popBare, Jr,
      List.append_assoc]
    rfl

theorem stack_balance_witness :
    ∃ code,
      ((((((((CodegenState.init []).emit (push 5)).emit (Load 3 29 8)).emit (push 3)).emit
        (Load 3 29 8)).emit (pop 5)).emit (Sltu 3 5 3)).emit (pop 5)).out =
        (CodegenState.init []).out ++ code ∧
      code.count "sub $30, $30, $4" = code.count "add $30, $30, $4" :=
  stack_balance.1 4 testPtrPtr [("p", 8)] (CodegenState.init []) _ rfl

/-! ## Code of a call -/

/-- The root of an argument list is an `arglist` node. -/
theorem isArguments_root {al : Treenode} {args : List Treenode} (h : IsArguments al args) :
    al.terminal = false ∧ al.NTrule.lhs = "arglist" := by
  cases h with
  | single _ _ hterm hrule _ _ _ => exact ⟨hterm, by rw [hrule]⟩
  | cons _ _ _ _ _ hterm hrule _ _ _ _ _ _ => exact ⟨hterm, by rw [hrule]⟩

/-- The argument loop of a call evaluates the arguments of an argument list of
the grammar left to right, pushes each one right after its evaluation, and
counts them. -/
theorem argsLoop_arguments {al : Treenode} {args : List Treenode} (h : IsArguments al args)
    (fuel : Nat) (offsetTable : List (String × Int)) :
    ∀ (loopFuel : Nat) (k : Int) (s : CodegenState), args.length ≤ loopFuel →
      argsLoop (genChild fuel offsetTable) loopFuel (some al) k s =
        (argCodes fuel offsetTable args s).map fun r => (k + (args.length : Int), r.2) := by
  induction h with
  | single al e hterm hrule hcs heterm helhs =>
    intro loopFuel k s hfuel
    cases loopFuel with
    | zero => simp at hfuel
    | succ f =>
      have hg1 : al.getChild "expr" = some e := by
        simp [Treenode.getChild, getChildLoop, hcs, heterm, helhs]
      have hg2 : al.getChild "arglist" = none := by
        simp [Treenode.getChild, getChildLoop, hcs, heterm, helhs]
      rw [argsLoop]
      simp only [hg1, hg2, genChild, deref, argCodes, bind, Except.bind, pure, Except.pure]
      cases generateCodeOther fuel e offsetTable s with
      | error err => rfl
      | ok s1 =>
        simp only [Except.map, List.length_singleton, Nat.cast_one]
        cases f <;> rfl
  | cons al e comma rest args hterm hrule hcs heterm helhs hcomma hct hrest ih =>
    intro loopFuel k s hfuel
    obtain ⟨hr1, hr2⟩ := isArguments_root hrest
    cases loopFuel with
    | zero => simp at hfuel
    | succ f =>
      have hg1 : al.getChild "expr" = some e := by
        simp [Treenode.getChild, getChildLoop, hcs, heterm, helhs]
      have hg2 : al.getChild "arglist" = some rest := by
        simp [Treenode.getChild, getChildLoop, hcs, heterm, helhs, hcomma, hct, hr1, hr2]
      rw [argsLoop]
      simp only [hg1, hg2, genChild, deref, bind, Except.bind, pure, Except.pure]
      rw [argCodes]
      simp only [bind, Except.bind, pure, Except.pure]
      cases generateCodeOther fuel e offsetTable s with
      | error err => rfl
      | ok s1 =>
        simp only []
        rw [ih f (k + 1) (s1.emit (push 3)) (by simpa using hfuel)]
        cases argCodes fuel offsetTable args (s1.emit (push 3)) with
        | error err => rfl
        | ok r =>
          simp only [Except.map, List.length_cons, Nat.cast_add, Nat.cast_one, Except.ok.injEq,
            Prod.mk.injEq, and_true]
          omega

/-- The code of the arguments is appended to the output: the code of each
argument followed by its push, in order, one for each argument. -/
theorem argCodes_out (fuel : Nat) (offsetTable : List (String × Int)) :
    ∀ (args : List Treenode) (s s1 : CodegenState) (codes : List (List String)),
      argCodes fuel offsetTable args s = .ok (codes, s1) →
      codes.length = args.length ∧
        s1.out = s.out ++ (codes.map fun c => c ++ push 3).flatten
  | [], s, s1, codes, h => by
    rw [argCodes, pure_eq_ok] at h
    cases h
    simp
  | e :: rest, s, s1, codes, h => by
    rw [argCodes] at h
    simp only [bind_eq_ok, pure_eq_ok, Prod.mk.injEq] at h
    obtain ⟨s0, h0, r, hr, hc, hs⟩ := h
    obtain ⟨code, hcode⟩ := generateCodeOther_out h0
    obtain ⟨ih1, ih2⟩ := argCodes_out fuel offsetTable rest _ r.2 r.1 hr
    subst hc hs
    refine ⟨by simp [ih1], ?_⟩
    rw [ih2]
    simp [CodegenState.emit, hcode, List.append_assoc]

/-- The lookup of a label after lines are written is the lookup before. -/
theorem labelAt_emit (s : CodegenState) (lines : List String) (name : String) :
    labelAt (s.emit lines) name = ((labelAt s name).1, (labelAt s name).2.emit lines) := by
  unfold labelAt
  simp only [CodegenState.emit]
  cases s.functionlabel_map.lookup name <;> rfl

/-- C35: the code of a call. For a call `ID LPAREN arglist RPAREN` whose
argument list holds the expressions `args`, left to right, when the code of the
arguments is generated (for each argument in this order its code followed by
`push 3`), the call returns and the code it appends to the output is `push 29`,
`push 31`, the code of the arguments with their pushes, `lis $31`, `.word` with
the label the name-to-label table gives for the callee, `jalr $31`, one bare pop
for each argument, then `pop 31` and `pop 29`: as many bare pops as argument
pushes. A call `ID LPAREN RPAREN` has no argument: its code is `push 29`,
`push 31`, `lis $31`, the `.word`, `jalr $31`, `pop 31`, `pop 29`. -/
theorem call_code :
    (∀ (tree id al : Treenode) (args : List Treenode) (fuel : Nat)
      (offsetTable : List (String × Int)) (s s1 : CodegenState) (codes : List (List String)),
      tree.terminal = false →
      tree.NTrule = ⟨"factor", ["ID", "LPAREN", "arglist", "RPAREN"]⟩ →
      tree.getChild "ID" = some id → tree.getChild "arglist" = some al →
      IsArguments al args → args.length ≤ fuel →
      argCodes fuel offsetTable args (s.emit (push 29 ++ push 31)) = .ok (codes, s1) →
      ∃ s', generateCodeOther (fuel + 1) tree offsetTable s = .ok s' ∧
        codes.length = args.length ∧
        s'.out = s.out ++ push 29 ++ push 31 ++ (codes.map fun c => c ++ push 3).flatten ++
          ["lis $31", ".word " ++ (labelAt s1 id.Ttoken.value).1, "jalr $31"] ++
          List.replicate args.length "add $30, $30, $4" ++ pop 31 ++ pop 29) ∧
    (∀ (tree id : Treenode) (fuel : Nat) (offsetTable : List (String × Int))
      (s : CodegenState), tree.terminal = false →
      tree.NTrule = ⟨"factor", ["ID", "LPAREN", "RPAREN"]⟩ →
      tree.getChild "ID" = some id →
      ∃ s', generateCodeOther (fuel + 1) tree offsetTable s = .ok s' ∧
        s'.out = s.out ++ push 29 ++ push 31 ++
          ["lis $31", ".word " ++ (labelAt s id.Ttoken.value).1, "jalr $31"] ++
          pop 31 ++ pop 29) := by
  have hlis : Lis 31 = ["lis $31"] := by decide
  have hjalr : Jalr 31 = ["jalr $31"] := by decide
  constructor
  · intro tree id al args fuel offsetTable s s1 codes hterm hrule hid hal hargs hfuel hcodes
    obtain ⟨hlen, hout⟩ := argCodes_out fuel offsetTable args _ s1 codes hcodes
    have hgen : generateCodeOther (fuel + 1) tree offsetTable s =
        .ok ((((labelAt (s1.emit (Lis 31)) id.Ttoken.value).2.emit
          (WordLabel (labelAt (s1.emit (Lis 31)) id.Ttoken.value).1 ++ Jalr 31)).emit
            (List.replicate ((0 : Int) + (args.length : Int)).toNat popBare).flatten).emit
              (pop 31 ++ pop 29)) := by
      rw [generateCodeOther_factor fuel tree offsetTable s hterm (by rw [hrule])]
      simp only [hrule, List.length_cons, List.length_nil, Nat.reduceAdd, Nat.reduceEqDiff,
        ↓reduceIte, Rule.rhsAt, List.getD, List.get?_cons_zero, List.get?_cons_succ,
        Option.getD_some, and_self, OfNat.ofNat_ne_one, Nat.succ_ne_self]
      rw [hal, argsLoop_arguments hargs fuel offsetTable fuel 0 _ hfuel, hcodes, hid]
      rfl
    refine ⟨_, hgen, hlen, ?_⟩
    simp only [labelAt_emit]
    simp only [CodegenState.emit, labelAt_out, hout, zero_add,
      Int.toNat_ofNat, replicate_popBare, hlis, hjalr, WordLabel, List.append_assoc,
      List.singleton_append, List.cons_append, List.nil_append]
  · intro tree id fuel offsetTable s hterm hrule hid
    have hgen : generateCodeOther (fuel + 1) tree offsetTable s =
        .ok ((labelAt (s.emit (push 29 ++ push 31 ++ Lis 31)) id.Ttoken.value).2.emit
          (WordLabel (labelAt (s.emit (push 29 ++ push 31 ++ Lis 31)) id.Ttoken.value).1 ++
            Jalr 31 ++ pop 31 ++ pop 29)) := by
      rw [generateCodeOther_factor fuel tree offsetTable s hterm (by rw [hrule])]
      simp only [hrule, List.length_cons, List.length_nil, Nat.reduceAdd, Nat.reduceEqDiff,
        ↓reduceIte, Rule.rhsAt, List.getD, List.get?_cons_zero, List.get?_cons_succ,
        Option.getD_some, and_self, OfNat.ofNat_ne_one, Nat.succ_ne_self]
      rw [hid]
      rfl
    refine ⟨_, hgen, ?_⟩
    simp only [labelAt_emit]
    simp only [CodegenState.emit, labelAt_out, hlis, hjalr, WordLabel,
      List.append_assoc, List.singleton_append, List.cons_append, List.nil_append]

/-- The sample argument list `1, 2, 3` is an argument list of the grammar. -/
theorem isArguments_threeArgs :
    IsArguments threeArgs
      [exprOf (factorNum "1"), exprOf (factorNum "2"), exprOf (factorNum "3")] :=
  .cons _ _ (leaf "COMMA" ",") _ _ rfl rfl rfl rfl rfl rfl rfl
    (.cons _ _ (leaf "COMMA" ",") _ _ rfl rfl rfl rfl rfl rfl rfl
      (.single _ _ rfl rfl rfl rfl rfl))

theorem call_code_witness :
    (generateCodeOther 5 (callArgs "f" threeArgs) [] stateWithF).map CodegenState.out =
      .ok ["sw $29, -4($30)", "sub $30, $30, $4", "sw $31, -4($30)", "sub $30, $30, $4",
        "lis $3", ".word 1", "sw $3, -4($30)", "sub $30, $30, $4",
        "lis $3", ".word 2", "sw $3, -4($30)", "sub $30, $30, $4",
        "lis $3", ".word 3", "sw $3, -4($30)", "sub $30, $30, $4",
        "lis $31", ".word f", "jalr $31", "add $30, $30, $4", "add $30, $30, $4",
        "add $30, $30, $4", "add $30, $30, $4", "lw $31, -4($30)", "add $30, $30, $4",
        "lw $29, -4($30)"] := by
  obtain ⟨s', hgen, _, hout⟩ :=
    call_code.1 (callArgs "f" threeArgs) (leaf "ID" "f") threeArgs
      [exprOf (factorNum "1"), exprOf (factorNum "2"), exprOf (factorNum "3")] 4 [] stateWithF
      ⟨reservedLabels ++ ["f"], [("f", "f")], [],
        ["sw $29, -4($30)", "sub $30, $30, $4", "sw $31, -4($30)", "sub $30, $30, $4",
          "lis $3", ".word 1", "sw $3, -4($30)", "sub $30, $30, $4",
          "lis $3", ".word 2", "sw $3, -4($30)", "sub $30, $30, $4",
          "lis $3", ".word 3", "sw $3, -4($30)", "sub $30, $30, $4"]⟩
      [["lis $3", ".word 1"], ["lis $3", ".word 2"], ["lis $3", ".word 3"]]
      rfl rfl rfl rfl isArguments_threeArgs (by decide) rfl
  rw [hgen, Except.map, hout]
  decide

/-! ## Offsets of the identifiers of a procedure -/

/-- The declarations `getDeclarations` harvests from a declaration list of the
grammar, when it returns: the declaration nodes from the root inwards. -/
theorem getDeclarations_chain {t : Treenode} {chain : List LocalDcl} (h : IsDcls t chain) :
    ∀ locs, getDeclarations t = .ok locs → locs = chain.map LocalDcl.dcl := by
  induction h with
  | nil t hterm hrule hcs =>
    intro locs hl
    obtain ⟨tm, r, k, ty, cs⟩ := t
    simp only [Treenode.terminal, Treenode.NTrule, Treenode.children] at hterm hrule hcs
    subst hterm hrule hcs
    simp [getDeclarations, getDeclarationsList, pure, Except.pure] at hl
    simp [hl]
  | cons t rest b v s ld chain hterm hrule hinit hcs hdcl hb hv hs hrest ih =>
    intro locs hl
    obtain ⟨tm, r, k, ty, cs⟩ := t
    simp only [Treenode.terminal, Treenode.NTrule, Treenode.children] at hterm hrule hcs
    subst hterm hrule hcs
    rw [getDeclarations] at hl
    simp only [Bool.not_false, ↓reduceIte, List.length_cons, List.length_nil, ne_eq,
      Nat.add_one_ne_zero, not_false_eq_true, and_self, getDeclarations_of_isDcl hdcl,
      initMismatch_of_isDcl ld hdcl, bind, Except.bind, decide_eq_true_eq] at hl
    by_cases hm : ld.Mismatch
    · simp [hm, throw, throwThe, MonadExceptOf.throw] at hl
    · simp only [hm, ↓reduceIte] at hl
      cases hr : getDeclarations rest with
      | error e => rw [hr] at hl; cases hl
      | ok d1 =>
        rw [hr] at hl
        simp only [pure, Except.pure, Except.ok.injEq] at hl
        rw [← hl, ih d1 hr]
        rfl

/-- Every declaration of a declaration list of the grammar is a declaration of
its variable. -/
theorem isDcls_forall {t : Treenode} {chain : List LocalDcl} (h : IsDcls t chain) :
    List.Forall₂ IsDcl (chain.map LocalDcl.dcl) (chain.map LocalDcl.var) := by
  induction h with
  | nil => exact .nil
  | cons t rest b v s ld chain hterm hrule hinit hcs hdcl hb hv hs hrest ih =>
    exact .cons hdcl ih

/-- The symbol table the `Procedure` constructor builds, when it succeeds on a
procedure of the grammar: the parameters, then the locals from the root of the
declaration list inwards; all names are distinct. -/
theorem ofTree_symbols {tree dn : Treenode} {ds : List Treenode} {pvars : List Variable}
    {chain : List LocalDcl} {p : Procedure} (hparams : FrameParams tree ds)
    (hpv : List.Forall₂ IsDcl ds pvars) (hdn : tree.getChild "dcls" = some dn)
    (hdcls : IsDcls dn chain) (hp : Procedure.ofTree tree = .ok p) :
    p.symbolTable = ⟨entries (pvars ++ chain.map LocalDcl.var)⟩ ∧
    ((pvars ++ chain.map LocalDcl.var).map Variable.name).Nodup := by
  unfold Procedure.ofTree at hp
  simp only [bind_eq_ok, deref_eq_ok, hdn, Option.some.injEq, exists_eq_left'] at hp
  obtain ⟨locs, hloc, hp⟩ := hp
  have hlocs := getDeclarations_chain hdcls locs hloc
  subst hlocs
  have hlv := isDcls_forall hdcls
  have key : (do
      let r ← addParams (ds.map some) ⟨[]⟩ []
      let name ← childValue tree 1
      let symbolTable ← addLocals (chain.map LocalDcl.dcl) r.1
      pure (⟨name, r.2, symbolTable⟩ : Procedure)) = .ok p →
      p.symbolTable = ⟨entries (pvars ++ chain.map LocalDcl.var)⟩ ∧
      ((pvars ++ chain.map LocalDcl.var).map Variable.name).Nodup := by
    intro h
    simp only [bind_eq_ok, pure_eq_ok] at h
    obtain ⟨r, hr, name, _, st, hst, h⟩ := h
    have ha := addParams_entries hpv [] [] (by simp)
    rw [show entries ([] : List Variable) = [] from rfl, List.nil_append, List.nil_append,
      hr] at ha
    by_cases hn : (pvars.map Variable.name).Nodup
    · rw [if_pos hn] at ha
      cases ha
      have hb := addLocals_entries hlv pvars hn
      simp only at hst
      rw [hst] at hb
      by_cases hn2 : ((pvars ++ chain.map LocalDcl.var).map Variable.name).Nodup
      · rw [if_pos hn2] at hb
        cases hb
        subst h
        exact ⟨rfl, hn2⟩
      · rw [if_neg hn2] at hb
        cases hb
    · rw [if_neg hn] at ha
      cases ha
  rcases hparams with ⟨hlhs, pn, hpn, hps⟩ | ⟨hlhs, d1, d2, hds, h1, h2⟩
  · rw [if_pos hlhs] at hp
    apply key
    rw [← hp]
    simp only [hpn, deref, getDeclarations_params hps, bind, Except.bind, pure, Except.pure]
  · have hne : ¬ tree.NTrule.lhs = "procedure" := by rw [hlhs]; decide
    rw [if_neg hne] at hp
    subst hds
    simp only [bind_eq_ok, deref_eq_ok, h2, Option.some.injEq, exists_eq_left'] at hp
    obtain ⟨ty, hty, hp⟩ := hp
    by_cases hlen : ty.children.length ≠ 1
    · rw [if_pos hlen] at hp
      simp only [bind_eq_ok, throw_eq_ok, false_and, exists_false] at hp
    · rw [if_neg hlen] at hp
      apply key
      rw [← hp]
      simp only [h1, h2, List.map_cons, List.map_nil, bind, Except.bind, pure, Except.pure]

/-- The names with an offset in a table of consecutive offsets. -/
theorem mapContains_offsetsFrom (start : Int) (names : List String) (x : String) :
    mapContains (offsetsFrom start names) x = decide (x ∈ names) := by
  induction names generalizing start with
  | nil => rfl
  | cons y ys ih =>
    have h := ih (start - 4)
    unfold mapContains at h ⊢
    by_cases hxy : x = y
    · simp [offsetsFrom, List.lookup, hxy]
    · have hb : (x == y) = false := by simpa using hxy
      simp only [offsetsFrom, List.lookup, hb, h, List.mem_cons, hxy, false_or]

/-- C37: the offset table covers the symbol table. For a procedure or entry
procedure of the grammar on which the `Procedure` constructor succeeds, the
prologue of `generateCodeProcedures` returns (given a label for an ordinary
procedure, initialisers in the range of `std::stoi` and enough fuel) and the
names with an entry in its offset table are exactly the names in the symbol
table of the constructor, although the constructor harvests the locals from the
root of the declaration list inwards and the prologue numbers them in source
order. Hence an identifier whose typing rule succeeds with that symbol table
has an offset in the table, and `offsetTable[name]` reads that offset, not the
default 0 of a missing name. -/
theorem offsets_cover_symbols (tree dn : Treenode) (ds : List Treenode)
    (pvars : List Variable) (locals : List LocalDcl) (p : Procedure) (fuel : Nat)
    (s : CodegenState) (hparams : FrameParams tree ds) (hpv : List.Forall₂ IsDcl ds pvars)
    (hdn : tree.getChild "dcls" = some dn) (hdcls : IsDcls dn locals.reverse)
    (hnum : ∀ ld ∈ locals, ld.init = "NUM" → (stoi ld.lexeme).isOk = true)
    (hlabel : tree.NTrule.lhs = "procedure" →
      ∃ id s1, tree.getChild "ID" = some id ∧ procedureLabel id.Ttoken.value s = .ok s1)
    (hfuel : pvars.length ≤ fuel ∧ locals.length < fuel)
    (hp : Procedure.ofTree tree = .ok p) :
    ∃ offsetTable localVarCount s',
      procedurePrologue fuel tree s = .ok (offsetTable, localVarCount, s') ∧
      (∀ x, mapContains offsetTable x = mapContains p.symbolTable.table x) ∧
      (∀ (n : Treenode) (pt : ProcedureTable) (x : String), n.terminal = false →
        n.NTrule = ⟨"factor", ["ID"]⟩ ∨ n.NTrule = ⟨"lvalue", ["ID"]⟩ →
        childValue n 0 = .ok x → (nodeType n pt p.symbolTable).isOk = true →
        ∃ off, offsetTable.lookup x = some off ∧ offsetAt offsetTable x = off) := by
  obtain ⟨hsym, hnd⟩ := ofTree_symbols hparams hpv hdn hdcls hp
  have hnd' : (pvars.map Variable.name ++ locals.map fun ld => ld.var.name).Nodup := by
    have e : (locals.reverse.map LocalDcl.var).map Variable.name =
        (locals.map fun ld => ld.var.name).reverse := by
      simp [List.map_reverse, Function.comp_def]
    rw [List.map_append, e] at hnd
    rw [List.nodup_append] at hnd ⊢
    refine ⟨hnd.1, List.nodup_reverse.mp hnd.2.1, fun a ha hb => hnd.2.2 ha ?_⟩
    exact List.mem_reverse.mpr hb
  obtain ⟨ot, lvc, s', hrun, hkey⟩ :=
    procedurePrologue_offsets hparams hpv hdn hdcls hnum hnd' hlabel hfuel
  have hcover : ∀ x, mapContains ot x = mapContains p.symbolTable.table x := by
    intro x
    have e : (locals.reverse.map LocalDcl.var).map Variable.name =
        (locals.map fun ld => ld.var.name).reverse := by
      simp [List.map_reverse, Function.comp_def]
    rw [hkey, hsym, mapContains_offsetsFrom, Bool.eq_iff_iff, mapContains_entries,
      List.map_append, e]
    simp only [decide_eq_true_eq, List.mem_append, List.mem_reverse]
  refine ⟨ot, lvc, s', hrun, hcover, ?_⟩
  intro n pt x hterm hrule hx hok
  have hin : mapContains p.symbolTable.table x = true := by
    cases hl : p.symbolTable.table.lookup x with
    | some v => simp [mapContains, hl]
    | none =>
      exfalso
      rcases hrule with hrule | hrule <;>
        simp [nodeType, hterm, hrule, Rule.rhsAt, hx, VariableTable.get, hl, bind, Except.bind,
          throw, throwThe, MonadExceptOf.throw, Except.isOk, Except.toBool] at hok
  rw [← hcover x] at hin
  unfold mapContains at hin
  cases hl : ot.lookup x with
  | none => rw [hl] at hin; cases hin
  | some off => exact ⟨off, rfl, by simp [offsetAt, hl]⟩

theorem offsets_cover_symbols_witness :
    ∃ offsetTable localVarCount s',
      procedurePrologue 3 procWithLocals (CodegenState.init []) =
        .ok (offsetTable, localVarCount, s') ∧
      (∀ x, mapContains offsetTable x =
        mapContains [("u", (⟨"u", "int*"⟩ : Variable)), ("w", ⟨"w", "int"⟩),
          ("q", ⟨"q", "int*"⟩), ("x", ⟨"x", "int"⟩)] x) :=
  let ⟨ot, lvc, s', h1, h2, _⟩ :=
    offsets_cover_symbols procWithLocals dclsXQ [dclPtr "u", dclInt "w"]
      [⟨"u", "int*"⟩, ⟨"w", "int"⟩]
      [⟨dclInt "x", ⟨"x", "int"⟩, "NUM", "5"⟩, ⟨dclPtr "q", ⟨"q", "int*"⟩, "NULL", "NULL"⟩]
      ⟨"g", ["int*", "int"],
        ⟨[("u", ⟨"u", "int*"⟩), ("w", ⟨"w", "int"⟩), ("q", ⟨"q", "int*"⟩),
          ("x", ⟨"x", "int"⟩)]⟩⟩ 3
      (CodegenState.init []) (Or.inl ⟨rfl, _, rfl, isParams_sample⟩)
      (.cons (isDcl_dclPtr "u") (.cons (isDcl_dclInt "w") .nil)) rfl
      isDcls_dclsXQ (by decide) (fun _ => ⟨leaf "ID" "g", _, rfl, rfl⟩)
      ⟨by decide, by decide⟩ rfl
  ⟨ot, lvc, s', h1, h2⟩

/-! ## Programs after semantic analysis -/

/-- Type annotation keeps the tokens of the children. -/
theorem annotateChildren_tokens : ∀ (cs cs' : List Treenode) (pt : ProcedureTable)
    (vt : VariableTable), annotateChildren cs pt vt = .ok cs' →
    cs'.map Treenode.Ttoken = cs.map Treenode.Ttoken
  | [], cs', pt, vt, h => by
    rw [annotateChildren_nil] at h
    cases h
    rfl
  | c :: cs, cs', pt, vt, h => by
    obtain ⟨c', rest, rfl, hc, hrest⟩ := annotateChildren_cons_ok h
    rw [List.map_cons, List.map_cons, (annotateTypes_ok_fields hc).2.2.1,
      annotateChildren_tokens cs rest pt vt hrest]

/-- Type annotation keeps the lexeme of every child. -/
theorem childValue_annotateTypes {t t' : Treenode} {pt : ProcedureTable} {vt : VariableTable}
    (h : t.annotateTypes pt vt = .ok t') (i : Nat) : childValue t' i = childValue t i := by
  have hk := annotateChildren_tokens _ _ pt vt (annotateTypes_ok_fields h).2.2.2
  have hi : (t'.children.map Treenode.Ttoken)[i]? = (t.children.map Treenode.Ttoken)[i]? := by
    rw [hk]
  simp only [List.getElem?_map] at hi
  unfold childValue at?
  cases h1 : t'.children[i]? <;> cases h2 : t.children[i]? <;>
    simp only [h1, h2, Option.map_none', Option.map_some', Option.some.injEq,
      reduceCtorEq] at hi <;>
    simp [Except.map, hi]

/-- What `collectProcedures` leaves of a node: the same node but for the types
below it. -/
theorem collectProcedures_fields : ∀ (t t' : Treenode) (pt pt' : ProcedureTable),
    collectProcedures t pt = .ok (t', pt') →
    t'.terminal = t.terminal ∧ t'.NTrule = t.NTrule
  | .mk tm r k ty cs, t', pt, pt', h => by
    rw [collectProcedures] at h
    by_cases htm : tm = true
    · subst htm
      simp only [Bool.not_true, Bool.false_eq_true, ↓reduceIte, pure_eq_ok, Prod.mk.injEq] at h
      rw [← h.1]
      exact ⟨rfl, rfl⟩
    · have htm' : tm = false := by simpa using htm
      subst htm'
      simp only [Bool.not_false, ↓reduceIte] at h
      split_ifs at h with h1 h2
      · obtain ⟨p, _, _, hann⟩ := collectProcedure_ok h
        obtain ⟨a, b, _, _⟩ := annotateTypes_ok_fields hann
        exact ⟨a, b⟩
      · simp only [bind_eq_ok, pure_eq_ok, Prod.mk.injEq] at h
        obtain ⟨r', _, h, _⟩ := h
        rw [← h]
        exact ⟨rfl, rfl⟩
      · simp only [pure_eq_ok, Prod.mk.injEq] at h
        rw [← h.1]
        exact ⟨rfl, rfl⟩

/-- The `Procedure` constructor names the procedure by the lexeme of the second
child of its node. -/
theorem ofTree_name {tree : Treenode} {p : Procedure} (h : Procedure.ofTree tree = .ok p) :
    childValue tree 1 = .ok p.name := by
  unfold Procedure.ofTree at h
  simp only [bind_eq_ok] at h
  obtain ⟨dn, _, locs, _, h⟩ := h
  split_ifs at h
  · simp only [bind_eq_ok, pure_eq_ok] at h
    obtain ⟨_, _, _, _, _, _, _, _, name, hname, _, _, h⟩ := h
    rw [← h]
    exact hname
  · simp only [bind_eq_ok] at h
    obtain ⟨_, _, _, _, h⟩ := h
    split_ifs at h
    · simp only [bind_eq_ok, throw_eq_ok, false_and, exists_false] at h
    · simp only [bind_eq_ok, pure_eq_ok] at h
      obtain ⟨_, _, _, _, name, hname, _, _, h⟩ := h
      rw [← h]
      exact hname

/-- What semantic analysis did to a `procedure` or `main` node it returned. -/
theorem collectProcedures_one {t t' : Treenode} {pt pt' : ProcedureTable}
    (h : collectProcedures t pt = .ok (t', pt')) (hterm : t'.terminal = false)
    (hlhs : t'.NTrule.lhs = "procedure" ∨ t'.NTrule.lhs = "main") :
    ∃ proc, childValue t' 1 = .ok proc.name ∧ pt.add proc = .ok pt' ∧
      t'.annotateTypes pt' proc.symbolTable = .ok t' := by
  obtain ⟨hf1, hf2⟩ := collectProcedures_fields _ _ _ _ h
  rw [hf1] at hterm
  rw [hf2] at hlhs
  rw [collectProcedures_procedure pt hterm hlhs] at h
  obtain ⟨proc, hp, hadd, hann⟩ := collectProcedure_ok h
  exact ⟨proc, by rw [childValue_annotateTypes hann 1]; exact ofTree_name hp, hadd,
    annotateTypes_fixed _ _ _ _ hann⟩

/-- The loop of `collectProcedures` over one child. -/
theorem collectProceduresList_cons_ok {c : Treenode} {cs : List Treenode}
    {pt : ProcedureTable} {r : List Treenode × ProcedureTable}
    (h : collectProceduresList (c :: cs) pt = .ok r) :
    ∃ c' pt1 cs', collectProcedures c pt = .ok (c', pt1) ∧
      collectProceduresList cs pt1 = .ok (cs', r.2) ∧ r.1 = c' :: cs' := by
  rw [collectProceduresList] at h
  simp only [bind_eq_ok, pure_eq_ok] at h
  obtain ⟨⟨c', pt1⟩, h1, ⟨cs', pt2⟩, h2, h⟩ := h
  subst h
  exact ⟨c', pt1, cs', h1, h2, rfl⟩

/-- The loop of `collectProcedures` over no child. -/
theorem collectProceduresList_nil_ok {pt : ProcedureTable}
    {r : List Treenode × ProcedureTable} (h : collectProceduresList [] pt = .ok r) :
    r = ([], pt) := by
  rw [collectProceduresList, pure_eq_ok] at h
  exact h.symm

/-- The procedures of a program that passed semantic analysis were collected one
after the other, in source order. -/
theorem collected_of_analysis {tree' : Treenode} {procs : List Treenode}
    (hshape : IsProcedures tree' procs) :
    ∀ (tree : Treenode) (pt pt' : ProcedureTable),
      collectProcedures tree pt = .ok (tree', pt') → Collected pt procs pt' := by
  induction hshape with
  | main t' m' hterm hrule hcs hmterm hmlhs =>
    intro tree pt pt' h
    obtain ⟨tm, r, k, ty, cs⟩ := tree
    obtain ⟨hf1, hf2⟩ := collectProcedures_fields _ _ _ _ h
    rw [hterm] at hf1
    rw [hrule] at hf2
    have hf1' : tm = false := hf1.symm
    have hf2' : r = ⟨"procedures", ["main"]⟩ := hf2.symm
    subst hf1' hf2'
    rw [collectProcedures] at h
    simp only [Bool.not_false, ↓reduceIte, String.reduceEq, or_self, bind_eq_ok, pure_eq_ok,
      Prod.mk.injEq] at h
    obtain ⟨r', hlist, ht, hpt⟩ := h
    subst ht hpt
    simp only [Treenode.children] at hcs
    cases cs with
    | nil =>
      rw [collectProceduresList_nil_ok hlist] at hcs
      cases hcs
    | cons c cs =>
      obtain ⟨c', pt1, cs', h1, h2, h3⟩ := collectProceduresList_cons_ok hlist
      rw [h3] at hcs
      obtain ⟨rfl, rfl⟩ := List.cons.inj hcs
      cases cs with
      | cons d ds =>
        obtain ⟨_, _, _, _, _, h4⟩ := collectProceduresList_cons_ok h2
        cases h4
      | nil =>
        have e := collectProceduresList_nil_ok h2
        simp only [Prod.mk.injEq, true_and] at e
        subst e
        obtain ⟨proc, hn, ha, hann⟩ := collectProcedures_one h1 hmterm (Or.inr hmlhs)
        exact .cons _ _ _ _ _ proc hn ha hann (.nil _)
  | cons t' p' rest' ps hterm hrule hcs hpterm hplhs hrest ih =>
    intro tree pt pt' h
    obtain ⟨tm, r, k, ty, cs⟩ := tree
    obtain ⟨hf1, hf2⟩ := collectProcedures_fields _ _ _ _ h
    rw [hterm] at hf1
    rw [hrule] at hf2
    have hf1' : tm = false := hf1.symm
    have hf2' : r = ⟨"procedures", ["procedure", "procedures"]⟩ := hf2.symm
    subst hf1' hf2'
    rw [collectProcedures] at h
    simp only [Bool.not_false, ↓reduceIte, String.reduceEq, or_self, bind_eq_ok, pure_eq_ok,
      Prod.mk.injEq] at h
    obtain ⟨r', hlist, ht, hpt⟩ := h
    subst ht hpt
    simp only [Treenode.children] at hcs
    cases cs with
    | nil =>
      rw [collectProceduresList_nil_ok hlist] at hcs
      cases hcs
    | cons c cs =>
      obtain ⟨c', pt1, cs', h1, h2, h3⟩ := collectProceduresList_cons_ok hlist
      rw [h3] at hcs
      obtain ⟨rfl, rfl⟩ := List.cons.inj hcs
      cases cs with
      | nil =>
        have e := collectProceduresList_nil_ok h2
        simp only [Prod.mk.injEq, reduceCtorEq, false_and] at e
      | cons d ds =>
        obtain ⟨d', pt2, ds', h4, h5, h6⟩ := collectProceduresList_cons_ok h2
        simp only at h6
        obtain ⟨rfl, rfl⟩ := List.cons.inj h6
        cases ds with
        | cons x xs =>
          obtain ⟨_, _, _, _, _, h7⟩ := collectProceduresList_cons_ok h5
          cases h7
        | nil =>
          have e := collectProceduresList_nil_ok h5
          simp only [Prod.mk.injEq, true_and] at e
          subst e
          obtain ⟨proc, hn, ha, hann⟩ := collectProcedures_one h1 hpterm (Or.inl hplhs)
          exact .cons _ _ _ _ _ proc hn ha hann (ih d pt1 _ h4)

/-! ## No error in code generation -/

mutual
/-- In a tree that type annotation leaves as it is, the typing rule of every
node succeeds. -/
theorem annotateTypes_nodes_typed : (t : Treenode) → (pt : ProcedureTable) →
    (vt : VariableTable) → t.annotateTypes pt vt = .ok t →
    ∀ n ∈ t.subtrees, (nodeType n pt vt).isOk = true
  | .mk tm r k ty cs, pt, vt, h => by
    intro n hn
    obtain ⟨_, _, _, hcs⟩ := annotateTypes_ok_fields h
    rw [Treenode.subtrees, List.mem_cons] at hn
    rcases hn with hn | hn
    · subst hn
      rw [annotateTypes_of_children hcs] at h
      cases hty : nodeType ((Treenode.mk tm r k ty cs).withChildren
          (Treenode.mk tm r k ty cs).children) pt vt with
      | error e => rw [hty] at h; cases h
      | ok ty' =>
        have e : (Treenode.mk tm r k ty cs).withChildren (Treenode.mk tm r k ty cs).children =
            Treenode.mk tm r k ty cs := rfl
        rw [e] at hty
        rw [hty]
        rfl
    · exact annotateChildren_nodes_typed cs pt vt hcs n hn
/-- The same for a list of children. -/
theorem annotateChildren_nodes_typed : (cs : List Treenode) → (pt : ProcedureTable) →
    (vt : VariableTable) → annotateChildren cs pt vt = .ok cs →
    ∀ n ∈ subtreesList cs, (nodeType n pt vt).isOk = true
  | [], _, _, _ => by
    intro n hn
    simp [subtreesList] at hn
  | c :: cs, pt, vt, h => by
    intro n hn
    obtain ⟨c', rest, heq, hc, hrest⟩ := annotateChildren_cons_ok h
    obtain ⟨rfl, rfl⟩ := List.cons.inj heq
    rw [subtreesList, List.mem_append] at hn
    rcases hn with hn | hn
    · exact annotateTypes_nodes_typed c pt vt hc n hn
    · exact annotateChildren_nodes_typed cs pt vt hrest n hn
end

/-- A sequence of two steps throws no `std::runtime_error` when neither does. -/
theorem NoRuntime.bind {α β : Type} {x : Except Err α} {f : α → Except Err β}
    (hx : NoRuntime x) (hf : ∀ a, x = .ok a → NoRuntime (f a)) : NoRuntime (x >>= f) := by
  intro msg h
  cases x with
  | error e =>
    have h' : (Except.error e : Except Err β) = .error (.runtime msg) := h
    cases h'
    exact hx msg rfl
  | ok a => exact hf a rfl msg h

/-- A returned value is no thrown error. -/
theorem NoRuntime.pure {α : Type} (a : α) : NoRuntime (pure a : Except Err α) := by
  intro msg h
  cases h

/-- A returned value is no thrown error. -/
theorem NoRuntime.ok {α : Type} (a : α) : NoRuntime (.ok a : Except Err α) := by
  intro msg h
  cases h

/-- A choice throws no `std::runtime_error` when neither branch does. -/
theorem NoRuntime.ite {α : Type} {c : Prop} [Decidable c] {a b : Except Err α}
    (ha : NoRuntime a) (hb : NoRuntime b) : NoRuntime (if c then a else b) := by
  split_ifs
  · exact ha
  · exact hb

/-- Dereferencing throws no `std::runtime_error`. -/
theorem noRuntime_deref {α : Type} (p : Option α) : NoRuntime (deref p) := by
  intro msg h
  cases p <;> cases h

/-- Indexing throws no `std::runtime_error`. -/
theorem noRuntime_at {α : Type} (v : List α) (i : Nat) : NoRuntime (at? v i) := by
  intro msg h
  unfold at? at h
  cases hv : v[i]? <;> rw [hv] at h <;> cases h

/-- The function `std::stoi` throws no `std::runtime_error`. -/
theorem noRuntime_stoi (str : String) : NoRuntime (stoi str) := by
  intro msg h
  unfold stoi at h
  simp only at h
  split_ifs at h <;> cases h

/-- The function `generateLabel` throws no `std::runtime_error`. -/
theorem noRuntime_generateLabel (s : CodegenState) : NoRuntime (generateLabel s) := by
  intro msg h
  unfold generateLabel at h
  cases hl : generateLabelLoop s.rand.length s.rand s.label_set with
  | none => rw [hl] at h; cases h
  | some r => rw [hl] at h; cases h

/-- Stripping the parentheses of an lvalue throws no `std::runtime_error`. -/
theorem noRuntime_unwrapLvalue : ∀ (fuel : Nat) (c : Option Treenode),
    NoRuntime (unwrapLvalue fuel c) := by
  intro fuel
  induction fuel with
  | zero =>
    intro c
    unfold unwrapLvalue
    refine NoRuntime.bind (noRuntime_deref c) fun l _ => NoRuntime.ite ?_ (NoRuntime.pure l)
    intro msg h
    cases h
  | succ fuel ih =>
    intro c
    unfold unwrapLvalue
    exact NoRuntime.bind (noRuntime_deref c) fun l _ => NoRuntime.ite (ih _) (NoRuntime.pure l)

/-- The multiplicative lowering throws no `std::runtime_error`. -/
theorem noRuntime_combineMultiplicative (op : Option Treenode) (s : CodegenState) :
    NoRuntime (combineMultiplicative op s) := by
  unfold combineMultiplicative
  exact NoRuntime.bind (noRuntime_deref op) fun o _ =>
    NoRuntime.ite (NoRuntime.pure _) (NoRuntime.ite (NoRuntime.pure _)
      (NoRuntime.ite (NoRuntime.pure _) (NoRuntime.pure _)))

/-- The lowering of a comparison throws no `std::runtime_error`. -/
theorem noRuntime_combineTest (op a b : String) (s : CodegenState) :
    NoRuntime (combineTest op a b s) := by
  unfold combineTest
  refine NoRuntime.ite ?_ (NoRuntime.ite ?_ (NoRuntime.ite ?_ (NoRuntime.ite ?_
    (NoRuntime.ite ?_ (NoRuntime.ite ?_ (NoRuntime.pure _))))))
  · exact NoRuntime.bind (noRuntime_generateLabel _) fun r1 _ =>
      NoRuntime.bind (noRuntime_generateLabel _) fun r2 _ => NoRuntime.pure _
  · exact NoRuntime.bind (noRuntime_generateLabel _) fun r1 _ =>
      NoRuntime.bind (noRuntime_generateLabel _) fun r2 _ => NoRuntime.pure _
  all_goals exact NoRuntime.ite (NoRuntime.pure _) (NoRuntime.pure _)

/-- The argument loop throws no `std::runtime_error` when the code of no
argument does. -/
theorem noRuntime_argsLoop (tree : Treenode)
    (gen : Option Treenode → CodegenState → Except Err CodegenState)
    (hgen : ∀ (c : Option Treenode) (s : CodegenState),
      (∀ x, c = some x → x ∈ tree.subtrees) → NoRuntime (gen c s)) :
    ∀ (fuel : Nat) (al : Option Treenode) (args : Int) (s : CodegenState),
      (∀ x, al = some x → x ∈ tree.subtrees) → NoRuntime (argsLoop gen fuel al args s) := by
  intro fuel
  induction fuel with
  | zero =>
    intro al args s _
    cases al with
    | none => rw [argsLoop]; exact NoRuntime.pure _
    | some a =>
      rw [argsLoop]
      intro msg h
      cases h
  | succ fuel ih =>
    intro al args s hal
    cases al with
    | none => rw [argsLoop]; exact NoRuntime.pure _
    | some a =>
      rw [argsLoop]
      have hin := hal a rfl
      exact NoRuntime.bind
        (hgen _ _ fun x hx => mem_subtrees_of_child' hin (getChild_mem (by decide) hx).1)
        fun s1 _ => ih _ _ _ fun x hx =>
          mem_subtrees_of_child' hin (getChild_mem (by decide) hx).1

/-- Whatever the tree, `generateCodeOther` throws no `std::runtime_error` when
every `expr` node of the tree is safe for the additive lowering. -/
theorem generateCodeOther_noRuntime :
    ∀ (fuel : Nat) (tree : Treenode) (offsetTable : List (String × Int)) (s : CodegenState),
      (∀ n ∈ tree.subtrees, n.terminal = false → n.NTrule.lhs = "expr" → n.ExprSafe) →
      NoRuntime (generateCodeOther fuel tree offsetTable s) := by
  intro fuel
  induction fuel with
  | zero =>
    intro tree ot s _ msg h
    rw [generateCodeOther] at h
    cases h
  | succ fuel ih =>
    intro tree ot s hE
    have hgen : ∀ (c : Option Treenode) (s1 : CodegenState),
        (∀ x, c = some x → x ∈ tree.subtrees) → NoRuntime (genChild fuel ot c s1) := by
      intro c s1 hc
      unfold genChild
      exact NoRuntime.bind (noRuntime_deref c) fun x hx =>
        ih x ot s1 fun n hn =>
          hE n (subtrees_trans tree x n (hc x (deref_eq_ok.mp hx)) hn)
    have hchild : ∀ (lhs : String) (k : Int), 1 ≤ k → ∀ x, tree.getChild lhs k = some x →
        x ∈ tree.subtrees := fun lhs k hk x hx =>
      mem_subtrees_of_child tree x x (getChild_mem hk hx).1 (mem_subtrees_self x)
    have hc1 : ∀ (lhs : String) (x : Treenode), tree.getChild lhs = some x →
        x ∈ tree.subtrees := fun lhs => hchild lhs 1 (by decide)
    have hc2 : ∀ (lhs : String) (x : Treenode), tree.getChild lhs 2 = some x →
        x ∈ tree.subtrees := fun lhs => hchild lhs 2 (by decide)
    by_cases hterm : tree.terminal = true
    · rw [generateCodeOther_other _ _ _ _ (Or.inl hterm)]
      exact NoRuntime.ok s
    have hterm' : tree.terminal = false := by simpa using hterm
    by_cases hexpr : tree.NTrule.lhs = "expr"
    · rw [generateCodeOther_expr fuel tree ot s hterm' hexpr]
      obtain ⟨hs1, hs2⟩ := hE tree (mem_subtrees_self tree) hterm' hexpr
      by_cases hlen : tree.NTrule.rhs.length > 1
      · rw [if_pos hlen]
        exact NoRuntime.bind (hgen _ _ (hc1 _)) fun s1 _ =>
          NoRuntime.bind (hgen _ _ (hc1 _)) fun s2 _ =>
            NoRuntime.bind (noRuntime_deref _) fun e he =>
              NoRuntime.bind (noRuntime_deref _) fun t ht =>
                NoRuntime.bind (hs2 hlen e t (deref_eq_ok.mp he) (deref_eq_ok.mp ht) _)
                  fun s3 _ => NoRuntime.pure _
      · rw [if_neg hlen, if_pos (hs1 hlen)]
        exact hgen _ _ (hc1 _)
    have hlv : ∀ (l : Treenode) (lhs : String),
        unwrapLvalue fuel (tree.getChild "lvalue") = .ok l → ∀ x, l.getChild lhs = some x →
        x ∈ tree.subtrees := fun l lhs hl x hx =>
      mem_subtrees_of_child' (unwrapLvalue_mem tree fuel _ l (hc1 _) hl)
        (getChild_mem (by decide) hx).1
    by_cases htermn : tree.NTrule.lhs = "term"
    · rw [generateCodeOther_term fuel tree ot s hterm' htermn]
      by_cases hlen : tree.NTrule.rhs.length > 1
      · rw [if_pos hlen]
        exact NoRuntime.bind (hgen _ _ (hc1 _)) fun s1 _ =>
          NoRuntime.bind (hgen _ _ (hc1 _)) fun s2 _ =>
            NoRuntime.bind (noRuntime_combineMultiplicative _ _) fun s3 _ => NoRuntime.pure _
      · rw [if_neg hlen]
        exact NoRuntime.ite (hgen _ _ (hc1 _)) (NoRuntime.pure _)
    by_cases hfactor : tree.NTrule.lhs = "factor"
    · rw [generateCodeOther_factor fuel tree ot s hterm' hfactor]
      split_ifs
      · exact NoRuntime.bind (noRuntime_deref _) fun _ _ => NoRuntime.pure _
      · exact NoRuntime.bind (noRuntime_deref _) fun _ _ =>
          NoRuntime.bind (noRuntime_stoi _) fun _ _ => NoRuntime.pure _
      · exact NoRuntime.pure _
      · exact NoRuntime.pure _
      · exact NoRuntime.bind (noRuntime_unwrapLvalue _ _) fun l hl =>
          NoRuntime.ite (NoRuntime.bind (noRuntime_deref _) fun _ _ => NoRuntime.pure _)
            (NoRuntime.ite (hgen _ _ (hlv l _ hl)) (NoRuntime.pure _))
      · exact NoRuntime.bind (hgen _ _ (hc1 _)) fun _ _ => NoRuntime.pure _
      · exact NoRuntime.pure _
      · exact hgen _ _ (hc1 _)
      · exact NoRuntime.bind (noRuntime_deref _) fun _ _ => NoRuntime.pure _
      · exact NoRuntime.pure _
      · exact NoRuntime.bind
          (noRuntime_argsLoop tree _ hgen _ _ _ _ (hc1 _)) fun _ _ =>
            NoRuntime.bind (noRuntime_deref _) fun _ _ => NoRuntime.pure _
      · exact NoRuntime.pure _
      · exact NoRuntime.bind (hgen _ _ (hc1 _)) fun _ _ =>
          NoRuntime.bind (noRuntime_generateLabel _) fun _ _ => NoRuntime.pure _
      · exact NoRuntime.pure _
    by_cases hstmts : tree.NTrule.lhs = "statements"
    · rw [generateCodeOther_statements fuel tree ot s hterm' hstmts]
      split_ifs
      · exact NoRuntime.pure _
      · exact NoRuntime.bind (hgen _ _ (hc1 _)) fun _ _ =>
          hgen _ _ (hc1 _)
      · exact NoRuntime.pure _
    by_cases hstmt : tree.NTrule.lhs = "statement"
    · rw [generateCodeOther_statement fuel tree ot s hterm' hstmt]
      split_ifs
      · exact NoRuntime.bind (noRuntime_unwrapLvalue _ _) fun l hl =>
          NoRuntime.ite
            (NoRuntime.bind (noRuntime_deref _) fun _ _ =>
              NoRuntime.bind (hgen _ _ (hc1 _)) fun _ _ => NoRuntime.pure _)
            (NoRuntime.ite
              (NoRuntime.bind (hgen _ _ (hlv l _ hl)) fun _ _ =>
                NoRuntime.bind (hgen _ _ (hc1 _)) fun _ _ => NoRuntime.pure _)
              (NoRuntime.pure _))
      · exact NoRuntime.bind (hgen _ _ (hc1 _)) fun _ _ => NoRuntime.pure _
      · exact NoRuntime.bind (hgen _ _ (hc1 _)) fun _ _ =>
          NoRuntime.bind (noRuntime_generateLabel _) fun _ _ => NoRuntime.pure _
      · exact NoRuntime.pure _
      · exact NoRuntime.bind (noRuntime_generateLabel _) fun _ _ =>
          NoRuntime.bind (noRuntime_generateLabel _) fun _ _ =>
            NoRuntime.bind (hgen _ _ (hc1 _)) fun _ _ =>
              NoRuntime.bind (hgen _ _ (hc1 _)) fun _ _ => NoRuntime.pure _
      · exact NoRuntime.bind (noRuntime_generateLabel _) fun _ _ =>
          NoRuntime.bind (noRuntime_generateLabel _) fun _ _ =>
            NoRuntime.bind (hgen _ _ (hc1 _)) fun _ _ =>
              NoRuntime.bind (hgen _ _ (hc1 _)) fun _ _ =>
                NoRuntime.bind (hgen _ _ (hc2 _)) fun _ _ => NoRuntime.pure _
      · exact NoRuntime.pure _
    by_cases htest : tree.NTrule.lhs = "test"
    · rw [generateCodeOther_test fuel tree ot s hterm' htest]
      exact NoRuntime.bind (noRuntime_at _ _) fun _ _ =>
        NoRuntime.bind (hgen _ _ (hc1 _)) fun _ _ =>
          NoRuntime.bind (hgen _ _ (hc2 _)) fun _ _ =>
            NoRuntime.bind (noRuntime_deref _) fun _ _ =>
              NoRuntime.bind (noRuntime_deref _) fun _ _ =>
                NoRuntime.bind (noRuntime_combineTest _ _ _ _) fun _ _ => NoRuntime.pure _
    · rw [generateCodeOther_other _ _ _ _ (Or.inr (by simp [hexpr, htermn, hfactor, hstmts,
        hstmt, htest]))]
      exact NoRuntime.ok s

/-- The operand types the typing rule of an additive expression accepts: for
`PLUS` not two pointers, for `MINUS` not an `int` less a pointer. -/
theorem additive_types {n e op t : Treenode} {o : String} {pt : ProcedureTable}
    {vt : VariableTable} (h : IsAdditive n o e op t) (hty : (nodeType n pt vt).isOk = true) :
    (o = "PLUS" ∧ ((e.type = "int" ∧ t.type = "int") ∨ (e.type = "int*" ∧ t.type = "int") ∨
      (e.type = "int" ∧ t.type = "int*"))) ∨
    (o = "MINUS" ∧ ((e.type = "int" ∧ t.type = "int") ∨ (e.type = "int*" ∧ t.type = "int") ∨
      (e.type = "int*" ∧ t.type = "int*"))) := by
  obtain ⟨hterm, hrule, ho, hcs, _⟩ := h
  obtain ⟨tm, r, k, ty, cs⟩ := n
  simp only [Treenode.terminal, Treenode.NTrule, Treenode.children] at hterm hrule hcs
  subst hterm hrule hcs
  rcases ho with rfl | rfl
  · left
    refine ⟨rfl, ?_⟩
    by_contra hne
    simp only [not_or, not_and] at hne
    obtain ⟨h1, h2, h3⟩ := hne
    simp [nodeType, Treenode.terminal, Treenode.NTrule, Rule.rhsAt, childType, at?,
      Treenode.children, Except.map, bind, Except.bind, pure, Except.pure, throw, throwThe,
      MonadExceptOf.throw, Except.isOk, Except.toBool] at hty
    split_ifs at hty <;> simp_all
  · right
    refine ⟨rfl, ?_⟩
    by_contra hne
    simp only [not_or, not_and] at hne
    obtain ⟨h1, h2, h3⟩ := hne
    simp [nodeType, Treenode.terminal, Treenode.NTrule, Rule.rhsAt, childType, at?,
      Treenode.children, Except.map, bind, Except.bind, pure, Except.pure, throw, throwThe,
      MonadExceptOf.throw, Except.isOk, Except.toBool] at hty
    split_ifs at hty <;> simp_all

/-- An `expr` node of the grammar whose typing rule succeeds is safe for the
additive lowering. -/
theorem exprSafe_of_typed {n : Treenode} {pt : ProcedureTable} {vt : VariableTable}
    (hshape : n.IsExprNode) (hty : (nodeType n pt vt).isOk = true) : n.ExprSafe := by
  rcases hshape with ⟨hrule, t, hcs, ht1, ht2⟩ | ⟨o, e, op, t, hadd⟩
  · constructor
    · intro _
      simp [Treenode.getChild, getChildLoop, hcs, ht1, ht2]
    · intro hlen
      rw [hrule] at hlen
      simp at hlen
  · obtain ⟨hg1, hg2, hg3⟩ := getChild_additive hadd
    have htypes := additive_types hadd hty
    obtain ⟨_, hrule, _, _, _, _, _, hop, _, _⟩ := hadd
    constructor
    · intro hlen
      rw [hrule] at hlen
      simp at hlen
    · intro _ e' t' he' ht' s
      rw [hg1] at he'
      rw [hg2] at ht'
      cases he'
      cases ht'
      rw [hg3]
      intro msg h
      unfold combineAdditive at h
      rcases htypes with ⟨rfl, h1 | h1 | h1⟩ | ⟨rfl, h1 | h1 | h1⟩ <;>
        simp [h1.1, h1.2, hop, deref, bind, Except.bind, pure, Except.pure] at h

/-- The label of a procedure is chosen without a `std::runtime_error`. -/
theorem noRuntime_procedureLabel (name : String) (s : CodegenState) :
    NoRuntime (procedureLabel name s) := by
  unfold procedureLabel
  split_ifs
  · exact NoRuntime.bind (noRuntime_generateLabel _) fun _ _ =>
      NoRuntime.bind (NoRuntime.pure _) fun _ _ => NoRuntime.pure _
  · exact NoRuntime.bind (NoRuntime.pure _) fun _ _ => NoRuntime.pure _

/-- The loop over the parameters throws no `std::runtime_error`. -/
theorem noRuntime_paramNamesLoop : ∀ (fuel : Nat) (params : Option Treenode)
    (paramlist : List String) (offset : Int),
    NoRuntime (paramNamesLoop fuel params paramlist offset) := by
  intro fuel
  induction fuel with
  | zero =>
    intro params paramlist offset
    cases params with
    | none => rw [paramNamesLoop]; exact NoRuntime.pure _
    | some p =>
      rw [paramNamesLoop]
      intro msg h
      cases h
  | succ fuel ih =>
    intro params paramlist offset
    cases params with
    | none => rw [paramNamesLoop]; exact NoRuntime.pure _
    | some p =>
      rw [paramNamesLoop]
      exact NoRuntime.bind (noRuntime_deref _) fun _ _ =>
        NoRuntime.bind (noRuntime_deref _) fun _ _ => ih _ _ _

/-- The loop over the declaration list throws no `std::runtime_error`. -/
theorem noRuntime_declarationsLoop : ∀ (fuel : Nat) (dcls : Option Treenode)
    (declarations : List (String × Int)),
    NoRuntime (declarationsLoop fuel dcls declarations) := by
  intro fuel
  induction fuel with
  | zero =>
    intro dcls declarations
    cases dcls with
    | none => rw [declarationsLoop]; exact NoRuntime.pure _
    | some p =>
      rw [declarationsLoop]
      intro msg h
      cases h
  | succ fuel ih =>
    intro dcls declarations
    cases dcls with
    | none => rw [declarationsLoop]; exact NoRuntime.pure _
    | some p =>
      rw [declarationsLoop]
      split
      · exact NoRuntime.bind (noRuntime_deref _) fun _ _ =>
          NoRuntime.bind (noRuntime_stoi _) fun _ _ =>
            NoRuntime.bind (NoRuntime.pure _) fun _ _ => ih _ _
      · exact NoRuntime.bind (noRuntime_deref _) fun _ _ =>
          NoRuntime.bind (NoRuntime.pure _) fun _ _ => ih _ _
      · exact NoRuntime.bind (NoRuntime.pure _) fun _ _ => ih _ _

/-- The prologue of a procedure throws no `std::runtime_error`. -/
theorem noRuntime_procedurePrologue (fuel : Nat) (tree : Treenode) (s : CodegenState) :
    NoRuntime (procedurePrologue fuel tree s) := by
  unfold procedurePrologue
  split_ifs
  · refine NoRuntime.bind (noRuntime_deref _) fun _ _ =>
      NoRuntime.bind (noRuntime_procedureLabel _ _) fun _ _ =>
        NoRuntime.bind (noRuntime_deref _) fun _ _ => NoRuntime.ite ?_ ?_
    · exact NoRuntime.bind (NoRuntime.pure _) fun _ _ =>
        NoRuntime.bind (NoRuntime.pure _) fun _ _ =>
          NoRuntime.bind (noRuntime_declarationsLoop _ _ _) fun _ _ => NoRuntime.pure _
    · exact NoRuntime.bind (noRuntime_paramNamesLoop _ _ _ _) fun _ _ =>
        NoRuntime.bind (NoRuntime.pure _) fun _ _ =>
          NoRuntime.bind (NoRuntime.pure _) fun _ _ =>
            NoRuntime.bind (noRuntime_declarationsLoop _ _ _) fun _ _ => NoRuntime.pure _
  · exact NoRuntime.bind (noRuntime_deref _) fun _ _ =>
      NoRuntime.bind (noRuntime_deref _) fun _ _ =>
        NoRuntime.bind (noRuntime_deref _) fun _ _ =>
          NoRuntime.bind (noRuntime_deref _) fun _ _ =>
            NoRuntime.bind (NoRuntime.pure _) fun _ _ =>
              NoRuntime.bind (noRuntime_declarationsLoop _ _ _) fun _ _ => NoRuntime.pure _

/-- The code of a procedure is generated without a `std::runtime_error` when
every `expr` node of the procedure is safe for the additive lowering. -/
theorem noRuntime_generateCodeProcedures (fuel : Nat) (tree : Treenode) (s : CodegenState)
    (hE : ∀ n ∈ tree.subtrees, n.terminal = false → n.NTrule.lhs = "expr" → n.ExprSafe) :
    NoRuntime (generateCodeProcedures fuel tree s) := by
  have hsub : ∀ (lhs : String) (x : Treenode), tree.getChild lhs = some x →
      ∀ n ∈ x.subtrees, n.terminal = false → n.NTrule.lhs = "expr" → n.ExprSafe :=
    fun lhs x hx n hn => hE n (subtrees_trans tree x n
      (mem_subtrees_of_child tree x x (getChild_mem (by decide) hx).1 (mem_subtrees_self x)) hn)
  unfold generateCodeProcedures
  exact NoRuntime.bind (noRuntime_procedurePrologue _ _ _) fun _ _ =>
    NoRuntime.bind (noRuntime_deref _) fun st hst =>
      NoRuntime.bind (generateCodeOther_noRuntime _ _ _ _ (hsub _ st (deref_eq_ok.mp hst)))
        fun _ _ => NoRuntime.bind (noRuntime_deref _) fun e he =>
          NoRuntime.bind (generateCodeOther_noRuntime _ _ _ _ (hsub _ e (deref_eq_ok.mp he)))
            fun _ _ => NoRuntime.pure _

/-- The loop of `generateCode` on a program with a first ordinary procedure:
its code, then the rest of the program. -/
theorem generateProceduresLoop_cons {t p rest : Treenode} (hcs : t.children = [p, rest])
    (hpterm : p.terminal = false) (hplhs : p.NTrule.lhs = "procedure")
    (hrterm : rest.terminal = false) (hrlhs : rest.NTrule.lhs = "procedures")
    (codeFuel fuel : Nat) (s : CodegenState) :
    generateProceduresLoop codeFuel (fuel + 1) (some t) s =
      (generateCodeProcedures codeFuel p s).bind fun s1 =>
        generateProceduresLoop codeFuel fuel (some rest) s1 := by
  have hg1 : t.getChild "procedure" = some p := by
    simp [Treenode.getChild, getChildLoop, hcs, hpterm, hplhs]
  have hg2 : t.getChild "procedures" = some rest := by
    simp [Treenode.getChild, getChildLoop, hcs, hpterm, hplhs, hrterm, hrlhs]
  rw [generateProceduresLoop]
  simp only [hg1, hg2, Option.isSome_some, ↓reduceIte, deref, bind, Except.bind]

/-- The loop of `generateCode` on the entry procedure, the last of a program:
its code, and the loop ends. -/
theorem generateProceduresLoop_main {t m : Treenode} (hcs : t.children = [m])
    (hmterm : m.terminal = false) (hmlhs : m.NTrule.lhs = "main")
    (codeFuel fuel : Nat) (s : CodegenState) :
    generateProceduresLoop codeFuel (fuel + 1) (some t) s =
      generateCodeProcedures codeFuel m s := by
  have hg1 : t.getChild "procedure" = none := by
    simp [Treenode.getChild, getChildLoop, hcs, hmterm, hmlhs]
  have hg2 : t.getChild "procedures" = none := by
    simp [Treenode.getChild, getChildLoop, hcs, hmterm, hmlhs]
  have hg3 : t.getChild "main" = some m := by
    simp [Treenode.getChild, getChildLoop, hcs, hmterm, hmlhs]
  rw [generateProceduresLoop]
  simp only [hg1, hg2, hg3, Option.isSome_none, Bool.false_eq_true, ↓reduceIte, deref, bind,
    Except.bind]
  cases generateCodeProcedures codeFuel m s with
  | error e => rfl
  | ok s1 =>
    simp only []
    cases fuel <;> rfl

/-- The root of a program is a `procedures` node. -/
theorem isProcedures_root {t : Treenode} {procs : List Treenode} (h : IsProcedures t procs) :
    t.terminal = false ∧ t.NTrule.lhs = "procedures" := by
  cases h with
  | main _ _ hterm hrule _ _ _ => exact ⟨hterm, by rw [hrule]⟩
  | cons _ _ _ _ hterm hrule _ _ _ _ => exact ⟨hterm, by rw [hrule]⟩

/-- The procedures of a program are subtrees of its tree. -/
theorem isProcedures_mem {t : Treenode} {procs : List Treenode} (h : IsProcedures t procs) :
    ∀ p ∈ procs, p ∈ t.subtrees := by
  induction h with
  | main t m hterm hrule hcs hmterm hmlhs =>
    intro p hp
    rw [List.mem_singleton] at hp
    subst hp
    exact mem_subtrees_of_child t p p (by rw [hcs]; simp) (mem_subtrees_self p)
  | cons t p rest ps hterm hrule hcs hpterm hplhs hrest ih =>
    intro q hq
    rw [List.mem_cons] at hq
    rcases hq with rfl | hq
    · exact mem_subtrees_of_child t q q (by rw [hcs]; simp) (mem_subtrees_self q)
    · exact mem_subtrees_of_child t q rest (by rw [hcs]; simp) (ih q hq)

/-- Every collected procedure is left as it is by type annotation with the
tables it was annotated with. -/
theorem collected_mem {pt pt' : ProcedureTable} {procs : List Treenode}
    (h : Collected pt procs pt') :
    ∀ p ∈ procs, ∃ pt1 vt, p.annotateTypes pt1 vt = .ok p := by
  induction h with
  | nil => intro p hp; cases hp
  | cons pt pt1 pt' p ps proc hname hadd hann hrest ih =>
    intro q hq
    rw [List.mem_cons] at hq
    rcases hq with rfl | hq
    · exact ⟨pt1, proc.symbolTable, hann⟩
    · exact ih q hq

/-- The loop of `generateCode` throws no `std::runtime_error` when the code of no
procedure does. -/
theorem noRuntime_generateProceduresLoop {t : Treenode} {procs : List Treenode}
    (h : IsProcedures t procs) (codeFuel : Nat)
    (hp : ∀ p ∈ procs, ∀ s, NoRuntime (generateCodeProcedures codeFuel p s)) :
    ∀ (fuel : Nat) (s : CodegenState),
      NoRuntime (generateProceduresLoop codeFuel fuel (some t) s) := by
  induction h with
  | main t m hterm hrule hcs hmterm hmlhs =>
    intro fuel s
    cases fuel with
    | zero =>
      rw [generateProceduresLoop]
      intro msg h
      cases h
    | succ fuel =>
      rw [generateProceduresLoop_main hcs hmterm hmlhs]
      exact hp m (List.mem_singleton_self m) s
  | cons t p rest ps hterm hrule hcs hpterm hplhs hrest ih =>
    intro fuel s
    obtain ⟨hr1, hr2⟩ := isProcedures_root hrest
    cases fuel with
    | zero =>
      rw [generateProceduresLoop]
      intro msg h
      cases h
    | succ fuel =>
      rw [generateProceduresLoop_cons hcs hpterm hplhs hr1 hr2]
      exact NoRuntime.bind (hp p (List.mem_cons_self p ps) s) fun s1 _ =>
        ih (fun q hq => hp q (List.mem_cons_of_mem p hq)) fuel s1

/-- C39: code generation raises no error on a program that passed semantic
analysis. For a program of the grammar (a chain of `procedures` nodes whose
`expr` nodes are trees of `expr → term`, `expr → expr PLUS term` or
`expr → expr MINUS term`) on which `collectProcedures` succeeded, the code
generation loop of `generateCode` throws no `std::runtime_error`, whatever the
state it starts in; nor does `generateCodeOther` on any subtree of a procedure:
the branches `valid operations not found`, `cannot add two int*'s` and
`expression must have at least one term` are not reached. No subtraction in the
program has a left operand of type `int` and a right operand of type `int*`:
that combination is rejected by type annotation and never lowered. -/
theorem no_codegen_error (tree tree' : Treenode) (procs : List Treenode)
    (pt pt' : ProcedureTable) (hshape : IsProcedures tree' procs)
    (hexprs : ∀ n ∈ tree'.subtrees, n.terminal = false → n.NTrule.lhs = "expr" →
      n.IsExprNode)
    (h : collectProcedures tree pt = .ok (tree', pt')) :
    (∀ (codeFuel fuel : Nat) (s : CodegenState) (msg : String),
      generateProceduresLoop codeFuel fuel (some tree') s ≠ .error (.runtime msg)) ∧
    (∀ p ∈ procs, ∀ x ∈ p.subtrees, ∀ (fuel : Nat) (offsetTable : List (String × Int))
      (s : CodegenState) (msg : String),
      generateCodeOther fuel x offsetTable s ≠ .error (.runtime msg)) ∧
    (∀ p ∈ procs, ∀ n ∈ p.subtrees, ∀ e op t, IsAdditive n "MINUS" e op t →
      ¬ (e.type = "int" ∧ t.type = "int*")) := by
  have hcol := collected_of_analysis hshape tree pt pt' h
  have hsafe : ∀ p ∈ procs, ∀ n ∈ p.subtrees, n.terminal = false → n.NTrule.lhs = "expr" →
      n.ExprSafe := by
    intro p hp n hn hterm hlhs
    obtain ⟨pt1, vt, hann⟩ := collected_mem hcol p hp
    exact exprSafe_of_typed
      (hexprs n (subtrees_trans tree' p n (isProcedures_mem hshape p hp) hn) hterm hlhs)
      (annotateTypes_nodes_typed p pt1 vt hann n hn)
  refine ⟨?_, ?_, ?_⟩
  · intro codeFuel fuel s
    exact noRuntime_generateProceduresLoop hshape codeFuel
      (fun p hp s => noRuntime_generateCodeProcedures codeFuel p s (hsafe p hp)) fuel s
  · intro p hp x hx fuel ot s
    exact generateCodeOther_noRuntime fuel x ot s fun n hn =>
      hsafe p hp n (subtrees_trans p x n hx hn)
  · intro p hp n hn e op t hadd
    obtain ⟨pt1, vt, hann⟩ := collected_mem hcol p hp
    rcases additive_types hadd (annotateTypes_nodes_typed p pt1 vt hann n hn) with
      ⟨ho, _⟩ | ⟨_, h1 | h1 | h1⟩
    · exact absurd ho (by decide)
    · rintro ⟨_, h2⟩
      rw [h1.2] at h2
      exact absurd h2 (by decide)
    · rintro ⟨_, h2⟩
      rw [h1.2] at h2
      exact absurd h2 (by decide)
    · rintro ⟨h2, _⟩
      rw [h1.1] at h2
      exact absurd h2 (by decide)

/-- The test `exprNodeCheck` is sound. -/
theorem isExprNode_of_check {n : Treenode} (h : n.exprNodeCheck = true) : n.IsExprNode := by
  unfold Treenode.exprNodeCheck at h
  split at h
  · rename_i t hcs
    simp only [Bool.and_eq_true, decide_eq_true_eq, Bool.not_eq_true'] at h
    exact .inl ⟨h.1.1, t, hcs, h.1.2, h.2⟩
  · rename_i e op t hcs
    simp only [Bool.and_eq_true, Bool.or_eq_true, decide_eq_true_eq, Bool.not_eq_true'] at h
    obtain ⟨⟨⟨⟨⟨⟨⟨h1, h2⟩, h3⟩, h4⟩, h5⟩, h6⟩, h7⟩, h8⟩ := h
    exact .inr ⟨op.Ttoken.type, e, op, t, h1, h2, h3, hcs, h4, h5, h6, rfl, h7, h8⟩
  · cases h

/-- The sample program after semantic analysis is a program of the grammar. -/
theorem isProcedures_callProgramTyped :
    IsProcedures callProgramTyped [procFTyped, wainCallsFTyped] :=
  .cons _ _ _ _ rfl rfl rfl rfl rfl (.main _ _ rfl rfl rfl rfl rfl)

/-- Semantic analysis of the sample program. -/
theorem collectProcedures_callProgram :
    collectProcedures callProgram ⟨[]⟩ = .ok (callProgramTyped, callProgramTable) := rfl

theorem no_codegen_error_witness :
    collectProcedures callProgram ⟨[]⟩ = .ok (callProgramTyped, callProgramTable) ∧
    (generateProceduresLoop 8 3 (some callProgramTyped) (CodegenState.init unseededRand)).isOk
      = true ∧
    (∀ (codeFuel fuel : Nat) (s : CodegenState) (msg : String),
      generateProceduresLoop codeFuel fuel (some callProgramTyped) s ≠ .error (.runtime msg)) ∧
    (∀ p ∈ [procFTyped, wainCallsFTyped], ∀ x ∈ p.subtrees, ∀ fuel offsetTable s msg,
      generateCodeOther fuel x offsetTable s ≠ .error (.runtime msg)) ∧
    (∀ p ∈ [procFTyped, wainCallsFTyped], ∀ n ∈ p.subtrees, ∀ e op t,
      IsAdditive n "MINUS" e op t → ¬ (e.type = "int" ∧ t.type = "int*")) :=
  ⟨rfl, by decide,
    no_codegen_error callProgram callProgramTyped [procFTyped, wainCallsFTyped] ⟨[]⟩
      callProgramTable isProcedures_callProgramTyped
      (fun n hn ht hl => isExprNode_of_check
        ((by decide : ∀ n ∈ callProgramTyped.subtrees, n.terminal = false →
          n.NTrule.lhs = "expr" → n.exprNodeCheck = true) n hn ht hl))
      rfl⟩

/-! ## Labels of the callees -/

/-- A candidate of the loop of `generateLabel` has ten characters. -/
theorem generateLabelLoop_length : ∀ (fuel : Nat) (tape rest : List Nat) (set : List String)
    (l : String), generateLabelLoop fuel tape set = some (l, rest) → l.length = 10 := by
  intro fuel
  induction fuel with
  | zero => intro tape rest set l h; simp [generateLabelLoop] at h
  | succ n ih =>
    intro tape rest set l h
    rw [generateLabelLoop] at h
    simp only at h
    split_ifs at h with h1 h2
    · exact ih _ _ _ _ h
    · simp only [Option.some.injEq, Prod.mk.injEq] at h
      rw [← h.1]
      simp only [String.length, List.length_map, List.length_take]
      omega

/-- A generated label is not empty. -/
theorem generateLabel_nonempty {s : CodegenState} {r : String × CodegenState}
    (h : generateLabel s = .ok r) : r.1 ≠ "" := by
  unfold generateLabel at h
  split at h
  · cases h
  · rename_i newLabel rest heq
    simp only [Except.ok.injEq] at h
    have hlen := generateLabelLoop_length _ _ _ _ _ heq
    rw [← h]
    intro he
    simp only at he
    rw [he] at hlen
    simp at hlen

/-- The label of a procedure that has no entry yet in the name-to-label table:
one entry is added, with a label that is not empty when the name is not, and
that label is the line written. -/
theorem procedureLabel_new {name : String} {s s' : CodegenState}
    (hnew : mapContains s.functionlabel_map name = false) (hname : name ≠ "")
    (h : procedureLabel name s = .ok s') :
    ∃ l, l ≠ "" ∧ s'.functionlabel_map = s.functionlabel_map ++ [(name, l)] ∧
      s'.out = s.out ++ [l ++ ":"] := by
  unfold procedureLabel at h
  split_ifs at h
  · simp only [bind_eq_ok, pure_eq_ok] at h
    obtain ⟨r, hr, s1, h1, h⟩ := h
    obtain ⟨_, _, hm, ho⟩ := generateLabel_ok (show generateLabel s = .ok (r.1, r.2) from hr)
    have hnew' : mapContains r.2.functionlabel_map name = false := by rw [hm]; exact hnew
    subst h h1
    refine ⟨r.1, generateLabel_nonempty hr, ?_, ?_⟩
    · simp only [mapInsert, hnew', Bool.false_eq_true, ↓reduceIte]
      rw [labelAt_of_lookup (lookup_append_new hnew')]
      simp only [CodegenState.emit, hm]
    · simp only [mapInsert, hnew', Bool.false_eq_true, ↓reduceIte]
      rw [labelAt_of_lookup (lookup_append_new hnew')]
      simp only [CodegenState.emit, Label, ho]
  · simp only [bind_eq_ok, pure_eq_ok] at h
    obtain ⟨s1, h1, h⟩ := h
    subst h h1
    refine ⟨name, hname, ?_, ?_⟩
    · simp only [mapInsert, hnew, Bool.false_eq_true, ↓reduceIte]
      rw [labelAt_of_lookup (lookup_append_new hnew)]
      simp only [CodegenState.emit]
    · simp only [mapInsert, hnew, Bool.false_eq_true, ↓reduceIte]
      rw [labelAt_of_lookup (lookup_append_new hnew)]
      simp only [CodegenState.emit, Label]

/-- The code that initialises the locals leaves the name-to-label table as it
is. -/
theorem pushLocals_map : ∀ (decls offsetTable : List (String × Int)) (offset localVarCount : Int)
    (s : CodegenState),
    (pushLocals decls offsetTable offset localVarCount s).2.2.2.functionlabel_map =
      s.functionlabel_map
  | [], _, _, _, _ => rfl
  | var :: rest, offsetTable, offset, localVarCount, s => by
    rw [pushLocals, pushLocals_map rest]
    rfl

/-- What the prologue of a procedure does to the name-to-label table: for an
ordinary procedure what the choice of its label does, for the entry procedure
nothing. The label is the first line the prologue of an ordinary procedure
writes. -/
theorem procedurePrologue_map {fuel : Nat} {tree : Treenode} {s s1 : CodegenState}
    {offsetTable : List (String × Int)} {localVarCount : Int}
    (h : procedurePrologue fuel tree s = .ok (offsetTable, localVarCount, s1)) :
    (tree.NTrule.lhs = "procedure" → ∃ id s0 rest, tree.getChild "ID" = some id ∧
      procedureLabel id.Ttoken.value s = .ok s0 ∧
      s1.functionlabel_map = s0.functionlabel_map ∧ s1.out = s0.out ++ rest) ∧
    (tree.NTrule.lhs ≠ "procedure" → s1.functionlabel_map = s.functionlabel_map) := by
  unfold procedurePrologue at h
  split_ifs at h with hp
  · refine ⟨fun _ => ?_, fun hne => absurd hp hne⟩
    simp only [bind_eq_ok, deref_eq_ok] at h
    obtain ⟨id, hid, s0, h0, params, _, h⟩ := h
    have key : ∀ (decls ot0 : List (String × Int)) (off0 : Int),
        (pushLocals decls ot0 off0 0 (s0.emit (Subtract 29 30 4))).2.2.2 = s1 →
        ∃ id s0 rest, tree.getChild "ID" = some id ∧
          procedureLabel id.Ttoken.value s = .ok s0 ∧
          s1.functionlabel_map = s0.functionlabel_map ∧ s1.out = s0.out ++ rest := by
      intro decls ot0 off0 hs
      obtain ⟨_, code, hc, _⟩ := pushLocals_out decls ot0 off0 0 (s0.emit (Subtract 29 30 4))
      rw [hs] at hc
      refine ⟨id, s0, Subtract 29 30 4 ++ code, hid, h0, ?_, ?_⟩
      · rw [← hs, pushLocals_map]
        rfl
      · rw [hc]
        simp only [CodegenState.emit, List.append_assoc]
    split_ifs at h
    · simp only [bind_eq_ok, pure_eq_ok, exists_eq_left, Prod.mk.injEq] at h
      obtain ⟨_, rfl, _, rfl, decls, _, _, _, hs⟩ := h
      exact key _ _ _ hs
    · simp only [bind_eq_ok, pure_eq_ok, exists_eq_left, Prod.mk.injEq] at h
      obtain ⟨_, _, _, rfl, _, rfl, decls, _, _, _, hs⟩ := h
      exact key _ _ _ hs
  · refine ⟨fun hp' => absurd hp' hp, fun _ => ?_⟩
    simp only [bind_eq_ok, deref_eq_ok, pure_eq_ok, exists_eq_left, Prod.mk.injEq] at h
    obtain ⟨param1, _, id1, _, p2, _, id2, _, _, rfl, decls, _, _, _, hs⟩ := h
    rw [← hs, pushLocals_map]
    split_ifs <;> rfl

/-- The first child of a node, when it is labelled `lhs`, is the child
`getChild` finds for `lhs`, and its lexeme is the one read at index 0. -/
theorem getChild_first {n : Treenode} {lhs : String}
    (h : n.children.head?.map Treenode.label = some lhs) :
    ∃ c, n.getChild lhs = some c ∧ childValue n 0 = .ok c.Ttoken.value := by
  cases hcs : n.children with
  | nil => rw [hcs] at h; cases h
  | cons c rest =>
    rw [hcs] at h
    simp only [List.head?_cons, Option.map_some', Option.some.injEq] at h
    refine ⟨c, ?_, ?_⟩
    · unfold Treenode.getChild
      rw [getChildLoop_filter lhs 1 n.children 1 (le_refl _), hcs]
      simp [List.filter, h]
    · simp [childValue, at?, hcs, Except.map]

/-- The second child of a node, when it is labelled `lhs` and the first is
not, is the child `getChild` finds for `lhs`, and its lexeme is the one read at
index 1. -/
theorem getChild_second {n : Treenode} {l0 lhs : String} (hne : l0 ≠ lhs)
    (h : (n.children.map Treenode.label).take 2 = [l0, lhs]) :
    ∃ c, n.getChild lhs = some c ∧ childValue n 1 = .ok c.Ttoken.value := by
  cases hcs : n.children with
  | nil => rw [hcs] at h; cases h
  | cons c0 rest =>
    cases rest with
    | nil => rw [hcs] at h; cases h
    | cons c rest =>
      rw [hcs] at h
      simp only [List.map_cons, List.take_succ_cons, List.take_zero, List.cons.injEq,
        and_true] at h
      refine ⟨c, ?_, ?_⟩
      · unfold Treenode.getChild
        rw [getChildLoop_filter lhs 1 n.children 1 (le_refl _), hcs]
        simp [List.filter, h.1, h.2, hne]
      · simp [childValue, at?, hcs, Except.map]

/-- A successful run of `generateCodeProcedures` is a run of the prologue, after
which the name-to-label table stays as it is when it holds the callee of every
call of the procedure, and the output only grows. -/
theorem generateCodeProcedures_map {fuel : Nat} {tree : Treenode} {s s' : CodegenState}
    (h : generateCodeProcedures fuel tree s = .ok s') :
    ∃ offsetTable localVarCount s1,
      procedurePrologue fuel tree s = .ok (offsetTable, localVarCount, s1) ∧
      ((∀ n ∈ tree.subtrees, n.IsCall → ∀ id, n.getChild "ID" = some id →
          mapContains s1.functionlabel_map id.Ttoken.value = true) →
        s'.functionlabel_map = s1.functionlabel_map) ∧
      ∃ code, s'.out = s1.out ++ code := by
  unfold generateCodeProcedures at h
  simp only [bind_eq_ok, deref_eq_ok, pure_eq_ok] at h
  obtain ⟨⟨offsetTable, localVarCount, s1⟩, hpro, sts, hsts, s2, h2, e, he, s3, h3, rfl⟩ := h
  refine ⟨offsetTable, localVarCount, s1, hpro, fun hcalls => ?_, ?_⟩
  · have hq : ∀ x, x ∈ tree.subtrees → ∀ n ∈ x.subtrees, n.IsCall → ∀ id,
        n.getChild "ID" = some id →
          (fun name => mapContains s1.functionlabel_map name = true) id.Ttoken.value :=
      fun x hx n hn hc id hid => hcalls n (subtrees_trans tree x n hx hn) hc id hid
    have e2 := (generateCodeOther_extends _ fuel sts offsetTable s1 s2
      (hq sts (getChild_mem_subtrees (le_refl 1) hsts).1) h2).2 fun _ hn => hn
    have e3 := (generateCodeOther_extends _ fuel e offsetTable s2 s3
      (hq e (getChild_mem_subtrees (le_refl 1) he).1) h3).2 (by rw [e2]; exact fun _ hn => hn)
    show s3.functionlabel_map = _
    rw [e3, e2]
  · obtain ⟨c2, hc2⟩ := generateCodeOther_out h2
    obtain ⟨c3, hc3⟩ := generateCodeOther_out h3
    exact ⟨c2 ++ (c3 ++ ((List.replicate localVarCount.toNat popBare).flatten ++ Jr 31)),
      by simp only [CodegenState.emit, hc3, hc2, List.append_assoc]⟩

/-- A key is in a map with one more entry when it is in the map or is the new
key. -/
theorem mapContains_append_one {α : Type} (m : List (String × α)) (k : String) (v : α)
    (x : String) : mapContains (m ++ [(k, v)]) x = (mapContains m x || x == k) := by
  unfold mapContains
  rw [List.lookup_append]
  cases m.lookup x with
  | some a => rfl
  | none =>
    simp only [Option.none_or, Option.isSome_none, Bool.false_or, List.lookup]
    cases x == k <;> rfl

/-- A successful `ProcedureTable::add` found no entry for the name and appended
one. -/
theorem add_ok {pt pt1 : ProcedureTable} {proc : Procedure} (h : pt.add proc = .ok pt1) :
    mapContains pt.table proc.name = false ∧ pt1.table = pt.table ++ [(proc.name, proc)] := by
  unfold ProcedureTable.add at h
  split_ifs at h with hc
  simp only [Except.ok.injEq] at h
  subst h
  exact ⟨by simpa using hc, rfl⟩

/-- The prologue of an ordinary procedure whose name has no entry yet in the
name-to-label table: the table gets one entry for the name, with a label that
is not empty, and the first line written is that label. -/
theorem procedurePrologue_label {fuel : Nat} {p : Treenode} {s s1 : CodegenState}
    {offsetTable : List (String × Int)} {localVarCount : Int} {name : String}
    (hlhs : p.NTrule.lhs = "procedure")
    (hshape : (p.children.map Treenode.label).take 2 = ["INT", "ID"])
    (hname : childValue p 1 = .ok name) (hne : name ≠ "")
    (hnew : mapContains s.functionlabel_map name = false)
    (h : procedurePrologue fuel p s = .ok (offsetTable, localVarCount, s1)) :
    ∃ l rest, l ≠ "" ∧ s1.functionlabel_map = s.functionlabel_map ++ [(name, l)] ∧
      s1.out = s.out ++ (l ++ ":") :: rest := by
  obtain ⟨id, s0, rest, hid, hlab, hmap, hout⟩ := (procedurePrologue_map h).1 hlhs
  obtain ⟨c, hc, hcv⟩ := getChild_second (by decide) hshape
  rw [hid] at hc
  cases hc
  rw [hname] at hcv
  cases hcv
  obtain ⟨l, hl, hm, ho⟩ := procedureLabel_new hnew hne hlab
  exact ⟨l, rest, hl, by rw [hmap, hm], by rw [hout, ho, List.append_assoc]; rfl⟩

/-- The loop of `generateCode` keeps the name-to-label table in step with the
procedure table of semantic analysis. When the procedures `ps` were collected
from the table `pt` and the loop starts on them in a state whose name-to-label
table has the names of `pt`, then at every procedure the loop comes to, once
its prologue has run, the table holds the callee of every call of that
procedure, and every entry satisfies `P`, a property that the entries at the
start have, that the entry of each procedure has when its label is written, and
that stays true when the output grows. -/
theorem labels_invariant (cf : Nat) (P : String → String → List String → Prop)
    (hmono : ∀ name l out code, P name l out → P name l (out ++ code))
    {t : Treenode} {ps : List Treenode} (hshape : IsProcedures t ps) :
    ∀ (pt pt' : ProcedureTable) (s : CodegenState), Collected pt ps pt' →
      (∀ p ∈ ps, p.NTrule.lhs = "procedure" →
        (p.children.map Treenode.label).take 2 = ["INT", "ID"] ∧ childValue p 1 ≠ .ok "") →
      (∀ p ∈ ps, ∀ n ∈ p.subtrees, n.IsCall →
        n.children.head?.map Treenode.label = some "ID") →
      (∀ m ∈ ps, m.NTrule.lhs = "main" → ∀ n ∈ m.subtrees, n.IsCall →
        childValue n 0 ≠ childValue m 1) →
      (∀ x, mapContains s.functionlabel_map x = mapContains pt.table x) →
      (∀ name l, s.functionlabel_map.lookup name = some l → P name l s.out) →
      (∀ q sq, Reaches cf (some t) s q sq → q.NTrule.lhs = "procedure" →
        ∀ name offsetTable localVarCount s1 l rest, childValue q 1 = .ok name →
          procedurePrologue cf q sq = .ok (offsetTable, localVarCount, s1) →
          s1.out = sq.out ++ (l ++ ":") :: rest → l ≠ "" → P name l s1.out) →
      ∀ p sp, Reaches cf (some t) s p sp → p ∈ ps ∧
        ∀ offsetTable localVarCount s1,
          procedurePrologue cf p sp = .ok (offsetTable, localVarCount, s1) →
          (∀ name l, s1.functionlabel_map.lookup name = some l → P name l s1.out) ∧
          (∀ n ∈ p.subtrees, n.IsCall → ∀ id, n.getChild "ID" = some id →
            mapContains s1.functionlabel_map id.Ttoken.value = true) := by
  induction hshape with
  | main t m hterm hrule hcs hmterm hmlhs =>
    intro pt pt' s hcol hnames hcalls hentry hkeys hgood hP p sp hr
    have hg1 : t.getChild "procedure" = none := by
      simp [Treenode.getChild, getChildLoop, hcs, hmterm, hmlhs]
    have hg2 : t.getChild "procedures" = none := by
      simp [Treenode.getChild, getChildLoop, hcs, hmterm, hmlhs]
    have hg3 : t.getChild "main" = some m := by
      simp [Treenode.getChild, getChildLoop, hcs, hmterm, hmlhs]
    cases hr with
    | next _ p0 _ _ s1 _ hp hgen hrest =>
      rw [hg2] at hrest
      cases hrest
    | here _ _ _ hp =>
      simp only [hg1, hg3, Option.isSome_none, Bool.false_eq_true, ↓reduceIte,
        Option.some.injEq] at hp
      subst hp
      refine ⟨List.mem_singleton.mpr rfl, ?_⟩
      intro offsetTable localVarCount s1 hpro
      cases hcol with
      | cons _ pt1 _ _ _ proc hname hadd hann hrest =>
        obtain ⟨hnew, htab⟩ := add_ok hadd
        have hmap : s1.functionlabel_map = s.functionlabel_map :=
          (procedurePrologue_map hpro).2 (by rw [hmlhs]; decide)
        obtain ⟨_, _, _, code, hout, _⟩ := procedurePrologue_out hpro
        refine ⟨fun name l hl => ?_, fun n hn hcall id hid => ?_⟩
        · rw [hout]
          exact hmono _ _ _ _ (hgood name l (by rw [← hmap]; exact hl))
        · obtain ⟨c, hc, hcv⟩ := getChild_first (hcalls m (List.mem_singleton.mpr rfl) n hn hcall)
          rw [hid] at hc
          cases hc
          have hreg := annotateTypes_calls_registered m pt1 proc.symbolTable m hann n hn hcall
            _ hcv
          rw [htab, mapContains_append_one] at hreg
          have hne : id.Ttoken.value ≠ proc.name := by
            intro he
            apply hentry m (List.mem_singleton.mpr rfl) hmlhs n hn hcall
            rw [hcv, hname, he]
          have hb : (id.Ttoken.value == proc.name) = false := by simpa using hne
          rw [hb, Bool.or_false] at hreg
          rw [hmap, hkeys]
          exact hreg
  | cons t p0 rest ps hterm hrule hcs hpterm hplhs hrest ih =>
    intro pt pt' s hcol hnames hcalls hentry hkeys hgood hP p sp hr
    obtain ⟨hrterm, hrlhs⟩ := isProcedures_root hrest
    have hg1 : t.getChild "procedure" = some p0 := by
      simp [Treenode.getChild, getChildLoop, hcs, hpterm, hplhs]
    have hg2 : t.getChild "procedures" = some rest := by
      simp [Treenode.getChild, getChildLoop, hcs, hpterm, hplhs, hrterm, hrlhs]
    cases hcol with
    | cons _ pt1 _ _ _ proc hname hadd hann hcolrest =>
      obtain ⟨hnew, htab⟩ := add_ok hadd
      obtain ⟨hsh, hne⟩ := hnames p0 (List.mem_cons_self _ _) hplhs
      have hne' : proc.name ≠ "" := fun he => hne (by rw [hname, he])
      have step : ∀ offsetTable localVarCount s1,
          procedurePrologue cf p0 s = .ok (offsetTable, localVarCount, s1) →
          (∀ x, mapContains s1.functionlabel_map x = mapContains pt1.table x) ∧
          (∀ name l, s1.functionlabel_map.lookup name = some l → P name l s1.out) ∧
          (∀ n ∈ p0.subtrees, n.IsCall → ∀ id, n.getChild "ID" = some id →
            mapContains s1.functionlabel_map id.Ttoken.value = true) := by
        intro offsetTable localVarCount s1 hpro
        obtain ⟨l, code, hl, hmap, hout⟩ := procedurePrologue_label hplhs hsh hname hne'
          (by rw [hkeys]; exact hnew) hpro
        have hk1 : ∀ x, mapContains s1.functionlabel_map x = mapContains pt1.table x := by
          intro x
          rw [hmap, htab, mapContains_append_one, mapContains_append_one, hkeys]
        refine ⟨hk1, fun name l' hl' => ?_, fun n hn hcall id hid => ?_⟩
        · rw [hmap, List.lookup_append] at hl'
          cases hlk : s.functionlabel_map.lookup name with
          | some v =>
            rw [hlk] at hl'
            simp only [Option.or, Option.some.injEq] at hl'
            subst hl'
            rw [hout]
            exact hmono _ _ _ _ (hgood name v hlk)
          | none =>
            rw [hlk] at hl'
            simp only [Option.or, List.lookup] at hl'
            split at hl'
            · rename_i heq
              simp only [Option.some.injEq] at hl'
              subst hl'
              have hnm : name = proc.name := by simpa using heq
              subst hnm
              exact hP p0 s (.here t p0 s (by simp [hg1])) hplhs _ _ _ _ _ _ hname hpro hout hl
            · cases hl'
        · obtain ⟨c, hc, hcv⟩ := getChild_first (hcalls p0 (List.mem_cons_self _ _) n hn hcall)
          rw [hid] at hc
          cases hc
          rw [hk1]
          exact annotateTypes_calls_registered p0 pt1 proc.symbolTable p0 hann n hn hcall _ hcv
      cases hr with
      | here _ _ _ hp =>
        simp only [hg1, Option.isSome_some, ↓reduceIte, Option.some.injEq] at hp
        subst hp
        exact ⟨List.mem_cons_self _ _, fun ot lv s1 hpro => (step ot lv s1 hpro).2⟩
      | next _ p1 _ _ s1' _ hp hgen hreach =>
        simp only [hg1, Option.isSome_some, ↓reduceIte, Option.some.injEq] at hp
        subst hp
        rw [hg2] at hreach
        obtain ⟨ot, lv, s1, hpro, hmap', code, hout'⟩ := generateCodeProcedures_map hgen
        obtain ⟨hk1, hgood1, hcalls1⟩ := step ot lv s1 hpro
        have hm := hmap' hcalls1
        have := ih pt1 pt' s1' hcolrest
          (fun q hq => hnames q (List.mem_cons_of_mem _ hq))
          (fun q hq => hcalls q (List.mem_cons_of_mem _ hq))
          (fun q hq => hentry q (List.mem_cons_of_mem _ hq))
          (fun x => by rw [hm]; exact hk1 x)
          (fun name l hl => by
            rw [hout']
            exact hmono _ _ _ _ (hgood1 name l (by rw [← hm]; exact hl)))
          (fun q sq hq => hP q sq (.next t p0 q s s1' sq (by simp [hg1]) hgen
            (by rw [hg2]; exact hq)))
          p sp hreach
        exact ⟨List.mem_cons_of_mem _ this.1, this.2⟩

/-- The code of a call names the label the name-to-label table holds for the
callee: when the table has an entry for the callee and for the callee of every
call among the arguments, the lines a call appends to the output contain
`lis $31`, `.word` with that label, `jalr $31`. -/
theorem call_word {n id : Treenode} {fuel : Nat} {offsetTable : List (String × Int)}
    {st st' : CodegenState} {l : String} (hcall : n.IsCall)
    (hid : n.getChild "ID" = some id)
    (hsub : ∀ x ∈ n.subtrees, x.IsCall → ∀ c, x.getChild "ID" = some c →
      mapContains st.functionlabel_map c.Ttoken.value = true)
    (hl : st.functionlabel_map.lookup id.Ttoken.value = some l)
    (h : generateCodeOther fuel n offsetTable st = .ok st') :
    ∃ pre post, st'.out = st.out ++ pre ++ ["lis $31", ".word " ++ l, "jalr $31"] ++ post := by
  have hlis : Lis 31 = ["lis $31"] := by decide
  have hjalr : Jalr 31 = ["jalr $31"] := by decide
  cases fuel with
  | zero =>
    rw [generateCodeOther, throw_eq_ok] at h
    exact h.elim
  | succ fuel =>
    obtain ⟨hterm, hrule | hrule⟩ := hcall
    · rw [generateCodeOther_factor fuel n offsetTable st hterm (by rw [hrule])] at h
      simp only [hrule, List.length_cons, List.length_nil, Nat.reduceAdd, Nat.reduceEqDiff,
        ↓reduceIte, Rule.rhsAt, List.getD, List.get?_cons_zero, List.get?_cons_succ,
        Option.getD_some, and_self, OfNat.ofNat_ne_one, Nat.succ_ne_self, String.reduceEq,
        false_and, and_false, and_true, true_and] at h
      simp only [bind_eq_ok, deref_eq_ok, pure_eq_ok] at h
      obtain ⟨id', hid', h⟩ := h
      rw [hid] at hid'
      cases hid'
      subst h
      refine ⟨push 29 ++ push 31, pop 31 ++ pop 29, ?_⟩
      simp only [labelAt_emit, labelAt_of_lookup hl]
      simp only [CodegenState.emit, hlis, hjalr, WordLabel, List.append_assoc,
        List.singleton_append, List.cons_append, List.nil_append]
    · rw [generateCodeOther_factor fuel n offsetTable st hterm (by rw [hrule])] at h
      simp only [hrule, List.length_cons, List.length_nil, Nat.reduceAdd, Nat.reduceEqDiff,
        ↓reduceIte, Rule.rhsAt, List.getD, List.get?_cons_zero, List.get?_cons_succ,
        Option.getD_some, and_self, OfNat.ofNat_ne_one, Nat.succ_ne_self, String.reduceEq,
        false_and, and_false, and_true, true_and] at h
      simp only [bind_eq_ok, deref_eq_ok, pure_eq_ok] at h
      obtain ⟨r, hr, id', hid', h⟩ := h
      rw [hid] at hid'
      cases hid'
      subst h
      have hgen : ∀ (c : Option Treenode) (s1 s2 : CodegenState),
          (∀ x, c = some x → x ∈ n.subtrees) → genChild fuel offsetTable c s1 = .ok s2 →
          Extends (fun name => mapContains st.functionlabel_map name = true) 0 s1 s2 := by
        intro c s1 s2 hc hg
        unfold genChild at hg
        simp only [bind_eq_ok, deref_eq_ok] at hg
        obtain ⟨x, hx, hg⟩ := hg
        exact generateCodeOther_extends _ fuel x offsetTable s1 s2
          (fun y hy => hsub y (subtrees_trans n x y (hc x hx) hy)) hg
      obtain ⟨k, _, ⟨code, hout, _⟩, hmap⟩ := argsLoop_extends _ n (genChild fuel offsetTable)
        hgen fuel _ 0 _ r
        (fun x hx => mem_subtrees_of_child n x x (getChild_mem (le_refl 1) hx).1
          (mem_subtrees_self x)) hr
      have hl' : r.2.functionlabel_map.lookup id.Ttoken.value = some l := by
        rw [hmap fun _ hn => hn]
        exact hl
      refine ⟨push 29 ++ push 31 ++ code,
        (List.replicate r.1.toNat popBare).flatten ++ (pop 31 ++ pop 29), ?_⟩
      simp only [labelAt_emit, labelAt_of_lookup hl']
      simp only [CodegenState.emit, hout, hlis, hjalr, WordLabel, List.append_assoc,
        List.singleton_append, List.cons_append, List.nil_append]

/-- C40: in a program that has passed semantic analysis every call is lowered
with the label of its callee at hand. Let `tree'` be the program after
`collectProcedures` has succeeded from the empty procedure table, a tree of
`procedures` with the procedures `procs`, in which the second child of each
ordinary procedure is its `ID` leaf with a lexeme that is not empty, the first
child of each call is its `ID` leaf, and no call of the entry procedure names
the entry procedure (the scanner gives `wain` the kind `WAIN`, never `ID`). Let
the loop of `generateCode` start in a state whose name-to-label table is empty.
Then at every procedure `p` the loop comes to, once its prologue has run, every
call `n` of `p` is resolved (`CallResolved`): the table has an entry for the
callee, whose label is not empty and is the label written at the entry of the
callee, a procedure generated before `p` or `p` itself; while the code of `p` is
generated the table stays as it is, so the lookup of the callee creates no
entry; and the `.word` line of the call carries that label. -/
theorem callee_label_known (tree tree' : Treenode) (procs : List Treenode)
    (pt' : ProcedureTable) (codeFuel : Nat) (s : CodegenState)
    (hshape : IsProcedures tree' procs)
    (h : collectProcedures tree ⟨[]⟩ = .ok (tree', pt'))
    (hnames : ∀ p ∈ procs, p.NTrule.lhs = "procedure" →
      (p.children.map Treenode.label).take 2 = ["INT", "ID"] ∧ childValue p 1 ≠ .ok "")
    (hcalls : ∀ p ∈ procs, ∀ n ∈ p.subtrees, n.IsCall →
      n.children.head?.map Treenode.label = some "ID")
    (hentry : ∀ m ∈ procs, m.NTrule.lhs = "main" → ∀ n ∈ m.subtrees, n.IsCall →
      childValue n 0 ≠ childValue m 1)
    (hs : s.functionlabel_map = []) :
    ∀ p sp, Reaches codeFuel (some tree') s p sp →
      ∀ offsetTable localVarCount s1,
        procedurePrologue codeFuel p sp = .ok (offsetTable, localVarCount, s1) →
        ∀ n ∈ p.subtrees, n.IsCall → CallResolved codeFuel tree' s p s1 n := by
  intro p sp hr offsetTable localVarCount s1 hpro n hn hcall
  have hcol := collected_of_analysis hshape tree ⟨[]⟩ pt' h
  obtain ⟨hp, hrest⟩ := labels_invariant codeFuel
    (fun name l out => l ≠ "" ∧ ∃ q sq offsetTable localVarCount sq1 rest later,
      Reaches codeFuel (some tree') s q sq ∧ q.NTrule.lhs = "procedure" ∧
      childValue q 1 = .ok name ∧
      procedurePrologue codeFuel q sq = .ok (offsetTable, localVarCount, sq1) ∧
      sq1.out = sq.out ++ (l ++ ":") :: rest ∧ out = sq1.out ++ later)
    (fun name l out code ⟨hl, q, sq, ot, lv, sq1, rest, later, h1, h2, h3, h4, h5, h6⟩ =>
      ⟨hl, q, sq, ot, lv, sq1, rest, later ++ code, h1, h2, h3, h4, h5,
        by rw [h6, List.append_assoc]⟩)
    hshape ⟨[]⟩ pt' s hcol hnames hcalls hentry
    (fun x => by rw [hs]; rfl)
    (fun name l hl => by rw [hs] at hl; cases hl)
    (fun q sq hq hlhs name ot lv sq1 l rest hname hpq hout hl =>
      ⟨hl, q, sq, ot, lv, sq1, rest, [], hq, hlhs, hname, hpq, hout, by simp⟩)
    p sp hr
  obtain ⟨hgood, hreg⟩ := hrest offsetTable localVarCount s1 hpro
  obtain ⟨id, hid, _⟩ := getChild_first (hcalls p hp n hn hcall)
  have hc := hreg n hn hcall id hid
  cases hlk : s1.functionlabel_map.lookup id.Ttoken.value with
  | none => simp [mapContains, hlk] at hc
  | some l =>
    obtain ⟨hl, hcallee⟩ := hgood _ l hlk
    refine ⟨id, l, hid, hl, hlk, hcallee, ?_, ?_, ?_⟩
    · intro x hx fuel ot st st' hst hg
      have e := (generateCodeOther_extends
        (fun name => mapContains s1.functionlabel_map name = true) fuel x ot st st'
        (fun y hy hcy c hcid => hreg y (subtrees_trans p x y hx hy) hcy c hcid) hg).2
        (by rw [hst]; exact fun _ hq => hq)
      rw [e, hst]
    · intro st hst
      exact labelAt_of_lookup (by rw [hst]; exact hlk)
    · intro fuel ot st st' hst hg
      exact call_word hcall hid
        (fun x hx hcx c hcid => by
          rw [hst]
          exact hreg x (subtrees_trans p n x hn hx) hcx c hcid)
        (by rw [hst]; exact hlk) hg

theorem callee_label_known_witness :
    Reaches 8 (some callProgramTyped) (CodegenState.init unseededRand) wainCallsFTyped
      stateAfterF ∧
    typedCall0 "f" ∈ wainCallsFTyped.subtrees ∧
    ∃ offsetTable localVarCount s1,
      procedurePrologue 8 wainCallsFTyped stateAfterF = .ok (offsetTable, localVarCount, s1) ∧
      CallResolved 8 callProgramTyped (CodegenState.init unseededRand) wainCallsFTyped s1
        (typedCall0 "f") :=
  have hr : Reaches 8 (some callProgramTyped) (CodegenState.init unseededRand) wainCallsFTyped
      stateAfterF :=
    .next callProgramTyped procFTyped wainCallsFTyped _ stateAfterF _ rfl rfl
      (.here (proceduresMain wainCallsFTyped) wainCallsFTyped stateAfterF rfl)
  have hmem : typedCall0 "f" ∈ wainCallsFTyped.subtrees := by
    refine mem_subtrees_of_child _ _ _ (List.mem_iff_getElem?.mpr ⟨11, rfl⟩) ?_
    refine mem_subtrees_of_child _ _ _ (List.mem_iff_getElem?.mpr ⟨0, rfl⟩) ?_
    refine mem_subtrees_of_child _ _ _ (List.mem_iff_getElem?.mpr ⟨0, rfl⟩) ?_
    refine mem_subtrees_of_child _ _ _ (List.mem_iff_getElem?.mpr ⟨0, rfl⟩) ?_
    exact mem_subtrees_self _
  ⟨hr, hmem, _, _, _, rfl,
    callee_label_known callProgram callProgramTyped [procFTyped, wainCallsFTyped]
      callProgramTable 8 (CodegenState.init unseededRand) isProcedures_callProgramTyped rfl
      (by decide) (by decide) (by decide) rfl wainCallsFTyped stateAfterF hr _ _ _ rfl
      (typedCall0 "f") hmem ⟨rfl, .inl rfl⟩⟩

/-! ## The checks of the Procedure constructor -/

/-- What `getDeclarations` does on a local declaration list of the grammar: it
throws when some declaration of the chain initialises an `int` with `NULL` or an
`int*` with a number, and otherwise returns the declaration nodes of the chain,
from the root inwards. -/
theorem getDeclarations_isDcls {t : Treenode} {chain : List LocalDcl} (h : IsDcls t chain) :
    getDeclarations t =
      if ∃ ld ∈ chain, ld.Mismatch then
        .error (.runtime "incorrect assignment in declaration")
      else .ok (chain.map LocalDcl.dcl) := by
  induction h with
  | nil t hterm hrule hcs =>
    obtain ⟨tm, r, k, ty, cs⟩ := t
    simp only [Treenode.terminal, Treenode.NTrule, Treenode.children] at hterm hrule hcs
    subst hterm hrule hcs
    simp [getDeclarations, getDeclarationsList, pure, Except.pure]
  | cons t rest b v s ld chain hterm hrule hinit hcs hdcl hb hv hs hrest ih =>
    obtain ⟨tm, r, k, ty, cs⟩ := t
    simp only [Treenode.terminal, Treenode.NTrule, Treenode.children] at hterm hrule hcs
    subst hterm hrule hcs
    have step : getDeclarations (Treenode.mk false
        ⟨"dcls", ["dcls", "dcl", "BECOMES", ld.init, "SEMI"]⟩ k ty [rest, ld.dcl, b, v, s]) =
        if ld.Mismatch then .error (.runtime "incorrect assignment in declaration")
        else (getDeclarations rest).map fun d1 => ld.dcl :: d1 := by
      rw [getDeclarations]
      simp only [Bool.not_false, ↓reduceIte, List.length_cons, List.length_nil, ne_eq,
        Nat.add_one_ne_zero, not_false_eq_true, and_self, getDeclarations_of_isDcl hdcl,
        initMismatch_of_isDcl ld hdcl, bind, Except.bind, decide_eq_true_eq]
      by_cases hm : ld.Mismatch
      · simp [hm, throw, throwThe, MonadExceptOf.throw]
      · simp only [hm, ↓reduceIte]
        cases getDeclarations rest <;> rfl
    rw [step, ih]
    by_cases hm : ld.Mismatch
    · have hex : ∃ ld' ∈ ld :: chain, ld'.Mismatch := ⟨ld, List.mem_cons_self _ _, hm⟩
      rw [if_pos hm, if_pos hex]
    · rw [if_neg hm]
      by_cases hr : ∃ ld' ∈ chain, ld'.Mismatch
      · have hex : ∃ ld' ∈ ld :: chain, ld'.Mismatch := by
          obtain ⟨ld', hmem, hmis⟩ := hr
          exact ⟨ld', List.mem_cons_of_mem _ hmem, hmis⟩
        rw [if_pos hr, if_pos hex]
        rfl
      · have hex : ¬ ∃ ld' ∈ ld :: chain, ld'.Mismatch := by
          rintro ⟨ld', hmem, hmis⟩
          rcases List.mem_cons.mp hmem with heq | hmem'
          · subst heq; exact hm hmis
          · exact hr ⟨ld', hmem', hmis⟩
        rw [if_neg hr, if_neg hex]
        rfl

/-- The first check of the `Procedure` constructor: the local declarations are
harvested before anything else, so an initialiser that disagrees with its type
is the error reported. -/
theorem Procedure.ofTree_mismatch {tree dn : Treenode} {chain : List LocalDcl}
    (hdn : tree.getChild "dcls" = some dn) (hdcls : IsDcls dn chain)
    (hm : ∃ ld ∈ chain, ld.Mismatch) :
    Procedure.ofTree tree = .error (.runtime "incorrect assignment in declaration") := by
  unfold Procedure.ofTree
  simp only [hdn, deref, getDeclarations_isDcls hdcls, if_pos hm, bind, Except.bind]

/-- The local declarations of a list whose initialisers agree with their types
are harvested. -/
theorem getDeclarations_agree {dn : Treenode} {chain : List LocalDcl} (hdcls : IsDcls dn chain)
    (hok : ∀ ld ∈ chain, ¬ ld.Mismatch) : getDeclarations dn = .ok (chain.map LocalDcl.dcl) := by
  rw [getDeclarations_isDcls hdcls, if_neg]
  rintro ⟨ld, hmem, hmis⟩
  exact hok ld hmem hmis

/-- The second check of the `Procedure` constructor, made for the entry
procedure once the locals are harvested: a second parameter declared `int*`. -/
theorem Procedure.ofTree_second_pointer {tree dn d2 : Treenode} {chain : List LocalDcl}
    {v2 : Variable} (hdn : tree.getChild "dcls" = some dn) (hdcls : IsDcls dn chain)
    (hok : ∀ ld ∈ chain, ¬ ld.Mismatch) (hlhs : tree.NTrule.lhs = "main")
    (h2 : tree.getChild "dcl" 2 = some d2) (hd2 : IsDcl d2 v2) (hptr : v2.type = "int*") :
    Procedure.ofTree tree =
      .error (.runtime "main invalid second parameter declaration") := by
  have hne : ¬ tree.NTrule.lhs = "procedure" := by rw [hlhs]; decide
  obtain ⟨_, _, ty, id, hcs, _, hty, _⟩ := hd2
  have hlen : ty.children.length = 2 := by
    rcases hty with ⟨_, h⟩ | ⟨h, _⟩
    · rw [hptr] at h; simp at h
    · exact h
  unfold Procedure.ofTree
  simp [hdn, deref, getDeclarations_agree hdcls hok, hne, h2, hcs, at?, hlen, bind, Except.bind,
    throw, throwThe, MonadExceptOf.throw]

/-- The parameters the constructor takes, for a procedure of the grammar that is
not an entry procedure with a second parameter declared `int*`. -/
theorem paramsOf_of_frameParams {tree : Treenode} {ps : List Treenode} {pvs : List Variable}
    (hparams : FrameParams tree ps) (hpv : List.Forall₂ IsDcl ps pvs)
    (hsecond : ¬ (tree.NTrule.lhs = "main" ∧ (pvs.map Variable.type)[1]? = some "int*")) :
    ParamsOf tree ps := by
  rcases hparams with ⟨hlhs, pn, hpn, hp⟩ | ⟨hlhs, d1, d2, hds, h1, h2⟩
  · exact Or.inl ⟨hlhs, pn, hpn, getDeclarations_params hp⟩
  · subst hds
    cases hpv with
    | @cons _ v1 _ vs1 hd1 htl =>
      cases htl with
      | @cons _ v2 _ vs2 hd2 htl2 =>
        cases htl2
        have hint : v2.type = "int" := by
          obtain ⟨_, _, ty, id, _, _, hty, _⟩ := hd2
          rcases hty with ⟨_, h⟩ | ⟨_, h⟩
          · exact h
          · exact absurd ⟨hlhs, by simp [h]⟩ hsecond
        exact Or.inr ⟨hlhs, d1, d2, v2, rfl, h1, h2, hd2, hint⟩

/-- C13, counterexample: two equal names do not always give 'duplicate variable
declaration'. In `int wain(int a, int* a) { return 0; }` the two parameters have
the same name, and the constructor throws 'main invalid second parameter
declaration'; in `int g(int x) { int x = NULL; return 0; }` the local has the name
of the parameter, and the constructor throws 'incorrect assignment in
declaration'. -/
theorem duplicate_names_other_error :
    (FrameParams wainDupParams [dclInt "a", dclPtr "a"] ∧
      List.Forall₂ IsDcl [dclInt "a", dclPtr "a"] [⟨"a", "int"⟩, ⟨"a", "int*"⟩] ∧
      wainDupParams.getChild "dcls" = some noDcls ∧ IsDcls noDcls [] ∧
      ¬ ((([⟨"a", "int"⟩, ⟨"a", "int*"⟩] : List Variable) ++
        ([] : List LocalDcl).map LocalDcl.var).map Variable.name).Nodup ∧
      Procedure.ofTree wainDupParams =
        .error (.runtime "main invalid second parameter declaration") ∧
      Procedure.ofTree wainDupParams ≠ .error (.runtime "duplicate variable declaration")) ∧
    (FrameParams procDupLocal [dclInt "x"] ∧
      List.Forall₂ IsDcl [dclInt "x"] [⟨"x", "int"⟩] ∧
      procDupLocal.getChild "dcls" = some (dclsNull noDcls (dclInt "x")) ∧
      IsDcls (dclsNull noDcls (dclInt "x")) [⟨dclInt "x", ⟨"x", "int"⟩, "NULL", "NULL"⟩] ∧
      ¬ ((([⟨"x", "int"⟩] : List Variable) ++
        ([⟨dclInt "x", ⟨"x", "int"⟩, "NULL", "NULL"⟩] : List LocalDcl).map LocalDcl.var).map
          Variable.name).Nodup ∧
      Procedure.ofTree procDupLocal =
        .error (.runtime "incorrect assignment in declaration") ∧
      Procedure.ofTree procDupLocal ≠ .error (.runtime "duplicate variable declaration")) := by
  have hp1 : FrameParams wainDupParams [dclInt "a", dclPtr "a"] :=
    Or.inr ⟨rfl, _, _, rfl, rfl, rfl⟩
  have hp2 : FrameParams procDupLocal [dclInt "x"] :=
    Or.inl ⟨rfl, paramsOf (paramlist1 (dclInt "x")), rfl, rfl,
      Or.inr ⟨rfl, paramlist1 (dclInt "x"), rfl,
        IsParamlist.single (paramlist1 (dclInt "x")) (dclInt "x") rfl rfl rfl rfl rfl⟩⟩
  have hd2 : IsDcls (dclsNull noDcls (dclInt "x"))
      [⟨dclInt "x", ⟨"x", "int"⟩, "NULL", "NULL"⟩] :=
    IsDcls.cons _ noDcls (leaf "BECOMES" "=") (leaf "NULL" "NULL") (leaf "SEMI" ";")
      ⟨dclInt "x", ⟨"x", "int"⟩, "NULL", "NULL"⟩ _ rfl rfl (Or.inr rfl) rfl
      (isDcl_dclInt "x") ⟨rfl, rfl⟩ ⟨rfl, rfl⟩ ⟨rfl, rfl⟩ (IsDcls.nil noDcls rfl rfl rfl)
  exact ⟨⟨hp1, .cons (isDcl_dclInt "a") (.cons (isDcl_dclPtr "a") .nil), rfl,
      IsDcls.nil noDcls rfl rfl rfl, by decide, by decide, by decide⟩,
    ⟨hp2, .cons (isDcl_dclInt "x") .nil, rfl, hd2, by decide, by decide, by decide⟩⟩

/-- C13, as the code has it: parameters and locals of a procedure share one
namespace. Take a procedure of the grammar, ordinary or `main`, with the
parameter declarations `ps` (declaring the variables `pvs`) and the local
declarations `chain` (in the order the constructor harvests them). When two of
the names of the parameters and locals, taken together, are equal, the
`Procedure` constructor fails. The error is the one of the first check that
fails, in the order of the constructor: 'incorrect assignment in declaration'
when the initialiser of some local disagrees with its type; else 'main invalid
second parameter declaration' when the procedure is `main` and its second
parameter is declared `int*`; else 'duplicate variable declaration'. When all
names are distinct and neither of the two earlier checks fails, the constructor
returns, and the symbol table holds exactly the parameters and the locals, each
with its declared type. -/
theorem procedure_symbol_table (tree dn : Treenode) (ps : List Treenode)
    (pvs : List Variable) (chain : List LocalDcl) (name : String)
    (hdn : tree.getChild "dcls" = some dn) (hdcls : IsDcls dn chain)
    (hparams : FrameParams tree ps) (hpv : List.Forall₂ IsDcl ps pvs)
    (hname : childValue tree 1 = .ok name) :
    (¬ ((pvs ++ chain.map LocalDcl.var).map Variable.name).Nodup →
      ∀ p, Procedure.ofTree tree ≠ .ok p) ∧
    ((∃ ld ∈ chain, ld.Mismatch) →
      Procedure.ofTree tree = .error (.runtime "incorrect assignment in declaration")) ∧
    ((∀ ld ∈ chain, ¬ ld.Mismatch) → tree.NTrule.lhs = "main" →
      (pvs.map Variable.type)[1]? = some "int*" →
      Procedure.ofTree tree =
        .error (.runtime "main invalid second parameter declaration")) ∧
    ((∀ ld ∈ chain, ¬ ld.Mismatch) →
      ¬ (tree.NTrule.lhs = "main" ∧ (pvs.map Variable.type)[1]? = some "int*") →
      (¬ ((pvs ++ chain.map LocalDcl.var).map Variable.name).Nodup →
        Procedure.ofTree tree = .error (.runtime "duplicate variable declaration")) ∧
      (((pvs ++ chain.map LocalDcl.var).map Variable.name).Nodup →
        Procedure.ofTree tree =
          .ok ⟨name, pvs.map Variable.type, ⟨entries (pvs ++ chain.map LocalDcl.var)⟩⟩)) := by
  have h2 : (∃ ld ∈ chain, ld.Mismatch) →
      Procedure.ofTree tree = .error (.runtime "incorrect assignment in declaration") :=
    Procedure.ofTree_mismatch hdn hdcls
  have h3 : (∀ ld ∈ chain, ¬ ld.Mismatch) → tree.NTrule.lhs = "main" →
      (pvs.map Variable.type)[1]? = some "int*" →
      Procedure.ofTree tree =
        .error (.runtime "main invalid second parameter declaration") := by
    intro hok hlhs hptr
    rcases hparams with ⟨hl, _⟩ | ⟨_, d1, d2, hds, _, hg2⟩
    · rw [hlhs] at hl
      exact absurd hl (by decide)
    · subst hds
      cases hpv with
      | @cons _ v1 _ vs1 hd1 htl =>
        cases htl with
        | @cons _ v2 _ vs2 hd2 htl2 =>
          cases htl2
          exact Procedure.ofTree_second_pointer hdn hdcls hok hlhs hg2 hd2 (by simpa using hptr)
  have h4 : (∀ ld ∈ chain, ¬ ld.Mismatch) →
      ¬ (tree.NTrule.lhs = "main" ∧ (pvs.map Variable.type)[1]? = some "int*") →
      (¬ ((pvs ++ chain.map LocalDcl.var).map Variable.name).Nodup →
        Procedure.ofTree tree = .error (.runtime "duplicate variable declaration")) ∧
      (((pvs ++ chain.map LocalDcl.var).map Variable.name).Nodup →
        Procedure.ofTree tree =
          .ok ⟨name, pvs.map Variable.type, ⟨entries (pvs ++ chain.map LocalDcl.var)⟩⟩) := by
    intro hok hsecond
    rw [Procedure.ofTree_of_harvest hdn (getDeclarations_agree hdcls hok)
      (paramsOf_of_frameParams hparams hpv hsecond) hname]
    have hp := addParams_entries hpv [] [] (by simp)
    rw [show entries ([] : List Variable) = [] from rfl, List.nil_append, List.nil_append] at hp
    rw [hp]
    by_cases hn : (pvs.map Variable.name).Nodup
    · rw [if_pos hn]
      simp only [Except.bind]
      rw [addLocals_entries (isDcls_forall hdcls) pvs hn]
      constructor
      · intro hdup; rw [if_neg hdup]
      · intro hnd; rw [if_pos hnd]
    · have hdup : ¬ ((pvs ++ chain.map LocalDcl.var).map Variable.name).Nodup := by
        rw [List.map_append]
        intro h
        exact hn (List.nodup_append.mp h).1
      rw [if_neg hn]
      exact ⟨fun _ => rfl, fun h => absurd h hdup⟩
  refine ⟨?_, h2, h3, h4⟩
  intro hdup p hp
  by_cases hm : ∃ ld ∈ chain, ld.Mismatch
  · rw [h2 hm] at hp
    cases hp
  · have hok : ∀ ld ∈ chain, ¬ ld.Mismatch := fun ld hmem hmis => hm ⟨ld, hmem, hmis⟩
    by_cases hsecond : tree.NTrule.lhs = "main" ∧ (pvs.map Variable.type)[1]? = some "int*"
    · rw [h3 hok hsecond.1 hsecond.2] at hp
      cases hp
    · rw [(h4 hok hsecond).1 hdup] at hp
      cases hp

theorem procedure_symbol_table_witness :
    procWithLocals.getChild "dcls" = some dclsXQ ∧ IsDcls dclsXQ chainXQ ∧
    FrameParams procWithLocals [dclPtr "u", dclInt "w"] ∧
    List.Forall₂ IsDcl [dclPtr "u", dclInt "w"] [⟨"u", "int*"⟩, ⟨"w", "int"⟩] ∧
    childValue procWithLocals 1 = .ok "g" ∧
    Procedure.ofTree procWithLocals =
      .ok ⟨"g", ["int*", "int"],
        ⟨[("u", ⟨"u", "int*"⟩), ("w", ⟨"w", "int"⟩), ("q", ⟨"q", "int*"⟩),
          ("x", ⟨"x", "int"⟩)]⟩⟩ :=
  have hparams : FrameParams procWithLocals [dclPtr "u", dclInt "w"] :=
    Or.inl ⟨rfl, paramsOf (paramlistCons (dclPtr "u") (paramlist1 (dclInt "w"))), rfl,
      isParams_sample⟩
  have hpv : List.Forall₂ IsDcl [dclPtr "u", dclInt "w"] [⟨"u", "int*"⟩, ⟨"w", "int"⟩] :=
    .cons (isDcl_dclPtr "u") (.cons (isDcl_dclInt "w") .nil)
  ⟨rfl, isDcls_dclsXQ, hparams, hpv, rfl,
    ((procedure_symbol_table procWithLocals dclsXQ [dclPtr "u", dclInt "w"]
      [⟨"u", "int*"⟩, ⟨"w", "int"⟩] chainXQ "g" rfl isDcls_dclsXQ hparams hpv rfl).2.2.2
      (by decide) (by decide)).2 (by decide)⟩

/-- C14, counterexample: an entry procedure whose second parameter is declared
`int*` does not always give 'main invalid second parameter declaration'. In
`int wain(int a, int* b) { int x = NULL; return 0; }` the second parameter `b` is
declared `int*`, and the constructor, which harvests the local declarations
first, throws 'incorrect assignment in declaration'. -/
theorem second_pointer_other_error :
    wainBadLocal.NTrule.lhs = "main" ∧
    wainBadLocal.getChild "dcl" 2 = some (dclPtr "b") ∧
    IsDcl (dclPtr "b") ⟨"b", "int*"⟩ ∧
    Procedure.ofTree wainBadLocal = .error (.runtime "incorrect assignment in declaration") ∧
    Procedure.ofTree wainBadLocal ≠
      .error (.runtime "main invalid second parameter declaration") :=
  ⟨rfl, rfl, isDcl_dclPtr "b", by decide, by decide⟩

/-- C14, as the code has it: signature of a procedure. For the `main` node of
the grammar with first and second parameter `d1` and `d2` and the local
declarations `chain`: when `d2` declares an `int*` the constructor fails, with
'main invalid second parameter declaration' when the initialisers of the locals
agree with their types, and with 'incorrect assignment in declaration' when one
of them does not (the locals are harvested first); when `d2` declares an `int`,
every successful construction records the signature `[type of d1, int]`, and
the construction succeeds, for either type of `d1`, when the initialisers of
the locals agree with their types and all names are distinct. For a `procedure`
node the recorded signature is the list of the parameter types from left to
right. -/
theorem procedure_signature (tree : Treenode) :
    (∀ (d1 d2 dn : Treenode) (v1 v2 : Variable) (chain : List LocalDcl),
      tree.NTrule.lhs = "main" → tree.getChild "dcl" 1 = some d1 →
      tree.getChild "dcl" 2 = some d2 → IsDcl d1 v1 → IsDcl d2 v2 →
      tree.getChild "dcls" = some dn → IsDcls dn chain →
      (v2.type = "int*" →
        (∀ p, Procedure.ofTree tree ≠ .ok p) ∧
        ((∀ ld ∈ chain, ¬ ld.Mismatch) →
          Procedure.ofTree tree =
            .error (.runtime "main invalid second parameter declaration")) ∧
        ((∃ ld ∈ chain, ld.Mismatch) →
          Procedure.ofTree tree =
            .error (.runtime "incorrect assignment in declaration"))) ∧
      (v2.type = "int" →
        (∀ p, Procedure.ofTree tree = .ok p → p.signature = [v1.type, "int"]) ∧
        (∀ name, childValue tree 1 = .ok name → (∀ ld ∈ chain, ¬ ld.Mismatch) →
          (([v1, v2] ++ chain.map LocalDcl.var).map Variable.name).Nodup →
          Procedure.ofTree tree =
            .ok ⟨name, [v1.type, "int"], ⟨entries ([v1, v2] ++ chain.map LocalDcl.var)⟩⟩))) ∧
    (∀ pn ps pvs, tree.NTrule.lhs = "procedure" → tree.getChild "params" 1 = some pn →
      IsParams pn ps → List.Forall₂ IsDcl ps pvs →
      ∀ p, Procedure.ofTree tree = .ok p → p.signature = pvs.map Variable.type) := by
  refine ⟨?_, ?_⟩
  · intro d1 d2 dn v1 v2 chain hlhs h1 h2 hd1 hd2 hdn hdcls
    have hne : ¬ tree.NTrule.lhs = "procedure" := by rw [hlhs]; decide
    have hfor : List.Forall₂ IsDcl [d1, d2] [v1, v2] := .cons hd1 (.cons hd2 .nil)
    refine ⟨?_, ?_⟩
    · intro hptr
      have hb : (∀ ld ∈ chain, ¬ ld.Mismatch) →
          Procedure.ofTree tree =
            .error (.runtime "main invalid second parameter declaration") :=
        fun hok => Procedure.ofTree_second_pointer hdn hdcls hok hlhs h2 hd2 hptr
      have hc : (∃ ld ∈ chain, ld.Mismatch) →
          Procedure.ofTree tree =
            .error (.runtime "incorrect assignment in declaration") :=
        Procedure.ofTree_mismatch hdn hdcls
      refine ⟨?_, hb, hc⟩
      intro p hp
      by_cases hm : ∃ ld ∈ chain, ld.Mismatch
      · rw [hc hm] at hp
        cases hp
      · rw [hb fun ld hmem hmis => hm ⟨ld, hmem, hmis⟩] at hp
        cases hp
    · intro hint
      refine ⟨?_, ?_⟩
      · intro p hp
        obtain ⟨params, vt, hadd, hcase⟩ := Procedure.ofTree_ok_params hp
        rcases hcase with ⟨hl, _⟩ | ⟨_, hparams⟩
        · exact absurd hl hne
        · rw [hparams, h1, h2] at hadd
          have := addParams_signature hfor ⟨[]⟩ vt [] p.signature hadd
          simpa [hint] using this
      · intro name hname hok hnd
        have hparams : ParamsOf tree [d1, d2] :=
          Or.inr ⟨hlhs, d1, d2, v2, rfl, h1, h2, hd2, hint⟩
        rw [Procedure.ofTree_of_harvest hdn (getDeclarations_agree hdcls hok) hparams hname]
        have hn2 : (([] ++ [v1, v2] : List Variable).map Variable.name).Nodup := by
          rw [List.map_append] at hnd
          simpa using (List.nodup_append.mp hnd).1
        have hp := addParams_entries hfor [] [] (by simp)
        rw [if_pos hn2, show entries ([] : List Variable) = [] from rfl] at hp
        rw [hp]
        simp only [Except.bind, List.nil_append]
        rw [addLocals_entries (isDcls_forall hdcls) [v1, v2] (by simpa using hn2), if_pos hnd]
        simp [hint]
  · intro pn ps pvs hlhs hpn hps hpv p hp
    obtain ⟨params, vt, hadd, hcase⟩ := Procedure.ofTree_ok_params hp
    rcases hcase with ⟨_, pn', ps', hpn', hps', hparams⟩ | ⟨hl, _⟩
    · rw [hpn] at hpn'
      cases hpn'
      rw [getDeclarations_params hps] at hps'
      cases hps'
      rw [hparams] at hadd
      simpa using addParams_signature hpv ⟨[]⟩ vt [] p.signature hadd
    · exact absurd hlhs hl

theorem procedure_signature_witness :
    wainWithLocals.NTrule.lhs = "main" ∧
    wainWithLocals.getChild "dcl" 1 = some (dclPtr "a") ∧
    wainWithLocals.getChild "dcl" 2 = some (dclInt "b") ∧
    IsDcl (dclPtr "a") ⟨"a", "int*"⟩ ∧ IsDcl (dclInt "b") ⟨"b", "int"⟩ ∧
    wainWithLocals.getChild "dcls" = some dclsXQ ∧ IsDcls dclsXQ chainXQ ∧
    childValue wainWithLocals 1 = .ok "wain" ∧
    Procedure.ofTree wainWithLocals =
      .ok ⟨"wain", ["int*", "int"],
        ⟨[("a", ⟨"a", "int*"⟩), ("b", ⟨"b", "int"⟩), ("q", ⟨"q", "int*"⟩),
          ("x", ⟨"x", "int"⟩)]⟩⟩ :=
  ⟨rfl, rfl, rfl, isDcl_dclPtr "a", isDcl_dclInt "b", rfl, isDcls_dclsXQ, rfl,
    ((((procedure_signature wainWithLocals).1 (dclPtr "a") (dclInt "b") dclsXQ ⟨"a", "int*"⟩
      ⟨"b", "int"⟩ chainXQ rfl rfl rfl (isDcl_dclPtr "a") (isDcl_dclInt "b") rfl
      isDcls_dclsXQ).2 rfl).2 "wain" rfl (by decide) (by decide))⟩

/-! ## Representation of the null pointer -/

/-- The loop over a declaration list of the grammar returns, with enough fuel,
one entry for each declaration of the chain, from the root inwards: the name of
the local with the value 1 when the initialiser is `NULL`, and with the number
`std::stoi` reads from the lexeme when it is a number. -/
theorem declarationsLoop_values {dn : Treenode} {chain : List LocalDcl} (h : IsDcls dn chain) :
    (∀ ld ∈ chain, ld.init = "NUM" → (stoi ld.lexeme).isOk = true) →
      ∀ (fuel : Nat) (acc : List (String × Int)), chain.length < fuel →
        ∃ decls, declarationsLoop fuel (some dn) acc = .ok (acc ++ decls) ∧
          List.Forall₂ (fun (ld : LocalDcl) (d : String × Int) => d.1 = ld.var.name ∧
            (ld.init = "NULL" → d.2 = 1) ∧ (ld.init = "NUM" → stoi ld.lexeme = .ok d.2))
            chain decls := by
  induction h with
  | nil t hterm hrule hcs =>
    intro _ fuel acc hfuel
    cases fuel with
    | zero => simp at hfuel
    | succ f =>
      refine ⟨[], ?_, .nil⟩
      have hg : ∀ x, t.getChild x = none := by
        intro x
        simp [Treenode.getChild, getChildLoop, hcs]
      rw [declarationsLoop]
      simp only [hg, bind, Except.bind, pure, Except.pure]
      rw [declarationsLoop]
      simp [pure, Except.pure]
  | cons t rest b v s ld chain hterm hrule hinit hcs hdcl hb hv hs hrest ih =>
    intro hnum fuel acc hfuel
    obtain ⟨id, hid, hname⟩ := getChild_ID_of_isDcl hdcl
    obtain ⟨hr1, hr2⟩ := isDcls_root hrest
    obtain ⟨hd1, hd2, _⟩ := hdcl
    have hvt : v.Ttoken.type = ld.init := by rw [hv.2]
    have hvv : v.Ttoken.value = ld.lexeme := by rw [hv.2]
    cases fuel with
    | zero => simp at hfuel
    | succ f =>
      have hg1 : t.getChild "dcl" = some ld.dcl := by
        simp [Treenode.getChild, getChildLoop, hcs, hr1, hr2, hd1, hd2]
      have hg4 : t.getChild "dcls" = some rest := by
        simp [Treenode.getChild, getChildLoop, hcs, hr1, hr2]
      have hf : chain.length < f := by simpa using hfuel
      have hnum' : ∀ ld' ∈ chain, ld'.init = "NUM" → (stoi ld'.lexeme).isOk = true :=
        fun ld' hm => hnum ld' (List.mem_cons_of_mem _ hm)
      rcases hinit with hi | hi
      · have hg2 : t.getChild "NUM" = some v := by
          simp [Treenode.getChild, getChildLoop, hcs, hr1, hr2, hd1, hd2, hb.1, hb.2, hv.1,
            hvt, hi]
        have hok := hnum ld (List.mem_cons_self _ _) hi
        cases hst : stoi ld.lexeme with
        | error e => rw [hst] at hok; simp [Except.isOk, Except.toBool] at hok
        | ok val =>
          obtain ⟨decls, hrun, hvals⟩ := ih hnum' f (acc ++ [(id.Ttoken.value, val)]) hf
          refine ⟨(ld.var.name, val) :: decls, ?_,
            .cons ⟨rfl, fun hnull => ?_, fun _ => hst⟩ hvals⟩
          · rw [declarationsLoop]
            simp only [hg1, hg2, hg4, hid, hvv, hst, deref, bind, Except.bind, pure,
              Except.pure]
            rw [hrun, hname]
            simp
          · rw [hi] at hnull
            exact absurd hnull (by decide)
      · have hg2 : t.getChild "NUM" = none := by
          simp [Treenode.getChild, getChildLoop, hcs, hr1, hr2, hd1, hd2, hb.1, hb.2, hv.1,
            hvt, hi, hs.1, hs.2]
        have hg3 : t.getChild "NULL" = some v := by
          simp [Treenode.getChild, getChildLoop, hcs, hr1, hr2, hd1, hd2, hb.1, hb.2, hv.1,
            hvt, hi]
        obtain ⟨decls, hrun, hvals⟩ := ih hnum' f (acc ++ [(id.Ttoken.value, 1)]) hf
        refine ⟨(ld.var.name, 1) :: decls, ?_,
          .cons ⟨rfl, fun _ => rfl, fun hn => ?_⟩ hvals⟩
        · rw [declarationsLoop]
          simp only [hg1, hg2, hg3, hg4, hid, deref, bind, Except.bind, pure, Except.pure]
          rw [hrun, hname]
          simp
        · rw [hi] at hn
          exact absurd hn (by decide)

/-- The code that initialises the locals: for each declaration, in the order
they are taken, `lis $3`, `.word` with its value, and the push of `$3`. -/
theorem pushLocals_code : ∀ (decls offsetTable : List (String × Int)) (offset localVarCount : Int)
    (s : CodegenState),
    (pushLocals decls offsetTable offset localVarCount s).2.2.2.out =
      s.out ++ (decls.map fun d => Lis 3 ++ Word d.2 ++ push 3).flatten
  | [], _, _, _, s => by simp [pushLocals]
  | var :: rest, offsetTable, offset, localVarCount, s => by
    rw [pushLocals, pushLocals_code rest]
    simp [CodegenState.emit, List.append_assoc]

/-- A successful run of the prologue of a procedure ends with the code that
initialises the locals the loop over the declaration list has found, taken from
the back. -/
theorem procedurePrologue_locals_code {fuel : Nat} {tree : Treenode} {s s1 : CodegenState}
    {offsetTable : List (String × Int)} {localVarCount : Int}
    (h : procedurePrologue fuel tree s = .ok (offsetTable, localVarCount, s1)) :
    ∃ decls pre, declarationsLoop fuel (tree.getChild "dcls") [] = .ok decls ∧
      s1.out = s.out ++ pre ++ (decls.reverse.map fun d => Lis 3 ++ Word d.2 ++ push 3).flatten := by
  have key : ∀ (decls ot0 : List (String × Int)) (off0 lvc0 : Int) (s0 : CodegenState)
      (pre : List String), declarationsLoop fuel (tree.getChild "dcls") [] = .ok decls →
      (pushLocals decls.reverse ot0 off0 lvc0 s0).2.2.2 = s1 → s0.out = s.out ++ pre →
      ∃ decls pre, declarationsLoop fuel (tree.getChild "dcls") [] = .ok decls ∧
        s1.out = s.out ++ pre ++
          (decls.reverse.map fun d => Lis 3 ++ Word d.2 ++ push 3).flatten := by
    intro decls ot0 off0 lvc0 s0 pre hd hs h0
    refine ⟨decls, pre, hd, ?_⟩
    rw [← hs, pushLocals_code, h0]
  unfold procedurePrologue at h
  split_ifs at h with hp
  · simp only [bind_eq_ok, deref_eq_ok] at h
    obtain ⟨id, _, s0, h0, params, _, h⟩ := h
    obtain ⟨l, hl⟩ := procedureLabel_out h0
    have hout : (s0.emit (Subtract 29 30 4)).out = s.out ++ (Label l ++ Subtract 29 30 4) := by
      simp only [CodegenState.emit, hl, List.append_assoc]
    split_ifs at h
    · simp only [bind_eq_ok, pure_eq_ok, exists_eq_left, Prod.mk.injEq] at h
      obtain ⟨_, rfl, _, rfl, decls, hd, _, _, hs⟩ := h
      exact key _ _ _ _ _ _ hd hs hout
    · simp only [bind_eq_ok, pure_eq_ok, exists_eq_left, Prod.mk.injEq] at h
      obtain ⟨_, _, _, rfl, _, rfl, decls, hd, _, _, hs⟩ := h
      exact key _ _ _ _ _ _ hd hs hout
  · simp only [bind_eq_ok, deref_eq_ok, pure_eq_ok, exists_eq_left, Prod.mk.injEq] at h
    obtain ⟨param1, _, id1, _, p2, _, id2, _, _, rfl, decls, hd, _, _, hs⟩ := h
    refine key _ _ _ _ _ (Label "main" ++ (if param1.type = "int*" then
        push 31 ++ Lis 31 ++ WordLabel "init" ++ Jalr 31 ++ pop 31
      else
        push 2 ++ Lis 2 ++ Word 0 ++ push 31 ++ Lis 31 ++ WordLabel "init" ++
          Jalr 31 ++ pop 31 ++ pop 2) ++ push 1 ++ push 2 ++ Subtract 29 30 4) hd hs ?_
    split_ifs <;> simp only [CodegenState.emit, List.append_assoc]

/-- The prologue of a procedure of the grammar returns, with enough fuel, when
the lexeme of every number initialiser is in the range of `std::stoi` and, for
an ordinary procedure, the label is issued. -/
theorem procedurePrologue_returns {tree : Treenode} {ds : List Treenode}
    {pvars : List Variable} {dn : Treenode} {chain : List LocalDcl} {fuel : Nat}
    {s : CodegenState} (hparams : FrameParams tree ds) (hpv : List.Forall₂ IsDcl ds pvars)
    (hdn : tree.getChild "dcls" = some dn) (hdcls : IsDcls dn chain)
    (hnum : ∀ ld ∈ chain, ld.init = "NUM" → (stoi ld.lexeme).isOk = true)
    (hlabel : tree.NTrule.lhs = "procedure" →
      ∃ id s1, tree.getChild "ID" = some id ∧ procedureLabel id.Ttoken.value s = .ok s1)
    (hfuel : pvars.length ≤ fuel ∧ chain.length < fuel) :
    ∃ r, procedurePrologue fuel tree s = .ok r := by
  have hlen : ds.length = pvars.length := hpv.length_eq
  obtain ⟨decls, hrun, _⟩ := declarationsLoop_dcls hdcls hnum fuel [] hfuel.2
  rw [List.nil_append] at hrun
  rcases hparams with ⟨hlhs, pn, hpn, hpterm, hp⟩ | ⟨hlhs, d1, d2, hds, h1, h2⟩
  · obtain ⟨id, s1, hid, hlab⟩ := hlabel hlhs
    rcases hp with ⟨hrule, hcs, hnil⟩ | ⟨hrule, pl, hcs, hpl⟩
    · unfold procedurePrologue
      simp only [hlhs, ↓reduceIte, hid, hlab, hpn, hrule, hdn, hrun, deref, bind, Except.bind,
        pure, Except.pure, List.length_nil]
      exact ⟨_, rfl⟩
    · obtain ⟨hr1, hr2⟩ := isParamlist_root hpl
      have hg : pn.getChild "paramlist" = some pl := by
        simp [Treenode.getChild, getChildLoop, hcs, hr1, hr2]
      have hloop := paramNamesLoop_paramlist hpl pvars hpv fuel [] 0 (by rw [hlen]; exact hfuel.1)
      unfold procedurePrologue
      simp only [hlhs, ↓reduceIte, hid, hlab, hpn, hrule, hg, hloop, hdn, hrun, deref, bind,
        Except.bind, pure, Except.pure, List.length_cons, List.length_nil]
      exact ⟨_, rfl⟩
  · have hne : ¬ tree.NTrule.lhs = "procedure" := by rw [hlhs]; decide
    subst hds
    cases hpv with
    | @cons _ v1 _ vs1 hd1 htl =>
      cases htl with
      | @cons _ v2 _ vs2 hd2 htl2 =>
        cases htl2
        obtain ⟨id1, hid1, _⟩ := getChild_ID_of_isDcl hd1
        obtain ⟨id2, hid2, _⟩ := getChild_ID_of_isDcl hd2
        unfold procedurePrologue
        simp only [hne, ↓reduceIte, h1, h2, hid1, hid2, hdn, hrun, deref, bind,
          Except.bind, pure, Except.pure]
        exact ⟨_, rfl⟩

/-- C27: the null pointer of the generated code is the value 1 at every place.
(a) A `NULL` factor loads `.word 1` into `$3`. (b) For a procedure of the
grammar, ordinary or `main`, whose locals in source order are `locals`, the
prologue returns, with enough fuel, and its output ends with the code of the
locals, one piece for each in source order: for a local initialised with `NULL`
the piece is `lis $3`, `.word 1`, push `$3`, and for a local initialised with a
number it is `lis $3`, `.word` with that number, push `$3`. (The lexeme of every
number initialiser is taken to be in the range of `std::stoi` and, for an
ordinary procedure, the label to be issued.) (c) After the call of `new`, when
`$3` is not zero the branch `bne $3, $0` skips to the end label, otherwise `$3`
is loaded with `.word 1`. (d) `delete` loads `.word 1` into `$1` and branches
over the call of the `delete` routine, to the skip label, when `$3` equals
`$1`. -/
theorem null_representation (fuel : Nat) (offsetTable : List (String × Int))
    (s : CodegenState) :
    (∀ tree : Treenode, tree.terminal = false → tree.NTrule = ⟨"factor", ["NULL"]⟩ →
      generateCodeOther (fuel + 1) tree offsetTable s = .ok (s.emit ["lis $3", ".word 1"])) ∧
    (∀ (tree dn : Treenode) (ds : List Treenode) (pvars : List Variable)
      (locals : List LocalDcl), FrameParams tree ds → List.Forall₂ IsDcl ds pvars →
      tree.getChild "dcls" = some dn → IsDcls dn locals.reverse →
      (∀ ld ∈ locals, ld.init = "NUM" → (stoi ld.lexeme).isOk = true) →
      (tree.NTrule.lhs = "procedure" →
        ∃ id s1, tree.getChild "ID" = some id ∧ procedureLabel id.Ttoken.value s = .ok s1) →
      pvars.length ≤ fuel → locals.length < fuel →
      ∃ table localVarCount s1 pre codes,
        procedurePrologue fuel tree s = .ok (table, localVarCount, s1) ∧
        s1.out = s.out ++ pre ++ codes.flatten ∧
        List.Forall₂ (fun (ld : LocalDcl) (code : List String) =>
          (ld.init = "NULL" →
            code = ["lis $3", ".word 1", "sw $3, -4($30)", "sub $30, $30, $4"]) ∧
          (ld.init = "NUM" → ∃ v, stoi ld.lexeme = .ok v ∧ code = Lis 3 ++ Word v ++ push 3))
          locals codes) ∧
    (∀ (tree e : Treenode) (s1 s2 : CodegenState) (l : String), tree.terminal = false →
      tree.NTrule = ⟨"factor", ["NEW", "INT", "LBRACK", "expr", "RBRACK"]⟩ →
      tree.getChild "expr" = some e → generateCodeOther fuel e offsetTable s = .ok s1 →
      generateLabel s1 = .ok (l, s2) →
      generateCodeOther (fuel + 1) tree offsetTable s =
        .ok (s2.emit (["sw $1, -4($30)", "sub $30, $30, $4", "add $1, $3, $0",
          "sw $31, -4($30)", "sub $30, $30, $4", "lis $31", ".word new", "jalr $31",
          "add $30, $30, $4", "lw $31, -4($30)", "add $30, $30, $4", "lw $1, -4($30)"] ++
          ["bne $3, $0, " ++ l, "lis $3", ".word 1", l ++ ":"]))) ∧
    (∀ (tree e : Treenode) (s1 s2 : CodegenState) (l : String), tree.terminal = false →
      tree.NTrule = ⟨"statement", ["DELETE", "LBRACK", "RBRACK", "expr", "SEMI"]⟩ →
      tree.getChild "expr" = some e → generateCodeOther fuel e offsetTable s = .ok s1 →
      generateLabel s1 = .ok (l, s2) →
      generateCodeOther (fuel + 1) tree offsetTable s =
        .ok (s2.emit (["sw $1, -4($30)", "sub $30, $30, $4", "lis $1", ".word 1",
          "beq $3, $1, " ++ l, "add $1, $3, $0", "sw $31, -4($30)", "sub $30, $30, $4",
          "lis $31", ".word delete", "jalr $31", "add $30, $30, $4", "lw $31, -4($30)",
          l ++ ":", "add $30, $30, $4", "lw $1, -4($30)"]))) := by
  refine ⟨?_, ?_, ?_, ?_⟩
  · intro tree hterm hrule
    rw [generateCodeOther]
    simp only [hterm, hrule, Bool.not_false, ↓reduceIte, List.length_cons, List.length_nil,
      Rule.rhsAt, List.getD, List.get?_cons_zero, Option.getD_some, String.reduceEq,
      Nat.reduceAdd, pure, Except.pure]
    rfl
  · intro tree dn ds pvars locals hparams hpv hdn hdcls hnum hlabel hf1 hf2
    have hnum' : ∀ ld ∈ locals.reverse, ld.init = "NUM" → (stoi ld.lexeme).isOk = true :=
      fun ld hm => hnum ld (List.mem_reverse.mp hm)
    have hlen : locals.reverse.length < fuel := by simpa using hf2
    obtain ⟨⟨table, localVarCount, s1⟩, hrun⟩ :=
      procedurePrologue_returns hparams hpv hdn hdcls hnum' hlabel ⟨hf1, hlen⟩
    obtain ⟨decls, pre, hd, hout⟩ := procedurePrologue_locals_code hrun
    obtain ⟨decls', hd', hvals⟩ := declarationsLoop_values hdcls hnum' fuel [] hlen
    rw [hdn, hd', List.nil_append] at hd
    cases hd
    refine ⟨table, localVarCount, s1, pre, _, hrun, hout, ?_⟩
    rw [List.forall₂_map_right_iff]
    have hrev := List.forall₂_reverse_iff.mpr hvals
    rw [List.reverse_reverse] at hrev
    refine hrev.imp ?_
    rintro ld d ⟨_, h1, h2⟩
    refine ⟨fun hnull => ?_, fun hn => ⟨d.2, h2 hn, rfl⟩⟩
    rw [h1 hnull]
    decide
  · intro tree e s1 s2 l hterm hrule he hgen hlab
    rw [generateCodeOther]
    simp only [hterm, hrule, he, hgen, hlab, Bool.not_false, ↓reduceIte, List.length_cons,
      List.length_nil, String.reduceEq, Nat.reduceAdd, Nat.reduceEqDiff, deref, bind,
      Except.bind, pure, Except.pure]
    rfl
  · intro tree e s1 s2 l hterm hrule he hgen hlab
    rw [generateCodeOther]
    simp only [hterm, hrule, he, hgen, hlab, Bool.not_false, ↓reduceIte, List.length_cons,
      List.length_nil, String.reduceEq, Nat.reduceAdd, Nat.reduceEqDiff, deref, bind,
      Except.bind, pure, Except.pure, Rule.rhsAt, List.getD, List.get?_cons_zero,
      List.get?_cons_succ, Option.getD_some, and_self, and_true, false_and, and_false]
    rfl

theorem null_representation_witness :
    generateCodeOther 1 factorNull [] (CodegenState.init unseededRand) =
      .ok ((CodegenState.init unseededRand).emit ["lis $3", ".word 1"]) ∧
    (∃ table localVarCount s1 pre codes,
      procedurePrologue 3 procWithLocals (CodegenState.init unseededRand) =
        .ok (table, localVarCount, s1) ∧
      s1.out = (CodegenState.init unseededRand).out ++ pre ++ codes.flatten ∧
      List.Forall₂ (fun (ld : LocalDcl) (code : List String) =>
        (ld.init = "NULL" →
          code = ["lis $3", ".word 1", "sw $3, -4($30)", "sub $30, $30, $4"]) ∧
        (ld.init = "NUM" → ∃ v, stoi ld.lexeme = .ok v ∧ code = Lis 3 ++ Word v ++ push 3))
        [⟨dclInt "x", ⟨"x", "int"⟩, "NUM", "5"⟩, ⟨dclPtr "q", ⟨"q", "int*"⟩, "NULL", "NULL"⟩]
        codes) ∧
    (procedurePrologue 3 procWithLocals (CodegenState.init unseededRand)).map
        (fun r => r.2.2.out) =
      .ok ["g:", "sub $29, $30, $4", "lis $3", ".word 5", "sw $3, -4($30)", "sub $30, $30, $4",
        "lis $3", ".word 1", "sw $3, -4($30)", "sub $30, $30, $4"] ∧
    generateCodeOther 5 (factorNew (exprOf (factorNum "3"))) [] (CodegenState.init unseededRand) =
      .ok ((stateAfterLabel ["lis $3", ".word 3"]).emit
        (["sw $1, -4($30)", "sub $30, $30, $4", "add $1, $3, $0", "sw $31, -4($30)",
          "sub $30, $30, $4", "lis $31", ".word new", "jalr $31", "add $30, $30, $4",
          "lw $31, -4($30)", "add $30, $30, $4", "lw $1, -4($30)"] ++
          ["bne $3, $0, " ++ "nwlrbbmqbh", "lis $3", ".word 1", "nwlrbbmqbh" ++ ":"])) ∧
    generateCodeOther 5 (deleteStatement (exprOf (factorId "q"))) [("q", 0)]
        (CodegenState.init unseededRand) =
      .ok ((stateAfterLabel ["lw $3, 0($29)"]).emit
        ["sw $1, -4($30)", "sub $30, $30, $4", "lis $1", ".word 1",
          "beq $3, $1, " ++ "nwlrbbmqbh", "add $1, $3, $0", "sw $31, -4($30)",
          "sub $30, $30, $4", "lis $31", ".word delete", "jalr $31", "add $30, $30, $4",
          "lw $31, -4($30)", "nwlrbbmqbh" ++ ":", "add $30, $30, $4", "lw $1, -4($30)"]) :=
  ⟨(null_representation 0 [] (CodegenState.init unseededRand)).1 factorNull rfl rfl,
    (null_representation 3 [] (CodegenState.init unseededRand)).2.1 procWithLocals dclsXQ
      [dclPtr "u", dclInt "w"] [⟨"u", "int*"⟩, ⟨"w", "int"⟩]
      [⟨dclInt "x", ⟨"x", "int"⟩, "NUM", "5"⟩, ⟨dclPtr "q", ⟨"q", "int*"⟩, "NULL", "NULL"⟩]
      (Or.inl ⟨rfl, _, rfl, isParams_sample⟩)
      (.cons (isDcl_dclPtr "u") (.cons (isDcl_dclInt "w") .nil)) rfl isDcls_dclsXQ (by decide)
      (fun _ => ⟨leaf "ID" "g", _, rfl, rfl⟩) (by decide) (by decide),
    by decide,
    (null_representation 4 [] (CodegenState.init unseededRand)).2.2.1
      (factorNew (exprOf (factorNum "3"))) (exprOf (factorNum "3"))
      ((CodegenState.init unseededRand).emit ["lis $3", ".word 3"])
      (stateAfterLabel ["lis $3", ".word 3"]) "nwlrbbmqbh" rfl rfl rfl (by decide) (by decide),
    (null_representation 4 [("q", 0)] (CodegenState.init unseededRand)).2.2.2
      (deleteStatement (exprOf (factorId "q"))) (exprOf (factorId "q"))
      ((CodegenState.init unseededRand).emit ["lw $3, 0($29)"])
      (stateAfterLabel ["lw $3, 0($29)"]) "nwlrbbmqbh" rfl rfl rfl (by decide) (by decide)⟩

end WLP4
